import Mathlib

/-!
API Hub onramp, import, export and clean: a shallow embedding of `apihub.go`.

The Go program turns "general" API records stored on disk into API Hub
documents (`apiHubOnramp`), posts them to the remote catalog
(`apiHubImport`), re-keys remote deployments into local directories
(`apiHubExport`) and deletes remote resources (`apiHubClean`).  This file
embeds those functions and proves properties of them.

Conventions of the embedding:

* Go strings are Lean `String`s; the `strings` functions are defined on the
  underlying character lists.
* A Go map is an association list with distinct keys; ranging over it visits
  the entries in an order chosen by a `MapOrder`.
* The operating system is a record of functions (`Env`); every call the Go
  code makes is logged as an `Effect`, and `log.Fatal` ends the run.
* `encoding/json` is embedded at the level of JSON values (`Json`), following
  the struct tags of the Go types.
* The remote side is a state machine (`Remote`); a block that talks to it
  returns an `Outcome`, which also records a run-time panic: a nil response
  of `client.Do` that is dereferenced, or a nil request of `http.NewRequest`
  (a URL that `url.Parse` rejects) whose header is set.
-/

namespace ApiHub

/-! ## Go `strings` -/

/-- Worker of `ReplaceAll`: scans the text left to right; `skip` counts the
characters of a matched occurrence that still have to be dropped. -/
def replaceFrom (old new : List Char) : Nat → List Char → List Char
  | _, [] => if old.isEmpty then new else []
  | skip + 1, _ :: cs => replaceFrom old new skip cs
  | 0, c :: cs =>
    if old.isEmpty then new ++ c :: replaceFrom old new 0 cs
    else if old.isPrefixOf (c :: cs) then new ++ replaceFrom old new (old.length - 1) cs
    else c :: replaceFrom old new 0 cs

/-- Go `strings.ReplaceAll(s, old, new)`: every non-overlapping occurrence of
`old`, found left to right, is replaced by `new`. -/
def ReplaceAll (s old new : String) : String :=
  ⟨replaceFrom old.data new.data 0 s.data⟩

/-- Go `strings.HasSuffix(s, suffix)`. -/
def HasSuffix (s suffix : String) : Bool :=
  suffix.data.isSuffixOf s.data

/-- Go `strings.Split(s, "/")` on character lists: the segments between the
separators, always at least one. -/
def splitOnChar (sep : Char) : List Char → List (List Char)
  | [] => [[]]
  | c :: cs =>
    if c = sep then [] :: splitOnChar sep cs
    else
      match splitOnChar sep cs with
      | [] => [[c]]
      | seg :: segs => (c :: seg) :: segs

/-- The expression `s[len(s)-1]` after `s := strings.Split(name, "/")`. -/
def lastSegment (name : String) : String :=
  ⟨((splitOnChar '/' name.data).getLast?).getD []⟩

/-! ## The regular expression `(-v\d+)$` -/

/-- The text is exactly `-v` followed by one or more ASCII digits, that is,
the pattern `(-v\d+)$` matches at the start of the text. -/
def isVersionSuffix : List Char → Bool
  | '-' :: 'v' :: d :: ds => (d :: ds).all Char.isDigit
  | _ => false

/-- Leftmost-match scan of `(-v\d+)$` with replacement by the empty string. -/
def stripVersionSuffixFrom : List Char → List Char
  | [] => []
  | c :: cs => if isVersionSuffix (c :: cs) then [] else c :: stripVersionSuffixFrom cs

/-- The call `regexp.MustCompile("(-v\\d+)$").ReplaceAllString(s, "")`. -/
def stripVersionSuffix (s : String) : String :=
  ⟨stripVersionSuffixFrom s.data⟩

/-! ## Go `encoding/base64`, `StdEncoding` -/

/-- One byte of a file. -/
abbrev Byte := Fin 256

/-- The alphabet `encodeStd` of the standard encoding. -/
def encodeStd : List Char :=
  "ABCDEFGHIJKLMNOPQRSTUVWXYZabcdefghijklmnopqrstuvwxyz0123456789+/".data

/-- The lookup `enc.encode[i]`. -/
def encodeChar (i : Nat) : Char := encodeStd.getD i '='

/-- Worker of `EncodeToString`: three bytes become four characters; a
remainder of one or two bytes is padded with `=`.  `val` is the Go value
`src[0]<<16 | src[1]<<8 | src[2]` (the bytes occupy disjoint bits, so the sum
is the bitwise or), `val / 262144 % 64` is `val>>18 & 0x3F`, and so on. -/
def encodeFrom : List Byte → List Char
  | a :: b :: c :: rest =>
    let val := a.val * 65536 + b.val * 256 + c.val
    encodeChar (val / 262144 % 64) :: encodeChar (val / 4096 % 64) ::
      encodeChar (val / 64 % 64) :: encodeChar (val % 64) :: encodeFrom rest
  | [a, b] =>
    let val := a.val * 65536 + b.val * 256
    [encodeChar (val / 262144 % 64), encodeChar (val / 4096 % 64),
      encodeChar (val / 64 % 64), '=']
  | [a] =>
    let val := a.val * 65536
    [encodeChar (val / 262144 % 64), encodeChar (val / 4096 % 64), '=', '=']
  | [] => []

/-- The call `b64.StdEncoding.EncodeToString(b)`. -/
def EncodeToString (b : List Byte) : String := ⟨encodeFrom b⟩

/-- The position of a character in the alphabet (the decode map). -/
def decodeChar (c : Char) : Option Nat :=
  let i := encodeStd.indexOf c
  if i < 64 then some i else none

/-- The byte with value `n % 256`. -/
def toByte (n : Nat) : Byte := ⟨n % 256, Nat.mod_lt n (by decide)⟩

/-- Worker of `DecodeString`: quanta of four characters; padding is accepted
only in the last quantum. -/
def decodeFrom : List Char → Option (List Byte)
  | [] => some []
  | c1 :: c2 :: c3 :: c4 :: rest =>
    match decodeChar c1, decodeChar c2 with
    | some v1, some v2 =>
      if c3 = '=' then
        if c4 = '=' ∧ rest = [] then some [toByte (v1 * 4 + v2 / 16)] else none
      else
        match decodeChar c3 with
        | none => none
        | some v3 =>
          if c4 = '=' then
            if rest = [] then
              some [toByte (v1 * 4 + v2 / 16), toByte (v2 % 16 * 16 + v3 / 4)]
            else none
          else
            match decodeChar c4, decodeFrom rest with
            | some v4, some bs =>
              some (toByte (v1 * 4 + v2 / 16) :: toByte (v2 % 16 * 16 + v3 / 4) ::
                toByte (v3 % 4 * 64 + v4) :: bs)
            | _, _ => none
    | _, _ => none
  | _ => none

/-- The call `b64.StdEncoding.DecodeString(s)`; line breaks are ignored. -/
def DecodeString (s : String) : Option (List Byte) :=
  decodeFrom (s.data.filter fun c => c ≠ '\r' ∧ c ≠ '\n')

/-! ## Data model (`main.go`, `apigee.go`, `apihub.go`) -/

/-- The canonical record `GeneralApi` of `main.go`. -/
structure GeneralApi where
  Name : String
  DisplayName : String
  Version : String
  Description : String
  OwnerEmail : String
  OwnerName : String
  DocumentationUrl : String
  GatewayUrl : String
  BasePath : String
  PlatformId : String
  PlatformName : String
  PlatformResourceUri : String
  deriving DecidableEq, Inhabited, Repr

/-- The command-line flags `ApigeeFlags` of `apigee.go`. -/
structure ApigeeFlags where
  Project : String
  Region : String
  Token : String
  ApiName : String
  Environment : String
  ApiProduct : String
  DeveloperEmail : String
  ServiceAccount : String
  deriving DecidableEq, Inhabited, Repr

structure HubApiDocumentation where
  ExternalUri : String
  deriving DecidableEq, Inhabited, Repr

structure HubApiOwner where
  DisplayName : String
  Email : String
  deriving DecidableEq, Inhabited, Repr

/-- The Go type `HubApi`; the three pointer fields are options. -/
structure HubApi where
  Name : String
  DisplayName : String
  Description : String
  Documentation : Option HubApiDocumentation
  Owner : Option HubApiOwner
  Versions : Option (List String)
  deriving DecidableEq, Inhabited, Repr

structure HubAttributeValue where
  Id : String
  DisplayName : String
  Description : String
  Immutable : Bool
  deriving DecidableEq, Inhabited, Repr

structure HubAttributeEnumValues where
  Values : List HubAttributeValue
  deriving DecidableEq, Inhabited, Repr

structure HubAttribute where
  Attribute : String
  EnumValues : HubAttributeEnumValues
  deriving DecidableEq, Inhabited, Repr

structure HubApiDeployment where
  Name : String
  DisplayName : String
  Description : String
  Documentation : HubApiDocumentation
  DeploymentType : HubAttribute
  ResourceUri : String
  Endpoints : List String
  ApiVersions : List String
  deriving DecidableEq, Inhabited, Repr

structure HubApiVersion where
  Name : String
  DisplayName : String
  Description : String
  Documentation : HubApiDocumentation
  Deployments : List String
  deriving DecidableEq, Inhabited, Repr

structure HubContents where
  MimeType : String
  Contents : String
  deriving DecidableEq, Inhabited, Repr

structure HubApiVersionSpec where
  Name : String
  DisplayName : String
  SpecType : HubAttribute
  Contents : HubContents
  Documentation : HubApiDocumentation
  deriving DecidableEq, Inhabited, Repr

/-- A document handed to `json.MarshalIndent` and `os.WriteFile`. -/
inductive Doc where
  | api (d : HubApi)
  | deployment (d : HubApiDeployment)
  | version (d : HubApiVersion)
  | spec (d : HubApiVersionSpec)
  deriving DecidableEq, Repr

/-! ## `encoding/json` on values -/

/-- A JSON value; an object keeps its members in the order they are written. -/
inductive Json where
  | null
  | bool (b : Bool)
  | str (s : String)
  | arr (items : List Json)
  | obj (members : List (String × Json))

/-- The member of an object with the given key, if the value is an object
that has one. -/
def Json.member? : Json → String → Option Json
  | .obj members, key => (members.find? fun kv => kv.1 == key).map Prod.snd
  | _, _ => none

/-- The keys of an object, in order. -/
def Json.keys : Json → List String
  | .obj members => members.map Prod.fst
  | _ => []

/-- A slice of strings that `apiHubOnramp` built: it starts nil and grows by
`append`, so it is nil exactly when it is empty, and a nil slice is written as
`null`.  (A list cannot tell an empty slice that is not nil, as `json.Unmarshal`
makes of `[]`, from a nil one; documents decoded from JSON are not marshalled
through this function.) -/
def marshalStrings (xs : List String) : Json :=
  if xs.isEmpty then .null else .arr (xs.map .str)

/-- A struct field tagged `omitempty` whose pointer is nil is left out. -/
def omitEmpty (key : String) (v : Option Json) : List (String × Json) :=
  match v with
  | none => []
  | some j => [(key, j)]

def HubApiDocumentation.marshal (d : HubApiDocumentation) : Json :=
  .obj [("externalUri", .str d.ExternalUri)]

def HubApiOwner.marshal (o : HubApiOwner) : Json :=
  .obj [("displayName", .str o.DisplayName), ("email", .str o.Email)]

def HubApi.marshal (a : HubApi) : Json :=
  .obj ([("name", .str a.Name), ("displayName", .str a.DisplayName),
      ("description", .str a.Description)]
    ++ omitEmpty "documentation" (a.Documentation.map HubApiDocumentation.marshal)
    ++ omitEmpty "owner" (a.Owner.map HubApiOwner.marshal)
    ++ omitEmpty "versions" (a.Versions.map marshalStrings))

def HubAttributeValue.marshal (v : HubAttributeValue) : Json :=
  .obj [("id", .str v.Id), ("displayName", .str v.DisplayName),
    ("description", .str v.Description), ("immutable", .bool v.Immutable)]

def HubAttributeEnumValues.marshal (e : HubAttributeEnumValues) : Json :=
  .obj [("values", if e.Values.isEmpty then .null
    else .arr (e.Values.map HubAttributeValue.marshal))]

def HubAttribute.marshal (a : HubAttribute) : Json :=
  .obj [("attribute", .str a.Attribute), ("enumValues", a.EnumValues.marshal)]

def HubApiDeployment.marshal (d : HubApiDeployment) : Json :=
  .obj [("name", .str d.Name), ("displayName", .str d.DisplayName),
    ("description", .str d.Description), ("documentation", d.Documentation.marshal),
    ("deploymentType", d.DeploymentType.marshal), ("resourceUri", .str d.ResourceUri),
    ("endpoints", marshalStrings d.Endpoints), ("apiVersions", marshalStrings d.ApiVersions)]

def HubApiVersion.marshal (v : HubApiVersion) : Json :=
  .obj [("name", .str v.Name), ("displayName", .str v.DisplayName),
    ("description", .str v.Description), ("documentation", v.Documentation.marshal),
    ("deployments", marshalStrings v.Deployments)]

def HubContents.marshal (c : HubContents) : Json :=
  .obj [("mimeType", .str c.MimeType), ("contents", .str c.Contents)]

def HubApiVersionSpec.marshal (s : HubApiVersionSpec) : Json :=
  .obj [("name", .str s.Name), ("displayName", .str s.DisplayName),
    ("specType", s.SpecType.marshal), ("contents", s.Contents.marshal),
    ("documentation", s.Documentation.marshal)]

/-- The JSON value `json.MarshalIndent` serialises for a document. -/
def Doc.marshal : Doc → Json
  | .api d => d.marshal
  | .deployment d => d.marshal
  | .version d => d.marshal
  | .spec d => d.marshal

/-! ## Go maps and the operating system -/

/-- A Go `map[string]β`: an association list; `mapSet` keeps the keys distinct. -/
abbrev GoMap (β : Type) := List (String × β)

/-- The lookup `v, ok := m[k]`. -/
def mapGet {β : Type} : GoMap β → String → Option β
  | [], _ => none
  | (k', v) :: rest, k => if k' = k then some v else mapGet rest k

/-- The assignment `m[k] = v`. -/
def mapSet {β : Type} : GoMap β → String → β → GoMap β
  | [], k, v => [(k, v)]
  | (k', v') :: rest, k, v =>
    if k' = k then (k', v) :: rest else (k', v') :: mapSet rest k v

/-- The order in which `for k, v := range m` visits a map: every entry once,
in an order the language leaves open. -/
structure MapOrder where
  iter : {β : Type} → GoMap β → GoMap β
  perm : ∀ {β : Type} (m : GoMap β), (iter m).Perm m

/-- Visiting the entries in the order they were inserted. -/
def insertionOrder : MapOrder := ⟨fun m => m, fun _ => List.Perm.refl _⟩

/-- Visiting the entries in the opposite order. -/
def reverseOrder : MapOrder := ⟨fun m => m.reverse, fun m => List.reverse_perm m⟩

/-- What the run reads from its surroundings.  `openRecord` is `os.Open`
followed by `io.ReadAll` and `json.Unmarshal` into a zero `GeneralApi`: `none`
when the file cannot be opened, and a record with an empty `Name` when the
content is not a record. -/
structure Env where
  defaultToken : Option String
  readDir : String → Option (List String)
  openRecord : String → Option GeneralApi
  readFile : String → Option (List Byte)
  order : MapOrder

/-! ## HTTP -/

/-- The body handed to `http.NewRequest`: nil, the bytes read from a file
(`bytes.NewBuffer(byteValue)`), or `json.Marshal(apiVersion)` of a decoded
version document, kept as the decoded value. -/
inductive Body where
  | empty
  | raw (bytes : List Byte)
  | version (v : HubApiVersion)
  deriving DecidableEq, Repr

/-- The calls `apihub.go` makes to API Hub, each with the strings its URL is
built from. -/
inductive Call where
  | createApi (project region apiId : String)
  | createDeployment (project region deploymentId : String)
  | createVersion (project region api versionId : String)
  | patchVersion (project region api versionId : String)
  | createSpec (project region api version specId : String)
  | listApis (project region : String)
  | listVersions (project region api : String)
  | listSpecs (project region api version : String)
  | getSpecContents (project region api version spec : String)
  | listDeployments (project region : String)
  | deleteApi (api : String)
  | deleteDeployment (deployment : String)
  deriving DecidableEq, Repr

/-- The HTTP method of a call. -/
def Call.method : Call → String
  | .createApi .. => "POST"
  | .createDeployment .. => "POST"
  | .createVersion .. => "POST"
  | .patchVersion .. => "PATCH"
  | .createSpec .. => "POST"
  | .listApis .. => "GET"
  | .listVersions .. => "GET"
  | .listSpecs .. => "GET"
  | .getSpecContents .. => "GET"
  | .listDeployments .. => "GET"
  | .deleteApi .. => "DELETE"
  | .deleteDeployment .. => "DELETE"

/-- The URL of a call, as the source concatenates it. -/
def Call.url : Call → String
  | .createApi project region apiId =>
    "https://apihub.googleapis.com/v1/projects/" ++ project ++ "/locations/" ++ region
      ++ "/apis?apiId=" ++ apiId
  | .createDeployment project region deploymentId =>
    "https://apihub.googleapis.com/v1/projects/" ++ project ++ "/locations/" ++ region
      ++ "/deployments?deploymentId=" ++ deploymentId
  | .createVersion project region api versionId =>
    "https://apihub.googleapis.com/v1/projects/" ++ project ++ "/locations/" ++ region
      ++ "/apis/" ++ api ++ "/versions?versionId=" ++ versionId
  | .patchVersion project region api versionId =>
    "https://apihub.googleapis.com/v1/projects/" ++ project ++ "/locations/" ++ region
      ++ "/apis/" ++ api ++ "/versions/" ++ versionId ++ "?updateMask=deployments"
  | .createSpec project region api version specId =>
    "https://apihub.googleapis.com/v1/projects/" ++ project ++ "/locations/" ++ region
      ++ "/apis/" ++ api ++ "/versions/" ++ version ++ "/specs?specId=" ++ specId
  | .listApis project region =>
    "https://apihub.googleapis.com/v1/projects/" ++ project ++ "/locations/" ++ region ++ "/apis"
  | .listVersions project region api =>
    "https://apihub.googleapis.com/v1/projects/" ++ project ++ "/locations/" ++ region
      ++ "/apis/" ++ api ++ "/versions"
  | .listSpecs project region api version =>
    "https://apihub.googleapis.com/v1/projects/" ++ project ++ "/locations/" ++ region
      ++ "/apis/" ++ api ++ "/versions/" ++ version ++ "/specs"
  | .getSpecContents project region api version spec =>
    "https://apihub.googleapis.com/v1/projects/" ++ project ++ "/locations/" ++ region
      ++ "/apis/" ++ api ++ "/versions/" ++ version ++ "/specs/" ++ spec ++ ":contents"
  | .listDeployments project region =>
    "https://apihub.googleapis.com/v1/projects/" ++ project ++ "/locations/" ++ region
      ++ "/deployments"
  | .deleteApi api => "https://apihub.googleapis.com/v1/" ++ api ++ "?force=true"
  | .deleteDeployment deployment => "https://apihub.googleapis.com/v1/" ++ deployment

/-- A request: the call, the bearer token of the `Authorization` header, and
the body. -/
structure Request where
  call : Call
  token : String
  body : Body
  deriving DecidableEq, Repr

/-- The response of `client.Do`: `resp.StatusCode`, `resp.Status` and the text
of `resp.Body`. -/
structure Response where
  StatusCode : Nat
  Status : String
  Body : String
  deriving DecidableEq, Repr

/-- What `client.Do` returns: a response, or a nil response and an error (the
request could not be sent or answered), kept as the text of `err.Error()`. -/
inductive Reply where
  | response (resp : Response)
  | failed (err : String)
  deriving DecidableEq, Repr

/-- The remote side: from its state and a request, its next state and what
`client.Do` returns. -/
structure Remote (σ : Type) where
  send : σ → Request → σ × Reply

/-- One call the run makes to the operating system or to the remote side, in
program order; an HTTP call is logged with the response it got. -/
inductive Effect where
  | println (line : String)
  | findDefaultCredentials
  | readDir (path : String)
  | openFile (path : String)
  | readFile (path : String)
  | mkdirAll (path : String)
  | writeFile (path : String) (doc : Doc)
  | logFatal
  | http (req : Request) (reply : Reply)
  deriving DecidableEq, Repr

/-- The `os.WriteFile` calls of a run, in order. -/
def writesOf (trace : List Effect) : List (String × Doc) :=
  trace.filterMap fun e =>
    match e with
    | .writeFile path doc => some (path, doc)
    | _ => none

/-! ## `apiHubOnramp` -/

def generalBaseDir : String := "src/main/general/apiproxies"

def baseDir : String := "src/main/apihub/apiproxies"

/-- The value `hubApi` built at lines 214-229. -/
def hubApi (flags : ApigeeFlags) (apiName : String) (generalApi : GeneralApi) : HubApi :=
  { Name := "projects/" ++ flags.Project ++ "/locations/" ++ flags.Region ++ "/apis/" ++ apiName
    DisplayName := generalApi.DisplayName
    Description := generalApi.Description
    Documentation :=
      if generalApi.DocumentationUrl ≠ "" then
        some { ExternalUri := generalApi.DocumentationUrl }
      else none
    Owner :=
      if generalApi.OwnerName ≠ "" then
        some { DisplayName := generalApi.OwnerName, Email := generalApi.OwnerEmail }
      else none
    Versions := none }

/-- The value `hubApiDeployment` built at lines 260-270. -/
def hubApiDeployment (flags : ApigeeFlags) (generalDeploymentApi : GeneralApi) :
    HubApiDeployment :=
  { Name := "projects/" ++ flags.Project ++ "/locations/" ++ flags.Region ++ "/deployments/"
      ++ generalDeploymentApi.Name
    DisplayName := generalDeploymentApi.DisplayName
    Description := generalDeploymentApi.Description
    Documentation := { ExternalUri := generalDeploymentApi.DocumentationUrl }
    DeploymentType :=
      { Attribute := "projects/" ++ flags.Project ++ "/locations/" ++ flags.Region
          ++ "/attributes/system-deployment-type"
        EnumValues :=
          { Values := [{ Id := generalDeploymentApi.PlatformId
                         DisplayName := generalDeploymentApi.PlatformName
                         Description := generalDeploymentApi.PlatformName
                         Immutable := true }] } }
    ResourceUri := generalDeploymentApi.PlatformResourceUri
    Endpoints := [generalDeploymentApi.GatewayUrl]
    ApiVersions := [generalDeploymentApi.Version] }

/-- The value `hubApiVersionSpec` built at lines 286-293; `SpecType.Attribute`
is never assigned and keeps its zero value. -/
def hubApiVersionSpec (flags : ApigeeFlags) (apiName apiVersionName : String)
    (generalApi generalDeploymentApi : GeneralApi) (b : List Byte) : HubApiVersionSpec :=
  { Name := "projects/" ++ flags.Project ++ "/locations/" ++ flags.Region ++ "/apis/" ++ apiName
      ++ "/versions/" ++ apiVersionName ++ "/specs/" ++ generalDeploymentApi.Name
    DisplayName := generalDeploymentApi.DisplayName ++ " (" ++ generalDeploymentApi.PlatformName
      ++ ")"
    SpecType :=
      { Attribute := ""
        EnumValues :=
          { Values := [{ Id := "openapi", DisplayName := "OpenAPI Spec"
                         Description := "OpenAPI Spec", Immutable := true }] } }
    Contents := { MimeType := "application/json", Contents := EncodeToString b }
    Documentation := { ExternalUri := generalApi.DocumentationUrl } }

/-- The value `hubApiVersion` built at lines 303-311 for the map entry `k, v`.
The index `v[0]` is in range: every list stored in the map has an element
(`groupDeployments_ne_nil`). -/
def hubApiVersion (flags : ApigeeFlags) (apiName : String) (generalApi : GeneralApi)
    (k : String) (v : List HubApiDeployment) : HubApiVersion :=
  { Name := "projects/" ++ flags.Project ++ "/locations/" ++ flags.Region ++ "/apis/" ++ apiName
      ++ "/versions/" ++ k
    DisplayName :=
      match v with
      | d :: _ => d.DisplayName
      | [] => ""
    Description := generalApi.Description
    Documentation := { ExternalUri := generalApi.DocumentationUrl }
    Deployments := v.map fun d => d.Name }

/-- The test of line 239 on a file name. -/
def isDeploymentFile (f : String) : Bool :=
  HasSuffix f "-aws.json" || HasSuffix f "-azure.json"

/-- The version key `apiVersionName` of lines 241-242. -/
def apiVersionNameOf (f : String) : String :=
  ReplaceAll (ReplaceAll f "-aws.json" "") "-azure.json" ""

/-- Lines 275-280: the deployment is appended to the list of its version key,
or starts that list. -/
def recordDeployment (apiVersions : GoMap (List HubApiDeployment)) (apiVersionName : String)
    (d : HubApiDeployment) : GoMap (List HubApiDeployment) :=
  match mapGet apiVersions apiVersionName with
  | some v => mapSet apiVersions apiVersionName (v ++ [d])
  | none => mapSet apiVersions apiVersionName [d]

/-- The body of the loop over `fileEntries` (lines 239-298) for one file: the
effects it adds and the map it leaves, or the effects up to `log.Fatal`. -/
def onrampFile (flags : ApigeeFlags) (env : Env) (apiName : String) (generalApi : GeneralApi)
    (f : String) (apiVersions : GoMap (List HubApiDeployment)) :
    Except (List Effect) (List Effect × GoMap (List HubApiDeployment)) :=
  if isDeploymentFile f then
    let apiVersionName := apiVersionNameOf f
    let path := generalBaseDir ++ "/" ++ apiName ++ "/" ++ f
    match env.openRecord path with
    | none => .error [.println f, .openFile path, .logFatal]
    | some generalDeploymentApi =>
      if generalDeploymentApi.Name ≠ "" then
        let d := hubApiDeployment flags generalDeploymentApi
        let specPath :=
          generalBaseDir ++ "/" ++ apiName ++ "/" ++ generalDeploymentApi.Name ++ "-oas.json"
        let start : List Effect :=
          [.println f, .openFile path, .println generalDeploymentApi.Name,
            .writeFile (baseDir ++ "/" ++ apiName ++ "/" ++ generalDeploymentApi.Name ++ ".json")
              (.deployment d),
            .readFile specPath]
        match env.readFile specPath with
        | some b =>
          .ok (start ++
              [.writeFile
                (baseDir ++ "/" ++ apiName ++ "/" ++ generalDeploymentApi.Name ++ "-oas.json")
                (.spec (hubApiVersionSpec flags apiName apiVersionName generalApi
                  generalDeploymentApi b))],
            recordDeployment apiVersions apiVersionName d)
        | none => .ok (start, recordDeployment apiVersions apiVersionName d)
      else .ok ([.println f, .openFile path], apiVersions)
  else .ok ([], apiVersions)

/-- The loop over `fileEntries` (lines 238-299). -/
def groupingPass (flags : ApigeeFlags) (env : Env) (apiName : String) (generalApi : GeneralApi) :
    List String → GoMap (List HubApiDeployment) →
      Except (List Effect) (List Effect × GoMap (List HubApiDeployment))
  | [], apiVersions => .ok ([], apiVersions)
  | f :: rest, apiVersions =>
    match onrampFile flags env apiName generalApi f apiVersions with
    | .error t => .error t
    | .ok (t, apiVersions1) =>
      match groupingPass flags env apiName generalApi rest apiVersions1 with
      | .error t1 => .error (t ++ t1)
      | .ok (t1, apiVersions2) => .ok (t ++ t1, apiVersions2)

/-- The loop over the map `apiVersions` (lines 301-315), on the entries in the
order they are visited. -/
def versionPass (flags : ApigeeFlags) (apiName : String) (generalApi : GeneralApi)
    (visited : GoMap (List HubApiDeployment)) : List Effect :=
  visited.map fun kv =>
    .writeFile (baseDir ++ "/" ++ apiName ++ "/" ++ kv.1 ++ ".json")
      (.version (hubApiVersion flags apiName generalApi kv.1 kv.2))

/-- The block guarded by `generalApi.Name != ""` (lines 209-315) for the API
directory `apiName`: the effects of a complete pass, or those up to
`log.Fatal`. -/
def onrampApi (flags : ApigeeFlags) (env : Env) (apiName : String) (generalApi : GeneralApi) :
    Except (List Effect) (List Effect) :=
  let start : List Effect :=
    [.mkdirAll (baseDir ++ "/" ++ apiName),
      .writeFile (baseDir ++ "/" ++ apiName ++ "/" ++ apiName ++ ".json")
        (.api (hubApi flags apiName generalApi)),
      .readDir (generalBaseDir ++ "/" ++ apiName)]
  let fileEntries := (env.readDir (generalBaseDir ++ "/" ++ apiName)).getD []
  match groupingPass flags env apiName generalApi fileEntries [] with
  | .error t => .error (start ++ t)
  | .ok (t, apiVersions) =>
    .ok (start ++ t ++ versionPass flags apiName generalApi (env.order.iter apiVersions))

/-- The body of the loop over `entries` (lines 194-317) for the directory `e`. -/
def onrampEntry (flags : ApigeeFlags) (env : Env) (e : String) :
    Except (List Effect) (List Effect) :=
  if flags.ApiName = "" ∨ flags.ApiName = e then
    let path := generalBaseDir ++ "/" ++ e ++ "/" ++ e ++ ".json"
    match env.openRecord path with
    | none => .error [.println e, .openFile path, .logFatal]
    | some generalApi =>
      if generalApi.Name ≠ "" then
        match onrampApi flags env e generalApi with
        | .error t => .error ([.println e, .openFile path] ++ t)
        | .ok t => .ok ([.println e, .openFile path] ++ t)
      else .ok [.println e, .openFile path]
  else .ok []

/-- The loop over `entries` (lines 193-318). -/
def onrampEntries (flags : ApigeeFlags) (env : Env) :
    List String → Except (List Effect) (List Effect)
  | [] => .ok []
  | e :: rest =>
    match onrampEntry flags env e with
    | .error t => .error t
    | .ok t =>
      match onrampEntries flags env rest with
      | .error t1 => .error (t ++ t1)
      | .ok t1 => .ok (t ++ t1)

/-- How a run ends: `return nil`, the process exit of `log.Fatal`, or a
run-time panic (a nil dereference). -/
inductive Exit where
  | returnedNil
  | fatal
  | panicked
  deriving DecidableEq, Repr

/-- What a run leaves behind: the flags (the token may have been filled in),
the calls it made, and how it ended. -/
structure Run where
  flags : ApigeeFlags
  trace : List Effect
  exit : Exit

/-- Lines 170-186: an empty token is resolved from the default credentials. -/
def resolveToken (flags : ApigeeFlags) (env : Env) : ApigeeFlags × List Effect :=
  if flags.Token = "" then
    match env.defaultToken with
    | some token => ({ flags with Token := token }, [.findDefaultCredentials])
    | none => (flags, [.findDefaultCredentials])
  else (flags, [])

/-- The function `apiHubOnramp` (lines 158-321). -/
def apiHubOnramp (flags : ApigeeFlags) (env : Env) : Run :=
  if flags.Project = "" then
    ⟨flags, [.println "No project given. Please specify a --project YOUR_PROJECT_ID flag."],
      .returnedNil⟩
  else if flags.Region = "" then
    ⟨flags, [.println "No region given. Please specify a --region YOUR_REGION flag."],
      .returnedNil⟩
  else
    let resolved := resolveToken flags env
    match env.readDir generalBaseDir with
    | none => ⟨resolved.1, resolved.2 ++ [.readDir generalBaseDir, .logFatal], .fatal⟩
    | some entries =>
      match onrampEntries resolved.1 env entries with
      | .error t => ⟨resolved.1, resolved.2 ++ [.readDir generalBaseDir] ++ t, .fatal⟩
      | .ok t => ⟨resolved.1, resolved.2 ++ [.readDir generalBaseDir] ++ t, .returnedNil⟩

/-! ## The re-keying step of `apiHubExport` -/

/-- The names derived from one remote deployment at lines 586-598 and the path
its document is written to. -/
structure Rekeyed where
  deploymentName : String
  apiVersionName : String
  apiName : String
  path : String
  deriving DecidableEq, Repr

/-- Lines 586-598 of `apiHubExport` for the deployment with resource name
`name`. -/
def exportRekey (name : String) : Rekeyed :=
  let deploymentName := lastSegment name
  let apiVersionName := ReplaceAll (ReplaceAll deploymentName "-aws" "") "-azure" ""
  let apiName := stripVersionSuffix apiVersionName
  { deploymentName := deploymentName
    apiVersionName := apiVersionName
    apiName := apiName
    path := baseDir ++ "/" ++ apiName ++ "/" ++ deploymentName ++ ".json" }


/-! ## Specification-level views of a listing -/

/-- The deployment files of a listing that can be opened and hold a record
with a name, in listing order, each with its record. -/
def deploymentRecords (env : Env) (apiName : String) (files : List String) :
    List (String × GeneralApi) :=
  files.filterMap fun f =>
    if isDeploymentFile f then
      match env.openRecord (generalBaseDir ++ "/" ++ apiName ++ "/" ++ f) with
      | some r => if r.Name ≠ "" then some (f, r) else none
      | none => none
    else none

/-- The deployments derived from a listing, each with its version key. -/
def keyedDeployments (flags : ApigeeFlags) (env : Env) (apiName : String)
    (files : List String) : List (String × HubApiDeployment) :=
  (deploymentRecords env apiName files).map fun fr =>
    (apiVersionNameOf fr.1, hubApiDeployment flags fr.2)

/-- The elements of a keyed list filed under the key `k`, in order. -/
def groupOf {β : Type} (k : String) (l : List (String × β)) : List β :=
  (l.filter fun kd => kd.1 = k).map Prod.snd

/-- The map after recording a list of keyed deployments one after the other. -/
def groupDeployments (m : GoMap (List HubApiDeployment))
    (l : List (String × HubApiDeployment)) : GoMap (List HubApiDeployment) :=
  l.foldl (fun acc kd => recordDeployment acc kd.1 kd.2) m

/-- The documents written for one deployment record: the deployment, and the
spec when the companion file can be read. -/
def fileWrites (flags : ApigeeFlags) (env : Env) (apiName : String) (generalApi : GeneralApi)
    (fr : String × GeneralApi) : List (String × Doc) :=
  (baseDir ++ "/" ++ apiName ++ "/" ++ fr.2.Name ++ ".json",
      Doc.deployment (hubApiDeployment flags fr.2)) ::
    match env.readFile (generalBaseDir ++ "/" ++ apiName ++ "/" ++ fr.2.Name ++ "-oas.json") with
    | some b =>
      [(baseDir ++ "/" ++ apiName ++ "/" ++ fr.2.Name ++ "-oas.json",
        Doc.spec (hubApiVersionSpec flags apiName (apiVersionNameOf fr.1) generalApi fr.2 b))]
    | none => []

/-- The listing of the API directory as the run sees it (a failing
`os.ReadDir` is ignored and gives no entries). -/
def fileEntriesOf (env : Env) (apiName : String) : List String :=
  (env.readDir (generalBaseDir ++ "/" ++ apiName)).getD []

/-- Every deployment file of the listing can be opened. -/
def AllOpen (env : Env) (apiName : String) (files : List String) : Prop :=
  ∀ f ∈ files, isDeploymentFile f = true →
    (env.openRecord (generalBaseDir ++ "/" ++ apiName ++ "/" ++ f)).isSome = true

instance (env : Env) (apiName : String) (files : List String) :
    Decidable (AllOpen env apiName files) := by
  unfold AllOpen; infer_instance

/-- The version documents among the writes of a run. -/
def versionsWritten (trace : List Effect) : List (String × HubApiVersion) :=
  (writesOf trace).filterMap fun pd =>
    match pd.2 with
    | .version d => some (pd.1, d)
    | _ => none

/-- The deployment documents among the writes of a run. -/
def deploymentsWritten (trace : List Effect) : List (String × HubApiDeployment) :=
  (writesOf trace).filterMap fun pd =>
    match pd.2 with
    | .deployment d => some (pd.1, d)
    | _ => none

/-- The spec documents among the writes of a run. -/
def specsWritten (trace : List Effect) : List (String × HubApiVersionSpec) :=
  (writesOf trace).filterMap fun pd =>
    match pd.2 with
    | .spec d => some (pd.1, d)
    | _ => none

/-- The API documents among the writes of a run. -/
def apisWritten (trace : List Effect) : List (String × HubApi) :=
  (writesOf trace).filterMap fun pd =>
    match pd.2 with
    | .api d => some (pd.1, d)
    | _ => none

/-- The write of one version document. -/
def versionWrite (flags : ApigeeFlags) (apiName : String) (generalApi : GeneralApi)
    (kv : String × List HubApiDeployment) : String × Doc :=
  (baseDir ++ "/" ++ apiName ++ "/" ++ kv.1 ++ ".json",
    Doc.version (hubApiVersion flags apiName generalApi kv.1 kv.2))

/-- The map the grouping pass leaves for the API directory `apiName`. -/
def apiVersionsOf (flags : ApigeeFlags) (env : Env) (apiName : String) :
    GoMap (List HubApiDeployment) :=
  groupDeployments [] (keyedDeployments flags env apiName (fileEntriesOf env apiName))

/-- The spec document written for a deployment record, when its companion
file can be read. -/
def specWrite (flags : ApigeeFlags) (env : Env) (apiName : String) (generalApi : GeneralApi)
    (fr : String × GeneralApi) : Option (String × HubApiVersionSpec) :=
  (env.readFile (generalBaseDir ++ "/" ++ apiName ++ "/" ++ fr.2.Name ++ "-oas.json")).map
    fun b => (baseDir ++ "/" ++ apiName ++ "/" ++ fr.2.Name ++ "-oas.json",
      hubApiVersionSpec flags apiName (apiVersionNameOf fr.1) generalApi fr.2 b)

/-! ## A worked example: the API `orders` on two platforms -/

/-- Flags naming the project `p` and the region `r`. -/
def exFlags : ApigeeFlags :=
  { (default : ApigeeFlags) with Project := "p", Region := "r", Token := "t" }

/-- A record with the given name, display name and description. -/
def exRecord (name displayName description : String) : GeneralApi :=
  { (default : GeneralApi) with
    Name := name, DisplayName := displayName, Description := description }

/-- The root record of the API `orders`. -/
def ordersRoot : GeneralApi := exRecord "orders" "Orders" "Root description"

/-- A general store with the API `orders`, deployed on AWS and on Azure under
the same version key; the AWS deployment has a companion spec of three bytes. -/
def ordersEnv : Env :=
  { defaultToken := none
    readDir := fun path =>
      if path = "src/main/general/apiproxies" then some ["orders"]
      else if path = "src/main/general/apiproxies/orders" then
        some ["orders-v1-aws.json", "orders-v1-azure.json", "orders.json"]
      else none
    openRecord := fun path =>
      if path = "src/main/general/apiproxies/orders/orders.json" then some ordersRoot
      else if path = "src/main/general/apiproxies/orders/orders-v1-aws.json" then
        some (exRecord "orders-v1-aws" "Orders on AWS" "First description")
      else if path = "src/main/general/apiproxies/orders/orders-v1-azure.json" then
        some (exRecord "orders-v1-azure" "Orders on Azure" "Second description")
      else none
    readFile := fun path =>
      if path = "src/main/general/apiproxies/orders/orders-v1-aws-oas.json" then
        some [77, 97, 110]
      else none
    order := insertionOrder }

/-! ## Listings with files removed, and further examples -/

/-- The surroundings `env` with the listing of the directory `dir` replaced by
`files`; nothing else changes. -/
def withListing (env : Env) (dir : String) (files : List String) : Env :=
  { env with readDir := fun path => if path = dir then some files else env.readDir path }

/-- The file is a deployment file that can be opened and decodes to a record
with an empty name. -/
def isMalformed (env : Env) (apiName : String) (f : String) : Bool :=
  isDeploymentFile f &&
    match env.openRecord (generalBaseDir ++ "/" ++ apiName ++ "/" ++ f) with
    | some r => r.Name == ""
    | none => false

/-- The effects of a pass, however it ended. -/
def outcomeTrace (r : Except (List Effect) (List Effect)) : List Effect :=
  match r with
  | .ok t => t
  | .error t => t

/-- The pass ran to its end (it did not stop at `log.Fatal`). -/
def completed (r : Except (List Effect) (List Effect)) : Bool :=
  match r with
  | .ok _ => true
  | .error _ => false

/-- The path of the root document of the API directory `e`. -/
def rootPath (e : String) : String :=
  generalBaseDir ++ "/" ++ e ++ "/" ++ e ++ ".json"

/-- A general store with the API `shop`: a text file, a deployment on AWS whose
record has the version `2.0.1`, a deployment file for Azure that does not hold
a record, and the root document. -/
def shopEnv : Env :=
  { defaultToken := none
    readDir := fun path =>
      if path = "src/main/general/apiproxies" then some ["shop"]
      else if path = "src/main/general/apiproxies/shop" then
        some ["notes.txt", "shop-v2-aws.json", "shop-v2-azure.json", "shop.json"]
      else none
    openRecord := fun path =>
      if path = "src/main/general/apiproxies/shop/shop.json" then
        some (exRecord "shop" "Shop" "Shop API")
      else if path = "src/main/general/apiproxies/shop/shop-v2-aws.json" then
        some { exRecord "shop-v2-aws" "Shop on AWS" "Shop on AWS" with Version := "2.0.1" }
      else if path = "src/main/general/apiproxies/shop/shop-v2-azure.json" then
        some default
      else none
    readFile := fun _ => none
    order := insertionOrder }

/-- The store of `ordersEnv` with two more API directories listed: `billing`,
which has no root document, before `orders`, and `drafts`, whose root document
does not hold a record, after it. -/
def threeApisEnv : Env :=
  { ordersEnv with
    readDir := fun path =>
      if path = "src/main/general/apiproxies" then some ["billing", "orders", "drafts"]
      else ordersEnv.readDir path
    openRecord := fun path =>
      if path = "src/main/general/apiproxies/drafts/drafts.json" then some default
      else ordersEnv.openRecord path }

/-! ## Go `net/url` and `http.NewRequest` -/

/-- The function `ishex` of `net/url`: the character is a hexadecimal digit. -/
def ishex (c : Char) : Bool :=
  ('0' ≤ c && c ≤ '9') || ('a' ≤ c && c ≤ 'f') || ('A' ≤ c && c ≤ 'F')

/-- The function `stringContainsCTLByte` of `net/url`: the text holds an ASCII
control character (a byte below `0x20`, or `0x7f`). -/
def stringContainsCTLByte (s : List Char) : Bool :=
  s.any fun b => decide (b.toNat < 32) || decide (b.toNat = 127)

/-- The function `unescape` of `net/url`, in the modes `encodePath` and
`encodeFragment`, returns no error: every `%` is followed by two hexadecimal
digits. -/
def unescapes : List Char → Bool
  | [] => true
  | c :: rest =>
    if c = '%' then
      match rest with
      | a :: b :: rest' => ishex a && ishex b && unescapes rest'
      | _ => false
    else unescapes rest

/-- The function `strings.Cut` for a separator of one character: the text
before the first separator and the text after it; without a separator, the
whole text and the empty text. -/
def Cut (s : List Char) (sep : Char) : List Char × List Char :=
  (s.takeWhile (fun c => c ≠ sep), (s.dropWhile (fun c => c ≠ sep)).drop 1)

/-- The path of a URL `//authority/path` whose scheme and query were cut off:
the text from the first `/` after the authority on. -/
def pathAfterAuthority (rest : List Char) : List Char :=
  (rest.drop 2).dropWhile fun c => c ≠ '/'

/-- The function `url.Parse` of `net/url` returns no error, for a URL that
starts with `https://apihub.googleapis.com/` as every URL of `apihub.go` does
(its scheme and authority are accepted): the text before the first `#` holds
no ASCII control character, and the path (after the authority, up to the
first `?`) and the fragment (after the first `#`) have well-formed percent
escapes; the query is taken as it is.  `http.NewRequest` with one of the
methods GET, POST, PATCH, DELETE returns a nil request exactly when
`url.Parse` returns an error. -/
def parses (rawURL : String) : Bool :=
  let u := (Cut rawURL.data '#').1
  let frag := (Cut rawURL.data '#').2
  let rest := (Cut u ':').2
  !stringContainsCTLByte u && unescapes (pathAfterAuthority (Cut rest '?').1) && unescapes frag

/-! ## Blocks of a run that talks to the remote side -/

/-- What a block of the program leaves: the state after it and the effects it
added. -/
structure Pass (τ : Type) where
  state : τ
  trace : List Effect

/-- The result of a block: it ran to its end (`ok`), or it panicked (`error`),
in both cases with the state and the effects up to that point. -/
abbrev Outcome (τ : Type) := Except (Pass τ) (Pass τ)

/-- The effects of a block, however it ended. -/
def Outcome.trace {τ : Type} (r : Outcome τ) : List Effect :=
  match r with
  | .ok p => p.trace
  | .error p => p.trace

/-- The state a block leaves, however it ended. -/
def Outcome.state {τ : Type} (r : Outcome τ) : τ :=
  match r with
  | .ok p => p.state
  | .error p => p.state

/-- The block ran to its end. -/
def Outcome.finished {τ : Type} (r : Outcome τ) : Bool :=
  match r with
  | .ok _ => true
  | .error _ => false

/-- Sequencing: the block `k` runs from the state `r` leaves, unless `r`
panicked. -/
def andThen {τ : Type} (r : Outcome τ) (k : τ → Outcome τ) : Outcome τ :=
  match r with
  | .error p => .error p
  | .ok p =>
    match k p.state with
    | .error q => .error ⟨q.state, p.trace ++ q.trace⟩
    | .ok q => .ok ⟨q.state, p.trace ++ q.trace⟩

/-- A loop `for _, x := range xs` whose body is the block `body x`. -/
def forEach {α τ : Type} (body : α → τ → Outcome τ) : List α → τ → Outcome τ
  | [], s => .ok ⟨s, []⟩
  | x :: rest, s => andThen (body x s) (forEach body rest)

/-- A block that only adds effects. -/
def emit {τ : Type} (effects : List Effect) (s : τ) : Outcome τ :=
  .ok ⟨s, effects⟩

/-- The statements `r, _ := http.NewRequest(...)` and `r.Header.Add(...)`: when
`url.Parse` rejects the URL the request `r` is nil and `r.Header.Add` panics;
otherwise the block `k` goes on. -/
def newRequest {τ : Type} (req : Request) (s : τ) (k : τ → Outcome τ) : Outcome τ :=
  if parses req.call.url = true then k s else .error ⟨s, []⟩

/-- JSON decoding of what the program reads: `json.Unmarshal` of a version
file into a `HubApiVersion`, and of the body of a list response into the
listed documents. -/
structure Codec where
  unmarshalVersion : List Byte → HubApiVersion
  unmarshalApis : String → List HubApi
  unmarshalVersions : String → List HubApiVersion
  unmarshalSpecs : String → List HubApiVersionSpec
  unmarshalContents : String → HubContents
  unmarshalDeployments : String → List HubApiDeployment

/-! ## `apiHubImport` -/

/-- The state of an import: the remote side, and the map `apiVersions` of the
API directory at hand. -/
structure ImportState (σ : Type) where
  remote : σ
  apiVersions : GoMap (List String)

/-- The statement `resp, _ := client.Do(r)` followed by the code that reads
`resp.StatusCode`: the request is sent; with a response the block `k` goes on,
without one `resp` is nil and the read panics. -/
def clientDo {σ : Type} (remote : Remote σ) (req : Request) (s : ImportState σ)
    (k : Response → ImportState σ → Outcome (ImportState σ)) : Outcome (ImportState σ) :=
  match remote.send s.remote req with
  | (remote1, .failed err) => .error ⟨{ s with remote := remote1 }, [.http req (.failed err)]⟩
  | (remote1, .response resp) =>
    andThen (.ok ⟨{ s with remote := remote1 }, [.http req (.response resp)]⟩) (k resp)

/-- Lines 421-426 of `apiHubImport`: the deployment name is appended to the
list of its version key, or starts that list. -/
def recordName (apiVersions : GoMap (List String)) (apiVersionName apiDeploymentName : String) :
    GoMap (List String) :=
  match mapGet apiVersions apiVersionName with
  | some v => mapSet apiVersions apiVersionName (v ++ [apiDeploymentName])
  | none => mapSet apiVersions apiVersionName [apiDeploymentName]

/-- Lines 358-383: the API document is read and posted.  The request is built
before the line is printed: a URL that does not parse ends the run in a panic
(`r, _ := http.NewRequest(...)`, then `r.Header.Add(...)` on the nil `r`). -/
def importApi {σ : Type} (flags : ApigeeFlags) (env : Env) (remote : Remote σ) (e : String)
    (s : ImportState σ) : Outcome (ImportState σ) :=
  let path := baseDir ++ "/" ++ e ++ "/" ++ e ++ ".json"
  match env.readFile path with
  | some byteValue =>
    let req : Request :=
      { call := .createApi flags.Project flags.Region e, token := flags.Token
        body := .raw byteValue }
    andThen (emit [.openFile path] s) fun s0 =>
      newRequest req s0 fun s0 =>
        andThen (emit [.println ("Creating API " ++ e ++ "...")] s0) fun s1 =>
          clientDo remote req s1 fun resp s2 =>
            if resp.StatusCode ≠ 200 then
              emit [.println ("  >> Error creating " ++ e ++ ": " ++ resp.Status),
                .println resp.Body] s2
            else emit [] s2
  | none =>
    emit [.openFile path,
      .println ("  >> Error, cloud not create API in API Hub because the definition file " ++
        "could not be found: " ++ e ++ ".json")] s

/-- The body of the loop over `fileEntries` (lines 389-427): the deployment
document is read and posted, and its name is recorded under its version key
whether or not the file could be opened; a URL that does not parse ends the
run in a panic. -/
def importFile {σ : Type} (flags : ApigeeFlags) (env : Env) (remote : Remote σ) (e : String)
    (f : String) (s : ImportState σ) : Outcome (ImportState σ) :=
  if isDeploymentFile f then
    let apiDeploymentName := ReplaceAll f ".json" ""
    let apiVersionName := apiVersionNameOf f
    let path := baseDir ++ "/" ++ e ++ "/" ++ f
    andThen
      (match env.readFile path with
        | some byteValue =>
          let req : Request :=
            { call := .createDeployment flags.Project flags.Region apiDeploymentName
              token := flags.Token, body := .raw byteValue }
          andThen (emit [.openFile path] s) fun s0 =>
            newRequest req s0 fun s0 =>
              andThen
                (emit [.println ("Creating deployment " ++ apiDeploymentName ++ "..."
                  ++ req.call.url)] s0)
                fun s1 =>
                  clientDo remote req s1 fun resp s2 =>
                    if resp.StatusCode ≠ 200 then
                      emit [.println ("  >> Error creating deployment " ++ apiDeploymentName
                          ++ ": " ++ resp.Status),
                        .println resp.Body] s2
                    else emit [] s2
        | none => emit [.openFile path] s)
      fun s3 =>
        emit [] { s3 with
          apiVersions := recordName s3.apiVersions apiVersionName apiDeploymentName }
  else emit [] s

/-- The body of the loop over the deployment names of a version (lines
479-506): the spec document is read and posted; a URL that does not parse ends
the run in a panic. -/
def importSpec {σ : Type} (flags : ApigeeFlags) (env : Env) (remote : Remote σ) (e k : String)
    (d : String) (s : ImportState σ) : Outcome (ImportState σ) :=
  let path := baseDir ++ "/" ++ e ++ "/" ++ d ++ "-oas.json"
  match env.readFile path with
  | some byteValue =>
    let req : Request :=
      { call := .createSpec flags.Project flags.Region e k d, token := flags.Token
        body := .raw byteValue }
    andThen (emit [.openFile path] s) fun s0 =>
      newRequest req s0 fun s0 =>
        andThen (emit [.println ("Creating API version spec " ++ e ++ "...")] s0) fun s1 =>
          clientDo remote req s1 fun resp s2 =>
            if resp.StatusCode ≠ 200 then
              emit [.println ("  >> Error deploying version spec " ++ e ++ ": "
                ++ resp.Status)] s2
            else emit [] s2
  | none => emit [.openFile path] s

/-- Lines 432-477: the version document is read, decoded, encoded again and
posted; when the answer is 409 the same body is sent as a patch of the
deployments.  Either request is built before its line is printed, and a URL that
does not parse ends the run in a panic. -/
def importVersionDoc {σ : Type} (flags : ApigeeFlags) (env : Env) (codec : Codec)
    (remote : Remote σ) (e k : String) (s : ImportState σ) : Outcome (ImportState σ) :=
  let path := baseDir ++ "/" ++ e ++ "/" ++ k ++ ".json"
  match env.readFile path with
  | some byteValue =>
    let body := Body.version (codec.unmarshalVersion byteValue)
    let req : Request :=
      { call := .createVersion flags.Project flags.Region e k, token := flags.Token
        body := body }
    andThen (emit [.openFile path] s) fun s0 =>
      newRequest req s0 fun s0 =>
        andThen (emit [.println ("Creating API version " ++ k ++ "...")] s0) fun s1 =>
          clientDo remote req s1 fun resp s2 =>
            if resp.StatusCode ≠ 200 then
              andThen
                (emit [.println ("  >> Error creating version " ++ e ++ ": " ++ resp.Status),
                  .println resp.Body] s2)
                fun s3 =>
                  if resp.StatusCode = 409 then
                    let patch : Request :=
                      { call := .patchVersion flags.Project flags.Region e k
                        token := flags.Token, body := body }
                    newRequest patch s3 fun s3 =>
                      andThen (emit [.println ("Patching API version " ++ k ++ "...")] s3)
                        fun s4 =>
                          clientDo remote patch s4 fun resp2 s5 =>
                            if resp2.StatusCode ≠ 200 then
                              emit [.println ("  >> Error patching version " ++ k ++ ": "
                                  ++ resp2.Status),
                                .println resp2.Body] s5
                            else emit [] s5
                  else emit [] s3
            else emit [] s2
  | none => emit [.openFile path] s

/-- The body of the loop over the map `apiVersions` (lines 430-507) for the
entry `k, v`: the version document, then the specs of its deployments. -/
def importVersion {σ : Type} (flags : ApigeeFlags) (env : Env) (codec : Codec)
    (remote : Remote σ) (e : String) (kv : String × List String) (s : ImportState σ) :
    Outcome (ImportState σ) :=
  andThen (importVersionDoc flags env codec remote e kv.1 s)
    (forEach (importSpec flags env remote e kv.1) kv.2)

/-- The body of the loop over the API directories (lines 355-508). -/
def importEntry {σ : Type} (flags : ApigeeFlags) (env : Env) (codec : Codec)
    (remote : Remote σ) (e : String) (s : ImportState σ) : Outcome (ImportState σ) :=
  if flags.ApiName = "" ∨ flags.ApiName = e then
    andThen (emit [.println ("Importing " ++ e ++ "...")] s) fun s1 =>
      andThen (importApi flags env remote e s1) fun s2 =>
        andThen (emit [.readDir (baseDir ++ "/" ++ e)] { s2 with apiVersions := [] }) fun s3 =>
          andThen
            (forEach (importFile flags env remote e)
              ((env.readDir (baseDir ++ "/" ++ e)).getD []) s3)
            fun s4 =>
              forEach (importVersion flags env codec remote e)
                (env.order.iter s4.apiVersions) s4
  else emit [] s

/-- What a run that talks to the remote side leaves behind: the flags, the
calls it made, how it ended, and the state of the remote side. -/
structure RemoteRun (σ : Type) where
  flags : ApigeeFlags
  trace : List Effect
  exit : Exit
  remote : σ

/-- The function `apiHubImport` (lines 323-513), started with the remote side
in the state `remote0`. -/
def apiHubImport {σ : Type} (flags : ApigeeFlags) (env : Env) (codec : Codec)
    (remote : Remote σ) (remote0 : σ) : RemoteRun σ :=
  if flags.Project = "" then
    ⟨flags, [.println "No project given. Please specify a --project YOUR_PROJECT_ID flag."],
      .returnedNil, remote0⟩
  else if flags.Region = "" then
    ⟨flags, [.println "No region given. Please specify a --region YOUR_REGION flag."],
      .returnedNil, remote0⟩
  else
    let resolved := resolveToken flags env
    let start : List Effect :=
      [.println ("Importing APIs to API Hub in project " ++ flags.Project ++ "...")]
        ++ resolved.2 ++ [.readDir baseDir]
    match env.readDir baseDir with
    | none => ⟨resolved.1, start, .returnedNil, remote0⟩
    | some apis =>
      match forEach (importEntry resolved.1 env codec remote) apis
          { remote := remote0, apiVersions := [] } with
      | .ok p => ⟨resolved.1, start ++ p.trace, .returnedNil, p.state.remote⟩
      | .error p => ⟨resolved.1, start ++ p.trace, .panicked, p.state.remote⟩

/-- The HTTP calls of a run with what they returned, in order. -/
def httpOf (trace : List Effect) : List (Request × Reply) :=
  trace.filterMap fun ef =>
    match ef with
    | .http req reply => some (req, reply)
    | _ => none

/-! ## `apiHubExport` and `apiHubClean` -/

/-- A call `x := g(...)` of a function of the program that returns a value,
followed by the block `k x`; a panic inside `g` ends the run. -/
def withResult {σ β : Type} (r : Except (Pass σ) (Pass σ × β)) (k : β → σ → Outcome σ) :
    Outcome σ :=
  match r with
  | .error p => .error p
  | .ok (p, x) => andThen (.ok p) (k x)

/-- The shape shared by the `getApiHub...` functions (lines 656-755): the
request is built (`req, _ := http.NewRequest(...)`, then `req.Header.Add(...)`,
which panics on the nil request of a URL that does not parse) and sent; the
body of a response is decoded whatever the status; without a response the
zero value is returned. -/
def getDecoded {σ β : Type} (remote : Remote σ) (call : Call) (token : String)
    (decode : String → β) (zero : β) (s : σ) : Except (Pass σ) (Pass σ × β) :=
  let req : Request := { call := call, token := token, body := .empty }
  if parses req.call.url = true then
    match remote.send s req with
    | (s1, .response resp) => .ok (⟨s1, [.http req (.response resp)]⟩, decode resp.Body)
    | (s1, .failed err) => .ok (⟨s1, [.http req (.failed err)]⟩, zero)
  else .error ⟨s, []⟩

def getApiHubApis {σ : Type} (codec : Codec) (remote : Remote σ) (project region token : String)
    (s : σ) : Except (Pass σ) (Pass σ × List HubApi) :=
  getDecoded remote (.listApis project region) token codec.unmarshalApis [] s

def getApiHubApiVersions {σ : Type} (codec : Codec) (remote : Remote σ)
    (project region api token : String) (s : σ) :
    Except (Pass σ) (Pass σ × List HubApiVersion) :=
  getDecoded remote (.listVersions project region api) token codec.unmarshalVersions [] s

def getApiHubApiVersionSpecs {σ : Type} (codec : Codec) (remote : Remote σ)
    (project region api version token : String) (s : σ) :
    Except (Pass σ) (Pass σ × List HubApiVersionSpec) :=
  getDecoded remote (.listSpecs project region api version) token codec.unmarshalSpecs [] s

def getApiHubApiVersionSpecContents {σ : Type} (codec : Codec) (remote : Remote σ)
    (project region api version spec token : String) (s : σ) :
    Except (Pass σ) (Pass σ × HubContents) :=
  getDecoded remote (.getSpecContents project region api version spec) token
    codec.unmarshalContents default s

def getApiHubDeployments {σ : Type} (codec : Codec) (remote : Remote σ)
    (project region token : String) (s : σ) :
    Except (Pass σ) (Pass σ × List HubApiDeployment) :=
  getDecoded remote (.listDeployments project region) token codec.unmarshalDeployments [] s

/-- The function `deleteApiHubApi` (lines 727-735); the request is built as in
the `getApiHub...` functions. -/
def deleteApiHubApi {σ : Type} (remote : Remote σ) (api token : String) (s : σ) : Outcome σ :=
  let req : Request := { call := .deleteApi api, token := token, body := .empty }
  newRequest req s fun s0 =>
    match remote.send s0 req with
    | (s1, .response resp) => .ok ⟨s1, [.http req (.response resp)]⟩
    | (s1, .failed err) =>
      .ok ⟨s1, [.http req (.failed err), .println ("Error deleting Apigee API: " ++ err)]⟩

/-- The function `deleteApiHubDeployment` (lines 755-763); the request is built
as in the `getApiHub...` functions. -/
def deleteApiHubDeployment {σ : Type} (remote : Remote σ) (deployment token : String) (s : σ) :
    Outcome σ :=
  let req : Request := { call := .deleteDeployment deployment, token := token, body := .empty }
  newRequest req s fun s0 =>
    match remote.send s0 req with
    | (s1, .response resp) => .ok ⟨s1, [.http req (.response resp)]⟩
    | (s1, .failed err) =>
      .ok ⟨s1,
        [.http req (.failed err), .println ("Error deleting API Hub Deployment: " ++ err)]⟩

/-- The body of the loop over the specs of a version (lines 571-579). -/
def exportSpec {σ : Type} (flags : ApigeeFlags) (codec : Codec) (remote : Remote σ)
    (api : HubApi) (apiName versionName : String) (spec : HubApiVersionSpec) (s : σ) :
    Outcome σ :=
  let specName := lastSegment spec.Name
  andThen (emit [.println ("Exporting " ++ api.Name ++ " Spec " ++ specName ++ "...")] s)
    fun s1 =>
      withResult
        (getApiHubApiVersionSpecContents codec remote flags.Project flags.Region apiName
          versionName specName flags.Token s1)
        fun contents s2 =>
          emit [.writeFile (baseDir ++ "/" ++ apiName ++ "/" ++ specName ++ "-oas.json")
            (.spec { spec with Contents := contents })] s2

/-- The body of the loop over the versions of an API (lines 561-580). -/
def exportVersion {σ : Type} (flags : ApigeeFlags) (codec : Codec) (remote : Remote σ)
    (api : HubApi) (apiName : String) (version : HubApiVersion) (s : σ) : Outcome σ :=
  let versionName := lastSegment version.Name
  andThen
    (emit [.println ("Exporting " ++ api.Name ++ " Version " ++ versionName ++ "..."),
      .writeFile (baseDir ++ "/" ++ apiName ++ "/" ++ versionName ++ ".json")
        (.version version)] s)
    fun s1 =>
      withResult
        (getApiHubApiVersionSpecs codec remote flags.Project flags.Region apiName versionName
          flags.Token s1)
        fun specs s2 => forEach (exportSpec flags codec remote api apiName versionName) specs s2

/-- The body of the loop over the remote APIs (lines 550-582). -/
def exportApi {σ : Type} (flags : ApigeeFlags) (codec : Codec) (remote : Remote σ)
    (api : HubApi) (s : σ) : Outcome σ :=
  if flags.ApiName = "" ∨ HasSuffix api.Name ("/" ++ flags.ApiName) = true then
    let apiName := lastSegment api.Name
    andThen
      (emit [.println ("Exporting " ++ apiName ++ "..."), .mkdirAll (baseDir ++ "/" ++ apiName),
        .writeFile (baseDir ++ "/" ++ apiName ++ "/" ++ apiName ++ ".json") (.api api)] s)
      fun s1 =>
        withResult
          (getApiHubApiVersions codec remote flags.Project flags.Region apiName flags.Token s1)
          fun versions s2 => forEach (exportVersion flags codec remote api apiName) versions s2
  else emit [] s

/-- The body of the loop over the remote deployments (lines 585-599). -/
def exportDeployment {σ : Type} (deployment : HubApiDeployment) (s : σ) : Outcome σ :=
  let rekeyed := exportRekey deployment.Name
  emit
    [.println ("Exporting deployment " ++ rekeyed.deploymentName ++ "..."),
      .mkdirAll (baseDir ++ "/" ++ rekeyed.apiName),
      .writeFile rekeyed.path (.deployment deployment)] s

/-- The function `apiHubExport` (lines 515-602). -/
def apiHubExport {σ : Type} (flags : ApigeeFlags) (env : Env) (codec : Codec)
    (remote : Remote σ) (remote0 : σ) : RemoteRun σ :=
  if flags.Project = "" ∧ flags.Region = "" then
    ⟨flags, [.println "Missing ' --project YOUR_PROJECT_ID --region YOUR_REGION'"],
      .returnedNil, remote0⟩
  else if flags.Project = "" then
    ⟨flags, [.println "Missing ' --project YOUR_PROJECT_ID'"], .returnedNil, remote0⟩
  else if flags.Region = "" then
    ⟨flags, [.println "Missing ' --region YOUR_REGION'"], .returnedNil, remote0⟩
  else
    let resolved := resolveToken flags env
    let start : List Effect :=
      [.println ("Exporting all API Hub APIs for project " ++ flags.Project ++ "...")]
        ++ resolved.2
    match
      withResult
        (getApiHubApis codec remote resolved.1.Project resolved.1.Region resolved.1.Token
          remote0)
        fun apis s1 =>
          andThen (forEach (exportApi resolved.1 codec remote) apis s1) fun s2 =>
            withResult
              (getApiHubDeployments codec remote resolved.1.Project resolved.1.Region
                resolved.1.Token s2)
              fun deployments s3 => forEach exportDeployment deployments s3
    with
    | .ok p => ⟨resolved.1, start ++ p.trace, .returnedNil, p.state⟩
    | .error p => ⟨resolved.1, start ++ p.trace, .panicked, p.state⟩

/-- The body of the loop over the remote APIs in `apiHubClean` (lines 640-645). -/
def cleanApi {σ : Type} (flags : ApigeeFlags) (remote : Remote σ) (api : HubApi) (s : σ) :
    Outcome σ :=
  if flags.ApiName = "" ∨ HasSuffix api.Name ("/" ++ flags.ApiName) = true then
    andThen (emit [.println ("Deleting " ++ api.Name ++ "...")] s) fun s1 =>
      deleteApiHubApi remote api.Name flags.Token s1
  else emit [] s

/-- The body of the loop over the remote deployments in `apiHubClean` (lines
648-651). -/
def cleanDeployment {σ : Type} (flags : ApigeeFlags) (remote : Remote σ)
    (deployment : HubApiDeployment) (s : σ) : Outcome σ :=
  andThen (emit [.println ("Deleting " ++ deployment.Name ++ "...")] s) fun s1 =>
    deleteApiHubDeployment remote deployment.Name flags.Token s1

/-- The function `apiHubClean` (lines 610-654). -/
def apiHubClean {σ : Type} (flags : ApigeeFlags) (env : Env) (codec : Codec)
    (remote : Remote σ) (remote0 : σ) : RemoteRun σ :=
  if flags.Project = "" then
    ⟨flags, [.println "No project given. Please specify a --project YOUR_PROJECT_ID flag."],
      .returnedNil, remote0⟩
  else if flags.Region = "" then
    ⟨flags, [.println "No region given. Please specify a --region YOUR_REGION flag."],
      .returnedNil, remote0⟩
  else
    let resolved := resolveToken flags env
    let start : List Effect :=
      [.println ("Removing all API Hub APIs for project " ++ flags.Project ++ "...")]
        ++ resolved.2
    match
      withResult
        (getApiHubApis codec remote resolved.1.Project resolved.1.Region resolved.1.Token
          remote0)
        fun apis s1 =>
          andThen (forEach (cleanApi resolved.1 remote) apis s1) fun s2 =>
            withResult
              (getApiHubDeployments codec remote resolved.1.Project resolved.1.Region
                resolved.1.Token s2)
              fun deployments s3 => forEach (cleanDeployment resolved.1 remote) deployments s3
    with
    | .ok p => ⟨resolved.1, start ++ p.trace, .returnedNil, p.state⟩
    | .error p => ⟨resolved.1, start ++ p.trace, .panicked, p.state⟩

/-! ## Views of the HTTP calls of an import -/

/-- The call is the patch of a version. -/
def isPatch (req : Request) : Bool :=
  match req.call with
  | .patchVersion .. => true
  | _ => false

/-- The patch that follows the create of a version answered with 409: the same
token and body, sent to the version itself with `updateMask=deployments`; no
patch belongs to any other call. -/
def patchOf (req : Request) : Option Request :=
  match req.call with
  | .createVersion project region api versionId =>
    some { req with call := .patchVersion project region api versionId }
  | _ => none

/-- The reply is a response with the given status code. -/
def hasStatus (reply : Reply) (code : Nat) : Bool :=
  match reply with
  | .response resp => resp.StatusCode == code
  | .failed _ => false

/-- The rule of the conflict fallback on a sequence of calls: a patch occurs
only directly after the create of a version that was answered with 409, and
it is the patch of that create; every create of a version answered with 409 is
directly followed by its patch; after a create with any other reply, and
after a patch, no patch follows directly. -/
def patchDiscipline : List (Request × Reply) → Bool
  | [] => true
  | (req, reply) :: rest =>
    if isPatch req then false
    else
      match patchOf req with
      | some patch =>
        if hasStatus reply 409 then
          match rest with
          | (next, _) :: rest' => next == patch && patchDiscipline rest'
          | [] => false
        else patchDiscipline rest
      | none => patchDiscipline rest

/-- The create requests of a run (every call of an import but the patches), in
order. -/
def createsOf (trace : List Effect) : List Request :=
  ((httpOf trace).map Prod.fst).filter fun req => !isPatch req

/-- The remote side answers every request with a response. -/
def Responsive {σ : Type} (remote : Remote σ) : Prop :=
  ∀ s req, ∃ resp, (remote.send s req).2 = Reply.response resp

/-- The create request for the root document of the API directory `e`, when
the file can be opened. -/
def plannedApi (flags : ApigeeFlags) (env : Env) (e : String) : List Request :=
  match env.readFile (baseDir ++ "/" ++ e ++ "/" ++ e ++ ".json") with
  | some byteValue =>
    [{ call := .createApi flags.Project flags.Region e, token := flags.Token
       body := .raw byteValue }]
  | none => []

/-- The create request for the deployment file `f`, when it can be opened. -/
def plannedFile (flags : ApigeeFlags) (env : Env) (e f : String) : List Request :=
  if isDeploymentFile f then
    match env.readFile (baseDir ++ "/" ++ e ++ "/" ++ f) with
    | some byteValue =>
      [{ call := .createDeployment flags.Project flags.Region (ReplaceAll f ".json" "")
         token := flags.Token, body := .raw byteValue }]
    | none => []
  else []

/-- The step of the map `apiVersions` for the file `f` of a listing. -/
def recordFile (m : GoMap (List String)) (f : String) : GoMap (List String) :=
  if isDeploymentFile f then recordName m (apiVersionNameOf f) (ReplaceAll f ".json" "") else m

/-- The map `apiVersions` of an import after the listing `files`. -/
def importMap (files : List String) : GoMap (List String) :=
  files.foldl recordFile []

/-- The create request for the spec of the deployment `d` under the version
`k`, when the file can be opened. -/
def plannedSpec (flags : ApigeeFlags) (env : Env) (e k d : String) : List Request :=
  match env.readFile (baseDir ++ "/" ++ e ++ "/" ++ d ++ "-oas.json") with
  | some byteValue =>
    [{ call := .createSpec flags.Project flags.Region e k d, token := flags.Token
       body := .raw byteValue }]
  | none => []

/-- The create request for the version document of the key `k`, when the file
can be opened. -/
def plannedVersionDoc (flags : ApigeeFlags) (env : Env) (codec : Codec) (e k : String) :
    List Request :=
  match env.readFile (baseDir ++ "/" ++ e ++ "/" ++ k ++ ".json") with
  | some byteValue =>
    [{ call := .createVersion flags.Project flags.Region e k, token := flags.Token
       body := .version (codec.unmarshalVersion byteValue) }]
  | none => []

/-- The create requests for a map entry: the version document, then the specs
of its deployments. -/
def plannedVersion (flags : ApigeeFlags) (env : Env) (codec : Codec) (e : String)
    (kv : String × List String) : List Request :=
  plannedVersionDoc flags env codec e kv.1 ++ kv.2.flatMap (plannedSpec flags env e kv.1)

/-- The create requests for the API directory `e`: the API, the deployments in
listing order, then versions and specs in the order the map is visited. -/
def plannedEntry (flags : ApigeeFlags) (env : Env) (codec : Codec) (e : String) :
    List Request :=
  if flags.ApiName = "" ∨ flags.ApiName = e then
    plannedApi flags env e ++
      ((env.readDir (baseDir ++ "/" ++ e)).getD []).flatMap (plannedFile flags env e) ++
      (env.order.iter (importMap ((env.readDir (baseDir ++ "/" ++ e)).getD []))).flatMap
        (plannedVersion flags env codec e)
  else []

/-- The create requests of an import of the local store. -/
def plannedCreates (flags : ApigeeFlags) (env : Env) (codec : Codec) : List Request :=
  ((env.readDir baseDir).getD []).flatMap (plannedEntry flags env codec)

/-- The state of the remote side after the given calls were sent one after the
other. -/
def remoteAfter {σ : Type} (remote : Remote σ) : σ → List (Request × Reply) → σ
  | s, [] => s
  | s, (req, _) :: rest => remoteAfter remote (remote.send s req).1 rest

/-- The replies noted with the calls are the ones the remote side gives when
the calls are sent one after the other from the state `s`. -/
def Recorded {σ : Type} (remote : Remote σ) : σ → List (Request × Reply) → Prop
  | _, [] => True
  | s, (req, reply) :: rest =>
    (remote.send s req).2 = reply ∧ Recorded remote (remote.send s req).1 rest

/-! ## A model of the remote catalog -/

/-- Modelled from the spec: the identity of a resource of the remote catalog,
by kind and ids (the catalog is a service outside the repository). -/
inductive ResourceId where
  | api (project region id : String)
  | deployment (project region id : String)
  | version (project region api id : String)
  | spec (project region api version id : String)
  deriving DecidableEq, Repr

/-- Modelled from the spec: the remote catalog, the stored body of every
resource that exists. -/
abbrev Catalog := List (ResourceId × Body)

/-- Modelled from the spec: the stored body of a resource, if it exists. -/
def catalogGet : Catalog → ResourceId → Option Body
  | [], _ => none
  | (id', body) :: rest, id => if id' = id then some body else catalogGet rest id

/-- Modelled from the spec: storing a body under a resource id. -/
def catalogPut : Catalog → ResourceId → Body → Catalog
  | [], id, body => [(id, body)]
  | (id', body') :: rest, id, body =>
    if id' = id then (id', body) :: rest else (id', body') :: catalogPut rest id body

/-- Modelled from the spec: the resource a create call creates. -/
def createdBy : Call → Option ResourceId
  | .createApi project region apiId => some (.api project region apiId)
  | .createDeployment project region deploymentId =>
    some (.deployment project region deploymentId)
  | .createVersion project region api versionId =>
    some (.version project region api versionId)
  | .createSpec project region api version specId =>
    some (.spec project region api version specId)
  | _ => none

/-- Modelled from the spec: a patch with `updateMask=deployments` replaces only
the deployments list of the stored version. -/
def withDeployments (stored payload : Body) : Body :=
  match stored, payload with
  | .version v, .version w => .version { v with Deployments := w.Deployments }
  | _, _ => stored

/-- Modelled from the spec: creating an existing id answers 409 and leaves the
catalog unchanged, creating a new id stores the body, a patch of an existing
version replaces its deployments list (a patch of a missing one answers 404);
the calls an import does not make are answered 200 and change nothing. -/
def catalogSend (c : Catalog) (req : Request) : Catalog × Reply :=
  match req.call with
  | .patchVersion project region api versionId =>
    match catalogGet c (.version project region api versionId) with
    | some stored =>
      (catalogPut c (.version project region api versionId) (withDeployments stored req.body),
        .response ⟨200, "200 OK", ""⟩)
    | none => (c, .response ⟨404, "404 Not Found", ""⟩)
  | call =>
    match createdBy call with
    | some id =>
      match catalogGet c id with
      | some _ => (c, .response ⟨409, "409 Conflict", ""⟩)
      | none => (catalogPut c id req.body, .response ⟨200, "200 OK", ""⟩)
    | none => (c, .response ⟨200, "200 OK", ""⟩)

/-- Modelled from the spec: the remote catalog as a remote side. -/
def catalogRemote : Remote Catalog := ⟨catalogSend⟩

/-! ## Examples of an import -/

/-- A local API Hub store with the API `orders`: the root document, two
deployments of the version `orders-v1`, the version document, and the spec of
the AWS deployment. -/
def hubEnv : Env :=
  { defaultToken := none
    readDir := fun path =>
      if path = "src/main/apihub/apiproxies" then some ["orders"]
      else if path = "src/main/apihub/apiproxies/orders" then
        some ["orders-v1-aws-oas.json", "orders-v1-aws.json", "orders-v1-azure.json",
          "orders-v1.json", "orders.json"]
      else none
    openRecord := fun _ => none
    readFile := fun path =>
      if path = "src/main/apihub/apiproxies/orders/orders.json" then some [1]
      else if path = "src/main/apihub/apiproxies/orders/orders-v1-aws.json" then some [2]
      else if path = "src/main/apihub/apiproxies/orders/orders-v1-azure.json" then some [3]
      else if path = "src/main/apihub/apiproxies/orders/orders-v1.json" then some [4]
      else if path = "src/main/apihub/apiproxies/orders/orders-v1-aws-oas.json" then some [5]
      else none
    order := insertionOrder }

/-- A decoder that reads every version file as the version `orders-v1` with its
two deployments, and every list response as the empty list. -/
def exCodec : Codec :=
  { unmarshalVersion := fun _ =>
      { Name := "projects/p/locations/r/apis/orders/versions/orders-v1"
        DisplayName := "Orders on AWS"
        Description := "Root description"
        Documentation := { ExternalUri := "" }
        Deployments := ["projects/p/locations/r/deployments/orders-v1-aws",
          "projects/p/locations/r/deployments/orders-v1-azure"] }
    unmarshalApis := fun _ => []
    unmarshalVersions := fun _ => []
    unmarshalSpecs := fun _ => []
    unmarshalContents := fun _ => default
    unmarshalDeployments := fun _ => [] }

/-- A remote side that answers every request with the given status code. -/
def answering (code : Nat) : Remote Unit :=
  ⟨fun s _ => (s, .response ⟨code, "status", ""⟩)⟩

/-- A remote side that cannot be reached. -/
def unreachable : Remote Unit :=
  ⟨fun s _ => (s, .failed "connection refused")⟩

/-- Every HTTP call of the trace is a call of the kind `Q`. -/
def CallsAll (Q : Call → Prop) (t : List Effect) : Prop :=
  ∀ req reply, (req, reply) ∈ httpOf t → Q req.call

/-- The state of the remote side after a block and the replies noted in its
trace are the ones the remote side gives when the calls of the trace are sent
one after the other from the state the block started in. -/
def Faithful {σ : Type} (remote : Remote σ) (s : ImportState σ)
    (r : Outcome (ImportState σ)) : Prop :=
  r.state.remote = remoteAfter remote s.remote (httpOf r.trace) ∧
    Recorded remote s.remote (httpOf r.trace)

/-- The body an import sends for the version `k` of the API directory `e`: the
decoded version file. -/
def versionBodyOf (env : Env) (codec : Codec) (e k : String) : Body :=
  .version (codec.unmarshalVersion
    ((env.readFile (baseDir ++ "/" ++ e ++ "/" ++ k ++ ".json")).getD []))

/-- The create or the patch of a version carries the decoded version file of
the local store. -/
def FromStore (env : Env) (codec : Codec) (req : Request) : Prop :=
  match req.call with
  | .createVersion _ _ e k => req.body = versionBodyOf env codec e k
  | .patchVersion _ _ e k => req.body = versionBodyOf env codec e k
  | _ => True

/-- The resource a call of an import is about: the one a create creates, the
version a patch updates. -/
def targetOf : Call → Option ResourceId
  | .patchVersion project region api versionId => some (.version project region api versionId)
  | call => createdBy call

/-- Every version stored in the catalog is the decoded version file of the
local store. -/
def StoredFromStore (env : Env) (codec : Codec) (c : Catalog) : Prop :=
  ∀ project region e k body, catalogGet c (.version project region e k) = some body →
    body = versionBodyOf env codec e k

/-! ## Go `strconv.Atoi` and `getApigeeApiLatestVersion` -/

/-- The number a string of decimal digits denotes. -/
def digitsValue (ds : List Char) : Nat :=
  ds.foldl (fun acc c => 10 * acc + (c.toNat - 48)) 0

/-- The greatest value of the type `int` (64 bits). -/
def maxInt : Int := 2 ^ 63 - 1

/-- The least value of the type `int` (64 bits). -/
def minInt : Int := -2 ^ 63

/-- The errors of `strconv`: `ErrSyntax` and `ErrRange`. -/
inductive NumError where
  | errSyntax
  | errRange
  deriving DecidableEq, Repr

/-- The greatest value of the type `uint64`. -/
def maxUint64 : Nat := 2 ^ 64 - 1

/-- The loop of `strconv.ParseUint(s, 10, 64)` over the bytes of `s`, from the
value `n`: a byte that is no decimal digit ends it with `ErrSyntax`; a digit
met when `n` is at the cutoff `maxUint64/10 + 1` or above, or that takes the
value above `maxUint64`, ends it with `ErrRange`. -/
def parseUintFrom : List Char → Nat → Except NumError Nat
  | [], n => .ok n
  | c :: rest, n =>
    if c.isDigit then
      if n ≥ maxUint64 / 10 + 1 then .error .errRange
      else if n * 10 + (c.toNat - 48) > maxUint64 then .error .errRange
      else parseUintFrom rest (n * 10 + (c.toNat - 48))
    else .error .errSyntax

/-- The function `strconv.ParseUint(s, 10, 64)`: the value and the error it
returns (the empty text is an `ErrSyntax`; with `ErrRange` the value is
`maxUint64`, with `ErrSyntax` it is 0). -/
def ParseUint (s : List Char) : Nat × Option NumError :=
  if s = [] then (0, some .errSyntax)
  else
    match parseUintFrom s 0 with
    | .ok n => (n, none)
    | .error .errRange => (maxUint64, some .errRange)
    | .error .errSyntax => (0, some .errSyntax)

/-- The value `strconv.ParseInt(s, 10, 0)` returns on a system whose `int` has
64 bits: the sign is picked off, the rest goes through `ParseUint`; an
`ErrSyntax` gives 0, a value out of range gives the nearest value of `int`. -/
def ParseInt (s : List Char) : Int :=
  if s = [] then 0
  else
    let neg : Bool := s.head? == some '-'
    let rest := if s.head? = some '+' ∨ s.head? = some '-' then s.tail else s
    match ParseUint rest with
    | (_, some .errSyntax) => 0
    | (un, _) =>
      if neg = false ∧ un ≥ 2 ^ 63 then 2 ^ 63 - 1
      else if neg = true ∧ un > 2 ^ 63 then -2 ^ 63
      else if neg = true then -(un : Int)
      else (un : Int)

/-- The value `v` of `v, _ := strconv.Atoi(s)` on a system whose `int` has 64
bits.  A text of 1 to 18 bytes takes the fast path: after an optional sign,
one or more ASCII digits give the number, every other text gives 0.  Every
other text goes through `ParseInt`. -/
def Atoi (s : String) : Int :=
  if 0 < s.utf8ByteSize ∧ s.utf8ByteSize < 19 then
    let signed : Bool := s.data.head? == some '-' || s.data.head? == some '+'
    let ds := if signed then s.data.tail else s.data
    if ds = [] then 0
    else if ds.all Char.isDigit = true then
      if s.data.head? = some '-' then -(digitsValue ds : Int) else (digitsValue ds : Int)
    else 0
  else ParseInt s.data

/-- The loop of lines 665-672 over `apigeeApi.Revision`, from `result`. -/
def latestFrom (result : String) (revisions : List String) : String :=
  revisions.foldl (fun result value => if Atoi value > Atoi result then value else result)
    result

/-- The function `getApigeeApiLatestVersion` (lines 652-677) on what the GET
returned: with a response the revisions decoded from its body are scanned
from the empty `result`; without one the result stays empty. -/
def getApigeeApiLatestVersion (unmarshalRevisions : String → List String) (reply : Reply) :
    String :=
  match reply with
  | .response resp => latestFrom "" (unmarshalRevisions resp.Body)
  | .failed _ => ""

/-- The text is a decimal numeral of a positive integer: one or more ASCII
digits, with a value above 0. -/
def IsPositiveNumeral (s : String) : Prop :=
  s.data ≠ [] ∧ s.data.all Char.isDigit = true ∧ 0 < digitsValue s.data

/-! ## An example of a clean -/

/-- A decoder that reads the list of APIs as `orders` and `payments` and the
list of deployments as one AWS deployment of each. -/
def cleanCodec : Codec :=
  { exCodec with
    unmarshalApis := fun _ =>
      [{ (default : HubApi) with Name := "projects/p/locations/r/apis/orders" },
        { (default : HubApi) with Name := "projects/p/locations/r/apis/payments" }]
    unmarshalDeployments := fun _ =>
      [{ (default : HubApiDeployment) with
          Name := "projects/p/locations/r/deployments/orders-v1-aws" },
        { (default : HubApiDeployment) with
          Name := "projects/p/locations/r/deployments/payments-v1-aws" }] }

/-- The calls of a run, in order. -/
def callsOf (trace : List Effect) : List Call :=
  (httpOf trace).map fun x => x.1.call

/-! ## The names of the documents of one API directory -/

/-- The names under which a complete pass over the API directory `apiName`
files its documents, in the order it writes them: the API key; for every
deployment record its name and, when it has a spec, its name followed by
`-oas`; then the version keys in the order the map is visited. -/
def documentNames (flags : ApigeeFlags) (env : Env) (apiName : String) : List String :=
  apiName ::
    ((deploymentRecords env apiName (fileEntriesOf env apiName)).flatMap (fun fr =>
        fr.2.Name ::
          match env.readFile
            (generalBaseDir ++ "/" ++ apiName ++ "/" ++ fr.2.Name ++ "-oas.json") with
          | some _ => [fr.2.Name ++ "-oas"]
          | none => []) ++
      (env.order.iter (apiVersionsOf flags env apiName)).map Prod.fst)

/-- A general store with the API `orders` and one deployment file without a
version suffix, `orders-aws.json`. -/
def unversionedEnv : Env :=
  { defaultToken := none
    readDir := fun path =>
      if path = "src/main/general/apiproxies" then some ["orders"]
      else if path = "src/main/general/apiproxies/orders" then
        some ["orders-aws.json", "orders.json"]
      else none
    openRecord := fun path =>
      if path = "src/main/general/apiproxies/orders/orders.json" then some ordersRoot
      else if path = "src/main/general/apiproxies/orders/orders-aws.json" then
        some (exRecord "orders-aws" "Orders on AWS" "First description")
      else none
    readFile := fun _ => none
    order := insertionOrder }

/-! ## The order the version map is visited in -/

/-- The surroundings `env` with the map visited in the given order; nothing
else changes. -/
def withOrder (env : Env) (order : MapOrder) : Env :=
  { env with order := order }

/-- The document found at `path` after the writes, when `found` was there
before: the last write to the path wins. -/
def storeFrom (path : String) (found : Option Doc) (writes : List (String × Doc)) :
    Option Doc :=
  writes.foldl (fun found pd => if pd.1 = path then some pd.2 else found) found

/-- The document at `path` in the store the writes leave, started empty. -/
def storeAfter (writes : List (String × Doc)) (path : String) : Option Doc :=
  storeFrom path none writes

/-- Two traces write the same documents (paths and contents, as many times),
and leave the same document at every path whatever was there before. -/
def SameWrites (t1 t2 : List Effect) : Prop :=
  (writesOf t1).Perm (writesOf t2) ∧
    ∀ path found, storeFrom path found (writesOf t1) = storeFrom path found (writesOf t2)

/-- Two passes end the same way, with the same writes. -/
def SameOutcome (r1 r2 : Except (List Effect) (List Effect)) : Prop :=
  completed r1 = completed r2 ∧ SameWrites (outcomeTrace r1) (outcomeTrace r2)

/-! ## The import of what an onramp wrote -/

/-- The deployment ids an import files under the version key `k` for the
listing `files`, in listing order. -/
def importGroup (k : String) (files : List String) : List String :=
  ((files.filter isDeploymentFile).filter fun f => apiVersionNameOf f = k).map
    fun f => ReplaceAll f ".json" ""

/-- The resource name of the deployment with the id `d`. -/
def deploymentResource (flags : ApigeeFlags) (d : String) : String :=
  "projects/" ++ flags.Project ++ "/locations/" ++ flags.Region ++ "/deployments/" ++ d

/-- The record is named after its file: the file is the record name followed
by `.json`, and removing `.json` from the file name gives the record name. -/
def NamedAfterFile (fr : String × GeneralApi) : Prop :=
  fr.1 = fr.2.Name ++ ".json" ∧ ReplaceAll fr.1 ".json" "" = fr.2.Name

instance (fr : String × GeneralApi) : Decidable (NamedAfterFile fr) := by
  unfold NamedAfterFile; infer_instance

/-- A general store with the API `orders` whose deployment file
`orders-v1-aws.json` holds a record with another name, `orders-prod`. -/
def renamedEnv : Env :=
  { defaultToken := none
    readDir := fun path =>
      if path = "src/main/general/apiproxies" then some ["orders"]
      else if path = "src/main/general/apiproxies/orders" then
        some ["orders-v1-aws.json", "orders.json"]
      else none
    openRecord := fun path =>
      if path = "src/main/general/apiproxies/orders/orders.json" then some ordersRoot
      else if path = "src/main/general/apiproxies/orders/orders-v1-aws.json" then
        some (exRecord "orders-prod" "Orders on AWS" "First description")
      else none
    readFile := fun _ => none
    order := insertionOrder }

/-! ## Go `path/filepath` on a system with the separator `/` -/

/-- Go `strings.HasPrefix(s, prefix)`. -/
def HasPrefix (s pre : String) : Bool :=
  pre.data.isPrefixOf s.data

/-- One step of `filepath.Clean` on the next path element, `out` being the
elements kept so far: an empty element and `.` are dropped; `..` removes the
last kept element when that is a name, is kept when the path is not rooted
and nothing can be removed, and is dropped at the root; a name is kept. -/
def cleanStep (rooted : Bool) (out : List (List Char)) (c : List Char) : List (List Char) :=
  if c = [] ∨ c = ['.'] then out
  else if c = ['.', '.'] then
    match out.getLast? with
    | some top =>
      if top = ['.', '.'] then (if rooted then out else out ++ [c]) else out.dropLast
    | none => if rooted then out else out ++ [c]
  else out ++ [c]

/-- Path elements joined by `/`. -/
def joinElements : List (List Char) → List Char
  | [] => []
  | [c] => c
  | c :: d :: rest => c ++ '/' :: joinElements (d :: rest)

/-- The text of a cleaned path: the kept elements joined by `/`, after a `/`
when the path is rooted; `.` when nothing is kept and the path is not
rooted. -/
def renderPath (rooted : Bool) (out : List (List Char)) : List Char :=
  if rooted then '/' :: joinElements out
  else if out = [] then ['.'] else joinElements out

/-- The kept elements of `filepath.Clean(path)`. -/
def cleanElements (path : List Char) : List (List Char) :=
  (splitOnChar '/' path).foldl (cleanStep (path.head? = some '/')) []

/-- Go `filepath.Clean(path)`. -/
def Clean (path : String) : String :=
  ⟨renderPath (path.data.head? = some '/') (cleanElements path.data)⟩

/-- Go `filepath.Join(a, b)`: the non-empty arguments joined by `/` and
cleaned; the empty string when both are empty. -/
def Join (a b : String) : String :=
  if a ≠ "" then Clean (a ++ "/" ++ b)
  else if b ≠ "" then Clean b
  else ""

/-- The part of a path up to and including its last `/`. -/
def dirPart (path : List Char) : List Char :=
  (path.reverse.dropWhile fun c => c ≠ '/').reverse

/-- Go `filepath.Dir(path)`. -/
def Dir (path : String) : String :=
  Clean ⟨dirPart path.data⟩

/-! ## `unzipApigeeBundle` -/

/-- An entry of a zip archive: its name, whether its mode says directory, and
its content. -/
structure ZipEntry where
  Name : String
  IsDir : Bool
  Content : List Byte
  deriving DecidableEq, Repr

/-- What `unzipApigeeBundle` meets: the archive `zip.OpenReader` reads at a
path, if any, and which calls fail. -/
structure ZipEnv where
  openReader : String → Option (List ZipEntry)
  mkdirAllFails : String → Bool
  openFileFails : String → Bool
  readFails : ZipEntry → Bool

/-- The calls of `unzipApigeeBundle` to the operating system, in order. -/
inductive ZipEffect where
  | mkdir (path : String)
  | openReader (path : String)
  | println (line : String)
  | mkdirAll (path : String)
  | openFile (path : String)
  | copy (path : String) (content : List Byte)
  deriving DecidableEq, Repr

/-- How the function ends. -/
inductive ZipExit where
  | returned
  | panicked
  deriving DecidableEq, Repr

/-- The test of line 510 on the joined path. -/
def insideTarget (zipBaseBath filePath : String) : Bool :=
  HasPrefix filePath (Clean zipBaseBath ++ "/")

/-- The loop over `archive.File` (lines 507-539): the effects, and how the
function ends. -/
def unzipEntries (env : ZipEnv) (zipBaseBath : String) :
    List ZipEntry → List ZipEffect × ZipExit
  | [] => ([], .returned)
  | f :: rest =>
    let filePath := Join zipBaseBath f.Name
    if insideTarget zipBaseBath filePath = false then
      ([.println "invalid file path"], .returned)
    else if f.IsDir then
      let others := unzipEntries env zipBaseBath rest
      (.mkdirAll filePath :: others.1, others.2)
    else if env.mkdirAllFails (Dir filePath) then
      ([.mkdirAll (Dir filePath)], .panicked)
    else if env.openFileFails filePath then
      ([.mkdirAll (Dir filePath), .openFile filePath], .panicked)
    else if env.readFails f then
      ([.mkdirAll (Dir filePath), .openFile filePath], .panicked)
    else
      let others := unzipEntries env zipBaseBath rest
      (.mkdirAll (Dir filePath) :: .openFile filePath :: .copy filePath f.Content :: others.1,
        others.2)

/-- The function `unzipApigeeBundle` (lines 498-540). -/
def unzipApigeeBundle (env : ZipEnv) (basePath name : String) : List ZipEffect × ZipExit :=
  let zipBaseBath := basePath ++ "/" ++ name
  match env.openReader (basePath ++ "/" ++ name ++ ".zip") with
  | none =>
    ([.mkdir (basePath ++ "/" ++ name), .openReader (basePath ++ "/" ++ name ++ ".zip")],
      .panicked)
  | some files =>
    let extracted := unzipEntries env zipBaseBath files
    (.mkdir (basePath ++ "/" ++ name) :: .openReader (basePath ++ "/" ++ name ++ ".zip") ::
      extracted.1, extracted.2)

/-- A path element that is a name: not empty, not `.` and not `..`. -/
def properName (c : List Char) : Bool :=
  c ≠ [] && c ≠ ['.'] && c ≠ ['.', '.']

/-- The text after the prefix, when the text starts with it. -/
def dropPrefix? : List Char → List Char → Option (List Char)
  | [], l => some l
  | _ :: _, [] => none
  | a :: as, b :: bs => if a = b then dropPrefix? as bs else none

/-- The path lies strictly below the directory `target`: it is the text of
`target`, a `/`, and one or more names separated by `/`. -/
def liesBelow (target path : String) : Bool :=
  match dropPrefix? (target.data ++ ['/']) path.data with
  | some rest => (splitOnChar '/' rest).all properName
  | none => false

/-- The paths the function creates a file at or asks to have as directories
(below the target directory made at the start). -/
def createdPaths (trace : List ZipEffect) : List String :=
  trace.filterMap fun e =>
    match e with
    | .mkdirAll path => some path
    | .openFile path => some path
    | _ => none

/-- The cleaned path is `..` or ends in the element `..`. -/
def endsInDotDot (path : String) : Bool :=
  path == ".." || HasSuffix path "/.."

/-- A surrounding in which the archive holds the given entries and no call
fails. -/
def zipOf (files : List ZipEntry) : ZipEnv :=
  { openReader := fun _ => some files
    mkdirAllFails := fun _ => false
    openFileFails := fun _ => false
    readFails := fun _ => false }

/-- The shape of the elements `filepath.Clean` keeps: `..` elements, none when
the path is rooted, followed by names. -/
def CleanForm (rooted : Bool) (s : List (List Char)) : Prop :=
  ∃ n names, s = List.replicate n ['.', '.'] ++ names ∧
    (∀ c ∈ names, properName c = true ∧ '/' ∉ c) ∧ (rooted = true → n = 0)

/-! ## Requests that can be built -/

/-- The request can be built: `url.Parse` accepts its URL and, when it is the
create of a version, the URL of the patch that follows an answer 409. -/
def built (req : Request) : Bool :=
  parses req.call.url &&
    match patchOf req with
    | some patch => parses patch.call.url
    | none => true

/-- Every request an import of the local store may send can be built: the
names of the project, the region, the API directories and their files give
URLs that `url.Parse` accepts. -/
def Buildable (flags : ApigeeFlags) (env : Env) (codec : Codec) : Prop :=
  ∀ req ∈ plannedCreates flags env codec, built req = true

instance (flags : ApigeeFlags) (env : Env) (codec : Codec) :
    Decidable (Buildable flags env codec) := by
  unfold Buildable; infer_instance

/-- A local API Hub store whose API `orders` has the version keys `x%zz-v1` and
`y-v1`, one deployment each and no spec: the URL of the create of the version
`x%zz-v1` carries the key in its query and parses, the URL of its patch
carries the key in its path and does not. -/
def percentEnv : Env :=
  { defaultToken := none
    readDir := fun path =>
      if path = "src/main/apihub/apiproxies" then some ["orders"]
      else if path = "src/main/apihub/apiproxies/orders" then
        some ["orders.json", "x%zz-v1-aws.json", "x%zz-v1.json", "y-v1-aws.json", "y-v1.json"]
      else none
    openRecord := fun _ => none
    readFile := fun path =>
      if path = "src/main/apihub/apiproxies/orders/orders.json" then some [1]
      else if path = "src/main/apihub/apiproxies/orders/x%zz-v1-aws.json" then some [2]
      else if path = "src/main/apihub/apiproxies/orders/x%zz-v1.json" then some [3]
      else if path = "src/main/apihub/apiproxies/orders/y-v1-aws.json" then some [4]
      else if path = "src/main/apihub/apiproxies/orders/y-v1.json" then some [5]
      else none
    order := insertionOrder }

/-! ## Listings with a file that cannot be opened, or with a name used twice -/

/-- The store of `ordersEnv` in which the listed file `orders-v1-azure.json`
cannot be opened. -/
def lockedEnv : Env :=
  { ordersEnv with
    openRecord := fun path =>
      if path = "src/main/general/apiproxies/orders/orders-v1-azure.json" then none
      else ordersEnv.openRecord path }

/-- The store of `ordersEnv` in which the file `orders-v1-azure.json` holds a
record with the name of the AWS record, `orders-v1-aws`. -/
def twinEnv : Env :=
  { ordersEnv with
    openRecord := fun path =>
      if path = "src/main/general/apiproxies/orders/orders-v1-azure.json" then
        some (exRecord "orders-v1-aws" "Orders on Azure" "Second description")
      else ordersEnv.openRecord path }

/-! ## Two imports of one store against the catalog -/

/-- Every request of the trace is one of the kind `Q`. -/
def SendsAll (Q : Request → Prop) (t : List Effect) : Prop :=
  ∀ req reply, (req, reply) ∈ httpOf t → Q req

/-- Every request of the trace carries the body the store gives and is about
the resource that a create of the same trace creates. -/
def Grounded (env : Env) (codec : Codec) (t : List Effect) : Prop :=
  ∀ req reply, (req, reply) ∈ httpOf t →
    FromStore env codec req ∧
      ∃ y ∈ createsOf t, ∃ id, createdBy y.call = some id ∧ targetOf req.call = some id

/-- Every resource of the catalog `c` exists in the catalog `c'`. -/
def Covers (c' c : Catalog) : Prop :=
  ∀ id, (catalogGet c id).isSome = true → (catalogGet c' id).isSome = true

/-- A pass `r2` of a block against the catalog follows a pass `r1` of the same
block: provided the resources that the creates of `r1` create exist in the
catalog `c`, every create of `r2` is a create of `r1`, and when `r2` ran to its
end so did `r1`, with the same map `apiVersions`. -/
def Follows {σ : Type} (c : Catalog) (r1 : Outcome (ImportState σ))
    (r2 : Outcome (ImportState Catalog)) : Prop :=
  (∀ req ∈ createsOf r1.trace, ∀ id, createdBy req.call = some id →
      (catalogGet c id).isSome = true) →
    (∀ req ∈ createsOf r2.trace, req ∈ createsOf r1.trace) ∧
      (r2.finished = true → r1.finished = true ∧ r1.state.apiVersions = r2.state.apiVersions)

/-- The block `b2`, run against a catalog that covers `c`, follows the block
`b1` run from a state with the same map. -/
def BlockFollows {σ : Type} (c : Catalog)
    (b1 : ImportState σ → Outcome (ImportState σ))
    (b2 : ImportState Catalog → Outcome (ImportState Catalog)) : Prop :=
  ∀ s1 s2, s1.apiVersions = s2.apiVersions → Covers s2.remote c → Follows c (b1 s1) (b2 s2)

/-! ## Lemmas on maps -/

theorem mapGet_mapSet {β : Type} (m : GoMap β) (k k' : String) (v : β) :
    mapGet (mapSet m k v) k' = if k = k' then some v else mapGet m k' := by
  induction m with
  | nil =>
    simp only [mapSet, mapGet]
  | cons hd tl ih =>
    obtain ⟨k0, v0⟩ := hd
    by_cases h0 : k0 = k
    · subst h0
      by_cases h1 : k0 = k' <;> simp [mapSet, mapGet, h1]
    · by_cases h1 : k0 = k'
      · subst h1
        have : ¬ k = k0 := fun h => h0 h.symm
        simp [mapSet, mapGet, h0, this]
      · simp [mapSet, mapGet, h0, h1, ih]

theorem mapGet_eq_none_iff {β : Type} (m : GoMap β) (k : String) :
    mapGet m k = none ↔ k ∉ m.map Prod.fst := by
  induction m with
  | nil => simp [mapGet]
  | cons hd tl ih =>
    obtain ⟨k0, v0⟩ := hd
    by_cases h0 : k0 = k
    · simp [mapGet, h0]
    · have : ¬ k = k0 := fun h => h0 h.symm
      simp [mapGet, h0, ih, this]

theorem keys_mapSet {β : Type} (m : GoMap β) (k : String) (v : β) :
    (mapSet m k v).map Prod.fst =
      if k ∈ m.map Prod.fst then m.map Prod.fst else m.map Prod.fst ++ [k] := by
  induction m with
  | nil => simp [mapSet]
  | cons hd tl ih =>
    obtain ⟨k0, v0⟩ := hd
    by_cases h0 : k0 = k
    · simp [mapSet, h0]
    · have h1 : ¬ k = k0 := fun h => h0 h.symm
      simp only [mapSet, h0, if_false, List.map_cons, ih, List.mem_cons, h1, false_or]
      split <;> simp

theorem nodup_keys_mapSet {β : Type} (m : GoMap β) (k : String) (v : β)
    (h : (m.map Prod.fst).Nodup) : ((mapSet m k v).map Prod.fst).Nodup := by
  rw [keys_mapSet]
  split
  · exact h
  · rename_i hk
    exact List.Nodup.append h (List.nodup_singleton k) (by simpa using hk)

theorem mem_iff_mapGet {β : Type} (m : GoMap β) (h : (m.map Prod.fst).Nodup) (k : String)
    (v : β) : (k, v) ∈ m ↔ mapGet m k = some v := by
  induction m with
  | nil => simp [mapGet]
  | cons hd tl ih =>
    obtain ⟨k0, v0⟩ := hd
    simp only [List.map_cons, List.nodup_cons] at h
    by_cases h0 : k0 = k
    · subst h0
      have hnot : ∀ w, (k0, w) ∉ tl := fun w hw => h.1 (List.mem_map_of_mem Prod.fst hw)
      simp only [List.mem_cons, Prod.mk.injEq, true_and, mapGet, if_true, Option.some.injEq,
        hnot, or_false]
      exact eq_comm
    · have h1 : ¬ k = k0 := fun hh => h0 hh.symm
      simp [mapGet, h0, h1, ih h.2]

theorem mapGet_recordDeployment (m : GoMap (List HubApiDeployment)) (k k' : String)
    (d : HubApiDeployment) :
    mapGet (recordDeployment m k d) k' =
      if k = k' then some ((mapGet m k).getD [] ++ [d]) else mapGet m k' := by
  unfold recordDeployment
  cases hg : mapGet m k with
  | none => simp [mapGet_mapSet]
  | some v => simp [mapGet_mapSet]

theorem nodup_keys_recordDeployment (m : GoMap (List HubApiDeployment)) (k : String)
    (d : HubApiDeployment) (h : (m.map Prod.fst).Nodup) :
    ((recordDeployment m k d).map Prod.fst).Nodup := by
  unfold recordDeployment
  cases mapGet m k with
  | none => exact nodup_keys_mapSet m k _ h
  | some v => exact nodup_keys_mapSet m k _ h

theorem nodup_keys_groupDeployments (l : List (String × HubApiDeployment))
    (m : GoMap (List HubApiDeployment)) (h : (m.map Prod.fst).Nodup) :
    ((groupDeployments m l).map Prod.fst).Nodup := by
  induction l generalizing m with
  | nil => exact h
  | cons kd tl ih =>
    exact ih (recordDeployment m kd.1 kd.2) (nodup_keys_recordDeployment m kd.1 kd.2 h)

theorem groupOf_cons {β : Type} (k : String) (kd : String × β) (l : List (String × β)) :
    groupOf k (kd :: l) = if kd.1 = k then kd.2 :: groupOf k l else groupOf k l := by
  unfold groupOf
  by_cases h : kd.1 = k <;> simp [List.filter_cons, h]

theorem mapGet_groupDeployments (l : List (String × HubApiDeployment))
    (m : GoMap (List HubApiDeployment)) (k : String) :
    mapGet (groupDeployments m l) k =
      if groupOf k l = [] then mapGet m k else some ((mapGet m k).getD [] ++ groupOf k l) := by
  induction l generalizing m with
  | nil => simp [groupDeployments, groupOf]
  | cons kd tl ih =>
    have hstep : groupDeployments m (kd :: tl) =
        groupDeployments (recordDeployment m kd.1 kd.2) tl := rfl
    rw [hstep, ih, groupOf_cons, mapGet_recordDeployment]
    by_cases h : kd.1 = k
    · by_cases hg : groupOf k tl = [] <;> simp [h, hg]
    · simp [h]

/-- Every list stored by the grouping has an element, so `v[0]` is in range. -/
theorem groupDeployments_ne_nil (l : List (String × HubApiDeployment)) (k : String)
    (v : List HubApiDeployment) (h : (k, v) ∈ groupDeployments [] l) : v ≠ [] := by
  have hn := nodup_keys_groupDeployments l [] (by simp)
  rw [mem_iff_mapGet _ hn, mapGet_groupDeployments] at h
  by_cases hg : groupOf k l = []
  · simp [hg, mapGet] at h
  · simp [hg, mapGet] at h
    rw [← h]; exact hg

theorem mem_groupDeployments_iff (l : List (String × HubApiDeployment)) (k : String)
    (v : List HubApiDeployment) :
    (k, v) ∈ groupDeployments [] l ↔ v = groupOf k l ∧ groupOf k l ≠ [] := by
  have hn := nodup_keys_groupDeployments l [] (by simp)
  rw [mem_iff_mapGet _ hn, mapGet_groupDeployments]
  by_cases hg : groupOf k l = []
  · simp [hg, mapGet]
  · simp [hg, mapGet, eq_comm]

theorem flatten_mapSet_new (m : GoMap (List HubApiDeployment)) (k : String)
    (v : List HubApiDeployment) (h : mapGet m k = none) :
    (mapSet m k v).flatMap Prod.snd = m.flatMap Prod.snd ++ v := by
  induction m with
  | nil => simp [mapSet]
  | cons hd tl ih =>
    obtain ⟨k0, v0⟩ := hd
    by_cases h0 : k0 = k
    · simp [mapGet, h0] at h
    · simp only [mapGet, h0, if_false] at h
      simp [mapSet, h0, ih h]

theorem flatten_mapSet_append (m : GoMap (List HubApiDeployment)) (k : String)
    (v : List HubApiDeployment) (d : HubApiDeployment) (h : mapGet m k = some v) :
    ((mapSet m k (v ++ [d])).flatMap Prod.snd).Perm (m.flatMap Prod.snd ++ [d]) := by
  induction m with
  | nil => simp [mapGet] at h
  | cons hd tl ih =>
    obtain ⟨k0, v0⟩ := hd
    by_cases h0 : k0 = k
    · simp only [mapGet, h0, if_true, Option.some.injEq] at h
      subst h
      simp only [mapSet, h0, if_true, List.flatMap_cons, List.append_assoc]
      exact List.Perm.append_left _ List.perm_append_comm
    · simp only [mapGet, h0, if_false] at h
      simp only [mapSet, h0, if_false, List.flatMap_cons, List.append_assoc]
      exact List.Perm.append_left _ (ih h)

theorem flatten_recordDeployment (m : GoMap (List HubApiDeployment)) (k : String)
    (d : HubApiDeployment) :
    ((recordDeployment m k d).flatMap Prod.snd).Perm (m.flatMap Prod.snd ++ [d]) := by
  unfold recordDeployment
  cases hg : mapGet m k with
  | none => simp only; rw [flatten_mapSet_new m k [d] hg]
  | some v => exact flatten_mapSet_append m k v d hg

theorem flatten_groupDeployments (l : List (String × HubApiDeployment))
    (m : GoMap (List HubApiDeployment)) :
    ((groupDeployments m l).flatMap Prod.snd).Perm (m.flatMap Prod.snd ++ l.map Prod.snd) := by
  induction l generalizing m with
  | nil => simp [groupDeployments]
  | cons kd tl ih =>
    have hstep : groupDeployments m (kd :: tl) =
        groupDeployments (recordDeployment m kd.1 kd.2) tl := rfl
    rw [hstep]
    refine (ih _).trans ?_
    refine ((flatten_recordDeployment m kd.1 kd.2).append_right _).trans ?_
    simp

/-! ## The grouping pass against its specification-level views -/

theorem writesOf_append (t1 t2 : List Effect) :
    writesOf (t1 ++ t2) = writesOf t1 ++ writesOf t2 := by
  simp [writesOf, List.filterMap_append]

theorem deploymentRecords_cons (env : Env) (apiName f : String) (rest : List String) :
    deploymentRecords env apiName (f :: rest) =
      (if isDeploymentFile f then
        match env.openRecord (generalBaseDir ++ "/" ++ apiName ++ "/" ++ f) with
        | some r => if r.Name ≠ "" then [(f, r)] else []
        | none => []
      else []) ++ deploymentRecords env apiName rest := by
  unfold deploymentRecords
  rw [List.filterMap_cons]
  by_cases hf : isDeploymentFile f = true
  · simp only [hf, if_true]
    cases env.openRecord (generalBaseDir ++ "/" ++ apiName ++ "/" ++ f) with
    | none => simp
    | some r => by_cases hr : r.Name = "" <;> simp [hr]
  · simp [hf]

/-- When every deployment file can be opened the grouping pass completes; the
map it leaves and the documents it writes are those of the listing. -/
theorem groupingPass_ok (flags : ApigeeFlags) (env : Env) (apiName : String)
    (generalApi : GeneralApi) (files : List String) (m : GoMap (List HubApiDeployment))
    (h : AllOpen env apiName files) :
    ∃ t, groupingPass flags env apiName generalApi files m =
        .ok (t, groupDeployments m (keyedDeployments flags env apiName files)) ∧
      writesOf t =
        (deploymentRecords env apiName files).flatMap (fileWrites flags env apiName generalApi) := by
  induction files generalizing m with
  | nil => exact ⟨[], rfl, rfl⟩
  | cons f rest ih =>
    have hrest : AllOpen env apiName rest := fun g hg => h g (List.mem_cons_of_mem f hg)
    by_cases hf : isDeploymentFile f = true
    · have hopen := h f (List.mem_cons_self f rest) hf
      cases hr : env.openRecord (generalBaseDir ++ "/" ++ apiName ++ "/" ++ f) with
      | none => simp [hr] at hopen
      | some r =>
        by_cases hn : r.Name = ""
        · obtain ⟨t, ht, hw⟩ := ih m hrest
          refine ⟨[.println f, .openFile (generalBaseDir ++ "/" ++ apiName ++ "/" ++ f)] ++ t,
            ?_, ?_⟩
          · simp only [groupingPass, onrampFile, hf, if_true, hr, hn, ne_eq, not_true_eq_false,
              if_false, ht, keyedDeployments, deploymentRecords_cons, List.nil_append]
          · rw [writesOf_append, hw, deploymentRecords_cons]
            simp [hf, hr, hn, writesOf]
        · obtain ⟨t, ht, hw⟩ := ih (recordDeployment m (apiVersionNameOf f)
            (hubApiDeployment flags r)) hrest
          have hk : keyedDeployments flags env apiName (f :: rest) =
              (apiVersionNameOf f, hubApiDeployment flags r) ::
                keyedDeployments flags env apiName rest := by
            simp [keyedDeployments, deploymentRecords_cons, hf, hr, hn]
          have hd : deploymentRecords env apiName (f :: rest) =
              (f, r) :: deploymentRecords env apiName rest := by
            simp [deploymentRecords_cons, hf, hr, hn]
          cases hs : env.readFile
              (generalBaseDir ++ "/" ++ apiName ++ "/" ++ r.Name ++ "-oas.json") with
          | none =>
            refine ⟨[.println f, .openFile (generalBaseDir ++ "/" ++ apiName ++ "/" ++ f),
              .println r.Name,
              .writeFile (baseDir ++ "/" ++ apiName ++ "/" ++ r.Name ++ ".json")
                (.deployment (hubApiDeployment flags r)),
              .readFile (generalBaseDir ++ "/" ++ apiName ++ "/" ++ r.Name ++ "-oas.json")]
              ++ t, ?_, ?_⟩
            · simp only [groupingPass, onrampFile, hf, if_true, hr, hn, ne_eq,
                not_false_eq_true, hs, ht, hk]
              rfl
            · rw [writesOf_append, hw, hd]
              simp [fileWrites, hs, writesOf]
          | some b =>
            refine ⟨([.println f, .openFile (generalBaseDir ++ "/" ++ apiName ++ "/" ++ f),
              .println r.Name,
              .writeFile (baseDir ++ "/" ++ apiName ++ "/" ++ r.Name ++ ".json")
                (.deployment (hubApiDeployment flags r)),
              .readFile (generalBaseDir ++ "/" ++ apiName ++ "/" ++ r.Name ++ "-oas.json")]
              ++ [.writeFile (baseDir ++ "/" ++ apiName ++ "/" ++ r.Name ++ "-oas.json")
                (.spec (hubApiVersionSpec flags apiName (apiVersionNameOf f) generalApi r b))])
              ++ t, ?_, ?_⟩
            · simp only [groupingPass, onrampFile, hf, if_true, hr, hn, ne_eq,
                not_false_eq_true, hs, ht, hk]
              rfl
            · rw [writesOf_append, hw, hd]
              simp [fileWrites, hs, writesOf]
    · obtain ⟨t, ht, hw⟩ := ih m hrest
      refine ⟨[] ++ t, ?_, ?_⟩
      · simp only [groupingPass, onrampFile, hf, Bool.false_eq_true, if_false, ht,
          keyedDeployments, deploymentRecords_cons, List.nil_append]
      · rw [writesOf_append, hw, deploymentRecords_cons]
        simp [hf, writesOf]

theorem writesOf_versionPass (flags : ApigeeFlags) (apiName : String) (generalApi : GeneralApi)
    (visited : GoMap (List HubApiDeployment)) :
    writesOf (versionPass flags apiName generalApi visited) =
      visited.map (versionWrite flags apiName generalApi) := by
  induction visited with
  | nil => rfl
  | cons kv tl ih =>
    simp only [versionPass, List.map_cons] at ih ⊢
    simp only [writesOf, List.filterMap_cons] at ih ⊢
    rw [ih]
    rfl

/-- When every deployment file can be opened, the pass over one API directory
completes and writes the API document, then the documents of each deployment
record, then one version document per entry of the map. -/
theorem onrampApi_ok (flags : ApigeeFlags) (env : Env) (apiName : String)
    (generalApi : GeneralApi) (h : AllOpen env apiName (fileEntriesOf env apiName)) :
    ∃ t, onrampApi flags env apiName generalApi = .ok t ∧
      writesOf t =
        (baseDir ++ "/" ++ apiName ++ "/" ++ apiName ++ ".json",
            Doc.api (hubApi flags apiName generalApi)) ::
          ((deploymentRecords env apiName (fileEntriesOf env apiName)).flatMap
              (fileWrites flags env apiName generalApi) ++
            (env.order.iter (apiVersionsOf flags env apiName)).map
              (versionWrite flags apiName generalApi)) := by
  obtain ⟨t, ht, hw⟩ := groupingPass_ok flags env apiName generalApi
    (fileEntriesOf env apiName) [] h
  unfold fileEntriesOf at ht hw
  refine ⟨[.mkdirAll (baseDir ++ "/" ++ apiName),
      .writeFile (baseDir ++ "/" ++ apiName ++ "/" ++ apiName ++ ".json")
        (.api (hubApi flags apiName generalApi)),
      .readDir (generalBaseDir ++ "/" ++ apiName)] ++ t ++
      versionPass flags apiName generalApi (env.order.iter (groupDeployments []
        (keyedDeployments flags env apiName
          ((env.readDir (generalBaseDir ++ "/" ++ apiName)).getD [])))), ?_, ?_⟩
  · simp only [onrampApi, ht]
  · rw [writesOf_append, writesOf_append, hw, writesOf_versionPass]
    simp [writesOf, apiVersionsOf, fileEntriesOf]

theorem fileWrites_views (flags : ApigeeFlags) (env : Env) (apiName : String)
    (generalApi : GeneralApi) (l : List (String × GeneralApi)) :
    ((l.flatMap (fileWrites flags env apiName generalApi)).filterMap
        (fun pd => match pd.2 with | Doc.api d => some (pd.1, d) | _ => none) = []) ∧
      ((l.flatMap (fileWrites flags env apiName generalApi)).filterMap
        (fun pd => match pd.2 with | Doc.version d => some (pd.1, d) | _ => none) = []) ∧
      ((l.flatMap (fileWrites flags env apiName generalApi)).filterMap
        (fun pd => match pd.2 with | Doc.deployment d => some (pd.1, d) | _ => none) =
          l.map fun fr => (baseDir ++ "/" ++ apiName ++ "/" ++ fr.2.Name ++ ".json",
            hubApiDeployment flags fr.2)) ∧
      ((l.flatMap (fileWrites flags env apiName generalApi)).filterMap
        (fun pd => match pd.2 with | Doc.spec d => some (pd.1, d) | _ => none) =
          l.filterMap (specWrite flags env apiName generalApi)) := by
  induction l with
  | nil => simp
  | cons fr tl ih =>
    obtain ⟨h1, h2, h3, h4⟩ := ih
    simp only [List.flatMap_cons, List.filterMap_append, h1, h2, h3, h4, List.map_cons,
      List.filterMap_cons]
    cases hs : env.readFile
        (generalBaseDir ++ "/" ++ apiName ++ "/" ++ fr.2.Name ++ "-oas.json") with
    | none => simp [fileWrites, specWrite, hs]
    | some b => simp [fileWrites, specWrite, hs]

theorem versionWrite_views (flags : ApigeeFlags) (apiName : String) (generalApi : GeneralApi)
    (l : GoMap (List HubApiDeployment)) :
    ((l.map (versionWrite flags apiName generalApi)).filterMap
        (fun pd => match pd.2 with | Doc.api d => some (pd.1, d) | _ => none) = []) ∧
      ((l.map (versionWrite flags apiName generalApi)).filterMap
        (fun pd => match pd.2 with | Doc.version d => some (pd.1, d) | _ => none) =
          l.map fun kv => (baseDir ++ "/" ++ apiName ++ "/" ++ kv.1 ++ ".json",
            hubApiVersion flags apiName generalApi kv.1 kv.2)) ∧
      ((l.map (versionWrite flags apiName generalApi)).filterMap
        (fun pd => match pd.2 with | Doc.deployment d => some (pd.1, d) | _ => none) = []) ∧
      ((l.map (versionWrite flags apiName generalApi)).filterMap
        (fun pd => match pd.2 with | Doc.spec d => some (pd.1, d) | _ => none) = []) := by
  induction l with
  | nil => simp
  | cons kv tl ih =>
    obtain ⟨h1, h2, h3, h4⟩ := ih
    simp [h1, h2, h3, h4, versionWrite]

/-- The four kinds of documents a complete pass over one API directory writes. -/
theorem onrampApi_views (flags : ApigeeFlags) (env : Env) (apiName : String)
    (generalApi : GeneralApi) (h : AllOpen env apiName (fileEntriesOf env apiName)) :
    ∃ t, onrampApi flags env apiName generalApi = .ok t ∧
      apisWritten t = [(baseDir ++ "/" ++ apiName ++ "/" ++ apiName ++ ".json",
        hubApi flags apiName generalApi)] ∧
      deploymentsWritten t =
        (deploymentRecords env apiName (fileEntriesOf env apiName)).map
          (fun fr => (baseDir ++ "/" ++ apiName ++ "/" ++ fr.2.Name ++ ".json",
            hubApiDeployment flags fr.2)) ∧
      specsWritten t =
        (deploymentRecords env apiName (fileEntriesOf env apiName)).filterMap
          (specWrite flags env apiName generalApi) ∧
      versionsWritten t =
        (env.order.iter (apiVersionsOf flags env apiName)).map
          (fun kv => (baseDir ++ "/" ++ apiName ++ "/" ++ kv.1 ++ ".json",
            hubApiVersion flags apiName generalApi kv.1 kv.2)) := by
  obtain ⟨t, ht, hw⟩ := onrampApi_ok flags env apiName generalApi h
  obtain ⟨f1, f2, f3, f4⟩ := fileWrites_views flags env apiName generalApi
    (deploymentRecords env apiName (fileEntriesOf env apiName))
  obtain ⟨v1, v2, v3, v4⟩ := versionWrite_views flags apiName generalApi
    (env.order.iter (apiVersionsOf flags env apiName))
  refine ⟨t, ht, ?_, ?_, ?_, ?_⟩
  · simp only [apisWritten, hw, List.filterMap_cons, List.filterMap_append, f1, v1]
    rfl
  · simp only [deploymentsWritten, hw, List.filterMap_cons, List.filterMap_append, f3, v3]
    simp
  · simp only [specsWritten, hw, List.filterMap_cons, List.filterMap_append, f4, v4]
    simp
  · simp only [versionsWritten, hw, List.filterMap_cons, List.filterMap_append, f2, v2]
    simp

/-! ## Strings -/

theorem string_append_left_cancel (a x y : String) (h : a ++ x = a ++ y) : x = y := by
  have hd := congrArg String.data h
  simp only [String.data_append] at hd
  exact String.ext (List.append_cancel_left hd)

theorem string_append_right_cancel (x y a : String) (h : x ++ a = y ++ a) : x = y := by
  have hd := congrArg String.data h
  simp only [String.data_append] at hd
  exact String.ext (List.append_cancel_right hd)

theorem groupOf_map {α β : Type} (k : String) (key : α → String) (val : α → β) (l : List α) :
    groupOf k (l.map fun a => (key a, val a)) = (l.filter fun a => key a = k).map val := by
  induction l with
  | nil => rfl
  | cons a tl ih =>
    rw [List.map_cons, groupOf_cons, ih]
    by_cases h : key a = k <;> simp [List.filter_cons, h]

theorem groupOf_ne_nil_of_mem {β : Type} (k : String) (v : β) (l : List (String × β))
    (h : (k, v) ∈ l) : groupOf k l ≠ [] := by
  intro hnil
  have : v ∈ groupOf k l := by
    unfold groupOf
    exact List.mem_map.mpr ⟨(k, v), List.mem_filter.mpr ⟨h, by simp⟩, rfl⟩
  rw [hnil] at this
  exact List.not_mem_nil _ this

theorem exists_mem_of_groupOf_ne_nil {β : Type} (k : String) (l : List (String × β))
    (h : groupOf k l ≠ []) : ∃ v, (k, v) ∈ l := by
  unfold groupOf at h
  obtain ⟨v, hv⟩ := List.exists_mem_of_ne_nil _ h
  obtain ⟨kd, hkd, rfl⟩ := List.mem_map.mp hv
  have hk := (List.mem_filter.mp hkd)
  have hk2 : kd.1 = k := by simpa using hk.2
  exact ⟨kd.2, by rw [← hk2]; exact hk.1⟩

/-! ## Claims -/

/-- Counterexample of C1: in the store `lockedEnv` the listing of `orders` has
the deployment files `orders-v1-aws.json` and `orders-v1-azure.json` of the
version key `orders-v1`, and the second cannot be opened: the pass writes the
deployment document of the first and ends at `log.Fatal`; no version document
is produced, for no key. -/
theorem unopened_file_leaves_no_version_document :
    fileEntriesOf lockedEnv "orders" =
        ["orders-v1-aws.json", "orders-v1-azure.json", "orders.json"] ∧
      apiVersionNameOf "orders-v1-aws.json" = "orders-v1" ∧
      apiVersionNameOf "orders-v1-azure.json" = "orders-v1" ∧
      ¬ AllOpen lockedEnv "orders" (fileEntriesOf lockedEnv "orders") ∧
      completed (onrampApi exFlags lockedEnv "orders" ordersRoot) = false ∧
      (deploymentsWritten (outcomeTrace (onrampApi exFlags lockedEnv "orders" ordersRoot))).map
          (fun pd => pd.1) = ["src/main/apihub/apiproxies/orders/orders-v1-aws.json"] ∧
      (versionsWritten (outcomeTrace (onrampApi exFlags lockedEnv "orders" ordersRoot))).map
          (fun pd => pd.1) = [] ∧
      (apiHubOnramp exFlags lockedEnv).exit = .fatal := by
  decide

/-- C1 (amended): for every API directory listing whose deployment files can
all be opened, the pass runs to its end and writes at most one version
document per version key (the resource names of the version documents are
pairwise distinct), and for every deployment record the version document of
its key exists and lists, in listing order, the resource names of exactly the
deployment records whose files collapse to that key. -/
theorem onramp_one_version_document_per_key (flags : ApigeeFlags) (env : Env)
    (apiName : String) (generalApi : GeneralApi)
    (h : AllOpen env apiName (fileEntriesOf env apiName)) :
    ∃ t, onrampApi flags env apiName generalApi = .ok t ∧
      ((versionsWritten t).map fun pd => pd.2.Name).Nodup ∧
      (∀ pd ∈ versionsWritten t,
        ∃ fr ∈ deploymentRecords env apiName (fileEntriesOf env apiName),
          pd.2.Name = "projects/" ++ flags.Project ++ "/locations/" ++ flags.Region ++ "/apis/"
            ++ apiName ++ "/versions/" ++ apiVersionNameOf fr.1) ∧
      ∀ fr ∈ deploymentRecords env apiName (fileEntriesOf env apiName),
        ∃ pd ∈ versionsWritten t,
          pd.1 = baseDir ++ "/" ++ apiName ++ "/" ++ apiVersionNameOf fr.1 ++ ".json" ∧
          pd.2.Name = "projects/" ++ flags.Project ++ "/locations/" ++ flags.Region ++ "/apis/"
            ++ apiName ++ "/versions/" ++ apiVersionNameOf fr.1 ∧
          pd.2.Deployments =
            ((deploymentRecords env apiName (fileEntriesOf env apiName)).filter
              fun gr => apiVersionNameOf gr.1 = apiVersionNameOf fr.1).map
              fun gr => "projects/" ++ flags.Project ++ "/locations/" ++ flags.Region
                ++ "/deployments/" ++ gr.2.Name := by
  obtain ⟨t, ht, -, -, -, hv⟩ := onrampApi_views flags env apiName generalApi h
  have hkeys : ((env.order.iter (apiVersionsOf flags env apiName)).map Prod.fst).Nodup :=
    ((env.order.perm (apiVersionsOf flags env apiName)).map Prod.fst).nodup_iff.mpr
      (nodup_keys_groupDeployments _ [] (by simp))
  have hmem : ∀ k v, (k, v) ∈ env.order.iter (apiVersionsOf flags env apiName) ↔
      v = groupOf k (keyedDeployments flags env apiName (fileEntriesOf env apiName)) ∧
        groupOf k (keyedDeployments flags env apiName (fileEntriesOf env apiName)) ≠ [] := by
    intro k v
    rw [(env.order.perm (apiVersionsOf flags env apiName)).mem_iff]
    exact mem_groupDeployments_iff _ k v
  refine ⟨t, ht, ?_, ?_, ?_⟩
  · rw [hv, List.map_map]
    have hinj : Function.Injective fun k : String =>
        "projects/" ++ flags.Project ++ "/locations/" ++ flags.Region ++ "/apis/" ++ apiName
          ++ "/versions/" ++ k := fun a b hab => string_append_left_cancel _ a b hab
    have := hkeys.map hinj
    rw [List.map_map] at this
    exact this
  · intro pd hpd
    rw [hv] at hpd
    obtain ⟨kv, hkv, rfl⟩ := List.mem_map.mp hpd
    obtain ⟨-, hne⟩ := (hmem kv.1 kv.2).mp hkv
    obtain ⟨d, hd⟩ := exists_mem_of_groupOf_ne_nil _ _ hne
    obtain ⟨fr, hfr, hfreq⟩ := List.mem_map.mp hd
    refine ⟨fr, hfr, ?_⟩
    have hk : apiVersionNameOf fr.1 = kv.1 := congrArg Prod.fst hfreq
    rw [hk]
    rfl
  · intro fr hfr
    have hin : (apiVersionNameOf fr.1, hubApiDeployment flags fr.2) ∈
        keyedDeployments flags env apiName (fileEntriesOf env apiName) :=
      List.mem_map.mpr ⟨fr, hfr, rfl⟩
    have hne := groupOf_ne_nil_of_mem _ _ _ hin
    have hentry := (hmem (apiVersionNameOf fr.1) _).mpr ⟨rfl, hne⟩
    refine ⟨(baseDir ++ "/" ++ apiName ++ "/" ++ apiVersionNameOf fr.1 ++ ".json",
      hubApiVersion flags apiName generalApi (apiVersionNameOf fr.1)
        (groupOf (apiVersionNameOf fr.1)
          (keyedDeployments flags env apiName (fileEntriesOf env apiName)))), ?_, rfl, rfl, ?_⟩
    · rw [hv]
      exact List.mem_map.mpr ⟨_, hentry, rfl⟩
    · simp only [hubApiVersion, keyedDeployments]
      rw [groupOf_map, List.map_map]
      rfl

/-- Witness of C1 on the API `orders`: the files `orders-v1-aws.json` and
`orders-v1-azure.json` give exactly one version document, for the key
`orders-v1`, whose deployments list names both deployments in listing order. -/
theorem onramp_one_version_document_per_key_witness :
    AllOpen ordersEnv "orders" (fileEntriesOf ordersEnv "orders") ∧
      ∃ t, onrampApi exFlags ordersEnv "orders" ordersRoot = .ok t ∧
        ((versionsWritten t).map fun pd => pd.2.Name).Nodup ∧
        (versionsWritten t).map (fun pd => (pd.1, pd.2.Name, pd.2.Deployments)) =
          [("src/main/apihub/apiproxies/orders/orders-v1.json",
            "projects/p/locations/r/apis/orders/versions/orders-v1",
            ["projects/p/locations/r/deployments/orders-v1-aws",
              "projects/p/locations/r/deployments/orders-v1-azure"])] := by
  refine ⟨by decide, ?_⟩
  obtain ⟨t, ht, hn, -, -⟩ :=
    onramp_one_version_document_per_key exFlags ordersEnv "orders" ordersRoot (by decide)
  refine ⟨t, ht, hn, ?_⟩
  have hx : (match onrampApi exFlags ordersEnv "orders" ordersRoot with
      | .ok t => (versionsWritten t).map (fun pd => (pd.1, pd.2.Name, pd.2.Deployments))
      | .error _ => []) =
        [("src/main/apihub/apiproxies/orders/orders-v1.json",
          "projects/p/locations/r/apis/orders/versions/orders-v1",
          ["projects/p/locations/r/deployments/orders-v1-aws",
            "projects/p/locations/r/deployments/orders-v1-azure"])] := by decide
  rw [ht] at hx
  exact hx

theorem flatMap_deployments_versions (flags : ApigeeFlags) (apiName : String)
    (generalApi : GeneralApi) (l : GoMap (List HubApiDeployment)) :
    ((l.map fun kv => (baseDir ++ "/" ++ apiName ++ "/" ++ kv.1 ++ ".json",
        hubApiVersion flags apiName generalApi kv.1 kv.2)).flatMap
      fun vd => vd.2.Deployments) = (l.flatMap Prod.snd).map fun d => d.Name := by
  induction l with
  | nil => rfl
  | cons kv tl ih =>
    simp only [List.map_cons, List.flatMap_cons, List.map_append, ih]
    rfl

/-- The names in the deployments lists of the version documents of a complete
pass are, up to order, the resource names of the deployment records. -/
theorem version_lists_perm (flags : ApigeeFlags) (env : Env) (apiName : String)
    (generalApi : GeneralApi) :
    (((env.order.iter (apiVersionsOf flags env apiName)).map fun kv =>
        (baseDir ++ "/" ++ apiName ++ "/" ++ kv.1 ++ ".json",
          hubApiVersion flags apiName generalApi kv.1 kv.2)).flatMap
      fun vd => vd.2.Deployments).Perm
      ((deploymentRecords env apiName (fileEntriesOf env apiName)).map fun fr =>
        "projects/" ++ flags.Project ++ "/locations/" ++ flags.Region ++ "/deployments/"
          ++ fr.2.Name) := by
  rw [flatMap_deployments_versions]
  have h1 : ((env.order.iter (apiVersionsOf flags env apiName)).flatMap Prod.snd).Perm
      ((apiVersionsOf flags env apiName).flatMap Prod.snd) :=
    (env.order.perm (apiVersionsOf flags env apiName)).flatMap_right _
  have h2 := flatten_groupDeployments
    (keyedDeployments flags env apiName (fileEntriesOf env apiName)) []
  have h3 := ((h1.trans h2).map fun d : HubApiDeployment => d.Name)
  refine h3.trans ?_
  simp only [List.flatMap_nil, List.nil_append, keyedDeployments, List.map_map]
  exact List.Perm.of_eq rfl

/-- Counterexample of C2: in the store `lockedEnv`, where a listed deployment
file cannot be opened, the deployment name the pass writes occurs in no
deployments list (no version document is written); in the store `twinEnv`,
where two files hold records of one name, the pass runs to its end and the
name it writes occurs twice in the deployments list of the one version
document. -/
theorem written_deployment_not_listed_once :
    ((deploymentsWritten (outcomeTrace (onrampApi exFlags lockedEnv "orders" ordersRoot))).map
          (fun pd => pd.2.Name) = ["projects/p/locations/r/deployments/orders-v1-aws"] ∧
        ((versionsWritten (outcomeTrace (onrampApi exFlags lockedEnv "orders"
          ordersRoot))).flatMap fun vd => vd.2.Deployments).count
            "projects/p/locations/r/deployments/orders-v1-aws" = 0) ∧
      (AllOpen twinEnv "orders" (fileEntriesOf twinEnv "orders") ∧
        completed (onrampApi exFlags twinEnv "orders" ordersRoot) = true ∧
        (deploymentsWritten (outcomeTrace (onrampApi exFlags twinEnv "orders" ordersRoot))).map
          (fun pd => pd.2.Name) =
            ["projects/p/locations/r/deployments/orders-v1-aws",
              "projects/p/locations/r/deployments/orders-v1-aws"] ∧
        ((versionsWritten (outcomeTrace (onrampApi exFlags twinEnv "orders"
          ordersRoot))).flatMap fun vd => vd.2.Deployments).count
            "projects/p/locations/r/deployments/orders-v1-aws" = 2) := by
  decide

/-- C2 (amended): when the deployment files of an API directory can all be
opened and the deployment records have pairwise distinct names, the pass runs
to its end and every deployment resource name it writes occurs exactly once in
the concatenation of the deployments lists of all version documents it writes,
and those lists hold no other names. -/
theorem onramp_deployment_in_exactly_one_version (flags : ApigeeFlags) (env : Env)
    (apiName : String) (generalApi : GeneralApi)
    (h : AllOpen env apiName (fileEntriesOf env apiName))
    (hnames : ((deploymentRecords env apiName (fileEntriesOf env apiName)).map
      fun fr => fr.2.Name).Nodup) :
    ∃ t, onrampApi flags env apiName generalApi = .ok t ∧
      (∀ pd ∈ deploymentsWritten t,
        ((versionsWritten t).flatMap fun vd => vd.2.Deployments).count pd.2.Name = 1) ∧
      ∀ n ∈ (versionsWritten t).flatMap (fun vd => vd.2.Deployments),
        ∃ pd ∈ deploymentsWritten t, pd.2.Name = n := by
  obtain ⟨t, ht, -, hd, -, hv⟩ := onrampApi_views flags env apiName generalApi h
  have hperm := version_lists_perm flags env apiName generalApi
  have hinj : Function.Injective fun n : String =>
      "projects/" ++ flags.Project ++ "/locations/" ++ flags.Region ++ "/deployments/" ++ n :=
    fun a b hab => string_append_left_cancel _ a b hab
  have hnodup := hnames.map hinj
  rw [List.map_map] at hnodup
  refine ⟨t, ht, ?_, ?_⟩
  · intro pd hpd
    rw [hv, hperm.count_eq]
    rw [hd] at hpd
    obtain ⟨fr, hfr, rfl⟩ := List.mem_map.mp hpd
    exact List.count_eq_one_of_mem hnodup (List.mem_map.mpr ⟨fr, hfr, rfl⟩)
  · intro n hn
    rw [hv] at hn
    obtain ⟨fr, hfr, rfl⟩ := List.mem_map.mp (hperm.mem_iff.mp hn)
    exact ⟨_, by rw [hd]; exact List.mem_map.mpr ⟨fr, hfr, rfl⟩, rfl⟩

/-- Witness of C2 on the API `orders`. -/
theorem onramp_deployment_in_exactly_one_version_witness :
    AllOpen ordersEnv "orders" (fileEntriesOf ordersEnv "orders") ∧
      ((deploymentRecords ordersEnv "orders" (fileEntriesOf ordersEnv "orders")).map
        fun fr => fr.2.Name).Nodup ∧
      ∃ t, onrampApi exFlags ordersEnv "orders" ordersRoot = .ok t ∧
        (∀ pd ∈ deploymentsWritten t,
          ((versionsWritten t).flatMap fun vd => vd.2.Deployments).count pd.2.Name = 1) ∧
        ∀ n ∈ (versionsWritten t).flatMap (fun vd => vd.2.Deployments),
          ∃ pd ∈ deploymentsWritten t, pd.2.Name = n :=
  ⟨by decide, by decide,
    onramp_deployment_in_exactly_one_version exFlags ordersEnv "orders" ordersRoot
      (by decide) (by decide)⟩

/-- C3 (failing input): for the API key `x-aws`, version number `1` and platform
tag `-aws`, the re-keying step removes the inner `-aws` as well: it derives the
version key `x-v1` and the API key `x`, and files the document under the
directory `x`, where the claim expects `x-aws-v1`, `x-aws` and the directory
`x-aws`. -/
theorem exportRekey_removes_inner_platform_tag :
    exportRekey ("projects/p/locations/r/deployments/" ++ ("x-aws" ++ "-v" ++ "1" ++ "-aws")) =
        { deploymentName := "x-aws-v1-aws"
          apiVersionName := "x-v1"
          apiName := "x"
          path := "src/main/apihub/apiproxies/x/x-aws-v1-aws.json" } ∧
      (exportRekey
        ("projects/p/locations/r/deployments/" ++ ("x-aws" ++ "-v" ++ "1" ++ "-aws"))).apiVersionName
        ≠ "x-aws" ++ "-v" ++ "1" ∧
      (exportRekey
        ("projects/p/locations/r/deployments/" ++ ("x-aws" ++ "-v" ++ "1" ++ "-aws"))).apiName
        ≠ "x-aws" := by
  decide

/-- C4: in a complete pass over the directory `apiName` with the flags
`flags`, the API document is named `projects/P/locations/R/apis/A`, the
deployment documents `projects/P/locations/R/deployments/D` for the deployment
records D in listing order, every spec document
`projects/P/locations/R/apis/A/versions/V/specs/D` for a deployment record D
with version key V, and every version document
`projects/P/locations/R/apis/A/versions/V` for the version key V of a
deployment record; P and R are the fields `Project` and `Region` of the flags. -/
theorem onramp_resource_names (flags : ApigeeFlags) (env : Env) (apiName : String)
    (generalApi : GeneralApi) (h : AllOpen env apiName (fileEntriesOf env apiName)) :
    ∃ t, onrampApi flags env apiName generalApi = .ok t ∧
      (apisWritten t).map (fun pd => pd.2.Name) =
        ["projects/" ++ flags.Project ++ "/locations/" ++ flags.Region ++ "/apis/" ++ apiName] ∧
      (deploymentsWritten t).map (fun pd => pd.2.Name) =
        (deploymentRecords env apiName (fileEntriesOf env apiName)).map (fun fr =>
          "projects/" ++ flags.Project ++ "/locations/" ++ flags.Region ++ "/deployments/"
            ++ fr.2.Name) ∧
      (∀ pd ∈ specsWritten t,
        ∃ fr ∈ deploymentRecords env apiName (fileEntriesOf env apiName),
          pd.2.Name = "projects/" ++ flags.Project ++ "/locations/" ++ flags.Region ++ "/apis/"
            ++ apiName ++ "/versions/" ++ apiVersionNameOf fr.1 ++ "/specs/" ++ fr.2.Name) ∧
      (∀ pd ∈ versionsWritten t,
        ∃ fr ∈ deploymentRecords env apiName (fileEntriesOf env apiName),
          pd.2.Name = "projects/" ++ flags.Project ++ "/locations/" ++ flags.Region ++ "/apis/"
            ++ apiName ++ "/versions/" ++ apiVersionNameOf fr.1) := by
  obtain ⟨t, ht, ha, hd, hs, hv⟩ := onrampApi_views flags env apiName generalApi h
  refine ⟨t, ht, ?_, ?_, ?_, ?_⟩
  · rw [ha]; rfl
  · rw [hd, List.map_map]; rfl
  · intro pd hpd
    rw [hs] at hpd
    obtain ⟨fr, hfr, hw⟩ := List.mem_filterMap.mp hpd
    refine ⟨fr, hfr, ?_⟩
    unfold specWrite at hw
    cases hb : env.readFile
        (generalBaseDir ++ "/" ++ apiName ++ "/" ++ fr.2.Name ++ "-oas.json") with
    | none => simp [hb] at hw
    | some b =>
      simp only [hb, Option.map_some', Option.some.injEq] at hw
      rw [← hw]
      rfl
  · intro pd hpd
    rw [hv] at hpd
    obtain ⟨kv, hkv, rfl⟩ := List.mem_map.mp hpd
    have hkv' := (env.order.perm (apiVersionsOf flags env apiName)).mem_iff.mp hkv
    obtain ⟨-, hne⟩ := (mem_groupDeployments_iff _ kv.1 kv.2).mp hkv'
    obtain ⟨d, hd'⟩ := exists_mem_of_groupOf_ne_nil _ _ hne
    obtain ⟨fr, hfr, hfreq⟩ := List.mem_map.mp hd'
    refine ⟨fr, hfr, ?_⟩
    have hk : apiVersionNameOf fr.1 = kv.1 := congrArg Prod.fst hfreq
    rw [hk]
    rfl

/-- Witness of C4 on the API `orders`, with the names written out. -/
theorem onramp_resource_names_witness :
    AllOpen ordersEnv "orders" (fileEntriesOf ordersEnv "orders") ∧
      ∃ t, onrampApi exFlags ordersEnv "orders" ordersRoot = .ok t ∧
        (apisWritten t).map (fun pd => pd.2.Name) = ["projects/p/locations/r/apis/orders"] ∧
        (deploymentsWritten t).map (fun pd => pd.2.Name) =
          ["projects/p/locations/r/deployments/orders-v1-aws",
            "projects/p/locations/r/deployments/orders-v1-azure"] ∧
        (specsWritten t).map (fun pd => pd.2.Name) =
          ["projects/p/locations/r/apis/orders/versions/orders-v1/specs/orders-v1-aws"] ∧
        (versionsWritten t).map (fun pd => pd.2.Name) =
          ["projects/p/locations/r/apis/orders/versions/orders-v1"] := by
  refine ⟨by decide, ?_⟩
  obtain ⟨t, ht, ha, hd, -, -⟩ :=
    onramp_resource_names exFlags ordersEnv "orders" ordersRoot (by decide)
  have hx : (match onrampApi exFlags ordersEnv "orders" ordersRoot with
      | .ok t => ((specsWritten t).map (fun pd => pd.2.Name),
          (versionsWritten t).map (fun pd => pd.2.Name))
      | .error _ => ([], [])) =
        (["projects/p/locations/r/apis/orders/versions/orders-v1/specs/orders-v1-aws"],
          ["projects/p/locations/r/apis/orders/versions/orders-v1"]) := by decide
  rw [ht] at hx
  refine ⟨t, ht, ?_, ?_, congrArg Prod.fst hx, congrArg Prod.snd hx⟩
  · rw [ha]; decide
  · rw [hd]; decide

/-- C5: the deployment document built from a record `r` carries the display
name, description, documentation URL, gateway URL, version and platform
resource URI of `r` unchanged; two records with the same document agree on
those six fields (so records that differ in one of them give different
documents); and the owner name, owner e-mail and base path of the record do
not influence the document. -/
theorem deployment_document_fields (flags : ApigeeFlags) (r r' : GeneralApi)
    (ownerName ownerEmail basePath : String) :
    ((hubApiDeployment flags r).DisplayName = r.DisplayName ∧
        (hubApiDeployment flags r).Description = r.Description ∧
        (hubApiDeployment flags r).Documentation.ExternalUri = r.DocumentationUrl ∧
        (hubApiDeployment flags r).Endpoints = [r.GatewayUrl] ∧
        (hubApiDeployment flags r).ApiVersions = [r.Version] ∧
        (hubApiDeployment flags r).ResourceUri = r.PlatformResourceUri) ∧
      (hubApiDeployment flags r = hubApiDeployment flags r' →
        r.DisplayName = r'.DisplayName ∧ r.Description = r'.Description ∧
          r.DocumentationUrl = r'.DocumentationUrl ∧ r.GatewayUrl = r'.GatewayUrl ∧
          r.Version = r'.Version ∧ r.PlatformResourceUri = r'.PlatformResourceUri) ∧
      hubApiDeployment flags
          { r with OwnerName := ownerName, OwnerEmail := ownerEmail, BasePath := basePath } =
        hubApiDeployment flags r := by
  refine ⟨⟨rfl, rfl, rfl, rfl, rfl, rfl⟩, ?_, rfl⟩
  intro heq
  have h1 := congrArg HubApiDeployment.DisplayName heq
  have h2 := congrArg HubApiDeployment.Description heq
  have h3 := congrArg (fun d => d.Documentation.ExternalUri) heq
  have h4 := congrArg HubApiDeployment.Endpoints heq
  have h5 := congrArg HubApiDeployment.ApiVersions heq
  have h6 := congrArg HubApiDeployment.ResourceUri heq
  simp only [hubApiDeployment, List.cons.injEq, and_true] at h1 h2 h3 h4 h5 h6
  exact ⟨h1, h2, h3, h4, h5, h6⟩

/-- Witness of C5: the AWS and the Azure record of the API `orders` differ in
their display names, and so do their deployment documents. -/
theorem deployment_document_fields_witness :
    hubApiDeployment exFlags (exRecord "orders-v1-aws" "Orders on AWS" "First description") ≠
      hubApiDeployment exFlags (exRecord "orders-v1-aws" "Orders on Azure" "First description") :=
  fun heq =>
    absurd
      ((deployment_document_fields exFlags
        (exRecord "orders-v1-aws" "Orders on AWS" "First description")
        (exRecord "orders-v1-aws" "Orders on Azure" "First description") "" "" "").2.1 heq).1
      (by decide)

/-- C6 (failing input): the JSON value of a deployment document always has the
member `documentation`, an object holding the record's documentation URL; for
a record with an empty documentation URL the member is present with an empty
`externalUri`, where the claim expects it to be absent. -/
theorem deployment_documentation_always_present (flags : ApigeeFlags) (r : GeneralApi) :
    (hubApiDeployment flags r).marshal.member? "documentation" =
        some (Json.obj [("externalUri", Json.str r.DocumentationUrl)]) ∧
      "documentation" ∈ (hubApiDeployment flags r).marshal.keys ∧
      (hubApiDeployment exFlags
          (exRecord "orders-v1-aws" "Orders on AWS" "First description")).marshal.member?
        "documentation" = some (Json.obj [("externalUri", Json.str "")]) := by
  refine ⟨rfl, ?_, rfl⟩
  simp [HubApiDeployment.marshal, Json.keys]

/-- C7: the JSON value of the API document built from a root record has the
member `documentation`, equal to the object holding the documentation URL,
exactly when that URL is not empty; when it is empty the document has no
member with that key. -/
theorem api_documentation_iff_url (flags : ApigeeFlags) (apiName : String)
    (generalApi : GeneralApi) :
    ((hubApi flags apiName generalApi).marshal.member? "documentation" =
        if generalApi.DocumentationUrl = "" then none
        else some (Json.obj [("externalUri", Json.str generalApi.DocumentationUrl)])) ∧
      ("documentation" ∈ (hubApi flags apiName generalApi).marshal.keys ↔
        generalApi.DocumentationUrl ≠ "") := by
  by_cases hd : generalApi.DocumentationUrl = ""
  · by_cases ho : generalApi.OwnerName = ""
    · simp [hubApi, HubApi.marshal, Json.member?, Json.keys, omitEmpty, hd, ho]
    · simp [hubApi, HubApi.marshal, Json.member?, Json.keys, omitEmpty, hd, ho,
        HubApiOwner.marshal]
  · by_cases ho : generalApi.OwnerName = ""
    · simp [hubApi, HubApi.marshal, Json.member?, Json.keys, omitEmpty, hd, ho,
        HubApiDocumentation.marshal]
    · simp [hubApi, HubApi.marshal, Json.member?, Json.keys, omitEmpty, hd, ho,
        HubApiDocumentation.marshal, HubApiOwner.marshal]

/-- C8 (what the code does): in a complete pass every deployment document has
the deployment type attribute `projects/P/locations/R/attributes/system-deployment-type`
with exactly one value, immutable, whose id and display name are the platform
id and platform name of its record; every spec document has exactly one spec
type value, immutable, with id `openapi`, but its attribute path is the empty
string, where the claim expects a non-empty path. -/
theorem onramp_type_attributes (flags : ApigeeFlags) (env : Env) (apiName : String)
    (generalApi : GeneralApi) (h : AllOpen env apiName (fileEntriesOf env apiName)) :
    ∃ t, onrampApi flags env apiName generalApi = .ok t ∧
      (∀ pd ∈ deploymentsWritten t,
        ∃ fr ∈ deploymentRecords env apiName (fileEntriesOf env apiName),
          pd.2.DeploymentType =
            { Attribute := "projects/" ++ flags.Project ++ "/locations/" ++ flags.Region
                ++ "/attributes/system-deployment-type"
              EnumValues :=
                { Values := [{ Id := fr.2.PlatformId, DisplayName := fr.2.PlatformName
                               Description := fr.2.PlatformName, Immutable := true }] } }) ∧
      ∀ pd ∈ specsWritten t,
        pd.2.SpecType =
          { Attribute := ""
            EnumValues :=
              { Values := [{ Id := "openapi", DisplayName := "OpenAPI Spec"
                             Description := "OpenAPI Spec", Immutable := true }] } } := by
  obtain ⟨t, ht, -, hd, hs, -⟩ := onrampApi_views flags env apiName generalApi h
  refine ⟨t, ht, ?_, ?_⟩
  · intro pd hpd
    rw [hd] at hpd
    obtain ⟨fr, hfr, rfl⟩ := List.mem_map.mp hpd
    exact ⟨fr, hfr, rfl⟩
  · intro pd hpd
    rw [hs] at hpd
    obtain ⟨fr, -, hw⟩ := List.mem_filterMap.mp hpd
    unfold specWrite at hw
    cases hb : env.readFile
        (generalBaseDir ++ "/" ++ apiName ++ "/" ++ fr.2.Name ++ "-oas.json") with
    | none => simp [hb] at hw
    | some b =>
      simp only [hb, Option.map_some', Option.some.injEq] at hw
      rw [← hw]
      rfl

/-- Witness of C8 on the API `orders`: the pass writes one spec document, and
its spec type has the empty attribute path. -/
theorem onramp_type_attributes_witness :
    AllOpen ordersEnv "orders" (fileEntriesOf ordersEnv "orders") ∧
      ∃ t, onrampApi exFlags ordersEnv "orders" ordersRoot = .ok t ∧
        (specsWritten t).map (fun pd => (pd.1, pd.2.SpecType.Attribute)) =
          [("src/main/apihub/apiproxies/orders/orders-v1-aws-oas.json", "")] ∧
        (deploymentsWritten t).map (fun pd => pd.2.DeploymentType.Attribute) =
          ["projects/p/locations/r/attributes/system-deployment-type",
            "projects/p/locations/r/attributes/system-deployment-type"] := by
  refine ⟨by decide, ?_⟩
  obtain ⟨t, ht, -, -⟩ :=
    onramp_type_attributes exFlags ordersEnv "orders" ordersRoot (by decide)
  have hx : (match onrampApi exFlags ordersEnv "orders" ordersRoot with
      | .ok t => ((specsWritten t).map (fun pd => (pd.1, pd.2.SpecType.Attribute)),
          (deploymentsWritten t).map (fun pd => pd.2.DeploymentType.Attribute))
      | .error _ => ([], [])) =
        ([("src/main/apihub/apiproxies/orders/orders-v1-aws-oas.json", "")],
          ["projects/p/locations/r/attributes/system-deployment-type",
            "projects/p/locations/r/attributes/system-deployment-type"]) := by decide
  rw [ht] at hx
  exact ⟨t, ht, congrArg Prod.fst hx, congrArg Prod.snd hx⟩

/-- C10 (counterexample): for the API `orders` the first deployment record of
the version key `orders-v1` has the description `First description`, and the
version document written for that key has the description of the root record,
`Root description`. -/
theorem version_description_not_from_first_deployment :
    (deploymentRecords ordersEnv "orders" (fileEntriesOf ordersEnv "orders")).map
        (fun fr => (apiVersionNameOf fr.1, fr.2.Description)) =
        [("orders-v1", "First description"), ("orders-v1", "Second description")] ∧
      (match onrampApi exFlags ordersEnv "orders" ordersRoot with
        | .ok t => (versionsWritten t).map (fun pd => (pd.2.Name, pd.2.Description))
        | .error _ => []) =
        [("projects/p/locations/r/apis/orders/versions/orders-v1", "Root description")] := by
  decide

/-- C10 (amended): in a complete pass, the version document of every version
key takes its display name from the first deployment record of that key in
listing order and its description from the root record of the API; the later
deployment records of the key enter neither. -/
theorem onramp_version_display_metadata (flags : ApigeeFlags) (env : Env) (apiName : String)
    (generalApi : GeneralApi) (h : AllOpen env apiName (fileEntriesOf env apiName)) :
    ∃ t, onrampApi flags env apiName generalApi = .ok t ∧
      (∀ pd ∈ versionsWritten t, pd.2.Description = generalApi.Description) ∧
      ∀ fr ∈ deploymentRecords env apiName (fileEntriesOf env apiName),
        ∃ pd ∈ versionsWritten t,
          pd.2.Name = "projects/" ++ flags.Project ++ "/locations/" ++ flags.Region ++ "/apis/"
            ++ apiName ++ "/versions/" ++ apiVersionNameOf fr.1 ∧
          pd.2.Description = generalApi.Description ∧
          (((deploymentRecords env apiName (fileEntriesOf env apiName)).filter
              fun gr => apiVersionNameOf gr.1 = apiVersionNameOf fr.1).head?).map
            (fun gr => gr.2.DisplayName) = some pd.2.DisplayName := by
  obtain ⟨t, ht, -, -, -, hv⟩ := onrampApi_views flags env apiName generalApi h
  refine ⟨t, ht, ?_, ?_⟩
  · intro pd hpd
    rw [hv] at hpd
    obtain ⟨kv, -, rfl⟩ := List.mem_map.mp hpd
    rfl
  · intro fr hfr
    have hin : (apiVersionNameOf fr.1, hubApiDeployment flags fr.2) ∈
        keyedDeployments flags env apiName (fileEntriesOf env apiName) :=
      List.mem_map.mpr ⟨fr, hfr, rfl⟩
    have hne := groupOf_ne_nil_of_mem _ _ _ hin
    have hentry : (apiVersionNameOf fr.1, groupOf (apiVersionNameOf fr.1)
        (keyedDeployments flags env apiName (fileEntriesOf env apiName))) ∈
        env.order.iter (apiVersionsOf flags env apiName) :=
      (env.order.perm (apiVersionsOf flags env apiName)).mem_iff.mpr
        ((mem_groupDeployments_iff _ _ _).mpr ⟨rfl, hne⟩)
    refine ⟨(baseDir ++ "/" ++ apiName ++ "/" ++ apiVersionNameOf fr.1 ++ ".json",
      hubApiVersion flags apiName generalApi (apiVersionNameOf fr.1)
        (groupOf (apiVersionNameOf fr.1)
          (keyedDeployments flags env apiName (fileEntriesOf env apiName)))), ?_, rfl, rfl, ?_⟩
    · rw [hv]
      exact List.mem_map.mpr ⟨_, hentry, rfl⟩
    · have hg : groupOf (apiVersionNameOf fr.1)
          (keyedDeployments flags env apiName (fileEntriesOf env apiName)) =
          ((deploymentRecords env apiName (fileEntriesOf env apiName)).filter
            fun gr => apiVersionNameOf gr.1 = apiVersionNameOf fr.1).map
            fun gr => hubApiDeployment flags gr.2 := by
        unfold keyedDeployments
        exact groupOf_map _ _ _ _
      rw [hg] at hne ⊢
      cases hl : (deploymentRecords env apiName (fileEntriesOf env apiName)).filter
          fun gr => apiVersionNameOf gr.1 = apiVersionNameOf fr.1 with
      | nil => rw [hl] at hne; exact absurd rfl hne
      | cons gr rest => rfl

/-- Witness of the amended C10 on the API `orders`: the display name is that of
the AWS record, the first of the key, and the description that of the root. -/
theorem onramp_version_display_metadata_witness :
    AllOpen ordersEnv "orders" (fileEntriesOf ordersEnv "orders") ∧
      ∃ t, onrampApi exFlags ordersEnv "orders" ordersRoot = .ok t ∧
        (∀ pd ∈ versionsWritten t, pd.2.Description = ordersRoot.Description) ∧
        (versionsWritten t).map (fun pd => (pd.2.DisplayName, pd.2.Description)) =
          [("Orders on AWS", "Root description")] := by
  refine ⟨by decide, ?_⟩
  obtain ⟨t, ht, hdesc, -⟩ :=
    onramp_version_display_metadata exFlags ordersEnv "orders" ordersRoot (by decide)
  have hx : (match onrampApi exFlags ordersEnv "orders" ordersRoot with
      | .ok t => (versionsWritten t).map (fun pd => (pd.2.DisplayName, pd.2.Description))
      | .error _ => []) = [("Orders on AWS", "Root description")] := by decide
  rw [ht] at hx
  exact ⟨t, ht, hdesc, hx⟩

/-! ## Base64 -/

theorem decodeChar_encodeChar_fin :
    ∀ i : Fin 64, decodeChar (encodeChar i.val) = some i.val ∧ encodeChar i.val ≠ '=' ∧
      encodeChar i.val ≠ '\r' ∧ encodeChar i.val ≠ '\n' := by
  decide

theorem decodeChar_encodeChar (i : Nat) (h : i < 64) :
    decodeChar (encodeChar i) = some i :=
  (decodeChar_encodeChar_fin ⟨i, h⟩).1

theorem encodeChar_ne_pad (i : Nat) (h : i < 64) : encodeChar i ≠ '=' :=
  (decodeChar_encodeChar_fin ⟨i, h⟩).2.1

theorem encodeChar_ne_cr (i : Nat) (h : i < 64) : encodeChar i ≠ '\r' :=
  (decodeChar_encodeChar_fin ⟨i, h⟩).2.2.1

theorem encodeChar_ne_lf (i : Nat) (h : i < 64) : encodeChar i ≠ '\n' :=
  (decodeChar_encodeChar_fin ⟨i, h⟩).2.2.2

/-- Decoding undoes encoding on the level of the workers. -/
theorem decodeFrom_encodeFrom (b : List Byte) : decodeFrom (encodeFrom b) = some b := by
  induction b using encodeFrom.induct with
  | case1 a b c rest ih =>
    have ha := a.isLt
    have hb := b.isLt
    have hc := c.isLt
    have h1 : (a.val * 65536 + b.val * 256 + c.val) / 262144 % 64 < 64 := Nat.mod_lt _ (by decide)
    have h2 : (a.val * 65536 + b.val * 256 + c.val) / 4096 % 64 < 64 := Nat.mod_lt _ (by decide)
    have h3 : (a.val * 65536 + b.val * 256 + c.val) / 64 % 64 < 64 := Nat.mod_lt _ (by decide)
    have h4 : (a.val * 65536 + b.val * 256 + c.val) % 64 < 64 := Nat.mod_lt _ (by decide)
    have e1 : toByte ((a.val * 65536 + b.val * 256 + c.val) / 262144 % 64 * 4 +
        (a.val * 65536 + b.val * 256 + c.val) / 4096 % 64 / 16) = a := by
      apply Fin.ext; simp only [toByte]; omega
    have e2 : toByte ((a.val * 65536 + b.val * 256 + c.val) / 4096 % 64 % 16 * 16 +
        (a.val * 65536 + b.val * 256 + c.val) / 64 % 64 / 4) = b := by
      apply Fin.ext; simp only [toByte]; omega
    have e3 : toByte ((a.val * 65536 + b.val * 256 + c.val) / 64 % 64 % 4 * 64 +
        (a.val * 65536 + b.val * 256 + c.val) % 64) = c := by
      apply Fin.ext; simp only [toByte]; omega
    simp only [encodeFrom, decodeFrom, decodeChar_encodeChar _ h1, decodeChar_encodeChar _ h2,
      decodeChar_encodeChar _ h3, decodeChar_encodeChar _ h4, encodeChar_ne_pad _ h3,
      encodeChar_ne_pad _ h4, if_false, ih, e1, e2, e3]
  | case2 a b =>
    have ha := a.isLt
    have hb := b.isLt
    have h1 : (a.val * 65536 + b.val * 256) / 262144 % 64 < 64 := Nat.mod_lt _ (by decide)
    have h2 : (a.val * 65536 + b.val * 256) / 4096 % 64 < 64 := Nat.mod_lt _ (by decide)
    have h3 : (a.val * 65536 + b.val * 256) / 64 % 64 < 64 := Nat.mod_lt _ (by decide)
    have e1 : toByte ((a.val * 65536 + b.val * 256) / 262144 % 64 * 4 +
        (a.val * 65536 + b.val * 256) / 4096 % 64 / 16) = a := by
      apply Fin.ext; simp only [toByte]; omega
    have e2 : toByte ((a.val * 65536 + b.val * 256) / 4096 % 64 % 16 * 16 +
        (a.val * 65536 + b.val * 256) / 64 % 64 / 4) = b := by
      apply Fin.ext; simp only [toByte]; omega
    simp only [encodeFrom, decodeFrom, decodeChar_encodeChar _ h1, decodeChar_encodeChar _ h2,
      decodeChar_encodeChar _ h3, encodeChar_ne_pad _ h3, if_false, if_true, e1, e2]
  | case3 a =>
    have ha := a.isLt
    have h1 : a.val * 65536 / 262144 % 64 < 64 := Nat.mod_lt _ (by decide)
    have h2 : a.val * 65536 / 4096 % 64 < 64 := Nat.mod_lt _ (by decide)
    have e1 : toByte (a.val * 65536 / 262144 % 64 * 4 + a.val * 65536 / 4096 % 64 / 16) = a := by
      apply Fin.ext; simp only [toByte]; omega
    simp only [encodeFrom, decodeFrom, decodeChar_encodeChar _ h1, decodeChar_encodeChar _ h2,
      and_self, if_true, e1]
  | case4 => rfl

/-- The encoding holds no line breaks, so the filter of `DecodeString` keeps
every character. -/
theorem encodeFrom_no_line_breaks (b : List Byte) :
    (encodeFrom b).filter (fun c => c ≠ '\r' ∧ c ≠ '\n') = encodeFrom b := by
  induction b using encodeFrom.induct with
  | case1 a b c rest ih =>
    have h1 : (a.val * 65536 + b.val * 256 + c.val) / 262144 % 64 < 64 := Nat.mod_lt _ (by decide)
    have h2 : (a.val * 65536 + b.val * 256 + c.val) / 4096 % 64 < 64 := Nat.mod_lt _ (by decide)
    have h3 : (a.val * 65536 + b.val * 256 + c.val) / 64 % 64 < 64 := Nat.mod_lt _ (by decide)
    have h4 : (a.val * 65536 + b.val * 256 + c.val) % 64 < 64 := Nat.mod_lt _ (by decide)
    simp only [encodeFrom, List.filter_cons, encodeChar_ne_cr _ h1, encodeChar_ne_lf _ h1,
      encodeChar_ne_cr _ h2, encodeChar_ne_lf _ h2, encodeChar_ne_cr _ h3, encodeChar_ne_lf _ h3,
      encodeChar_ne_cr _ h4, encodeChar_ne_lf _ h4, ih, ne_eq, not_false_eq_true, and_self,
      decide_True, if_true]
  | case2 a b =>
    have h1 : (a.val * 65536 + b.val * 256) / 262144 % 64 < 64 := Nat.mod_lt _ (by decide)
    have h2 : (a.val * 65536 + b.val * 256) / 4096 % 64 < 64 := Nat.mod_lt _ (by decide)
    have h3 : (a.val * 65536 + b.val * 256) / 64 % 64 < 64 := Nat.mod_lt _ (by decide)
    simp [encodeFrom, List.filter_cons, encodeChar_ne_cr _ h1, encodeChar_ne_lf _ h1,
      encodeChar_ne_cr _ h2, encodeChar_ne_lf _ h2, encodeChar_ne_cr _ h3, encodeChar_ne_lf _ h3]
  | case3 a =>
    have h1 : a.val * 65536 / 262144 % 64 < 64 := Nat.mod_lt _ (by decide)
    have h2 : a.val * 65536 / 4096 % 64 < 64 := Nat.mod_lt _ (by decide)
    simp [encodeFrom, List.filter_cons, encodeChar_ne_cr _ h1, encodeChar_ne_lf _ h1,
      encodeChar_ne_cr _ h2, encodeChar_ne_lf _ h2]
  | case4 => rfl

theorem DecodeString_EncodeToString (b : List Byte) :
    DecodeString (EncodeToString b) = some b := by
  unfold DecodeString EncodeToString
  simp only [encodeFrom_no_line_breaks, decodeFrom_encodeFrom]

/-- The contents of the spec document built from the bytes `b`. -/
theorem hubApiVersionSpec_contents (flags : ApigeeFlags) (apiName apiVersionName : String)
    (generalApi generalDeploymentApi : GeneralApi) (b : List Byte) :
    (hubApiVersionSpec flags apiName apiVersionName generalApi generalDeploymentApi
        b).Contents = { MimeType := "application/json", Contents := EncodeToString b } :=
  rfl

/-- C9: in a complete pass, a spec document is written for every deployment
record whose companion file `<name>-oas.json` can be read, and every spec
document written comes from such a record; for the bytes `b` read, the
document has the MIME type `application/json` whatever `b` is, its contents
are the standard base64 encoding of `b`, and decoding them gives `b` back. -/
theorem onramp_spec_contents_base64 (flags : ApigeeFlags) (env : Env) (apiName : String)
    (generalApi : GeneralApi) (h : AllOpen env apiName (fileEntriesOf env apiName)) :
    ∃ t, onrampApi flags env apiName generalApi = .ok t ∧
      (∀ pd ∈ specsWritten t,
        ∃ fr ∈ deploymentRecords env apiName (fileEntriesOf env apiName), ∃ b,
          env.readFile (generalBaseDir ++ "/" ++ apiName ++ "/" ++ fr.2.Name ++ "-oas.json") =
            some b ∧
          pd.2.Contents.MimeType = "application/json" ∧
          pd.2.Contents.Contents = EncodeToString b ∧
          DecodeString pd.2.Contents.Contents = some b) ∧
      ∀ fr ∈ deploymentRecords env apiName (fileEntriesOf env apiName), ∀ b,
        env.readFile (generalBaseDir ++ "/" ++ apiName ++ "/" ++ fr.2.Name ++ "-oas.json") =
            some b →
          ∃ pd ∈ specsWritten t,
            pd.1 = baseDir ++ "/" ++ apiName ++ "/" ++ fr.2.Name ++ "-oas.json" ∧
            pd.2.Contents.MimeType = "application/json" ∧
            pd.2.Contents.Contents = EncodeToString b ∧
            DecodeString pd.2.Contents.Contents = some b := by
  obtain ⟨t, ht, -, -, hs, -⟩ := onrampApi_views flags env apiName generalApi h
  refine ⟨t, ht, ?_, ?_⟩
  · intro pd hpd
    rw [hs] at hpd
    obtain ⟨fr, hfr, hw⟩ := List.mem_filterMap.mp hpd
    unfold specWrite at hw
    cases hb : env.readFile
        (generalBaseDir ++ "/" ++ apiName ++ "/" ++ fr.2.Name ++ "-oas.json") with
    | none => simp [hb] at hw
    | some b =>
      simp only [hb, Option.map_some', Option.some.injEq] at hw
      refine ⟨fr, hfr, b, hb, ?_⟩
      rw [← hw]
      exact ⟨rfl, rfl, DecodeString_EncodeToString b⟩
  · intro fr hfr b hb
    refine ⟨(baseDir ++ "/" ++ apiName ++ "/" ++ fr.2.Name ++ "-oas.json",
      hubApiVersionSpec flags apiName (apiVersionNameOf fr.1) generalApi fr.2 b), ?_, rfl, rfl,
      rfl, DecodeString_EncodeToString b⟩
    rw [hs]
    refine List.mem_filterMap.mpr ⟨fr, hfr, ?_⟩
    simp only [specWrite, hb, Option.map_some']

/-- Witness of C9 on the API `orders`: the three bytes `Man` of the companion
spec of the AWS deployment are written as `TWFu`. -/
theorem onramp_spec_contents_base64_witness :
    AllOpen ordersEnv "orders" (fileEntriesOf ordersEnv "orders") ∧
      ∃ t, onrampApi exFlags ordersEnv "orders" ordersRoot = .ok t ∧
        (specsWritten t).map (fun pd => (pd.1, pd.2.Contents)) =
          [("src/main/apihub/apiproxies/orders/orders-v1-aws-oas.json",
            { MimeType := "application/json", Contents := "TWFu" })] ∧
        DecodeString "TWFu" = some [77, 97, 110] := by
  refine ⟨by decide, ?_⟩
  obtain ⟨t, ht, -, -⟩ :=
    onramp_spec_contents_base64 exFlags ordersEnv "orders" ordersRoot (by decide)
  have hx : (match onrampApi exFlags ordersEnv "orders" ordersRoot with
      | .ok t => (specsWritten t).map (fun pd => (pd.1, pd.2.Contents))
      | .error _ => []) =
        [("src/main/apihub/apiproxies/orders/orders-v1-aws-oas.json",
          { MimeType := "application/json", Contents := "TWFu" })] := by decide
  rw [ht] at hx
  exact ⟨t, ht, hx, by decide⟩

/-! ## Claims C11 to C14 -/

/-- C11 (counterexample): for the API `shop` the deployment document written
for `shop-v2-aws.json` has the apiVersions list `["2.0.1"]`, the version field
of its record, while the version document that lists this deployment is the
one of the key `shop-v2` derived from the file name. -/
theorem deployment_apiVersions_not_version_key :
    (match onrampApi exFlags shopEnv "shop" (exRecord "shop" "Shop" "Shop API") with
      | .ok t => ((deploymentsWritten t).map (fun pd => (pd.2.Name, pd.2.ApiVersions)),
          (versionsWritten t).map (fun pd => (pd.2.Name, pd.2.Deployments)))
      | .error _ => ([], [])) =
      ([("projects/p/locations/r/deployments/shop-v2-aws", ["2.0.1"])],
        [("projects/p/locations/r/apis/shop/versions/shop-v2",
          ["projects/p/locations/r/deployments/shop-v2-aws"])]) := by
  decide

/-- C11 (amended): in a complete pass every deployment document comes from a
deployment record; its apiVersions list has exactly one entry, the version
field of that record, and the deployment is listed by the version document of
the version key derived from the record's file name. -/
theorem onramp_deployment_apiVersions (flags : ApigeeFlags) (env : Env) (apiName : String)
    (generalApi : GeneralApi) (h : AllOpen env apiName (fileEntriesOf env apiName)) :
    ∃ t, onrampApi flags env apiName generalApi = .ok t ∧
      ∀ pd ∈ deploymentsWritten t,
        ∃ fr ∈ deploymentRecords env apiName (fileEntriesOf env apiName),
          pd.2.ApiVersions = [fr.2.Version] ∧
          ∃ vd ∈ versionsWritten t,
            vd.2.Name = "projects/" ++ flags.Project ++ "/locations/" ++ flags.Region
              ++ "/apis/" ++ apiName ++ "/versions/" ++ apiVersionNameOf fr.1 ∧
            pd.2.Name ∈ vd.2.Deployments := by
  obtain ⟨t, ht, -, hd, -, hv⟩ := onrampApi_views flags env apiName generalApi h
  refine ⟨t, ht, ?_⟩
  intro pd hpd
  rw [hd] at hpd
  obtain ⟨fr, hfr, rfl⟩ := List.mem_map.mp hpd
  refine ⟨fr, hfr, rfl, ?_⟩
  have hin : (apiVersionNameOf fr.1, hubApiDeployment flags fr.2) ∈
      keyedDeployments flags env apiName (fileEntriesOf env apiName) :=
    List.mem_map.mpr ⟨fr, hfr, rfl⟩
  have hne := groupOf_ne_nil_of_mem _ _ _ hin
  have hentry : (apiVersionNameOf fr.1, groupOf (apiVersionNameOf fr.1)
      (keyedDeployments flags env apiName (fileEntriesOf env apiName))) ∈
      env.order.iter (apiVersionsOf flags env apiName) :=
    (env.order.perm (apiVersionsOf flags env apiName)).mem_iff.mpr
      ((mem_groupDeployments_iff _ _ _).mpr ⟨rfl, hne⟩)
  refine ⟨(baseDir ++ "/" ++ apiName ++ "/" ++ apiVersionNameOf fr.1 ++ ".json",
    hubApiVersion flags apiName generalApi (apiVersionNameOf fr.1)
      (groupOf (apiVersionNameOf fr.1)
        (keyedDeployments flags env apiName (fileEntriesOf env apiName)))), ?_, rfl, ?_⟩
  · rw [hv]
    exact List.mem_map.mpr ⟨_, hentry, rfl⟩
  · simp only [hubApiVersion]
    refine List.mem_map.mpr ⟨hubApiDeployment flags fr.2, ?_, rfl⟩
    unfold groupOf
    exact List.mem_map.mpr ⟨_, List.mem_filter.mpr ⟨hin, by simp⟩, rfl⟩

/-- Witness of the amended C11 on the API `shop`. -/
theorem onramp_deployment_apiVersions_witness :
    AllOpen shopEnv "shop" (fileEntriesOf shopEnv "shop") ∧
      ∃ t, onrampApi exFlags shopEnv "shop" (exRecord "shop" "Shop" "Shop API") = .ok t ∧
        ∀ pd ∈ deploymentsWritten t,
          ∃ fr ∈ deploymentRecords shopEnv "shop" (fileEntriesOf shopEnv "shop"),
            pd.2.ApiVersions = [fr.2.Version] ∧
            ∃ vd ∈ versionsWritten t,
              vd.2.Name = "projects/" ++ exFlags.Project ++ "/locations/" ++ exFlags.Region
                ++ "/apis/" ++ "shop" ++ "/versions/" ++ apiVersionNameOf fr.1 ∧
              pd.2.Name ∈ vd.2.Deployments :=
  ⟨by decide,
    onramp_deployment_apiVersions exFlags shopEnv "shop" (exRecord "shop" "Shop" "Shop API")
      (by decide)⟩

theorem onrampFile_withListing (flags : ApigeeFlags) (env : Env) (dir : String)
    (files : List String) (apiName : String) (generalApi : GeneralApi) (f : String)
    (m : GoMap (List HubApiDeployment)) :
    onrampFile flags (withListing env dir files) apiName generalApi f m =
      onrampFile flags env apiName generalApi f m :=
  rfl

theorem groupingPass_withListing (flags : ApigeeFlags) (env : Env) (dir : String)
    (files : List String) (apiName : String) (generalApi : GeneralApi) (l : List String)
    (m : GoMap (List HubApiDeployment)) :
    groupingPass flags (withListing env dir files) apiName generalApi l m =
      groupingPass flags env apiName generalApi l m := by
  induction l generalizing m with
  | nil => rfl
  | cons f rest ih =>
    simp only [groupingPass, onrampFile_withListing]
    cases onrampFile flags env apiName generalApi f m with
    | error t => rfl
    | ok p => simp only [ih]

theorem onrampFile_of_not_deployment (flags : ApigeeFlags) (env : Env) (apiName : String)
    (generalApi : GeneralApi) (f : String) (m : GoMap (List HubApiDeployment))
    (h : isDeploymentFile f = false) :
    onrampFile flags env apiName generalApi f m = .ok ([], m) := by
  simp [onrampFile, h]

theorem groupingPass_filter (flags : ApigeeFlags) (env : Env) (apiName : String)
    (generalApi : GeneralApi) (l : List String) (m : GoMap (List HubApiDeployment)) :
    groupingPass flags env apiName generalApi (l.filter isDeploymentFile) m =
      groupingPass flags env apiName generalApi l m := by
  induction l generalizing m with
  | nil => rfl
  | cons f rest ih =>
    by_cases hf : isDeploymentFile f = true
    · simp only [List.filter_cons, hf, if_true, groupingPass]
      cases onrampFile flags env apiName generalApi f m with
      | error t => rfl
      | ok p => simp only [ih]
    · have hf' : isDeploymentFile f = false := by simpa using hf
      simp only [List.filter_cons, hf', Bool.false_eq_true, if_false, groupingPass,
        onrampFile_of_not_deployment flags env apiName generalApi f m hf', ih]
      cases groupingPass flags env apiName generalApi rest m with
      | error t => rfl
      | ok p => rfl

theorem fileEntriesOf_withListing (env : Env) (apiName : String) (files : List String) :
    fileEntriesOf (withListing env (generalBaseDir ++ "/" ++ apiName) files) apiName = files := by
  simp [fileEntriesOf, withListing]

/-- C12: a file whose name ends in neither `-aws.json` nor `-azure.json` adds no
effect to the grouping pass and leaves the map as it is, and the pass over an
API directory gives the same result (the same calls, the same documents, the
same way of ending) as the pass over the listing with all such files removed. -/
theorem onramp_ignores_other_files (flags : ApigeeFlags) (env : Env) (apiName : String)
    (generalApi : GeneralApi) :
    (∀ f m, isDeploymentFile f = false →
        onrampFile flags env apiName generalApi f m = .ok ([], m)) ∧
      onrampApi flags
          (withListing env (generalBaseDir ++ "/" ++ apiName)
            ((fileEntriesOf env apiName).filter isDeploymentFile))
          apiName generalApi =
        onrampApi flags env apiName generalApi := by
  refine ⟨fun f m h => onrampFile_of_not_deployment flags env apiName generalApi f m h, ?_⟩
  have hl : ((withListing env (generalBaseDir ++ "/" ++ apiName)
      ((fileEntriesOf env apiName).filter isDeploymentFile)).readDir
        (generalBaseDir ++ "/" ++ apiName)).getD [] =
      (fileEntriesOf env apiName).filter isDeploymentFile :=
    fileEntriesOf_withListing env apiName
      ((fileEntriesOf env apiName).filter isDeploymentFile)
  simp only [onrampApi, hl, groupingPass_withListing, groupingPass_filter]
  rfl

/-- Witness of C12 on the API `shop`: without `notes.txt` and `shop.json` in the
listing the pass writes the same documents. -/
theorem onramp_ignores_other_files_witness :
    (fileEntriesOf shopEnv "shop").filter isDeploymentFile =
        ["shop-v2-aws.json", "shop-v2-azure.json"] ∧
      onrampApi exFlags
          (withListing shopEnv (generalBaseDir ++ "/" ++ "shop")
            ((fileEntriesOf shopEnv "shop").filter isDeploymentFile))
          "shop" (exRecord "shop" "Shop" "Shop API") =
        onrampApi exFlags shopEnv "shop" (exRecord "shop" "Shop" "Shop API") :=
  ⟨by decide, (onramp_ignores_other_files exFlags shopEnv "shop"
    (exRecord "shop" "Shop" "Shop API")).2⟩

theorem deploymentRecords_filter_malformed (env : Env) (apiName : String) (l : List String) :
    deploymentRecords env apiName (l.filter fun f => !isMalformed env apiName f) =
      deploymentRecords env apiName l := by
  induction l with
  | nil => rfl
  | cons f rest ih =>
    by_cases hm : isMalformed env apiName f = true
    · simp only [List.filter_cons, hm, Bool.not_true, Bool.false_eq_true, if_false, ih,
        deploymentRecords_cons]
      unfold isMalformed at hm
      simp only [Bool.and_eq_true] at hm
      obtain ⟨hf, hr⟩ := hm
      cases ho : env.openRecord (generalBaseDir ++ "/" ++ apiName ++ "/" ++ f) with
      | none => simp [ho] at hr
      | some r =>
        simp only [ho, beq_iff_eq] at hr
        simp [hf, hr]
    · have hm' : isMalformed env apiName f = false := by simpa using hm
      simp only [List.filter_cons, hm', Bool.not_false, if_true]
      rw [deploymentRecords_cons, deploymentRecords_cons _ _ _ rest, ih]

/-- C13: in a pass in which every deployment file can be opened, the deployment
files that decode to a record with an empty name leave no trace in the
documents: the pass completes, and it writes exactly the documents (paths and
contents, in order) that it writes when those files are removed from the
listing, so no deployment or spec document comes from such a file, no version
list names it, and its siblings are processed as if it were absent. -/
theorem onramp_skips_malformed_deployment (flags : ApigeeFlags) (env : Env) (apiName : String)
    (generalApi : GeneralApi) (h : AllOpen env apiName (fileEntriesOf env apiName)) :
    ∃ t t', onrampApi flags env apiName generalApi = .ok t ∧
      onrampApi flags
          (withListing env (generalBaseDir ++ "/" ++ apiName)
            ((fileEntriesOf env apiName).filter fun f => !isMalformed env apiName f))
          apiName generalApi = .ok t' ∧
      writesOf t = writesOf t' ∧
      ∀ f ∈ fileEntriesOf env apiName, isMalformed env apiName f = true →
        ∀ fr ∈ deploymentRecords env apiName (fileEntriesOf env apiName), fr.1 ≠ f := by
  have hl := fileEntriesOf_withListing env apiName
    ((fileEntriesOf env apiName).filter fun f => !isMalformed env apiName f)
  have h' : AllOpen (withListing env (generalBaseDir ++ "/" ++ apiName)
      ((fileEntriesOf env apiName).filter fun f => !isMalformed env apiName f)) apiName
      (fileEntriesOf (withListing env (generalBaseDir ++ "/" ++ apiName)
        ((fileEntriesOf env apiName).filter fun f => !isMalformed env apiName f)) apiName) := by
    rw [hl]
    intro f hf hd
    exact h f (List.mem_filter.mp hf).1 hd
  obtain ⟨t, ht, hw⟩ := onrampApi_ok flags env apiName generalApi h
  obtain ⟨t', ht', hw'⟩ := onrampApi_ok flags _ apiName generalApi h'
  refine ⟨t, t', ht, ht', ?_, ?_⟩
  · rw [hw, hw']
    have hrec : deploymentRecords (withListing env (generalBaseDir ++ "/" ++ apiName)
        ((fileEntriesOf env apiName).filter fun f => !isMalformed env apiName f)) apiName
        (fileEntriesOf (withListing env (generalBaseDir ++ "/" ++ apiName)
          ((fileEntriesOf env apiName).filter fun f => !isMalformed env apiName f)) apiName) =
        deploymentRecords env apiName (fileEntriesOf env apiName) := by
      rw [hl]
      exact deploymentRecords_filter_malformed env apiName (fileEntriesOf env apiName)
    have hmap : apiVersionsOf flags (withListing env (generalBaseDir ++ "/" ++ apiName)
        ((fileEntriesOf env apiName).filter fun f => !isMalformed env apiName f)) apiName =
        apiVersionsOf flags env apiName := by
      unfold apiVersionsOf keyedDeployments
      rw [hrec]
    rw [hrec, hmap]
    rfl
  · intro f _ hm fr hfr hEq
    unfold deploymentRecords at hfr
    obtain ⟨g, -, hg⟩ := List.mem_filterMap.mp hfr
    unfold isMalformed at hm
    simp only [Bool.and_eq_true] at hm
    by_cases hdg : isDeploymentFile g = true
    · simp only [hdg, if_true] at hg
      cases ho : env.openRecord (generalBaseDir ++ "/" ++ apiName ++ "/" ++ g) with
      | none => simp [ho] at hg
      | some r =>
        simp only [ho] at hg
        by_cases hn : r.Name = ""
        · simp [hn] at hg
        · simp only [ne_eq, hn, not_false_eq_true, if_true, Option.some.injEq] at hg
          have hgf : g = f := by rw [← hEq, ← hg]
          subst hgf
          rw [ho] at hm
          exact hn (by simpa using hm.2)
    · simp [hdg] at hg

/-- Witness of C13 on the API `shop`, whose Azure file does not hold a record:
only the AWS deployment and the version document naming it are written. -/
theorem onramp_skips_malformed_deployment_witness :
    AllOpen shopEnv "shop" (fileEntriesOf shopEnv "shop") ∧
      (fileEntriesOf shopEnv "shop").filter (fun f => isMalformed shopEnv "shop" f) =
        ["shop-v2-azure.json"] ∧
      ∃ t t', onrampApi exFlags shopEnv "shop" (exRecord "shop" "Shop" "Shop API") = .ok t ∧
        onrampApi exFlags
            (withListing shopEnv (generalBaseDir ++ "/" ++ "shop")
              ((fileEntriesOf shopEnv "shop").filter fun f => !isMalformed shopEnv "shop" f))
            "shop" (exRecord "shop" "Shop" "Shop API") = .ok t' ∧
        writesOf t = writesOf t' ∧
        (writesOf t).map Prod.fst =
          ["src/main/apihub/apiproxies/shop/shop.json",
            "src/main/apihub/apiproxies/shop/shop-v2-aws.json",
            "src/main/apihub/apiproxies/shop/shop-v2.json"] := by
  refine ⟨by decide, by decide, ?_⟩
  obtain ⟨t, t', ht, ht', hw, -⟩ := onramp_skips_malformed_deployment exFlags shopEnv "shop"
    (exRecord "shop" "Shop" "Shop API") (by decide)
  have hx : (match onrampApi exFlags shopEnv "shop" (exRecord "shop" "Shop" "Shop API") with
      | .ok t => (writesOf t).map Prod.fst
      | .error _ => []) =
        ["src/main/apihub/apiproxies/shop/shop.json",
          "src/main/apihub/apiproxies/shop/shop-v2-aws.json",
          "src/main/apihub/apiproxies/shop/shop-v2.json"] := by decide
  rw [ht] at hx
  exact ⟨t, t', ht, ht', hw, hx⟩

theorem onrampEntries_append (flags : ApigeeFlags) (env : Env) (pre post : List String) :
    onrampEntries flags env (pre ++ post) =
      match onrampEntries flags env pre with
      | .error t => .error t
      | .ok t =>
        match onrampEntries flags env post with
        | .error t1 => .error (t ++ t1)
        | .ok t1 => .ok (t ++ t1) := by
  induction pre with
  | nil =>
    simp only [List.nil_append, onrampEntries]
    cases onrampEntries flags env post <;> rfl
  | cons e rest ih =>
    show onrampEntries flags env (e :: (rest ++ post)) = _
    simp only [onrampEntries]
    rw [ih]
    cases onrampEntry flags env e with
    | error t => rfl
    | ok t =>
      cases onrampEntries flags env rest with
      | error t1 => rfl
      | ok t1 =>
        cases onrampEntries flags env post with
        | error t2 => simp
        | ok t2 => simp

/-- C14 (counterexample): with the API directories `billing`, `orders` and
`drafts` listed and no root document for `billing`, the run ends in
`log.Fatal` at `billing` and writes nothing, although `orders` is complete;
the same store with only `orders` listed returns nil and writes the four
documents of `orders`. -/
theorem onramp_missing_root_aborts_run :
    (apiHubOnramp exFlags threeApisEnv).exit = Exit.fatal ∧
      (apiHubOnramp exFlags threeApisEnv).trace =
        [Effect.readDir "src/main/general/apiproxies", Effect.println "billing",
          Effect.openFile "src/main/general/apiproxies/billing/billing.json",
          Effect.logFatal] ∧
      (apiHubOnramp exFlags ordersEnv).exit = Exit.returnedNil ∧
      (writesOf (apiHubOnramp exFlags ordersEnv).trace).map Prod.fst =
        ["src/main/apihub/apiproxies/orders/orders.json",
          "src/main/apihub/apiproxies/orders/orders-v1-aws.json",
          "src/main/apihub/apiproxies/orders/orders-v1-aws-oas.json",
          "src/main/apihub/apiproxies/orders/orders-v1-azure.json",
          "src/main/apihub/apiproxies/orders/orders-v1.json"] := by
  decide

/-- C14 (amended): for a selected API directory `e` in the list of
directories, a root document that decodes to a record with an empty name only
skips `e`: the loop writes the same documents and ends the same way as
without `e` in the list; a root document that cannot be opened ends the whole
run at `e` with `log.Fatal`, after the effects of the directories before it
and before any directory after it is looked at. -/
theorem onramp_root_document_failures (flags : ApigeeFlags) (env : Env) (pre : List String)
    (e : String) (post : List String) (hsel : flags.ApiName = "" ∨ flags.ApiName = e) :
    (∀ r, env.openRecord (rootPath e) = some r → r.Name = "" →
        writesOf (outcomeTrace (onrampEntries flags env (pre ++ e :: post))) =
          writesOf (outcomeTrace (onrampEntries flags env (pre ++ post))) ∧
        completed (onrampEntries flags env (pre ++ e :: post)) =
          completed (onrampEntries flags env (pre ++ post))) ∧
      (env.openRecord (rootPath e) = none →
        ∀ t, onrampEntries flags env pre = .ok t →
          onrampEntries flags env (pre ++ e :: post) =
            .error (t ++ [.println e, .openFile (rootPath e), .logFatal])) := by
  constructor
  · intro r hr hn
    have he : onrampEntry flags env e = .ok [.println e, .openFile (rootPath e)] := by
      unfold rootPath at hr
      simp only [onrampEntry, hsel, if_true, hr, hn, ne_eq, not_true_eq_false, if_false]
      rfl
    rw [onrampEntries_append, onrampEntries_append flags env pre post]
    simp only [onrampEntries, he]
    cases onrampEntries flags env pre with
    | error t => exact ⟨rfl, rfl⟩
    | ok t =>
      cases onrampEntries flags env post with
      | error t1 => simp [outcomeTrace, completed, writesOf]
      | ok t1 => simp [outcomeTrace, completed, writesOf]
  · intro hr t ht
    have he : onrampEntry flags env e =
        .error [.println e, .openFile (rootPath e), .logFatal] := by
      unfold rootPath at hr
      simp only [onrampEntry, hsel, if_true, hr]
      rfl
    rw [onrampEntries_append, ht]
    simp only [onrampEntries, he]

/-- Witness of the amended C14 on the store with `billing`, `orders` and
`drafts`: the missing root of `billing` ends the loop at once, and the loop
over `orders` and `drafts` writes what the loop over `orders` alone writes. -/
theorem onramp_root_document_failures_witness :
    onrampEntries exFlags threeApisEnv ([] ++ "billing" :: ["orders", "drafts"]) =
        .error ([] ++ [.println "billing", .openFile (rootPath "billing"), .logFatal]) ∧
      writesOf (outcomeTrace (onrampEntries exFlags threeApisEnv (["orders"] ++ "drafts" :: []))) =
        writesOf (outcomeTrace (onrampEntries exFlags threeApisEnv (["orders"] ++ []))) ∧
      completed (onrampEntries exFlags threeApisEnv (["orders"] ++ "drafts" :: [])) = true :=
  ⟨(onramp_root_document_failures exFlags threeApisEnv [] "billing" ["orders", "drafts"]
      (Or.inl rfl)).2 (by decide) [] rfl,
    ((onramp_root_document_failures exFlags threeApisEnv ["orders"] "drafts" []
      (Or.inl rfl)).1 default (by decide) rfl).1,
    by decide⟩

/-! ## Lemmas on blocks -/

theorem trace_andThen {τ : Type} (r : Outcome τ) (k : τ → Outcome τ) :
    (andThen r k).trace =
      r.trace ++
        match r with
        | .ok p => (k p.state).trace
        | .error _ => [] := by
  cases r with
  | error p => simp [andThen, Outcome.trace]
  | ok p =>
    simp only [andThen, Outcome.trace]
    cases k p.state <;> rfl

theorem trace_emit {τ : Type} (effects : List Effect) (s : τ) :
    (emit effects s).trace = effects :=
  rfl

theorem andThen_ok {τ : Type} (r : Outcome τ) (k : τ → Outcome τ) (p1 p2 : Pass τ)
    (h1 : r = .ok p1) (h2 : k p1.state = .ok p2) :
    andThen r k = .ok ⟨p2.state, p1.trace ++ p2.trace⟩ := by
  subst h1
  simp [andThen, h2]

theorem andThen_eq_ok {τ : Type} (r : Outcome τ) (k : τ → Outcome τ) (p : Pass τ)
    (h : andThen r k = .ok p) :
    ∃ p1 p2, r = .ok p1 ∧ k p1.state = .ok p2 ∧ p = ⟨p2.state, p1.trace ++ p2.trace⟩ := by
  cases r with
  | error q => simp [andThen] at h
  | ok q =>
    cases hk : k q.state with
    | error q2 => simp [andThen, hk] at h
    | ok q2 =>
      simp only [andThen, hk, Except.ok.injEq] at h
      exact ⟨q, q2, rfl, hk, h.symm⟩

/-- A property of traces that holds of the empty trace and is kept by
appending holds of a sequence of two blocks when it holds of both. -/
theorem andThen_trace_prop {τ : Type} (P : List Effect → Prop) (hnil : P [])
    (happ : ∀ a b, P a → P b → P (a ++ b)) (r : Outcome τ) (k : τ → Outcome τ)
    (hr : P r.trace) (hk : ∀ s, P (k s).trace) : P (andThen r k).trace := by
  rw [trace_andThen]
  cases r with
  | error p => exact happ _ _ hr hnil
  | ok p => exact happ _ _ hr (hk p.state)

theorem forEach_trace_prop {α τ : Type} (P : List Effect → Prop) (hnil : P [])
    (happ : ∀ a b, P a → P b → P (a ++ b)) (body : α → τ → Outcome τ) (xs : List α)
    (h : ∀ x ∈ xs, ∀ s, P (body x s).trace) : ∀ s, P (forEach body xs s).trace := by
  induction xs with
  | nil => intro s; exact hnil
  | cons x rest ih =>
    intro s
    exact andThen_trace_prop P hnil happ _ _ (h x (List.mem_cons_self x rest) s)
      (ih fun y hy => h y (List.mem_cons_of_mem x hy))

theorem clientDo_trace_prop {σ : Type} (P : List Effect → Prop) (remote : Remote σ)
    (req : Request) (s : ImportState σ)
    (k : Response → ImportState σ → Outcome (ImportState σ))
    (hfail : ∀ err, P [.http req (.failed err)])
    (hresp : ∀ resp s', P (.http req (.response resp) :: (k resp s').trace)) :
    P (clientDo remote req s k).trace := by
  unfold clientDo
  cases hsend : remote.send s.remote req with
  | mk remote1 reply =>
    cases reply with
    | failed err => exact hfail err
    | response resp =>
      simp only [trace_andThen]
      exact hresp resp _

theorem httpOf_append (t1 t2 : List Effect) : httpOf (t1 ++ t2) = httpOf t1 ++ httpOf t2 := by
  simp [httpOf, List.filterMap_append]

theorem createsOf_append (t1 t2 : List Effect) :
    createsOf (t1 ++ t2) = createsOf t1 ++ createsOf t2 := by
  simp [createsOf, httpOf_append]

/-- A state invariant kept by every pass of the body holds after the loop. -/
theorem forEach_invariant {α τ : Type} (I : τ → Prop) (body : α → τ → Outcome τ)
    (h : ∀ x s p, I s → body x s = .ok p → I p.state) :
    ∀ xs s p, I s → forEach body xs s = .ok p → I p.state := by
  intro xs
  induction xs with
  | nil =>
    intro s p hs hp
    simp only [forEach, Except.ok.injEq] at hp
    rw [← hp]; exact hs
  | cons x rest ih =>
    intro s p hs hp
    obtain ⟨p1, p2, h1, h2, rfl⟩ := andThen_eq_ok _ _ _ hp
    exact ih p1.state p2 (h x s p1 hs h1) h2

theorem state_andThen {τ : Type} (r : Outcome τ) (k : τ → Outcome τ) :
    (andThen r k).state = if r.finished then (k r.state).state else r.state := by
  cases r with
  | error p => rfl
  | ok p =>
    simp only [andThen, Outcome.finished, Outcome.state, if_true]
    cases k p.state <;> rfl

theorem finished_andThen {τ : Type} (r : Outcome τ) (k : τ → Outcome τ) :
    (andThen r k).finished = (r.finished && (k r.state).finished) := by
  cases r with
  | error p => rfl
  | ok p =>
    simp only [andThen, Outcome.finished, Outcome.state, Bool.true_and]
    cases k p.state <;> rfl

theorem trace_andThen_if {τ : Type} (r : Outcome τ) (k : τ → Outcome τ) :
    (andThen r k).trace = r.trace ++ if r.finished then (k r.state).trace else [] := by
  rw [trace_andThen]
  cases r <;> rfl

theorem trace_clientDo {σ : Type} (remote : Remote σ) (req : Request) (s : ImportState σ)
    (k : Response → ImportState σ → Outcome (ImportState σ)) :
    (clientDo remote req s k).trace =
      .http req (remote.send s.remote req).2 ::
        match (remote.send s.remote req).2 with
        | .response resp => (k resp { s with remote := (remote.send s.remote req).1 }).trace
        | .failed _ => [] := by
  unfold clientDo
  cases hsend : remote.send s.remote req with
  | mk remote1 reply =>
    cases reply with
    | failed err => rfl
    | response resp =>
      show (andThen (Except.ok ⟨{ s with remote := remote1 },
        [Effect.http req (Reply.response resp)]⟩) (k resp)).trace = _
      rw [trace_andThen_if]
      rfl

theorem state_clientDo {σ : Type} (remote : Remote σ) (req : Request) (s : ImportState σ)
    (k : Response → ImportState σ → Outcome (ImportState σ)) :
    (clientDo remote req s k).state =
      match (remote.send s.remote req).2 with
      | .response resp => (k resp { s with remote := (remote.send s.remote req).1 }).state
      | .failed _ => { s with remote := (remote.send s.remote req).1 } := by
  unfold clientDo
  cases hsend : remote.send s.remote req with
  | mk remote1 reply =>
    cases reply with
    | failed err => rfl
    | response resp =>
      show (andThen (Except.ok ⟨{ s with remote := remote1 },
        [Effect.http req (Reply.response resp)]⟩) (k resp)).state = _
      rw [state_andThen]
      rfl

theorem finished_clientDo {σ : Type} (remote : Remote σ) (req : Request) (s : ImportState σ)
    (k : Response → ImportState σ → Outcome (ImportState σ)) :
    (clientDo remote req s k).finished =
      match (remote.send s.remote req).2 with
      | .response resp => (k resp { s with remote := (remote.send s.remote req).1 }).finished
      | .failed _ => false := by
  unfold clientDo
  cases hsend : remote.send s.remote req with
  | mk remote1 reply =>
    cases reply with
    | failed err => rfl
    | response resp =>
      show (andThen (Except.ok ⟨{ s with remote := remote1 },
        [Effect.http req (Reply.response resp)]⟩) (k resp)).finished = _
      rw [finished_andThen]
      rfl

/-! ## Claims C15 to C20 -/

/-- C15: with an empty project or an empty region, each of `apiHubOnramp`,
`apiHubImport`, `apiHubExport` and `apiHubClean` returns nil, leaves the flags
and the remote side as they are, and its only effect is one printed line: no
HTTP call, no token resolution, no directory listing, no file read or write. -/
theorem precondition_returns_before_any_call {σ : Type} (flags : ApigeeFlags) (env : Env)
    (codec : Codec) (remote : Remote σ) (remote0 : σ)
    (h : flags.Project = "" ∨ flags.Region = "") :
    ((apiHubOnramp flags env).exit = .returnedNil ∧ (apiHubOnramp flags env).flags = flags ∧
        ∃ line, (apiHubOnramp flags env).trace = [.println line]) ∧
      ((apiHubImport flags env codec remote remote0).exit = .returnedNil ∧
        (apiHubImport flags env codec remote remote0).flags = flags ∧
        (apiHubImport flags env codec remote remote0).remote = remote0 ∧
        ∃ line, (apiHubImport flags env codec remote remote0).trace = [.println line]) ∧
      ((apiHubExport flags env codec remote remote0).exit = .returnedNil ∧
        (apiHubExport flags env codec remote remote0).flags = flags ∧
        (apiHubExport flags env codec remote remote0).remote = remote0 ∧
        ∃ line, (apiHubExport flags env codec remote remote0).trace = [.println line]) ∧
      ((apiHubClean flags env codec remote remote0).exit = .returnedNil ∧
        (apiHubClean flags env codec remote remote0).flags = flags ∧
        (apiHubClean flags env codec remote remote0).remote = remote0 ∧
        ∃ line, (apiHubClean flags env codec remote remote0).trace = [.println line]) := by
  by_cases hp : flags.Project = ""
  · by_cases hr : flags.Region = ""
    · simp [apiHubOnramp, apiHubImport, apiHubExport, apiHubClean, hp, hr]
    · simp [apiHubOnramp, apiHubImport, apiHubExport, apiHubClean, hp, hr]
  · have hr : flags.Region = "" := h.resolve_left hp
    simp [apiHubOnramp, apiHubImport, apiHubExport, apiHubClean, hp, hr]

/-- Witness of C15: flags with the region `r` and no project, on the store of
the API `orders` and a remote side that answers every request. -/
theorem precondition_returns_before_any_call_witness :
    ({ exFlags with Project := "" } : ApigeeFlags).Project = "" ∧
      (apiHubImport { exFlags with Project := "" } hubEnv exCodec (answering 200) ()).trace =
        [.println "No project given. Please specify a --project YOUR_PROJECT_ID flag."] ∧
      (apiHubExport { exFlags with Project := "" } hubEnv exCodec (answering 200) ()).trace =
        [.println "Missing ' --project YOUR_PROJECT_ID'"] ∧
      (apiHubClean { exFlags with Project := "" } hubEnv exCodec (answering 200) ()).exit =
        .returnedNil :=
  ⟨rfl, by decide, by decide,
    (precondition_returns_before_any_call { exFlags with Project := "" } hubEnv exCodec
      (answering 200) () (Or.inl rfl)).2.2.2.1⟩

/-- C19 (failing input): on the store of the API `orders`, with a remote side
that cannot be reached, the first create gets no response and the run ends in
a panic (the nil response is dereferenced); the only call made is the create
of the API, and no deployment, version or spec is attempted, where the claim
expects the run to report the failure and go on. -/
theorem import_panics_without_response :
    (apiHubImport exFlags hubEnv exCodec unreachable ()).exit = .panicked ∧
      httpOf (apiHubImport exFlags hubEnv exCodec unreachable ()).trace =
        [({ call := .createApi "p" "r" "orders", token := "t", body := .raw [1] },
          .failed "connection refused")] ∧
      (plannedCreates exFlags hubEnv exCodec).length = 5 := by
  decide

/-- The conflict-fallback rule is kept by appending. -/
theorem patchDiscipline_append (a b : List (Request × Reply))
    (ha : patchDiscipline a = true) (hb : patchDiscipline b = true) :
    patchDiscipline (a ++ b) = true := by
  induction a using patchDiscipline.induct with
  | case1 => simpa using hb
  | case2 req reply rest hp => simp [patchDiscipline, hp] at ha
  | case3 req reply hp patch hpatch hs next reply' rest' ih =>
    simp [patchDiscipline, hp, hpatch, hs] at ha ⊢
    exact ⟨ha.1, ih ha.2⟩
  | case4 req reply hp patch hpatch hs =>
    simp [patchDiscipline, hp, hpatch, hs] at ha
  | case5 req reply rest hp patch hpatch hs ih =>
    simp [patchDiscipline, hp, hpatch, hs] at ha ⊢
    exact ih ha
  | case6 req reply rest hp hpatch ih =>
    simp [patchDiscipline, hp, hpatch] at ha ⊢
    exact ih ha

theorem state_emit {τ : Type} (effects : List Effect) (s : τ) : (emit effects s).state = s := rfl

theorem finished_emit {τ : Type} (effects : List Effect) (s : τ) :
    (emit effects s).finished = true := rfl

theorem httpOf_cons_http (req : Request) (reply : Reply) (t : List Effect) :
    httpOf (.http req reply :: t) = (req, reply) :: httpOf t := rfl

theorem httpOf_cons_println (line : String) (t : List Effect) :
    httpOf (.println line :: t) = httpOf t := rfl

theorem httpOf_cons_openFile (path : String) (t : List Effect) :
    httpOf (.openFile path :: t) = httpOf t := rfl

theorem httpOf_cons_readDir (path : String) (t : List Effect) :
    httpOf (.readDir path :: t) = httpOf t := rfl

theorem httpOf_nil : httpOf [] = [] := rfl

theorem newRequest_of_parses {τ : Type} (req : Request) (s : τ) (k : τ → Outcome τ)
    (h : parses req.call.url = true) : newRequest req s k = k s := by
  simp [newRequest, h]

theorem trace_newRequest {τ : Type} (req : Request) (s : τ) (k : τ → Outcome τ) :
    (newRequest req s k).trace = if parses req.call.url = true then (k s).trace else [] := by
  unfold newRequest
  split <;> rfl

theorem state_newRequest {τ : Type} (req : Request) (s : τ) (k : τ → Outcome τ) :
    (newRequest req s k).state = if parses req.call.url = true then (k s).state else s := by
  unfold newRequest
  split <;> rfl

theorem finished_newRequest {τ : Type} (req : Request) (s : τ) (k : τ → Outcome τ) :
    (newRequest req s k).finished = (parses req.call.url && (k s).finished) := by
  unfold newRequest
  split
  · rename_i h
    simp [h]
  · rename_i h
    simp [h, Outcome.finished]

/-- A property of traces that holds of the empty trace holds of a block that
starts by building a request when it holds of what follows. -/
theorem newRequest_trace_prop {τ : Type} (P : List Effect → Prop) (hnil : P [])
    (req : Request) (s : τ) (k : τ → Outcome τ) (hk : P (k s).trace) :
    P (newRequest req s k).trace := by
  rw [trace_newRequest]
  split
  · exact hk
  · exact hnil

/-- A property of traces that holds of the empty trace and is kept by
appending holds of a sequence of two blocks when it holds of the first and,
if the first ran to its end, of the second from the state the first left. -/
theorem andThen_trace_prop_state {τ : Type} (P : List Effect → Prop) (hnil : P [])
    (happ : ∀ a b, P a → P b → P (a ++ b)) (r : Outcome τ) (k : τ → Outcome τ)
    (hr : P r.trace) (hk : r.finished = true → P (k r.state).trace) :
    P (andThen r k).trace := by
  rw [trace_andThen_if]
  split
  · rename_i h
    exact happ _ _ hr (hk h)
  · exact happ _ _ hr hnil

/-! ## The order of the calls of an import -/

theorem callsAll_nil (Q : Call → Prop) : CallsAll Q [] := by
  intro req reply h
  simp [httpOf] at h

theorem callsAll_quiet (Q : Call → Prop) (t : List Effect) (h : httpOf t = []) :
    CallsAll Q t := by
  intro req reply hm
  simp [h] at hm

theorem callsAll_append (Q : Call → Prop) (a b : List Effect) (ha : CallsAll Q a)
    (hb : CallsAll Q b) : CallsAll Q (a ++ b) := by
  intro req reply h
  rw [httpOf_append, List.mem_append] at h
  exact h.elim (ha req reply) (hb req reply)

theorem callsAll_mono (Q Q' : Call → Prop) (t : List Effect) (h : ∀ c, Q c → Q' c)
    (ht : CallsAll Q t) : CallsAll Q' t :=
  fun req reply hm => h _ (ht req reply hm)

theorem callsAll_cons_http (Q : Call → Prop) (req : Request) (reply : Reply) (t : List Effect) :
    CallsAll Q (.http req reply :: t) ↔ Q req.call ∧ CallsAll Q t := by
  simp only [CallsAll, httpOf_cons_http, List.mem_cons, Prod.mk.injEq]
  constructor
  · intro h
    exact ⟨h req reply (Or.inl ⟨rfl, rfl⟩), fun r p hm => h r p (Or.inr hm)⟩
  · rintro ⟨h1, h2⟩ r p (⟨rfl, rfl⟩ | hm)
    · exact h1
    · exact h2 r p hm

theorem callsAll_cons_println (Q : Call → Prop) (line : String) (t : List Effect) :
    CallsAll Q (.println line :: t) ↔ CallsAll Q t := Iff.rfl

theorem callsAll_cons_openFile (Q : Call → Prop) (path : String) (t : List Effect) :
    CallsAll Q (.openFile path :: t) ↔ CallsAll Q t := Iff.rfl

theorem callsAll_cons_readDir (Q : Call → Prop) (path : String) (t : List Effect) :
    CallsAll Q (.readDir path :: t) ↔ CallsAll Q t := Iff.rfl

/-- The calls of a request whose answer is only reported are that request. -/
theorem clientDo_calls {σ : Type} (Q : Call → Prop) (remote : Remote σ) (req : Request)
    (s : ImportState σ) (k : Response → ImportState σ → Outcome (ImportState σ))
    (hq : Q req.call) (hk : ∀ resp s', CallsAll Q (k resp s').trace) :
    CallsAll Q (clientDo remote req s k).trace :=
  clientDo_trace_prop (CallsAll Q) remote req s k
    (fun _ => (callsAll_cons_http Q _ _ _).2 ⟨hq, callsAll_nil Q⟩)
    (fun resp s' => (callsAll_cons_http Q _ _ _).2 ⟨hq, hk resp s'⟩)

theorem importApi_calls {σ : Type} (flags : ApigeeFlags) (env : Env) (remote : Remote σ)
    (e : String) (s : ImportState σ) :
    CallsAll (fun c => c = .createApi flags.Project flags.Region e)
      (importApi flags env remote e s).trace := by
  cases h : env.readFile (baseDir ++ "/" ++ e ++ "/" ++ e ++ ".json") with
  | none =>
    simp only [importApi, h]
    exact callsAll_quiet _ _ rfl
  | some byteValue =>
    simp only [importApi, h]
    refine andThen_trace_prop _ (callsAll_nil _) (callsAll_append _) _ _ (callsAll_quiet _ _ rfl)
      fun s0 => newRequest_trace_prop _ (callsAll_nil _) _ _ _
        (andThen_trace_prop _ (callsAll_nil _) (callsAll_append _) _ _ (callsAll_quiet _ _ rfl)
          fun s1 => clientDo_calls _ remote _ s1 _ rfl fun resp s' => ?_)
    split
    · exact callsAll_quiet _ _ rfl
    · exact callsAll_quiet _ _ rfl

theorem importSpec_calls {σ : Type} (flags : ApigeeFlags) (env : Env) (remote : Remote σ)
    (e k d : String) (s : ImportState σ) :
    CallsAll (fun c => c = .createSpec flags.Project flags.Region e k d)
      (importSpec flags env remote e k d s).trace := by
  cases h : env.readFile (baseDir ++ "/" ++ e ++ "/" ++ d ++ "-oas.json") with
  | none =>
    simp only [importSpec, h]
    exact callsAll_quiet _ _ rfl
  | some byteValue =>
    simp only [importSpec, h]
    refine andThen_trace_prop _ (callsAll_nil _) (callsAll_append _) _ _ (callsAll_quiet _ _ rfl)
      fun s0 => newRequest_trace_prop _ (callsAll_nil _) _ _ _
        (andThen_trace_prop _ (callsAll_nil _) (callsAll_append _) _ _ (callsAll_quiet _ _ rfl)
          fun s1 => clientDo_calls _ remote _ s1 _ rfl fun resp s' => ?_)
    split
    · exact callsAll_quiet _ _ rfl
    · exact callsAll_quiet _ _ rfl

theorem importFile_calls {σ : Type} (flags : ApigeeFlags) (env : Env) (remote : Remote σ)
    (e f : String) (s : ImportState σ) :
    CallsAll (fun c => ∃ d, c = .createDeployment flags.Project flags.Region d)
      (importFile flags env remote e f s).trace := by
  by_cases hf : isDeploymentFile f = true
  · simp only [importFile, hf, if_true]
    refine andThen_trace_prop _ (callsAll_nil _) (callsAll_append _) _ _ ?_
      fun s3 => callsAll_quiet _ _ rfl
    cases h : env.readFile (baseDir ++ "/" ++ e ++ "/" ++ f) with
    | none => exact callsAll_quiet _ _ rfl
    | some byteValue =>
      refine andThen_trace_prop _ (callsAll_nil _) (callsAll_append _) _ _ (callsAll_quiet _ _ rfl)
        fun s0 => newRequest_trace_prop _ (callsAll_nil _) _ _ _
          (andThen_trace_prop _ (callsAll_nil _) (callsAll_append _) _ _
            (callsAll_quiet _ _ rfl)
            fun s1 => clientDo_calls _ remote _ s1 _ ⟨_, rfl⟩ fun resp s' => ?_)
      split
      · exact callsAll_quiet _ _ rfl
      · exact callsAll_quiet _ _ rfl
  · simp only [importFile, hf]
    exact callsAll_quiet _ _ rfl

theorem importVersionDoc_calls {σ : Type} (flags : ApigeeFlags) (env : Env) (codec : Codec)
    (remote : Remote σ) (e k : String) (s : ImportState σ) :
    CallsAll (fun c => c = .createVersion flags.Project flags.Region e k ∨
        c = .patchVersion flags.Project flags.Region e k)
      (importVersionDoc flags env codec remote e k s).trace := by
  cases h : env.readFile (baseDir ++ "/" ++ e ++ "/" ++ k ++ ".json") with
  | none =>
    simp only [importVersionDoc, h]
    exact callsAll_quiet _ _ rfl
  | some byteValue =>
    simp only [importVersionDoc, h]
    refine andThen_trace_prop _ (callsAll_nil _) (callsAll_append _) _ _ (callsAll_quiet _ _ rfl)
      fun s0 => newRequest_trace_prop _ (callsAll_nil _) _ _ _
        (andThen_trace_prop _ (callsAll_nil _) (callsAll_append _) _ _ (callsAll_quiet _ _ rfl)
          fun s1 => clientDo_calls _ remote _ s1 _ (Or.inl rfl) fun resp s' => ?_)
    split
    · refine andThen_trace_prop _ (callsAll_nil _) (callsAll_append _) _ _ (callsAll_quiet _ _ rfl)
        fun s3 => ?_
      split
      · refine newRequest_trace_prop _ (callsAll_nil _) _ _ _
          (andThen_trace_prop _ (callsAll_nil _) (callsAll_append _) _ _
            (callsAll_quiet _ _ rfl)
            fun s4 => clientDo_calls _ remote _ s4 _ (Or.inr rfl) fun resp2 s5 => ?_)
        split
        · exact callsAll_quiet _ _ rfl
        · exact callsAll_quiet _ _ rfl
      · exact callsAll_quiet _ _ rfl
    · exact callsAll_quiet _ _ rfl


theorem importVersion_calls {σ : Type} (flags : ApigeeFlags) (env : Env) (codec : Codec)
    (remote : Remote σ) (e : String) (kv : String × List String) (s : ImportState σ) :
    CallsAll (fun c => c = .createVersion flags.Project flags.Region e kv.1 ∨
        c = .patchVersion flags.Project flags.Region e kv.1 ∨
        ∃ d, c = .createSpec flags.Project flags.Region e kv.1 d)
      (importVersion flags env codec remote e kv s).trace := by
  unfold importVersion
  refine andThen_trace_prop _ (callsAll_nil _) (callsAll_append _) _ _ ?_ fun s1 => ?_
  · exact callsAll_mono _ _ _ (fun c h => h.elim Or.inl fun h => Or.inr (Or.inl h))
      (importVersionDoc_calls flags env codec remote e kv.1 s)
  · exact forEach_trace_prop _ (callsAll_nil _) (callsAll_append _) _ _
      (fun d _ s2 => callsAll_mono _ _ _ (fun c h => Or.inr (Or.inr ⟨d, h⟩))
        (importSpec_calls flags env remote e kv.1 d s2)) s1

theorem forEach_importVersion_calls {σ : Type} (flags : ApigeeFlags) (env : Env) (codec : Codec)
    (remote : Remote σ) (e : String) (entries : List (String × List String))
    (s : ImportState σ) :
    CallsAll (fun c => ∃ k ∈ entries.map Prod.fst,
        c = .createVersion flags.Project flags.Region e k ∨
        c = .patchVersion flags.Project flags.Region e k ∨
        ∃ d, c = .createSpec flags.Project flags.Region e k d)
      (forEach (importVersion flags env codec remote e) entries s).trace :=
  forEach_trace_prop _ (callsAll_nil _) (callsAll_append _) _ _
    (fun kv hkv s1 => callsAll_mono _ _ _
      (fun _ h => ⟨kv.1, List.mem_map_of_mem Prod.fst hkv, h⟩)
      (importVersion_calls flags env codec remote e kv s1)) s

theorem forEach_importVersion_kinds {σ : Type} (flags : ApigeeFlags) (env : Env) (codec : Codec)
    (remote : Remote σ) (e : String) (entries : List (String × List String))
    (s : ImportState σ) :
    CallsAll (fun c => ∃ k, c = .createVersion flags.Project flags.Region e k ∨
        c = .patchVersion flags.Project flags.Region e k ∨
        ∃ d, c = .createSpec flags.Project flags.Region e k d)
      (forEach (importVersion flags env codec remote e) entries s).trace :=
  callsAll_mono _ _ _
    (fun c h => by
      obtain ⟨k, _, h⟩ := h
      exact ⟨k, h⟩)
    (forEach_importVersion_calls flags env codec remote e entries s)

/-- In the loop over the version keys, when the keys are distinct, the calls
split for every key `k` into a first part with no create of a spec under `k`
and a second part with no create or patch of the version `k`. -/
theorem forEach_importVersion_order {σ : Type} (flags : ApigeeFlags) (env : Env) (codec : Codec)
    (remote : Remote σ) (e k : String) (entries : List (String × List String))
    (hnd : (entries.map Prod.fst).Nodup) :
    ∀ s : ImportState σ, ∃ t1 t2,
      (forEach (importVersion flags env codec remote e) entries s).trace = t1 ++ t2 ∧
      CallsAll (fun c => ∀ d, c ≠ .createSpec flags.Project flags.Region e k d) t1 ∧
      CallsAll (fun c => c ≠ .createVersion flags.Project flags.Region e k ∧
        c ≠ .patchVersion flags.Project flags.Region e k) t2 := by
  induction entries with
  | nil => exact fun s => ⟨[], [], rfl, callsAll_nil _, callsAll_nil _⟩
  | cons kv rest ih =>
    intro s
    rw [List.map_cons, List.nodup_cons] at hnd
    have hrest : ∀ s1, CallsAll (fun c => c ≠ .createVersion flags.Project flags.Region e kv.1 ∧
        c ≠ .patchVersion flags.Project flags.Region e kv.1)
        (forEach (importVersion flags env codec remote e) rest s1).trace := fun s1 =>
      callsAll_mono _ _ _
        (by
          rintro _ ⟨k', hk', rfl | rfl | ⟨d, rfl⟩⟩
          · refine ⟨fun h => hnd.1 ?_, by simp⟩
            injection h with _ _ _ h4
            exact h4 ▸ hk'
          · refine ⟨by simp, fun h => hnd.1 ?_⟩
            injection h with _ _ _ h4
            exact h4 ▸ hk'
          · exact ⟨by simp, by simp⟩)
        (forEach_importVersion_calls flags env codec remote e rest s1)
    simp only [forEach, trace_andThen_if]
    by_cases hk : k = kv.1
    · subst hk
      refine ⟨(importVersionDoc flags env codec remote e kv.1 s).trace,
        (if (importVersionDoc flags env codec remote e kv.1 s).finished = true then
            (forEach (importSpec flags env remote e kv.1) kv.2
              (importVersionDoc flags env codec remote e kv.1 s).state).trace
          else []) ++
          if (importVersion flags env codec remote e kv s).finished = true then
            (forEach (importVersion flags env codec remote e) rest
              (importVersion flags env codec remote e kv s).state).trace
          else [], ?_, ?_, ?_⟩
      · simp only [importVersion, trace_andThen_if, List.append_assoc]
      · exact callsAll_mono _ _ _
          (by rintro c (h | h) d <;> subst h <;> simp)
          (importVersionDoc_calls flags env codec remote e kv.1 s)
      · refine callsAll_append _ _ _ ?_ ?_
        · split
          · exact forEach_trace_prop _ (callsAll_nil _) (callsAll_append _) _ _
              (fun d _ s2 => callsAll_mono _ _ _ (by rintro _ rfl; simp)
                (importSpec_calls flags env remote e kv.1 d s2)) _
          · exact callsAll_nil _
        · split
          · exact hrest _
          · exact callsAll_nil _
    · have hkv : CallsAll (fun c => ∀ d, c ≠ .createSpec flags.Project flags.Region e k d)
          (importVersion flags env codec remote e kv s).trace :=
        callsAll_mono _ _ _
          (by
            rintro c (h | h | ⟨d', h⟩) d
            · subst h; simp
            · subst h; simp
            · subst h
              intro h
              injection h with _ _ _ h4 _
              exact hk h4.symm)
          (importVersion_calls flags env codec remote e kv s)
      by_cases hfin : (importVersion flags env codec remote e kv s).finished = true
      · obtain ⟨t1, t2, ht, h1, h2⟩ := ih hnd.2 (importVersion flags env codec remote e kv s).state
        refine ⟨(importVersion flags env codec remote e kv s).trace ++ t1, t2, ?_,
          callsAll_append _ _ _ hkv h1, h2⟩
        rw [if_pos hfin, ht, List.append_assoc]
      · refine ⟨(importVersion flags env codec remote e kv s).trace, [], ?_, hkv,
          callsAll_nil _⟩
        rw [if_neg hfin]

theorem nodup_keys_recordName (m : GoMap (List String)) (k d : String)
    (h : (m.map Prod.fst).Nodup) : ((recordName m k d).map Prod.fst).Nodup := by
  unfold recordName
  split <;> exact nodup_keys_mapSet _ _ _ h

theorem forEach_state_invariant {α τ : Type} (I : τ → Prop) (body : α → τ → Outcome τ)
    (h : ∀ x s, I s → I (body x s).state) :
    ∀ xs s, I s → I (forEach body xs s).state := by
  intro xs
  induction xs with
  | nil => exact fun s hs => hs
  | cons x rest ih =>
    intro s hs
    simp only [forEach, state_andThen]
    split
    · exact ih _ (h x s hs)
    · exact h x s hs

theorem clientDo_apiVersions {σ : Type} (remote : Remote σ) (req : Request) (s : ImportState σ)
    (k : Response → ImportState σ → Outcome (ImportState σ))
    (hk : ∀ resp s', (k resp s').state.apiVersions = s'.apiVersions) :
    (clientDo remote req s k).state.apiVersions = s.apiVersions := by
  rw [state_clientDo]
  cases (remote.send s.remote req).2 with
  | failed err => rfl
  | response resp => exact hk resp _

/-- The file loop body leaves the map as it was when it panics, and records
the file when it runs to its end. -/
theorem importFile_state_apiVersions {σ : Type} (flags : ApigeeFlags) (env : Env)
    (remote : Remote σ) (e f : String) (s : ImportState σ) :
    (importFile flags env remote e f s).state.apiVersions =
      if (importFile flags env remote e f s).finished = true then recordFile s.apiVersions f
      else s.apiVersions := by
  by_cases hf : isDeploymentFile f = true
  · have hinner : ∀ r : Outcome (ImportState σ), r.state.apiVersions = s.apiVersions →
        ((andThen r fun s3 => emit [] { s3 with
          apiVersions := recordName s3.apiVersions (apiVersionNameOf f)
            (ReplaceAll f ".json" "") }).state).apiVersions =
          if (andThen r fun s3 => emit [] { s3 with
            apiVersions := recordName s3.apiVersions (apiVersionNameOf f)
              (ReplaceAll f ".json" "") }).finished = true
          then recordName s.apiVersions (apiVersionNameOf f) (ReplaceAll f ".json" "")
          else s.apiVersions := by
      intro r hr
      simp only [state_andThen, finished_andThen, finished_emit, Bool.and_true, state_emit]
      split
      · rw [hr]
      · exact hr
    simp only [importFile, recordFile, hf, if_true]
    refine hinner _ ?_
    cases h : env.readFile (baseDir ++ "/" ++ e ++ "/" ++ f) with
    | none => rfl
    | some byteValue =>
      simp only [state_andThen, finished_emit, state_emit, if_true, state_newRequest]
      split
      · refine clientDo_apiVersions remote _ _ _ fun resp s' => ?_
        split <;> rfl
      · rfl
  · simp [importFile, recordFile, hf, state_emit, finished_emit]

theorem nodup_keys_recordFile (m : GoMap (List String)) (f : String)
    (h : (m.map Prod.fst).Nodup) : ((recordFile m f).map Prod.fst).Nodup := by
  unfold recordFile
  split
  · exact nodup_keys_recordName _ _ _ h
  · exact h

theorem importFile_nodup_keys {σ : Type} (flags : ApigeeFlags) (env : Env) (remote : Remote σ)
    (e f : String) (s : ImportState σ) (hs : (s.apiVersions.map Prod.fst).Nodup) :
    ((importFile flags env remote e f s).state.apiVersions.map Prod.fst).Nodup := by
  rw [importFile_state_apiVersions]
  split
  · exact nodup_keys_recordFile _ _ hs
  · exact hs


/-- C17: the effects of the pass of `apiHubImport` over one API directory `e`
split into three consecutive parts: in the first every call is the create of
the API `e`, in the second every call is the create of a deployment, in the
third every call is the create or the patch of a version of `e` or the create
of a spec under a version of `e`; and for every version key `k` the third part
splits into a part without any create of a spec under `k` followed by a part
without the create or the patch of the version `k`. -/
theorem import_request_order {σ : Type} (flags : ApigeeFlags) (env : Env) (codec : Codec)
    (remote : Remote σ) (e : String) (s : ImportState σ) :
    ∃ t1 t2 t3, (importEntry flags env codec remote e s).trace = t1 ++ t2 ++ t3 ∧
      CallsAll (fun c => c = .createApi flags.Project flags.Region e) t1 ∧
      CallsAll (fun c => ∃ d, c = .createDeployment flags.Project flags.Region d) t2 ∧
      CallsAll (fun c => ∃ k, c = .createVersion flags.Project flags.Region e k ∨
        c = .patchVersion flags.Project flags.Region e k ∨
        ∃ d, c = .createSpec flags.Project flags.Region e k d) t3 ∧
      ∀ k, ∃ pre post, t3 = pre ++ post ∧
        CallsAll (fun c => ∀ d, c ≠ .createSpec flags.Project flags.Region e k d) pre ∧
        CallsAll (fun c => c ≠ .createVersion flags.Project flags.Region e k ∧
          c ≠ .patchVersion flags.Project flags.Region e k) post := by
  unfold importEntry
  by_cases hsel : flags.ApiName = "" ∨ flags.ApiName = e
  · rw [if_pos hsel]
    simp only [trace_andThen_if, finished_emit, state_emit, trace_emit, if_true]
    set A := importApi flags env remote e s
    set F := forEach (importFile flags env remote e)
      ((env.readDir (baseDir ++ "/" ++ e)).getD [])
      { remote := A.state.remote, apiVersions := [] }
    have hnd : ((env.order.iter F.state.apiVersions).map Prod.fst).Nodup :=
      ((env.order.perm _).map Prod.fst).nodup_iff.2
        (forEach_state_invariant (fun s' : ImportState σ => (s'.apiVersions.map Prod.fst).Nodup)
          _ (fun f s' hs' => importFile_nodup_keys flags env remote e f s' hs') _ _
          List.nodup_nil)
    have hfiles : CallsAll (fun c => ∃ d, c = .createDeployment flags.Project flags.Region d)
        ([Effect.readDir (baseDir ++ "/" ++ e)] ++ F.trace) :=
      callsAll_append _ _ _ (callsAll_quiet _ _ rfl)
        (forEach_trace_prop _ (callsAll_nil _) (callsAll_append _)
          (importFile flags env remote e) ((env.readDir (baseDir ++ "/" ++ e)).getD [])
          (fun f _ s' => importFile_calls flags env remote e f s') _)
    have hapi : CallsAll (fun c => c = .createApi flags.Project flags.Region e)
        ([Effect.println ("Importing " ++ e ++ "...")] ++ A.trace) :=
      callsAll_append _ _ _ (callsAll_quiet _ _ rfl) (importApi_calls flags env remote e s)
    by_cases hA : A.finished = true
    · by_cases hF : F.finished = true
      · refine ⟨[Effect.println ("Importing " ++ e ++ "...")] ++ A.trace,
          [Effect.readDir (baseDir ++ "/" ++ e)] ++ F.trace,
          (forEach (importVersion flags env codec remote e)
            (env.order.iter F.state.apiVersions) F.state).trace, ?_, hapi, hfiles,
          forEach_importVersion_kinds flags env codec remote e _ _, fun k => ?_⟩
        · rw [if_pos hA, if_pos hF]
          simp only [List.append_assoc]
        · exact forEach_importVersion_order flags env codec remote e k _ hnd _
      · refine ⟨[Effect.println ("Importing " ++ e ++ "...")] ++ A.trace,
          [Effect.readDir (baseDir ++ "/" ++ e)] ++ F.trace, [], ?_, hapi, hfiles,
          callsAll_nil _, fun k => ⟨[], [], rfl, callsAll_nil _, callsAll_nil _⟩⟩
        rw [if_pos hA, if_neg hF]
        simp only [List.append_assoc, List.append_nil]
    · refine ⟨[Effect.println ("Importing " ++ e ++ "...")] ++ A.trace, [], [], ?_, hapi,
        callsAll_nil _, callsAll_nil _,
        fun k => ⟨[], [], rfl, callsAll_nil _, callsAll_nil _⟩⟩
      rw [if_neg hA]
      simp only [List.append_assoc, List.append_nil]
  · rw [if_neg hsel]
    exact ⟨[], [], [], rfl, callsAll_nil _, callsAll_nil _, callsAll_nil _,
      fun k => ⟨[], [], rfl, callsAll_nil _, callsAll_nil _⟩⟩


/-! ## The rule of the conflict fallback -/

/-- Calls none of which is a patch or the create of a version keep the rule
of the conflict fallback. -/
theorem patchDiscipline_of_plain (calls : List (Request × Reply))
    (h : ∀ x ∈ calls, isPatch x.1 = false ∧ patchOf x.1 = none) :
    patchDiscipline calls = true := by
  induction calls with
  | nil => rfl
  | cons x rest ih =>
    obtain ⟨req, reply⟩ := x
    have hx := h _ (List.mem_cons_self _ _)
    simp only [patchDiscipline, hx.1, hx.2, Bool.false_eq_true, if_false]
    exact ih fun y hy => h y (List.mem_cons_of_mem _ hy)

theorem discipline_of_calls (Q : Call → Prop) (t : List Effect)
    (hQ : ∀ req : Request, Q req.call → isPatch req = false ∧ patchOf req = none)
    (h : CallsAll Q t) : patchDiscipline (httpOf t) = true :=
  patchDiscipline_of_plain _ fun x hx => hQ x.1 (h x.1 x.2 hx)

theorem importApi_discipline {σ : Type} (flags : ApigeeFlags) (env : Env) (remote : Remote σ)
    (e : String) (s : ImportState σ) :
    patchDiscipline (httpOf (importApi flags env remote e s).trace) = true :=
  discipline_of_calls _ _ (fun req h => by simp [isPatch, patchOf, h])
    (importApi_calls flags env remote e s)

theorem importSpec_discipline {σ : Type} (flags : ApigeeFlags) (env : Env) (remote : Remote σ)
    (e k d : String) (s : ImportState σ) :
    patchDiscipline (httpOf (importSpec flags env remote e k d s).trace) = true :=
  discipline_of_calls _ _ (fun req h => by simp [isPatch, patchOf, h])
    (importSpec_calls flags env remote e k d s)

theorem importFile_discipline {σ : Type} (flags : ApigeeFlags) (env : Env) (remote : Remote σ)
    (e f : String) (s : ImportState σ) :
    patchDiscipline (httpOf (importFile flags env remote e f s).trace) = true :=
  discipline_of_calls _ _
    (fun req h => by
      obtain ⟨d, hd⟩ := h
      simp [isPatch, patchOf, hd])
    (importFile_calls flags env remote e f s)

/-- The planned create of a version document that can be read, and what it
means that it can be built. -/
theorem built_plannedVersionDoc (flags : ApigeeFlags) (env : Env) (codec : Codec)
    (e k : String) (byteValue : List Byte)
    (h : env.readFile (baseDir ++ "/" ++ e ++ "/" ++ k ++ ".json") = some byteValue)
    (hU : ∀ req ∈ plannedVersionDoc flags env codec e k, built req = true) :
    parses (Call.createVersion flags.Project flags.Region e k).url = true ∧
      parses (Call.patchVersion flags.Project flags.Region e k).url = true := by
  have hb := hU ⟨.createVersion flags.Project flags.Region e k, flags.Token,
    .version (codec.unmarshalVersion byteValue)⟩ (by simp [plannedVersionDoc, h])
  simpa [built, patchOf] using hb

theorem importVersionDoc_discipline {σ : Type} (flags : ApigeeFlags) (env : Env) (codec : Codec)
    (remote : Remote σ) (e k : String) (s : ImportState σ)
    (hU : ∀ req ∈ plannedVersionDoc flags env codec e k, built req = true) :
    patchDiscipline (httpOf (importVersionDoc flags env codec remote e k s).trace) = true := by
  cases h : env.readFile (baseDir ++ "/" ++ e ++ "/" ++ k ++ ".json") with
  | none => simp [importVersionDoc, h, emit, Outcome.trace, httpOf, patchDiscipline]
  | some byteValue =>
    obtain ⟨hc, hp⟩ := built_plannedVersionDoc flags env codec e k byteValue h hU
    simp only [importVersionDoc, h, trace_andThen_if, trace_newRequest, hc, trace_clientDo,
      trace_emit, state_emit, finished_emit, if_true, httpOf_append, httpOf_cons_http,
      httpOf_cons_println, httpOf_cons_openFile, httpOf_nil, List.nil_append]
    cases h1 : (remote.send s.remote
      { call := .createVersion flags.Project flags.Region e k, token := flags.Token,
        body := .version (codec.unmarshalVersion byteValue) }).2 with
    | failed err => simp [httpOf_nil, patchDiscipline, isPatch, patchOf, hasStatus]
    | response resp =>
      by_cases h200 : resp.StatusCode = 200
      · simp [httpOf_nil, patchDiscipline, isPatch, patchOf, hasStatus, h200, trace_emit]
      · by_cases h409 : resp.StatusCode = 409
        · simp only [ne_eq, h200, not_false_eq_true, if_true, if_pos h409, trace_andThen_if,
            trace_newRequest, hp, trace_emit, finished_emit, state_emit, trace_clientDo,
            httpOf_append, httpOf_cons_println, httpOf_nil, List.nil_append, httpOf_cons_http]
          cases (remote.send (remote.send s.remote
              { call := .createVersion flags.Project flags.Region e k, token := flags.Token,
                body := .version (codec.unmarshalVersion byteValue) }).1
              { call := .patchVersion flags.Project flags.Region e k, token := flags.Token,
                body := .version (codec.unmarshalVersion byteValue) }).2 with
          | failed err => simp [httpOf_nil, patchDiscipline, isPatch, patchOf, hasStatus, h409]
          | response resp2 =>
            by_cases h2 : resp2.StatusCode = 200 <;>
              simp [httpOf_nil, httpOf_cons_println, patchDiscipline, isPatch, patchOf,
                hasStatus, h409, h2, trace_emit]
        · simp only [ne_eq, h200, not_false_eq_true, if_true, if_neg h409, trace_andThen_if,
            trace_emit, finished_emit, state_emit, httpOf_append,
            httpOf_cons_println, httpOf_nil, List.nil_append]
          simp [patchDiscipline, isPatch, patchOf, hasStatus, h409]

theorem discipline_append_trace (a b : List Effect)
    (ha : patchDiscipline (httpOf a) = true) (hb : patchDiscipline (httpOf b) = true) :
    patchDiscipline (httpOf (a ++ b)) = true := by
  rw [httpOf_append]
  exact patchDiscipline_append _ _ ha hb

theorem importVersion_discipline {σ : Type} (flags : ApigeeFlags) (env : Env) (codec : Codec)
    (remote : Remote σ) (e : String) (kv : String × List String) (s : ImportState σ)
    (hU : ∀ req ∈ plannedVersion flags env codec e kv, built req = true) :
    patchDiscipline (httpOf (importVersion flags env codec remote e kv s).trace) = true :=
  andThen_trace_prop (fun t => patchDiscipline (httpOf t) = true) rfl discipline_append_trace
    _ _
    (importVersionDoc_discipline flags env codec remote e kv.1 s fun req hreq =>
      hU req (List.mem_append_left _ hreq))
    (forEach_trace_prop (fun t => patchDiscipline (httpOf t) = true) rfl
      discipline_append_trace _ _
      fun d _ s' => importSpec_discipline flags env remote e kv.1 d s')

/-- When the loop over the files of a listing ran to its end, the map is the
one the listing gives. -/
theorem forEach_apiVersions_of_finished {α σ : Type}
    (body : α → ImportState σ → Outcome (ImportState σ))
    (f : GoMap (List String) → α → GoMap (List String))
    (h : ∀ x s, (body x s).finished = true → (body x s).state.apiVersions = f s.apiVersions x) :
    ∀ xs s, (forEach body xs s).finished = true →
      (forEach body xs s).state.apiVersions = xs.foldl f s.apiVersions := by
  intro xs
  induction xs with
  | nil => intro s _; rfl
  | cons x rest ih =>
    intro s hfin
    simp only [forEach, finished_andThen, Bool.and_eq_true] at hfin
    simp only [forEach, List.foldl_cons, state_andThen, hfin.1, if_true]
    rw [ih _ hfin.2, h x s hfin.1]

theorem forEach_importFile_apiVersions {σ : Type} (flags : ApigeeFlags) (env : Env)
    (remote : Remote σ) (e : String) (files : List String) (s : ImportState σ)
    (hfin : (forEach (importFile flags env remote e) files s).finished = true) :
    (forEach (importFile flags env remote e) files s).state.apiVersions =
      files.foldl recordFile s.apiVersions :=
  forEach_apiVersions_of_finished _ recordFile
    (fun f s' hf => by rw [importFile_state_apiVersions, if_pos hf]) files s hfin

theorem importEntry_discipline {σ : Type} (flags : ApigeeFlags) (env : Env) (codec : Codec)
    (remote : Remote σ) (e : String) (s : ImportState σ)
    (hU : ∀ req ∈ plannedEntry flags env codec e, built req = true) :
    patchDiscipline (httpOf (importEntry flags env codec remote e s).trace) = true := by
  unfold importEntry
  by_cases hsel : flags.ApiName = "" ∨ flags.ApiName = e
  · rw [if_pos hsel]
    unfold plannedEntry at hU
    rw [if_pos hsel] at hU
    refine andThen_trace_prop (fun t => patchDiscipline (httpOf t) = true) rfl
      discipline_append_trace _ _ rfl fun s1 => ?_
    refine andThen_trace_prop (fun t => patchDiscipline (httpOf t) = true) rfl
      discipline_append_trace _ _ (importApi_discipline flags env remote e s1) fun s2 => ?_
    refine andThen_trace_prop_state (fun t => patchDiscipline (httpOf t) = true) rfl
      discipline_append_trace _ _ rfl fun _ => ?_
    refine andThen_trace_prop_state (fun t => patchDiscipline (httpOf t) = true) rfl
      discipline_append_trace _ _ ?_ fun hF => ?_
    · exact forEach_trace_prop (fun t => patchDiscipline (httpOf t) = true) rfl
        discipline_append_trace _ _
        (fun f _ s' => importFile_discipline flags env remote e f s') _
    · rw [forEach_importFile_apiVersions flags env remote e _ _ hF]
      exact forEach_trace_prop (fun t => patchDiscipline (httpOf t) = true) rfl
        discipline_append_trace _ _
        (fun kv hkv s' => importVersion_discipline flags env codec remote e kv s'
          fun req hreq => hU req (List.mem_append_right _
            (List.mem_flatMap.2 ⟨kv, hkv, hreq⟩))) _
  · rw [if_neg hsel]
    rfl

theorem httpOf_resolveToken (flags : ApigeeFlags) (env : Env) :
    httpOf (resolveToken flags env).2 = [] := by
  unfold resolveToken
  split
  · split <;> rfl
  · rfl

/-- The HTTP calls of an import are those of its loop over the API
directories. -/
theorem httpOf_apiHubImport {σ : Type} (flags : ApigeeFlags) (env : Env) (codec : Codec)
    (remote : Remote σ) (remote0 : σ) (hp : flags.Project ≠ "") (hr : flags.Region ≠ "") :
    httpOf (apiHubImport flags env codec remote remote0).trace =
      httpOf (forEach (importEntry (resolveToken flags env).1 env codec remote)
        ((env.readDir baseDir).getD []) { remote := remote0, apiVersions := [] }).trace := by
  simp only [apiHubImport, hp, hr, if_false]
  cases hd : env.readDir baseDir with
  | none =>
    simp [httpOf_append, httpOf_resolveToken, httpOf_cons_println, httpOf_cons_readDir,
      httpOf_nil, forEach, Outcome.trace]
  | some apis =>
    simp only [Option.getD_some]
    cases forEach (importEntry (resolveToken flags env).1 env codec remote) apis
        { remote := remote0, apiVersions := [] } with
    | ok p =>
      simp [httpOf_append, httpOf_resolveToken, httpOf_cons_println, httpOf_cons_readDir,
        httpOf_nil, Outcome.trace]
    | error p =>
      simp [httpOf_append, httpOf_resolveToken, httpOf_cons_println, httpOf_cons_readDir,
        httpOf_nil, Outcome.trace]

theorem apiHubImport_discipline {σ : Type} (flags : ApigeeFlags) (env : Env) (codec : Codec)
    (remote : Remote σ) (remote0 : σ) (hU : Buildable (resolveToken flags env).1 env codec) :
    patchDiscipline (httpOf (apiHubImport flags env codec remote remote0).trace) = true := by
  by_cases hp : flags.Project = ""
  · simp [apiHubImport, hp, httpOf_cons_println, httpOf_nil, patchDiscipline]
  · by_cases hr : flags.Region = ""
    · simp [apiHubImport, hp, hr, httpOf_cons_println, httpOf_nil, patchDiscipline]
    · rw [httpOf_apiHubImport flags env codec remote remote0 hp hr]
      exact forEach_trace_prop (fun t => patchDiscipline (httpOf t) = true) rfl
        discipline_append_trace _ _
        (fun e he s' => importEntry_discipline _ env codec remote e s'
          fun req hreq => hU req (List.mem_flatMap.2 ⟨e, he, hreq⟩)) _

/-! ## Runs that go to their end -/

theorem forEach_finished {α τ : Type} (body : α → τ → Outcome τ) (xs : List α)
    (h : ∀ x ∈ xs, ∀ s, (body x s).finished = true) : ∀ s, (forEach body xs s).finished = true := by
  induction xs with
  | nil => intro s; rfl
  | cons x rest ih =>
    intro s
    simp only [forEach, finished_andThen, h x (List.mem_cons_self x rest) s, Bool.true_and]
    exact ih (fun y hy => h y (List.mem_cons_of_mem x hy)) _

theorem finished_clientDo_of_responsive {σ : Type} (remote : Remote σ) (hR : Responsive remote)
    (req : Request) (s : ImportState σ)
    (k : Response → ImportState σ → Outcome (ImportState σ))
    (hk : ∀ resp s', (k resp s').finished = true) :
    (clientDo remote req s k).finished = true := by
  rw [finished_clientDo]
  obtain ⟨resp, hresp⟩ := hR s.remote req
  rw [hresp]
  exact hk resp _

/-- A request that is no create of a version can be built when its URL
parses. -/
theorem parses_of_built (req : Request) (h : built req = true) :
    parses req.call.url = true := by
  unfold built at h
  exact (Bool.and_eq_true _ _ ▸ h).1

theorem importApi_finished {σ : Type} (flags : ApigeeFlags) (env : Env) (remote : Remote σ)
    (hR : Responsive remote) (e : String) (s : ImportState σ)
    (hU : ∀ req ∈ plannedApi flags env e, built req = true) :
    (importApi flags env remote e s).finished = true := by
  cases h : env.readFile (baseDir ++ "/" ++ e ++ "/" ++ e ++ ".json") with
  | none => simp [importApi, h, finished_emit]
  | some byteValue =>
    have hp := parses_of_built _ (hU ⟨.createApi flags.Project flags.Region e, flags.Token,
      .raw byteValue⟩ (by simp [plannedApi, h]))
    simp only [importApi, h, finished_andThen, finished_emit, Bool.true_and,
      finished_newRequest, hp]
    refine finished_clientDo_of_responsive remote hR _ _ _ fun resp s' => ?_
    split <;> rfl

theorem importSpec_finished {σ : Type} (flags : ApigeeFlags) (env : Env) (remote : Remote σ)
    (hR : Responsive remote) (e k d : String) (s : ImportState σ)
    (hU : ∀ req ∈ plannedSpec flags env e k d, built req = true) :
    (importSpec flags env remote e k d s).finished = true := by
  cases h : env.readFile (baseDir ++ "/" ++ e ++ "/" ++ d ++ "-oas.json") with
  | none => simp [importSpec, h, finished_emit]
  | some byteValue =>
    have hp := parses_of_built _ (hU ⟨.createSpec flags.Project flags.Region e k d, flags.Token,
      .raw byteValue⟩ (by simp [plannedSpec, h]))
    simp only [importSpec, h, finished_andThen, finished_emit, Bool.true_and,
      finished_newRequest, hp]
    refine finished_clientDo_of_responsive remote hR _ _ _ fun resp s' => ?_
    split <;> rfl

theorem importFile_finished {σ : Type} (flags : ApigeeFlags) (env : Env) (remote : Remote σ)
    (hR : Responsive remote) (e f : String) (s : ImportState σ)
    (hU : ∀ req ∈ plannedFile flags env e f, built req = true) :
    (importFile flags env remote e f s).finished = true := by
  by_cases hf : isDeploymentFile f = true
  · cases h : env.readFile (baseDir ++ "/" ++ e ++ "/" ++ f) with
    | none => simp [importFile, hf, h, finished_andThen, finished_emit]
    | some byteValue =>
      have hp := parses_of_built _ (hU ⟨.createDeployment flags.Project flags.Region
        (ReplaceAll f ".json" ""), flags.Token, .raw byteValue⟩ (by simp [plannedFile, hf, h]))
      simp only [importFile, hf, h, if_true, finished_andThen, finished_emit, Bool.true_and,
        Bool.and_true, finished_newRequest, hp]
      refine finished_clientDo_of_responsive remote hR _ _ _ fun resp s' => ?_
      split <;> rfl
  · simp [importFile, hf, finished_emit]

theorem importVersionDoc_finished {σ : Type} (flags : ApigeeFlags) (env : Env) (codec : Codec)
    (remote : Remote σ) (hR : Responsive remote) (e k : String) (s : ImportState σ)
    (hU : ∀ req ∈ plannedVersionDoc flags env codec e k, built req = true) :
    (importVersionDoc flags env codec remote e k s).finished = true := by
  cases h : env.readFile (baseDir ++ "/" ++ e ++ "/" ++ k ++ ".json") with
  | none => simp [importVersionDoc, h, finished_emit]
  | some byteValue =>
    obtain ⟨hc, hp⟩ := built_plannedVersionDoc flags env codec e k byteValue h hU
    simp only [importVersionDoc, h, finished_andThen, finished_emit, Bool.true_and,
      finished_newRequest, hc]
    refine finished_clientDo_of_responsive remote hR _ _ _ fun resp s' => ?_
    split
    · simp only [finished_andThen, finished_emit, Bool.true_and]
      split
      · simp only [finished_andThen, finished_emit, Bool.true_and, finished_newRequest, hp]
        refine finished_clientDo_of_responsive remote hR _ _ _ fun resp2 s2 => ?_
        split <;> rfl
      · rfl
    · rfl

theorem importVersion_finished {σ : Type} (flags : ApigeeFlags) (env : Env) (codec : Codec)
    (remote : Remote σ) (hR : Responsive remote) (e : String) (kv : String × List String)
    (s : ImportState σ) (hU : ∀ req ∈ plannedVersion flags env codec e kv, built req = true) :
    (importVersion flags env codec remote e kv s).finished = true := by
  simp only [importVersion, finished_andThen,
    importVersionDoc_finished flags env codec remote hR e kv.1 s
      (fun req hreq => hU req (List.mem_append_left _ hreq)), Bool.true_and]
  exact forEach_finished _ _
    (fun d hd s2 => importSpec_finished flags env remote hR e kv.1 d s2
      fun req hreq => hU req (List.mem_append_right _ (List.mem_flatMap.2 ⟨d, hd, hreq⟩))) _

/-- The parts of the hypothesis that the requests of an API directory can be
built. -/
theorem built_plannedEntry (flags : ApigeeFlags) (env : Env) (codec : Codec) (e : String)
    (hsel : flags.ApiName = "" ∨ flags.ApiName = e)
    (hU : ∀ req ∈ plannedEntry flags env codec e, built req = true) :
    (∀ req ∈ plannedApi flags env e, built req = true) ∧
      (∀ f ∈ (env.readDir (baseDir ++ "/" ++ e)).getD [],
        ∀ req ∈ plannedFile flags env e f, built req = true) ∧
      ∀ kv ∈ env.order.iter (importMap ((env.readDir (baseDir ++ "/" ++ e)).getD [])),
        ∀ req ∈ plannedVersion flags env codec e kv, built req = true := by
  unfold plannedEntry at hU
  rw [if_pos hsel] at hU
  refine ⟨fun req hreq => hU req ?_, fun f hf req hreq => hU req ?_,
    fun kv hkv req hreq => hU req ?_⟩
  · exact List.mem_append_left _ (List.mem_append_left _ hreq)
  · exact List.mem_append_left _ (List.mem_append_right _ (List.mem_flatMap.2 ⟨f, hf, hreq⟩))
  · exact List.mem_append_right _ (List.mem_flatMap.2 ⟨kv, hkv, hreq⟩)

theorem forEach_importFile_finished {σ : Type} (flags : ApigeeFlags) (env : Env)
    (remote : Remote σ) (hR : Responsive remote) (e : String) (files : List String)
    (hU : ∀ f ∈ files, ∀ req ∈ plannedFile flags env e f, built req = true)
    (s : ImportState σ) : (forEach (importFile flags env remote e) files s).finished = true :=
  forEach_finished _ _ (fun f hf s' => importFile_finished flags env remote hR e f s' (hU f hf)) s

theorem importEntry_finished {σ : Type} (flags : ApigeeFlags) (env : Env) (codec : Codec)
    (remote : Remote σ) (hR : Responsive remote) (e : String) (s : ImportState σ)
    (hU : ∀ req ∈ plannedEntry flags env codec e, built req = true) :
    (importEntry flags env codec remote e s).finished = true := by
  unfold importEntry
  by_cases hsel : flags.ApiName = "" ∨ flags.ApiName = e
  · obtain ⟨hA, hF, hV⟩ := built_plannedEntry flags env codec e hsel hU
    rw [if_pos hsel]
    simp only [finished_andThen, finished_emit, Bool.true_and, state_emit,
      importApi_finished flags env remote hR e s hA,
      forEach_importFile_finished flags env remote hR e _ hF, Bool.and_eq_true, true_and]
    rw [forEach_importFile_apiVersions flags env remote e _ _
      (forEach_importFile_finished flags env remote hR e _ hF _)]
    exact forEach_finished _ _
      (fun kv hkv s' => importVersion_finished flags env codec remote hR e kv s' (hV kv hkv)) _
  · rw [if_neg hsel]
    rfl

/-- With a remote side that answers every request, an import whose requests
can all be built returns nil. -/
theorem apiHubImport_returns_nil {σ : Type} (flags : ApigeeFlags) (env : Env) (codec : Codec)
    (remote : Remote σ) (remote0 : σ) (hR : Responsive remote)
    (hU : Buildable (resolveToken flags env).1 env codec) :
    (apiHubImport flags env codec remote remote0).exit = .returnedNil := by
  unfold apiHubImport
  split
  · rfl
  · split
    · rfl
    · cases hd : env.readDir baseDir with
      | none => rfl
      | some apis =>
        have hfin := forEach_finished (importEntry (resolveToken flags env).1 env codec remote)
          apis (fun e he s' => importEntry_finished _ env codec remote hR e s'
            fun req hreq => hU req (List.mem_flatMap.2 ⟨e, by simp [hd, he], hreq⟩))
          { remote := remote0, apiVersions := [] }
        simp only
        cases hrun : forEach (importEntry (resolveToken flags env).1 env codec remote) apis
            { remote := remote0, apiVersions := [] } with
        | ok p => rfl
        | error p => rw [hrun] at hfin; simp [Outcome.finished] at hfin

/-- Counterexample of C16: on the store `percentEnv`, with a remote side that
answers every request with 409, the create of the version `x%zz-v1` is
answered with 409 and no PATCH is issued: the URL of the patch does not parse,
the request is nil, and the run ends in a panic at `r.Header.Add`, before the
remaining versions. -/
theorem conflict_without_patch :
    (httpOf (apiHubImport exFlags percentEnv exCodec (answering 409) ()).trace).map
        (fun x => (x.1.call.method, x.1.call.url, hasStatus x.2 409)) =
      [("POST", "https://apihub.googleapis.com/v1/projects/p/locations/r/apis?apiId=orders",
          true),
        ("POST", "https://apihub.googleapis.com/v1/projects/p/locations/r/deployments"
          ++ "?deploymentId=x%zz-v1-aws", true),
        ("POST", "https://apihub.googleapis.com/v1/projects/p/locations/r/deployments"
          ++ "?deploymentId=y-v1-aws", true),
        ("POST", "https://apihub.googleapis.com/v1/projects/p/locations/r/apis/orders/versions"
          ++ "?versionId=x%zz-v1", true)] ∧
      (apiHubImport exFlags percentEnv exCodec (answering 409) ()).exit = .panicked ∧
      parses ("https://apihub.googleapis.com/v1/projects/p/locations/r/apis/orders/versions"
        ++ "/x%zz-v1?updateMask=deployments") = false ∧
      (Call.patchVersion "p" "r" "orders" "x%zz-v1").url =
        "https://apihub.googleapis.com/v1/projects/p/locations/r/apis/orders/versions"
          ++ "/x%zz-v1?updateMask=deployments" := by
  decide

/-- C16 (amended): for an import whose requests can all be built (every URL is
one `http.NewRequest` accepts): in its HTTP calls, in order, a patch occurs
only directly after the create of a version that was answered with 409 and is
the patch of that create, and every create of a version answered with 409 is
directly followed by exactly one such patch; the patch of a create goes with
the method PATCH to `.../apis/<api>/versions/<versionKey>?updateMask=deployments`
with the token and the body of the create; and when the remote side answers
every request, whatever the status codes, the run goes to its end and returns
nil. -/
theorem import_conflict_fallback {σ : Type} (flags : ApigeeFlags) (env : Env) (codec : Codec)
    (remote : Remote σ) (remote0 : σ) (hU : Buildable (resolveToken flags env).1 env codec) :
    patchDiscipline (httpOf (apiHubImport flags env codec remote remote0).trace) = true ∧
      (∀ req patch, patchOf req = some patch →
        ∃ project region api versionId,
          req.call = .createVersion project region api versionId ∧
          patch.call.method = "PATCH" ∧
          patch.call.url = "https://apihub.googleapis.com/v1/projects/" ++ project
            ++ "/locations/" ++ region ++ "/apis/" ++ api ++ "/versions/" ++ versionId
            ++ "?updateMask=deployments" ∧
          patch.body = req.body ∧ patch.token = req.token) ∧
      (Responsive remote → (apiHubImport flags env codec remote remote0).exit = .returnedNil) := by
  refine ⟨apiHubImport_discipline flags env codec remote remote0 hU, ?_,
    fun hR => apiHubImport_returns_nil flags env codec remote remote0 hR hU⟩
  intro req patch h
  unfold patchOf at h
  cases hc : req.call with
  | createVersion project region api versionId =>
    simp only [hc, Option.some.injEq] at h
    subst h
    exact ⟨project, region, api, versionId, rfl, rfl, rfl, rfl, rfl⟩
  | _ => simp [hc] at h

/-- Witness of C16: the requests of the store of the API `orders` can all be
built; when every request is answered with 409, the create of the version
`orders-v1` is followed by one patch with the same body, and the spec is still
created after it. -/
theorem import_conflict_fallback_witness :
    Buildable (resolveToken exFlags hubEnv).1 hubEnv exCodec ∧
      (httpOf (apiHubImport exFlags hubEnv exCodec (answering 409) ()).trace).map
        (fun x => (x.1.call.method, x.1.call.url)) =
      [("POST", "https://apihub.googleapis.com/v1/projects/p/locations/r/apis?apiId=orders"),
        ("POST", "https://apihub.googleapis.com/v1/projects/p/locations/r/deployments"
          ++ "?deploymentId=orders-v1-aws"),
        ("POST", "https://apihub.googleapis.com/v1/projects/p/locations/r/deployments"
          ++ "?deploymentId=orders-v1-azure"),
        ("POST", "https://apihub.googleapis.com/v1/projects/p/locations/r/apis/orders/versions"
          ++ "?versionId=orders-v1"),
        ("PATCH", "https://apihub.googleapis.com/v1/projects/p/locations/r/apis/orders/versions"
          ++ "/orders-v1?updateMask=deployments"),
        ("POST", "https://apihub.googleapis.com/v1/projects/p/locations/r/apis/orders/versions"
          ++ "/orders-v1/specs?specId=orders-v1-aws")] ∧
      patchDiscipline (httpOf (apiHubImport exFlags hubEnv exCodec (answering 409) ()).trace) =
        true ∧
      (apiHubImport exFlags hubEnv exCodec (answering 409) ()).exit = .returnedNil :=
  ⟨by decide, by decide,
    (import_conflict_fallback exFlags hubEnv exCodec (answering 409) () (by decide)).1,
    (import_conflict_fallback exFlags hubEnv exCodec (answering 409) () (by decide)).2.2
      (fun _ _ => ⟨_, rfl⟩)⟩

/-! ## The create requests of an import -/

theorem createsOf_nil : createsOf [] = [] := rfl

theorem createsOf_cons_println (line : String) (t : List Effect) :
    createsOf (.println line :: t) = createsOf t := rfl

theorem createsOf_cons_openFile (path : String) (t : List Effect) :
    createsOf (.openFile path :: t) = createsOf t := rfl

theorem createsOf_cons_readDir (path : String) (t : List Effect) :
    createsOf (.readDir path :: t) = createsOf t := rfl

theorem createsOf_cons_http (req : Request) (reply : Reply) (t : List Effect) :
    createsOf (.http req reply :: t) = if isPatch req then createsOf t else req :: createsOf t := by
  simp only [createsOf, httpOf_cons_http, List.map_cons, List.filter_cons]
  cases isPatch req <;> simp

theorem createsOf_andThen {τ : Type} (r : Outcome τ) (k : τ → Outcome τ)
    (h : r.finished = true) :
    createsOf (andThen r k).trace = createsOf r.trace ++ createsOf (k r.state).trace := by
  rw [trace_andThen_if, h, if_pos rfl, createsOf_append]

theorem forEach_creates {α τ : Type} (body : α → τ → Outcome τ) (planned : α → List Request)
    (xs : List α) (hfin : ∀ x ∈ xs, ∀ s, (body x s).finished = true)
    (h : ∀ x ∈ xs, ∀ s, createsOf (body x s).trace = planned x) :
    ∀ s, createsOf (forEach body xs s).trace = xs.flatMap planned := by
  induction xs with
  | nil => intro s; rfl
  | cons x rest ih =>
    intro s
    simp only [forEach, List.flatMap_cons]
    rw [createsOf_andThen _ _ (hfin x (List.mem_cons_self x rest) s),
      h x (List.mem_cons_self x rest) s,
      ih (fun y hy => hfin y (List.mem_cons_of_mem x hy))
        (fun y hy => h y (List.mem_cons_of_mem x hy))]

theorem importApi_creates {σ : Type} (flags : ApigeeFlags) (env : Env) (remote : Remote σ)
    (hR : Responsive remote) (e : String) (s : ImportState σ)
    (hU : ∀ req ∈ plannedApi flags env e, built req = true) :
    createsOf (importApi flags env remote e s).trace = plannedApi flags env e := by
  cases h : env.readFile (baseDir ++ "/" ++ e ++ "/" ++ e ++ ".json") with
  | none => simp [importApi, plannedApi, h, trace_emit, createsOf_cons_println,
      createsOf_cons_openFile, createsOf_nil]
  | some byteValue =>
    have hp := parses_of_built _ (hU ⟨.createApi flags.Project flags.Region e, flags.Token,
      .raw byteValue⟩ (by simp [plannedApi, h]))
    simp only [importApi, plannedApi, h, trace_andThen_if, trace_newRequest, hp, trace_clientDo,
      trace_emit, state_emit,
      finished_emit, if_true, createsOf_append, createsOf_cons_http, createsOf_cons_println,
      createsOf_cons_openFile, createsOf_nil, List.nil_append]
    obtain ⟨resp, hresp⟩ := hR s.remote
      ⟨.createApi flags.Project flags.Region e, flags.Token, .raw byteValue⟩
    rw [hresp]
    by_cases h200 : resp.StatusCode = 200 <;>
      simp [isPatch, h200, trace_emit, createsOf_cons_println, createsOf_nil]

theorem importSpec_creates {σ : Type} (flags : ApigeeFlags) (env : Env) (remote : Remote σ)
    (hR : Responsive remote) (e k d : String) (s : ImportState σ)
    (hU : ∀ req ∈ plannedSpec flags env e k d, built req = true) :
    createsOf (importSpec flags env remote e k d s).trace = plannedSpec flags env e k d := by
  cases h : env.readFile (baseDir ++ "/" ++ e ++ "/" ++ d ++ "-oas.json") with
  | none => simp [importSpec, plannedSpec, h, trace_emit, createsOf_cons_println,
      createsOf_cons_openFile, createsOf_nil]
  | some byteValue =>
    have hp := parses_of_built _ (hU ⟨.createSpec flags.Project flags.Region e k d, flags.Token,
      .raw byteValue⟩ (by simp [plannedSpec, h]))
    simp only [importSpec, plannedSpec, h, trace_andThen_if, trace_newRequest, hp,
      trace_clientDo, trace_emit,
      state_emit, finished_emit, if_true, createsOf_append, createsOf_cons_http,
      createsOf_cons_println, createsOf_cons_openFile, createsOf_nil, List.nil_append]
    obtain ⟨resp, hresp⟩ := hR s.remote
      ⟨.createSpec flags.Project flags.Region e k d, flags.Token, .raw byteValue⟩
    rw [hresp]
    by_cases h200 : resp.StatusCode = 200 <;>
      simp [isPatch, h200, trace_emit, createsOf_cons_println, createsOf_nil]

theorem importFile_creates {σ : Type} (flags : ApigeeFlags) (env : Env) (remote : Remote σ)
    (hR : Responsive remote) (e f : String) (s : ImportState σ)
    (hU : ∀ req ∈ plannedFile flags env e f, built req = true) :
    createsOf (importFile flags env remote e f s).trace = plannedFile flags env e f := by
  by_cases hf : isDeploymentFile f = true
  · cases h : env.readFile (baseDir ++ "/" ++ e ++ "/" ++ f) with
    | none => simp [importFile, plannedFile, hf, h, trace_andThen_if, trace_emit, finished_emit,
        createsOf_cons_openFile, createsOf_nil]
    | some byteValue =>
      have hp := parses_of_built _ (hU ⟨.createDeployment flags.Project flags.Region
        (ReplaceAll f ".json" ""), flags.Token, .raw byteValue⟩ (by simp [plannedFile, hf, h]))
      simp only [importFile, plannedFile, hf, h, if_true, trace_andThen_if, trace_newRequest, hp,
        trace_clientDo,
        trace_emit, state_emit, finished_emit, createsOf_append, createsOf_cons_http,
        createsOf_cons_println, createsOf_cons_openFile, createsOf_nil, List.nil_append]
      obtain ⟨resp, hresp⟩ := hR s.remote
        ⟨.createDeployment flags.Project flags.Region (ReplaceAll f ".json" ""), flags.Token,
          .raw byteValue⟩
      rw [hresp]
      by_cases h200 : resp.StatusCode = 200 <;>
        simp [isPatch, h200, trace_emit, createsOf_cons_println, createsOf_nil]
  · simp [importFile, plannedFile, hf, trace_emit, createsOf_nil]


theorem importVersionDoc_creates {σ : Type} (flags : ApigeeFlags) (env : Env) (codec : Codec)
    (remote : Remote σ) (hR : Responsive remote) (e k : String) (s : ImportState σ)
    (hU : ∀ req ∈ plannedVersionDoc flags env codec e k, built req = true) :
    createsOf (importVersionDoc flags env codec remote e k s).trace =
      plannedVersionDoc flags env codec e k := by
  cases h : env.readFile (baseDir ++ "/" ++ e ++ "/" ++ k ++ ".json") with
  | none => simp [importVersionDoc, plannedVersionDoc, h, trace_emit, createsOf_cons_openFile,
      createsOf_nil]
  | some byteValue =>
    obtain ⟨hc, hp⟩ := built_plannedVersionDoc flags env codec e k byteValue h hU
    simp only [importVersionDoc, plannedVersionDoc, h, trace_andThen_if, trace_newRequest, hc,
      trace_clientDo,
      trace_emit, state_emit, finished_emit, if_true, createsOf_append, createsOf_cons_http,
      createsOf_cons_println, createsOf_cons_openFile, createsOf_nil, List.nil_append]
    obtain ⟨resp, hresp⟩ := hR s.remote
      ⟨.createVersion flags.Project flags.Region e k, flags.Token,
        .version (codec.unmarshalVersion byteValue)⟩
    rw [hresp]
    by_cases h200 : resp.StatusCode = 200
    · simp [isPatch, h200, trace_emit, createsOf_nil]
    · by_cases h409 : resp.StatusCode = 409
      · simp only [isPatch, h200, ne_eq, not_false_eq_true, if_true, if_pos h409,
          trace_andThen_if, trace_newRequest, hp, trace_clientDo, trace_emit, state_emit,
          finished_emit,
          createsOf_append, createsOf_cons_http, createsOf_cons_println, createsOf_nil,
          List.nil_append, Bool.false_eq_true, if_false, List.cons.injEq, true_and]
        obtain ⟨resp2, hresp2⟩ := hR (remote.send s.remote
            ⟨.createVersion flags.Project flags.Region e k, flags.Token,
              .version (codec.unmarshalVersion byteValue)⟩).1
          ⟨.patchVersion flags.Project flags.Region e k, flags.Token,
            .version (codec.unmarshalVersion byteValue)⟩
        rw [hresp2]
        by_cases h2 : resp2.StatusCode = 200 <;>
          simp [h2, trace_emit, createsOf_cons_println, createsOf_nil]
      · simp [isPatch, h200, h409, trace_andThen_if, trace_emit, finished_emit, state_emit,
          createsOf_append, createsOf_cons_println, createsOf_nil]

theorem importVersion_creates {σ : Type} (flags : ApigeeFlags) (env : Env) (codec : Codec)
    (remote : Remote σ) (hR : Responsive remote) (e : String) (kv : String × List String)
    (s : ImportState σ) (hU : ∀ req ∈ plannedVersion flags env codec e kv, built req = true) :
    createsOf (importVersion flags env codec remote e kv s).trace =
      plannedVersion flags env codec e kv := by
  have hdoc : ∀ req ∈ plannedVersionDoc flags env codec e kv.1, built req = true :=
    fun req hreq => hU req (List.mem_append_left _ hreq)
  have hspec : ∀ d ∈ kv.2, ∀ req ∈ plannedSpec flags env e kv.1 d, built req = true :=
    fun d hd req hreq => hU req (List.mem_append_right _ (List.mem_flatMap.2 ⟨d, hd, hreq⟩))
  unfold importVersion plannedVersion
  rw [createsOf_andThen _ _ (importVersionDoc_finished flags env codec remote hR e kv.1 s hdoc),
    importVersionDoc_creates flags env codec remote hR e kv.1 s hdoc,
    forEach_creates _ (plannedSpec flags env e kv.1) kv.2
      (fun d hd s' => importSpec_finished flags env remote hR e kv.1 d s' (hspec d hd))
      (fun d hd s' => importSpec_creates flags env remote hR e kv.1 d s' (hspec d hd))]

theorem importEntry_creates {σ : Type} (flags : ApigeeFlags) (env : Env) (codec : Codec)
    (remote : Remote σ) (hR : Responsive remote) (e : String) (s : ImportState σ)
    (hU : ∀ req ∈ plannedEntry flags env codec e, built req = true) :
    createsOf (importEntry flags env codec remote e s).trace = plannedEntry flags env codec e := by
  by_cases hsel : flags.ApiName = "" ∨ flags.ApiName = e
  · obtain ⟨hA, hF, hV⟩ := built_plannedEntry flags env codec e hsel hU
    unfold importEntry plannedEntry
    rw [if_pos hsel, if_pos hsel]
    rw [createsOf_andThen _ _ (finished_emit _ _), trace_emit, createsOf_cons_println,
      createsOf_nil, List.nil_append, state_emit,
      createsOf_andThen _ _ (importApi_finished flags env remote hR e s hA),
      importApi_creates flags env remote hR e s hA,
      createsOf_andThen _ _ (finished_emit _ _), trace_emit, createsOf_cons_readDir,
      createsOf_nil, List.nil_append, state_emit,
      createsOf_andThen _ _ (forEach_importFile_finished flags env remote hR e _ hF _),
      forEach_creates _ (plannedFile flags env e) _
        (fun f hf s' => importFile_finished flags env remote hR e f s' (hF f hf))
        (fun f hf s' => importFile_creates flags env remote hR e f s' (hF f hf)),
      forEach_importFile_apiVersions flags env remote e _ _
        (forEach_importFile_finished flags env remote hR e _ hF _),
      show List.foldl recordFile
          ({ remote := (importApi flags env remote e s).state.remote, apiVersions := [] } :
            ImportState σ).apiVersions ((env.readDir (baseDir ++ "/" ++ e)).getD []) =
          importMap ((env.readDir (baseDir ++ "/" ++ e)).getD []) from rfl,
      forEach_creates _ (plannedVersion flags env codec e) _
        (fun kv hkv s' => importVersion_finished flags env codec remote hR e kv s' (hV kv hkv))
        (fun kv hkv s' => importVersion_creates flags env codec remote hR e kv s' (hV kv hkv)),
      List.append_assoc]
  · unfold importEntry plannedEntry
    rw [if_neg hsel, if_neg hsel]
    rfl

theorem createsOf_resolveToken (flags : ApigeeFlags) (env : Env) :
    createsOf (resolveToken flags env).2 = [] := by
  unfold createsOf
  rw [httpOf_resolveToken]
  rfl

/-- With a remote side that answers every request, the create requests of
an import whose requests can all be built are the planned ones, whatever the
answers are. -/
theorem apiHubImport_creates {σ : Type} (flags : ApigeeFlags) (env : Env) (codec : Codec)
    (remote : Remote σ) (remote0 : σ) (hR : Responsive remote)
    (hU : Buildable (resolveToken flags env).1 env codec) :
    createsOf (apiHubImport flags env codec remote remote0).trace =
      if flags.Project = "" ∨ flags.Region = "" then []
      else plannedCreates (resolveToken flags env).1 env codec := by
  unfold apiHubImport
  by_cases hp : flags.Project = ""
  · simp [hp, createsOf_cons_println, createsOf_nil]
  · by_cases hr : flags.Region = ""
    · simp [hp, hr, createsOf_cons_println, createsOf_nil]
    · rw [if_neg hp, if_neg hr, if_neg (by simp [hp, hr])]
      unfold plannedCreates
      cases hd : env.readDir baseDir with
      | none =>
        simp [createsOf_append, createsOf_cons_println, createsOf_cons_readDir, createsOf_nil,
          createsOf_resolveToken]
      | some apis =>
        have hc := forEach_creates (importEntry (resolveToken flags env).1 env codec remote)
          (plannedEntry (resolveToken flags env).1 env codec) apis
          (fun e he s' => importEntry_finished _ env codec remote hR e s'
            fun req hreq => hU req (List.mem_flatMap.2 ⟨e, by simp [hd, he], hreq⟩))
          (fun e he s' => importEntry_creates _ env codec remote hR e s'
            fun req hreq => hU req (List.mem_flatMap.2 ⟨e, by simp [hd, he], hreq⟩))
          { remote := remote0, apiVersions := [] }
        simp only [Option.getD_some]
        cases hrun : forEach (importEntry (resolveToken flags env).1 env codec remote) apis
            { remote := remote0, apiVersions := [] } with
        | ok p =>
          rw [hrun] at hc
          simpa [createsOf_append, createsOf_cons_println, createsOf_cons_readDir, createsOf_nil,
            createsOf_resolveToken, Outcome.trace] using hc
        | error p =>
          rw [hrun] at hc
          simpa [createsOf_append, createsOf_cons_println, createsOf_cons_readDir, createsOf_nil,
            createsOf_resolveToken, Outcome.trace] using hc


/-- Counterexample of C18: on the store `percentEnv` the create requests depend
on the status codes.  When every request is answered with 200 the run sends
five creates and returns nil; when every request is answered with 409 the
create of the version `x%zz-v1` is the last request: the URL of its patch does
not parse, the run ends in a panic, and the create of the version `y-v1` is
never sent. -/
theorem import_creates_depend_on_status :
    (createsOf (apiHubImport exFlags percentEnv exCodec (answering 200) ()).trace).map
        (fun req => req.call) =
      [.createApi "p" "r" "orders", .createDeployment "p" "r" "x%zz-v1-aws",
        .createDeployment "p" "r" "y-v1-aws", .createVersion "p" "r" "orders" "x%zz-v1",
        .createVersion "p" "r" "orders" "y-v1"] ∧
      (apiHubImport exFlags percentEnv exCodec (answering 200) ()).exit = .returnedNil ∧
      (createsOf (apiHubImport exFlags percentEnv exCodec (answering 409) ()).trace).map
        (fun req => req.call) =
      [.createApi "p" "r" "orders", .createDeployment "p" "r" "x%zz-v1-aws",
        .createDeployment "p" "r" "y-v1-aws", .createVersion "p" "r" "orders" "x%zz-v1"] ∧
      (apiHubImport exFlags percentEnv exCodec (answering 409) ()).exit = .panicked ∧
      parses (Call.createVersion "p" "r" "orders" "x%zz-v1").url = true ∧
      parses (Call.patchVersion "p" "r" "orders" "x%zz-v1").url = false := by
  decide

/-- C18 (amended): for a fixed local store whose requests can all be built
(every URL is one `http.NewRequest` accepts), two imports against remote sides
that answer every request, with whatever status codes, issue the same create
requests in the same order (same URLs, tokens and bodies): the planned ones,
one for the root document of every selected API directory, one for every
listed deployment file, one for the version document of every version key and
one for the spec document of every recorded deployment, each only if its file
can be opened; no answer suppresses a later create, and both runs return
nil. -/
theorem import_fail_soft {σ τ : Type} (flags : ApigeeFlags) (env : Env) (codec : Codec)
    (remoteA : Remote σ) (remoteB : Remote τ) (a : σ) (b : τ)
    (hA : Responsive remoteA) (hB : Responsive remoteB)
    (hU : Buildable (resolveToken flags env).1 env codec) :
    createsOf (apiHubImport flags env codec remoteA a).trace =
        createsOf (apiHubImport flags env codec remoteB b).trace ∧
      createsOf (apiHubImport flags env codec remoteA a).trace =
        (if flags.Project = "" ∨ flags.Region = "" then []
          else plannedCreates (resolveToken flags env).1 env codec) ∧
      (apiHubImport flags env codec remoteA a).exit = .returnedNil ∧
      (apiHubImport flags env codec remoteB b).exit = .returnedNil :=
  ⟨(apiHubImport_creates flags env codec remoteA a hA hU).trans
      (apiHubImport_creates flags env codec remoteB b hB hU).symm,
    apiHubImport_creates flags env codec remoteA a hA hU,
    apiHubImport_returns_nil flags env codec remoteA a hA hU,
    apiHubImport_returns_nil flags env codec remoteB b hB hU⟩

/-- Witness of C18: the requests of the store of the API `orders` can all be
built, and a remote side that answers every request with 500 gets the same
five creates as one that answers every request with 200. -/
theorem import_fail_soft_witness :
    Buildable (resolveToken exFlags hubEnv).1 hubEnv exCodec ∧
      (createsOf (apiHubImport exFlags hubEnv exCodec (answering 500) ()).trace).map
        (fun req => (req.call.method, req.call.url)) =
      [("POST", "https://apihub.googleapis.com/v1/projects/p/locations/r/apis?apiId=orders"),
        ("POST", "https://apihub.googleapis.com/v1/projects/p/locations/r/deployments"
          ++ "?deploymentId=orders-v1-aws"),
        ("POST", "https://apihub.googleapis.com/v1/projects/p/locations/r/deployments"
          ++ "?deploymentId=orders-v1-azure"),
        ("POST", "https://apihub.googleapis.com/v1/projects/p/locations/r/apis/orders/versions"
          ++ "?versionId=orders-v1"),
        ("POST", "https://apihub.googleapis.com/v1/projects/p/locations/r/apis/orders/versions"
          ++ "/orders-v1/specs?specId=orders-v1-aws")] ∧
      createsOf (apiHubImport exFlags hubEnv exCodec (answering 500) ()).trace =
        createsOf (apiHubImport exFlags hubEnv exCodec (answering 200) ()).trace ∧
      (apiHubImport exFlags hubEnv exCodec (answering 500) ()).exit = .returnedNil :=
  ⟨by decide, by decide,
    (import_fail_soft exFlags hubEnv exCodec (answering 500) (answering 200) () ()
      (fun _ _ => ⟨_, rfl⟩) (fun _ _ => ⟨_, rfl⟩) (by decide)).1,
    (import_fail_soft exFlags hubEnv exCodec (answering 500) (answering 200) () ()
      (fun _ _ => ⟨_, rfl⟩) (fun _ _ => ⟨_, rfl⟩) (by decide)).2.2.1⟩

/-! ## The trace of an import and the state of the remote side -/

theorem remoteAfter_append {σ : Type} (remote : Remote σ) (a b : List (Request × Reply)) :
    ∀ s, remoteAfter remote s (a ++ b) = remoteAfter remote (remoteAfter remote s a) b := by
  induction a with
  | nil => intro s; rfl
  | cons x rest ih =>
    intro s
    obtain ⟨req, reply⟩ := x
    exact ih _

theorem recorded_append {σ : Type} (remote : Remote σ) (a b : List (Request × Reply)) :
    ∀ s, Recorded remote s (a ++ b) ↔
      Recorded remote s a ∧ Recorded remote (remoteAfter remote s a) b := by
  induction a with
  | nil => intro s; simp [Recorded, remoteAfter]
  | cons x rest ih =>
    intro s
    obtain ⟨req, reply⟩ := x
    show (_ ∧ Recorded remote _ (rest ++ b)) ↔ (_ ∧ _) ∧ _
    rw [ih, and_assoc]
    rfl

theorem faithful_quiet {σ : Type} (remote : Remote σ) (s : ImportState σ)
    (r : Outcome (ImportState σ)) (hs : r.state.remote = s.remote) (ht : httpOf r.trace = []) :
    Faithful remote s r := by
  unfold Faithful
  rw [ht, hs]
  exact ⟨rfl, trivial⟩

theorem faithful_andThen {σ : Type} (remote : Remote σ) (s : ImportState σ)
    (r : Outcome (ImportState σ)) (k : ImportState σ → Outcome (ImportState σ))
    (hr : Faithful remote s r) (hk : ∀ s', Faithful remote s' (k s')) :
    Faithful remote s (andThen r k) := by
  unfold Faithful at *
  rw [trace_andThen_if, state_andThen]
  by_cases hfin : r.finished = true
  · simp only [hfin, if_true, httpOf_append, remoteAfter_append, recorded_append]
    rw [← hr.1]
    exact ⟨(hk r.state).1, hr.2, (hk r.state).2⟩
  · simp only [hfin, if_false, List.append_nil, Bool.false_eq_true]
    exact hr

theorem faithful_forEach {α σ : Type} (remote : Remote σ)
    (body : α → ImportState σ → Outcome (ImportState σ)) (xs : List α)
    (h : ∀ x s, Faithful remote s (body x s)) :
    ∀ s, Faithful remote s (forEach body xs s) := by
  induction xs with
  | nil => exact fun s => faithful_quiet remote s _ rfl rfl
  | cons x rest ih => exact fun s => faithful_andThen remote s _ _ (h x s) ih

theorem faithful_clientDo {σ : Type} (remote : Remote σ) (req : Request) (s : ImportState σ)
    (k : Response → ImportState σ → Outcome (ImportState σ))
    (hk : ∀ resp s', Faithful remote s' (k resp s')) :
    Faithful remote s (clientDo remote req s k) := by
  unfold Faithful
  rw [trace_clientDo, state_clientDo, httpOf_cons_http]
  simp only [remoteAfter, Recorded, true_and]
  cases (remote.send s.remote req).2 with
  | failed err => exact ⟨rfl, trivial⟩
  | response resp => exact hk resp { s with remote := (remote.send s.remote req).1 }

theorem faithful_newRequest {σ : Type} (remote : Remote σ) (req : Request) (s : ImportState σ)
    (k : ImportState σ → Outcome (ImportState σ)) (hk : Faithful remote s (k s)) :
    Faithful remote s (newRequest req s k) := by
  unfold newRequest
  split
  · exact hk
  · exact faithful_quiet remote s _ rfl rfl

theorem faithful_of_remote_eq {σ : Type} (remote : Remote σ) (s s' : ImportState σ)
    (r : Outcome (ImportState σ)) (hs : s'.remote = s.remote) (h : Faithful remote s' r) :
    Faithful remote s r := by
  unfold Faithful at *
  rw [← hs]
  exact h

theorem importApi_faithful {σ : Type} (flags : ApigeeFlags) (env : Env) (remote : Remote σ)
    (e : String) (s : ImportState σ) : Faithful remote s (importApi flags env remote e s) := by
  cases h : env.readFile (baseDir ++ "/" ++ e ++ "/" ++ e ++ ".json") with
  | none =>
    simp only [importApi, h]
    exact faithful_quiet remote s _ rfl rfl
  | some byteValue =>
    simp only [importApi, h]
    refine faithful_andThen remote s _ _ (faithful_quiet remote s _ rfl rfl)
      fun s0 => faithful_newRequest remote _ s0 _
        (faithful_andThen remote s0 _ _ (faithful_quiet remote s0 _ rfl rfl)
          fun s1 => faithful_clientDo remote _ s1 _ fun resp s' => ?_)
    split
    · exact faithful_quiet remote s' _ rfl rfl
    · exact faithful_quiet remote s' _ rfl rfl

theorem importSpec_faithful {σ : Type} (flags : ApigeeFlags) (env : Env) (remote : Remote σ)
    (e k d : String) (s : ImportState σ) :
    Faithful remote s (importSpec flags env remote e k d s) := by
  cases h : env.readFile (baseDir ++ "/" ++ e ++ "/" ++ d ++ "-oas.json") with
  | none =>
    simp only [importSpec, h]
    exact faithful_quiet remote s _ rfl rfl
  | some byteValue =>
    simp only [importSpec, h]
    refine faithful_andThen remote s _ _ (faithful_quiet remote s _ rfl rfl)
      fun s0 => faithful_newRequest remote _ s0 _
        (faithful_andThen remote s0 _ _ (faithful_quiet remote s0 _ rfl rfl)
          fun s1 => faithful_clientDo remote _ s1 _ fun resp s' => ?_)
    split
    · exact faithful_quiet remote s' _ rfl rfl
    · exact faithful_quiet remote s' _ rfl rfl

theorem importFile_faithful {σ : Type} (flags : ApigeeFlags) (env : Env) (remote : Remote σ)
    (e f : String) (s : ImportState σ) :
    Faithful remote s (importFile flags env remote e f s) := by
  by_cases hf : isDeploymentFile f = true
  · simp only [importFile, hf, if_true]
    refine faithful_andThen remote s _ _ ?_ fun s3 => faithful_quiet remote s3 _ rfl rfl
    cases h : env.readFile (baseDir ++ "/" ++ e ++ "/" ++ f) with
    | none => exact faithful_quiet remote s _ rfl rfl
    | some byteValue =>
      refine faithful_andThen remote s _ _ (faithful_quiet remote s _ rfl rfl)
        fun s0 => faithful_newRequest remote _ s0 _
          (faithful_andThen remote s0 _ _ (faithful_quiet remote s0 _ rfl rfl)
            fun s1 => faithful_clientDo remote _ s1 _ fun resp s' => ?_)
      split
      · exact faithful_quiet remote s' _ rfl rfl
      · exact faithful_quiet remote s' _ rfl rfl
  · simp only [importFile, hf]
    exact faithful_quiet remote s _ rfl rfl

theorem importVersionDoc_faithful {σ : Type} (flags : ApigeeFlags) (env : Env) (codec : Codec)
    (remote : Remote σ) (e k : String) (s : ImportState σ) :
    Faithful remote s (importVersionDoc flags env codec remote e k s) := by
  cases h : env.readFile (baseDir ++ "/" ++ e ++ "/" ++ k ++ ".json") with
  | none =>
    simp only [importVersionDoc, h]
    exact faithful_quiet remote s _ rfl rfl
  | some byteValue =>
    simp only [importVersionDoc, h]
    refine faithful_andThen remote s _ _ (faithful_quiet remote s _ rfl rfl)
      fun s0 => faithful_newRequest remote _ s0 _
        (faithful_andThen remote s0 _ _ (faithful_quiet remote s0 _ rfl rfl)
          fun s1 => faithful_clientDo remote _ s1 _ fun resp s' => ?_)
    split
    · refine faithful_andThen remote s' _ _ (faithful_quiet remote s' _ rfl rfl) fun s3 => ?_
      split
      · refine faithful_newRequest remote _ s3 _
          (faithful_andThen remote s3 _ _ (faithful_quiet remote s3 _ rfl rfl)
            fun s4 => faithful_clientDo remote _ s4 _ fun resp2 s5 => ?_)
        split
        · exact faithful_quiet remote s5 _ rfl rfl
        · exact faithful_quiet remote s5 _ rfl rfl
      · exact faithful_quiet remote s3 _ rfl rfl
    · exact faithful_quiet remote s' _ rfl rfl

theorem importEntry_faithful {σ : Type} (flags : ApigeeFlags) (env : Env) (codec : Codec)
    (remote : Remote σ) (e : String) (s : ImportState σ) :
    Faithful remote s (importEntry flags env codec remote e s) := by
  unfold importEntry
  split
  · refine faithful_andThen remote s _ _ (faithful_quiet remote s _ rfl rfl) fun s1 => ?_
    refine faithful_andThen remote s1 _ _ (importApi_faithful flags env remote e s1) fun s2 => ?_
    refine faithful_andThen remote s2 _ _ (faithful_quiet remote s2 _ rfl rfl) fun s3 => ?_
    refine faithful_andThen remote s3 _ _
      (faithful_forEach remote _ _ (fun f s' => importFile_faithful flags env remote e f s') s3)
      fun s4 => ?_
    refine faithful_forEach remote _ _ (fun kv s' => ?_) s4
    exact faithful_andThen remote s' _ _
      (importVersionDoc_faithful flags env codec remote e kv.1 s')
      (faithful_forEach remote _ _ fun d s2 => importSpec_faithful flags env remote e kv.1 d s2)
  · exact faithful_quiet remote s _ rfl rfl

/-- The state of the remote side after an import is the one its calls lead
to, and the replies in its trace are the ones the remote side gave. -/
theorem apiHubImport_faithful {σ : Type} (flags : ApigeeFlags) (env : Env) (codec : Codec)
    (remote : Remote σ) (remote0 : σ) :
    (apiHubImport flags env codec remote remote0).remote =
        remoteAfter remote remote0 (httpOf (apiHubImport flags env codec remote remote0).trace) ∧
      Recorded remote remote0 (httpOf (apiHubImport flags env codec remote remote0).trace) := by
  by_cases hp : flags.Project = ""
  · simp [apiHubImport, hp, httpOf_cons_println, httpOf_nil, remoteAfter, Recorded]
  · by_cases hr : flags.Region = ""
    · simp [apiHubImport, hp, hr, httpOf_cons_println, httpOf_nil, remoteAfter, Recorded]
    · rw [httpOf_apiHubImport flags env codec remote remote0 hp hr]
      have hf := faithful_forEach remote (importEntry (resolveToken flags env).1 env codec remote)
        ((env.readDir baseDir).getD [])
        (fun e s' => importEntry_faithful _ env codec remote e s')
        { remote := remote0, apiVersions := [] }
      refine ⟨?_, hf.2⟩
      rw [← hf.1]
      simp only [apiHubImport, hp, hr, if_false]
      cases hd : env.readDir baseDir with
      | none => rfl
      | some apis =>
        simp only [Option.getD_some]
        cases forEach (importEntry (resolveToken flags env).1 env codec remote) apis
            { remote := remote0, apiVersions := [] } <;> rfl


/-! ## The catalog model -/

theorem catalogGet_catalogPut (c : Catalog) (id id' : ResourceId) (body : Body) :
    catalogGet (catalogPut c id body) id' =
      if id = id' then some body else catalogGet c id' := by
  induction c with
  | nil => simp [catalogPut, catalogGet]
  | cons hd tl ih =>
    obtain ⟨id0, body0⟩ := hd
    by_cases h0 : id0 = id
    · subst h0
      by_cases h1 : id0 = id' <;> simp [catalogPut, catalogGet, h1]
    · by_cases h1 : id0 = id'
      · subst h1
        simp [catalogPut, catalogGet, h0, Ne.symm h0]
      · simp [catalogPut, catalogGet, h0, h1, ih]

theorem catalogPut_same (c : Catalog) (id : ResourceId) (body : Body)
    (h : catalogGet c id = some body) : catalogPut c id body = c := by
  induction c with
  | nil => simp [catalogGet] at h
  | cons hd tl ih =>
    obtain ⟨id0, body0⟩ := hd
    by_cases h0 : id0 = id
    · simp only [catalogGet, h0, if_true, Option.some.injEq] at h
      simp [catalogPut, h0, h]
    · simp only [catalogGet, h0, if_false] at h
      simp [catalogPut, h0, ih h]

theorem withDeployments_same (body : Body) : withDeployments body body = body := by
  cases body <;> rfl

/-- The catalog answers every request. -/
theorem catalogRemote_responsive : Responsive catalogRemote := by
  intro c req
  show ∃ resp, (catalogSend c req).2 = Reply.response resp
  unfold catalogSend
  cases req.call <;> simp only [createdBy] <;>
    first
      | exact ⟨_, rfl⟩
      | (split <;> exact ⟨_, rfl⟩)

/-- Sending a request never removes a resource. -/
theorem catalogSend_keeps (c : Catalog) (req : Request) (id : ResourceId)
    (h : (catalogGet c id).isSome = true) :
    (catalogGet (catalogSend c req).1 id).isSome = true := by
  unfold catalogSend
  cases req.call <;> simp only [createdBy] <;>
    first
      | exact h
      | (split <;>
          first
            | exact h
            | (rw [catalogGet_catalogPut]; split
               · rfl
               · exact h))

/-- After a create the created resource exists. -/
theorem catalogSend_creates (c : Catalog) (req : Request) (id : ResourceId)
    (h : createdBy req.call = some id) :
    (catalogGet (catalogSend c req).1 id).isSome = true := by
  unfold catalogSend
  cases hc : req.call <;> rw [hc] at h <;> simp only [createdBy, Option.some.injEq] at h <;>
    first
      | exact absurd h (by simp)
      | (subst h
         simp only [createdBy]
         split
         · rename_i hget
           simp [hget]
         · simp [catalogGet_catalogPut])


/-- Sending a request of an import keeps the stored versions equal to the
decoded version files. -/
theorem catalogSend_fromStore (env : Env) (codec : Codec) (c : Catalog) (req : Request)
    (hc : StoredFromStore env codec c) (hreq : FromStore env codec req) :
    StoredFromStore env codec (catalogSend c req).1 := by
  intro project region e k body
  unfold FromStore at hreq
  cases hcall : req.call with
  | patchVersion p r a v =>
    rw [hcall] at hreq
    simp only [catalogSend, hcall]
    cases hget : catalogGet c (.version p r a v) with
    | none => exact hc project region e k body
    | some stored =>
      simp only [catalogGet_catalogPut]
      split
      · rename_i hid
        injection hid with h1 h2 h3 h4
        subst h1 h2 h3 h4
        rw [hc _ _ _ _ _ hget, hreq, withDeployments_same]
        intro h
        exact (Option.some.inj h).symm
      · exact hc project region e k body
  | createVersion p r a v =>
    rw [hcall] at hreq
    simp only [catalogSend, hcall, createdBy]
    cases hget : catalogGet c (.version p r a v) with
    | some stored => exact hc project region e k body
    | none =>
      simp only [catalogGet_catalogPut]
      split
      · rename_i hid
        injection hid with h1 h2 h3 h4
        subst h1 h2 h3 h4
        rw [hreq]
        intro h
        exact (Option.some.inj h).symm
      · exact hc project region e k body
  | createApi p r a =>
    simp only [catalogSend, hcall, createdBy]
    cases hget : catalogGet c (.api p r a) with
    | some stored => exact hc project region e k body
    | none =>
      simp only [catalogGet_catalogPut, if_neg (show ResourceId.api p r a ≠ .version project
        region e k from by simp)]
      exact hc project region e k body
  | createDeployment p r d =>
    simp only [catalogSend, hcall, createdBy]
    cases hget : catalogGet c (.deployment p r d) with
    | some stored => exact hc project region e k body
    | none =>
      simp only [catalogGet_catalogPut, if_neg (show ResourceId.deployment p r d ≠ .version
        project region e k from by simp)]
      exact hc project region e k body
  | createSpec p r a v d =>
    simp only [catalogSend, hcall, createdBy]
    cases hget : catalogGet c (.spec p r a v d) with
    | some stored => exact hc project region e k body
    | none =>
      simp only [catalogGet_catalogPut, if_neg (show ResourceId.spec p r a v d ≠ .version
        project region e k from by simp)]
      exact hc project region e k body
  | _ =>
    simp only [catalogSend, hcall, createdBy]
    exact hc project region e k body

/-- A request of an import about a resource that exists leaves the catalog as
it is; a create is answered with 409, and a patch carries the stored body. -/
theorem catalogSend_existing (env : Env) (codec : Codec) (c : Catalog) (req : Request)
    (id : ResourceId) (hc : StoredFromStore env codec c) (hreq : FromStore env codec req)
    (hid : targetOf req.call = some id) (hex : (catalogGet c id).isSome = true) :
    (catalogSend c req).1 = c ∧
      (isPatch req = false → hasStatus (catalogSend c req).2 409 = true) ∧
      (isPatch req = true → catalogGet c id = some req.body) := by
  obtain ⟨stored, hget⟩ := Option.isSome_iff_exists.1 hex
  unfold FromStore at hreq
  cases hcall : req.call with
  | patchVersion p r a v =>
    rw [hcall] at hreq hid
    simp only [targetOf, Option.some.injEq] at hid
    subst hid
    have hs := hc _ _ _ _ _ hget
    subst hs
    simp only [catalogSend, hcall, hget, isPatch, hreq, withDeployments_same]
    exact ⟨catalogPut_same _ _ _ hget, fun h => absurd h (by simp), fun _ => trivial⟩
  | createVersion p r a v =>
    rw [hcall] at hid
    simp only [targetOf, createdBy, Option.some.injEq] at hid
    subst hid
    simp only [catalogSend, hcall, createdBy, hget, isPatch]
    exact ⟨trivial, fun _ => rfl, fun h => absurd h (by simp)⟩
  | createApi p r a =>
    rw [hcall] at hid
    simp only [targetOf, createdBy, Option.some.injEq] at hid
    subst hid
    simp only [catalogSend, hcall, createdBy, hget, isPatch]
    exact ⟨trivial, fun _ => rfl, fun h => absurd h (by simp)⟩
  | createDeployment p r d =>
    rw [hcall] at hid
    simp only [targetOf, createdBy, Option.some.injEq] at hid
    subst hid
    simp only [catalogSend, hcall, createdBy, hget, isPatch]
    exact ⟨trivial, fun _ => rfl, fun h => absurd h (by simp)⟩
  | createSpec p r a v d =>
    rw [hcall] at hid
    simp only [targetOf, createdBy, Option.some.injEq] at hid
    subst hid
    simp only [catalogSend, hcall, createdBy, hget, isPatch]
    exact ⟨trivial, fun _ => rfl, fun h => absurd h (by simp)⟩
  | _ =>
    rw [hcall] at hid
    simp [targetOf, createdBy] at hid

theorem remoteAfter_fromStore (env : Env) (codec : Codec) (calls : List (Request × Reply))
    (hreq : ∀ x ∈ calls, FromStore env codec x.1) :
    ∀ c, StoredFromStore env codec c →
      StoredFromStore env codec (remoteAfter catalogRemote c calls) := by
  induction calls with
  | nil => exact fun c hc => hc
  | cons x rest ih =>
    intro c hc
    obtain ⟨req, reply⟩ := x
    exact ih (fun y hy => hreq y (List.mem_cons_of_mem _ hy)) _
      (catalogSend_fromStore env codec c req hc (hreq _ (List.mem_cons_self _ _)))

theorem remoteAfter_keeps (calls : List (Request × Reply)) (id : ResourceId) :
    ∀ c, (catalogGet c id).isSome = true →
      (catalogGet (remoteAfter catalogRemote c calls) id).isSome = true := by
  induction calls with
  | nil => exact fun c h => h
  | cons x rest ih =>
    intro c h
    obtain ⟨req, reply⟩ := x
    exact ih _ (catalogSend_keeps c req id h)

/-- After the calls were sent, every resource one of them creates exists. -/
theorem remoteAfter_creates (calls : List (Request × Reply)) (id : ResourceId) (req : Request)
    (hmem : req ∈ calls.map Prod.fst) (hid : createdBy req.call = some id) :
    ∀ c, (catalogGet (remoteAfter catalogRemote c calls) id).isSome = true := by
  induction calls with
  | nil => simp at hmem
  | cons x rest ih =>
    intro c
    obtain ⟨req0, reply⟩ := x
    rw [List.map_cons, List.mem_cons] at hmem
    rcases hmem with h | h
    · subst h
      exact remoteAfter_keeps rest id _ (catalogSend_creates c req id hid)
    · exact ih h _

/-- Replaying calls about resources that all exist: the catalog stays as it
is, every create is answered with 409, every patch carries the stored body. -/
theorem replay_existing (env : Env) (codec : Codec) (c : Catalog)
    (hc : StoredFromStore env codec c) (calls : List (Request × Reply))
    (hrec : Recorded catalogRemote c calls)
    (hreq : ∀ x ∈ calls, FromStore env codec x.1 ∧
      ∃ id, targetOf x.1.call = some id ∧ (catalogGet c id).isSome = true) :
    remoteAfter catalogRemote c calls = c ∧
      ∀ x ∈ calls, (isPatch x.1 = false → hasStatus x.2 409 = true) ∧
        (isPatch x.1 = true → ∃ id, targetOf x.1.call = some id ∧
          catalogGet c id = some x.1.body) := by
  induction calls with
  | nil => exact ⟨rfl, fun x hx => absurd hx (List.not_mem_nil x)⟩
  | cons x rest ih =>
    obtain ⟨req, reply⟩ := x
    obtain ⟨hfs, id, hid, hex⟩ := hreq _ (List.mem_cons_self _ _)
    obtain ⟨hsame, hcreate, hpatch⟩ := catalogSend_existing env codec c req id hc hfs hid hex
    have hsame' : (catalogRemote.send c req).1 = c := hsame
    obtain ⟨hreply, hrest⟩ := hrec
    rw [hsame'] at hrest
    obtain ⟨h1, h2⟩ := ih hrest (fun y hy => hreq y (List.mem_cons_of_mem _ hy))
    refine ⟨?_, ?_⟩
    · show remoteAfter catalogRemote (catalogRemote.send c req).1 rest = c
      rw [hsame']
      exact h1
    · intro y hy
      rcases List.mem_cons.1 hy with h | h
      · subst h
        refine ⟨fun hp => ?_, fun hp => ⟨id, hid, hpatch hp⟩⟩
        have := hcreate hp
        rw [← hreply]
        exact this
      · exact h2 y h


/-! ## The requests of an import and the store -/

theorem sendsAll_nil (Q : Request → Prop) : SendsAll Q [] := by
  intro req reply h
  simp [httpOf] at h

theorem sendsAll_quiet (Q : Request → Prop) (t : List Effect) (h : httpOf t = []) :
    SendsAll Q t := by
  intro req reply hm
  simp [h] at hm

theorem sendsAll_append (Q : Request → Prop) (a b : List Effect) (ha : SendsAll Q a)
    (hb : SendsAll Q b) : SendsAll Q (a ++ b) := by
  intro req reply h
  rw [httpOf_append, List.mem_append] at h
  exact h.elim (ha req reply) (hb req reply)

theorem sendsAll_cons_http (Q : Request → Prop) (req : Request) (reply : Reply)
    (t : List Effect) (hq : Q req) (ht : SendsAll Q t) : SendsAll Q (.http req reply :: t) := by
  intro r p hm
  rw [httpOf_cons_http, List.mem_cons] at hm
  rcases hm with h | h
  · rw [(Prod.mk.inj h).1]
    exact hq
  · exact ht r p h

theorem clientDo_sends {σ : Type} (Q : Request → Prop) (remote : Remote σ) (req : Request)
    (s : ImportState σ) (k : Response → ImportState σ → Outcome (ImportState σ))
    (hq : Q req) (hk : ∀ resp s', SendsAll Q (k resp s').trace) :
    SendsAll Q (clientDo remote req s k).trace :=
  clientDo_trace_prop (SendsAll Q) remote req s k
    (fun _ => sendsAll_cons_http Q _ _ _ hq (sendsAll_nil Q))
    (fun resp s' => sendsAll_cons_http Q _ _ _ hq (hk resp s'))

theorem grounded_nil (env : Env) (codec : Codec) : Grounded env codec [] := by
  intro req reply h
  simp [httpOf] at h

theorem grounded_quiet (env : Env) (codec : Codec) (t : List Effect) (h : httpOf t = []) :
    Grounded env codec t := by
  intro req reply hm
  simp [h] at hm

theorem grounded_append (env : Env) (codec : Codec) (a b : List Effect)
    (ha : Grounded env codec a) (hb : Grounded env codec b) : Grounded env codec (a ++ b) := by
  intro req reply h
  rw [httpOf_append, List.mem_append] at h
  rcases h with h | h
  · obtain ⟨hfs, y, hy, id, hid, ht⟩ := ha req reply h
    exact ⟨hfs, y, by rw [createsOf_append]; exact List.mem_append_left _ hy, id, hid, ht⟩
  · obtain ⟨hfs, y, hy, id, hid, ht⟩ := hb req reply h
    exact ⟨hfs, y, by rw [createsOf_append]; exact List.mem_append_right _ hy, id, hid, ht⟩

/-- The target of a create is the resource it creates. -/
theorem targetOf_of_created (call : Call) (id : ResourceId) (h : createdBy call = some id) :
    targetOf call = some id := by
  cases call <;> simp_all [targetOf, createdBy]

/-- A create followed by requests about the resource it creates. -/
theorem grounded_cons (env : Env) (codec : Codec) (req : Request) (reply : Reply)
    (t : List Effect) (id : ResourceId) (hp : isPatch req = false)
    (hid : createdBy req.call = some id) (hfs : FromStore env codec req)
    (ht : SendsAll (fun r => FromStore env codec r ∧ targetOf r.call = some id) t) :
    Grounded env codec (.http req reply :: t) := by
  have hmem : req ∈ createsOf (.http req reply :: t) := by
    rw [createsOf_cons_http, hp]
    exact List.mem_cons_self _ _
  intro r p hm
  rw [httpOf_cons_http, List.mem_cons] at hm
  rcases hm with h | h
  · rw [(Prod.mk.inj h).1]
    exact ⟨hfs, req, hmem, id, hid, targetOf_of_created _ _ hid⟩
  · exact ⟨(ht r p h).1, req, hmem, id, hid, (ht r p h).2⟩

/-- A create whose answer is only reported. -/
theorem clientDo_grounded {σ : Type} (env : Env) (codec : Codec) (remote : Remote σ)
    (req : Request) (s : ImportState σ)
    (k : Response → ImportState σ → Outcome (ImportState σ)) (id : ResourceId)
    (hp : isPatch req = false) (hid : createdBy req.call = some id)
    (hfs : FromStore env codec req)
    (hk : ∀ resp s',
      SendsAll (fun r => FromStore env codec r ∧ targetOf r.call = some id) (k resp s').trace) :
    Grounded env codec (clientDo remote req s k).trace :=
  clientDo_trace_prop (Grounded env codec) remote req s k
    (fun _ => grounded_cons env codec req _ [] id hp hid hfs (sendsAll_nil _))
    (fun resp s' => grounded_cons env codec req _ _ id hp hid hfs (hk resp s'))

theorem importApi_grounded {σ : Type} (flags : ApigeeFlags) (env : Env) (codec : Codec)
    (remote : Remote σ) (e : String) (s : ImportState σ) :
    Grounded env codec (importApi flags env remote e s).trace := by
  cases h : env.readFile (baseDir ++ "/" ++ e ++ "/" ++ e ++ ".json") with
  | none =>
    simp only [importApi, h]
    exact grounded_quiet _ _ _ rfl
  | some byteValue =>
    simp only [importApi, h]
    refine andThen_trace_prop _ (grounded_nil _ _) (grounded_append _ _) _ _
      (grounded_quiet _ _ _ rfl)
      fun s0 => newRequest_trace_prop _ (grounded_nil _ _) _ _ _
        (andThen_trace_prop _ (grounded_nil _ _) (grounded_append _ _) _ _
          (grounded_quiet _ _ _ rfl)
          fun s1 => clientDo_grounded env codec remote _ s1 _
            (.api flags.Project flags.Region e) rfl rfl trivial fun resp s' => ?_)
    split
    · exact sendsAll_quiet _ _ rfl
    · exact sendsAll_quiet _ _ rfl

theorem importSpec_grounded {σ : Type} (flags : ApigeeFlags) (env : Env) (codec : Codec)
    (remote : Remote σ) (e k d : String) (s : ImportState σ) :
    Grounded env codec (importSpec flags env remote e k d s).trace := by
  cases h : env.readFile (baseDir ++ "/" ++ e ++ "/" ++ d ++ "-oas.json") with
  | none =>
    simp only [importSpec, h]
    exact grounded_quiet _ _ _ rfl
  | some byteValue =>
    simp only [importSpec, h]
    refine andThen_trace_prop _ (grounded_nil _ _) (grounded_append _ _) _ _
      (grounded_quiet _ _ _ rfl)
      fun s0 => newRequest_trace_prop _ (grounded_nil _ _) _ _ _
        (andThen_trace_prop _ (grounded_nil _ _) (grounded_append _ _) _ _
          (grounded_quiet _ _ _ rfl)
          fun s1 => clientDo_grounded env codec remote _ s1 _
            (.spec flags.Project flags.Region e k d) rfl rfl trivial fun resp s' => ?_)
    split
    · exact sendsAll_quiet _ _ rfl
    · exact sendsAll_quiet _ _ rfl

theorem importFile_grounded {σ : Type} (flags : ApigeeFlags) (env : Env) (codec : Codec)
    (remote : Remote σ) (e f : String) (s : ImportState σ) :
    Grounded env codec (importFile flags env remote e f s).trace := by
  by_cases hf : isDeploymentFile f = true
  · simp only [importFile, hf, if_true]
    refine andThen_trace_prop _ (grounded_nil _ _) (grounded_append _ _) _ _ ?_
      fun s3 => grounded_quiet _ _ _ rfl
    cases h : env.readFile (baseDir ++ "/" ++ e ++ "/" ++ f) with
    | none => exact grounded_quiet _ _ _ rfl
    | some byteValue =>
      refine andThen_trace_prop _ (grounded_nil _ _) (grounded_append _ _) _ _
        (grounded_quiet _ _ _ rfl)
        fun s0 => newRequest_trace_prop _ (grounded_nil _ _) _ _ _
          (andThen_trace_prop _ (grounded_nil _ _) (grounded_append _ _) _ _
            (grounded_quiet _ _ _ rfl)
            fun s1 => clientDo_grounded env codec remote _ s1 _
              (.deployment flags.Project flags.Region (ReplaceAll f ".json" "")) rfl rfl trivial
              fun resp s' => ?_)
      split
      · exact sendsAll_quiet _ _ rfl
      · exact sendsAll_quiet _ _ rfl
  · simp only [importFile, hf]
    exact grounded_quiet _ _ _ rfl

theorem importVersionDoc_grounded {σ : Type} (flags : ApigeeFlags) (env : Env) (codec : Codec)
    (remote : Remote σ) (e k : String) (s : ImportState σ) :
    Grounded env codec (importVersionDoc flags env codec remote e k s).trace := by
  cases h : env.readFile (baseDir ++ "/" ++ e ++ "/" ++ k ++ ".json") with
  | none =>
    simp only [importVersionDoc, h]
    exact grounded_quiet _ _ _ rfl
  | some byteValue =>
    have hbody : Body.version (codec.unmarshalVersion byteValue) = versionBodyOf env codec e k := by
      unfold versionBodyOf
      rw [h]
      rfl
    simp only [importVersionDoc, h]
    refine andThen_trace_prop _ (grounded_nil _ _) (grounded_append _ _) _ _
      (grounded_quiet _ _ _ rfl)
      fun s0 => newRequest_trace_prop _ (grounded_nil _ _) _ _ _
        (andThen_trace_prop _ (grounded_nil _ _) (grounded_append _ _) _ _
          (grounded_quiet _ _ _ rfl)
          fun s1 => clientDo_grounded env codec remote _ s1 _
            (.version flags.Project flags.Region e k) rfl rfl hbody fun resp s' => ?_)
    split
    · refine andThen_trace_prop _ (sendsAll_nil _) (sendsAll_append _) _ _
        (sendsAll_quiet _ _ rfl) fun s3 => ?_
      split
      · refine newRequest_trace_prop _ (sendsAll_nil _) _ _ _
          (andThen_trace_prop _ (sendsAll_nil _) (sendsAll_append _) _ _
            (sendsAll_quiet _ _ rfl)
            fun s4 => clientDo_sends _ remote _ s4 _ ⟨hbody, rfl⟩ fun resp2 s5 => ?_)
        split
        · exact sendsAll_quiet _ _ rfl
        · exact sendsAll_quiet _ _ rfl
      · exact sendsAll_quiet _ _ rfl
    · exact sendsAll_quiet _ _ rfl

theorem importEntry_grounded {σ : Type} (flags : ApigeeFlags) (env : Env) (codec : Codec)
    (remote : Remote σ) (e : String) (s : ImportState σ) :
    Grounded env codec (importEntry flags env codec remote e s).trace := by
  unfold importEntry
  split
  · refine andThen_trace_prop _ (grounded_nil _ _) (grounded_append _ _) _ _
      (grounded_quiet _ _ _ rfl) fun s1 => ?_
    refine andThen_trace_prop _ (grounded_nil _ _) (grounded_append _ _) _ _
      (importApi_grounded flags env codec remote e s1) fun s2 => ?_
    refine andThen_trace_prop _ (grounded_nil _ _) (grounded_append _ _) _ _
      (grounded_quiet _ _ _ rfl) fun s3 => ?_
    refine andThen_trace_prop _ (grounded_nil _ _) (grounded_append _ _) _ _
      (forEach_trace_prop _ (grounded_nil _ _) (grounded_append _ _) _ _
        (fun f _ s' => importFile_grounded flags env codec remote e f s') s3)
      fun s4 => ?_
    refine forEach_trace_prop _ (grounded_nil _ _) (grounded_append _ _) _ _
      (fun kv _ s' => ?_) s4
    exact andThen_trace_prop _ (grounded_nil _ _) (grounded_append _ _) _ _
      (importVersionDoc_grounded flags env codec remote e kv.1 s')
      (forEach_trace_prop _ (grounded_nil _ _) (grounded_append _ _) _ _
        fun d _ s2 => importSpec_grounded flags env codec remote e kv.1 d s2)
  · exact grounded_quiet _ _ _ rfl

/-! ## The second of two imports follows the first -/

theorem covers_refl (c : Catalog) : Covers c c := fun _ h => h

theorem covers_of_faithful (c : Catalog) (s2 : ImportState Catalog)
    (r2 : Outcome (ImportState Catalog)) (hF : Faithful catalogRemote s2 r2)
    (hc : Covers s2.remote c) : Covers r2.state.remote c := by
  intro id hid
  rw [hF.1]
  exact remoteAfter_keeps _ id _ (hc id hid)

theorem follows_of_eq {σ : Type} (c : Catalog) (r1 : Outcome (ImportState σ))
    (r2 : Outcome (ImportState Catalog)) (hc : createsOf r2.trace = createsOf r1.trace)
    (hf : r2.finished = true → r1.finished = true ∧ r1.state.apiVersions = r2.state.apiVersions) :
    Follows c r1 r2 :=
  fun _ => ⟨fun _ hreq => hc ▸ hreq, hf⟩

theorem follows_of_stopped {σ : Type} (c : Catalog) (r1 : Outcome (ImportState σ))
    (r2 : Outcome (ImportState Catalog)) (hc : httpOf r2.trace = [])
    (hf : r2.finished = false) : Follows c r1 r2 := by
  intro _
  refine ⟨fun req hreq => ?_, fun h => ?_⟩
  · simp [createsOf, hc] at hreq
  · rw [hf] at h
    exact absurd h (by simp)

/-- Two blocks in sequence: the second pass follows the first when it does so
in both blocks. -/
theorem follows_andThen {σ : Type} (c : Catalog) (r1 : Outcome (ImportState σ))
    (r2 : Outcome (ImportState Catalog)) (k1 : ImportState σ → Outcome (ImportState σ))
    (k2 : ImportState Catalog → Outcome (ImportState Catalog))
    (hr : Follows c r1 r2)
    (hk : r1.state.apiVersions = r2.state.apiVersions → Follows c (k1 r1.state) (k2 r2.state)) :
    Follows c (andThen r1 k1) (andThen r2 k2) := by
  intro H
  have H1 : ∀ req ∈ createsOf r1.trace, ∀ id, createdBy req.call = some id →
      (catalogGet c id).isSome = true := fun req hreq =>
    H req (by rw [trace_andThen_if, createsOf_append]; exact List.mem_append_left _ hreq)
  obtain ⟨hsub, hfin⟩ := hr H1
  by_cases h2 : r2.finished = true
  · obtain ⟨h1, hav⟩ := hfin h2
    have H2 : ∀ req ∈ createsOf (k1 r1.state).trace, ∀ id, createdBy req.call = some id →
        (catalogGet c id).isSome = true := fun req hreq =>
      H req (by
        rw [trace_andThen_if, if_pos h1, createsOf_append]
        exact List.mem_append_right _ hreq)
    obtain ⟨hsub', hfin'⟩ := hk hav H2
    refine ⟨fun req hreq => ?_, fun h => ?_⟩
    · rw [trace_andThen_if, if_pos h2, createsOf_append, List.mem_append] at hreq
      rw [trace_andThen_if, if_pos h1, createsOf_append, List.mem_append]
      exact hreq.imp (hsub req) (hsub' req)
    · rw [finished_andThen, h2, Bool.true_and] at h
      obtain ⟨hk1, hkav⟩ := hfin' h
      rw [finished_andThen, h1, Bool.true_and, state_andThen, state_andThen, if_pos h1,
        if_pos h2]
      exact ⟨hk1, hkav⟩
  · refine ⟨fun req hreq => ?_, fun h => ?_⟩
    · rw [trace_andThen_if, if_neg h2, List.append_nil] at hreq
      rw [trace_andThen_if, createsOf_append]
      exact List.mem_append_left _ (hsub req hreq)
    · rw [finished_andThen, Bool.and_eq_true] at h
      exact absurd h.1 h2

/-- A loop: the second pass follows the first when it does so in every body. -/
theorem follows_forEach {α σ : Type} (c : Catalog)
    (body1 : α → ImportState σ → Outcome (ImportState σ))
    (body2 : α → ImportState Catalog → Outcome (ImportState Catalog)) (xs : List α)
    (hbody : ∀ x ∈ xs, BlockFollows c (body1 x) (body2 x))
    (hfaith : ∀ x s2, Faithful catalogRemote s2 (body2 x s2)) :
    BlockFollows c (forEach body1 xs) (forEach body2 xs) := by
  induction xs with
  | nil =>
    intro s1 s2 hs _
    exact follows_of_eq c _ _ rfl fun _ => ⟨rfl, hs⟩
  | cons x rest ih =>
    intro s1 s2 hs hcov
    exact follows_andThen c _ _ _ _ (hbody x (List.mem_cons_self _ _) s1 s2 hs hcov)
      fun hav => ih (fun y hy => hbody y (List.mem_cons_of_mem _ hy)) _ _ hav
        (covers_of_faithful c s2 _ (hfaith x s2) hcov)

theorem importApi_apiVersions {σ : Type} (flags : ApigeeFlags) (env : Env) (remote : Remote σ)
    (e : String) (s : ImportState σ) :
    (importApi flags env remote e s).state.apiVersions = s.apiVersions := by
  cases h : env.readFile (baseDir ++ "/" ++ e ++ "/" ++ e ++ ".json") with
  | none => simp [importApi, h, state_emit]
  | some byteValue =>
    simp only [importApi, h, state_andThen, finished_emit, state_emit, if_true,
      state_newRequest]
    split
    · refine clientDo_apiVersions remote _ _ _ fun resp s' => ?_
      split <;> rfl
    · rfl

theorem importSpec_apiVersions {σ : Type} (flags : ApigeeFlags) (env : Env) (remote : Remote σ)
    (e k d : String) (s : ImportState σ) :
    (importSpec flags env remote e k d s).state.apiVersions = s.apiVersions := by
  cases h : env.readFile (baseDir ++ "/" ++ e ++ "/" ++ d ++ "-oas.json") with
  | none => simp [importSpec, h, state_emit]
  | some byteValue =>
    simp only [importSpec, h, state_andThen, finished_emit, state_emit, if_true,
      state_newRequest]
    split
    · refine clientDo_apiVersions remote _ _ _ fun resp s' => ?_
      split <;> rfl
    · rfl

theorem importVersionDoc_apiVersions {σ : Type} (flags : ApigeeFlags) (env : Env)
    (codec : Codec) (remote : Remote σ) (e k : String) (s : ImportState σ) :
    (importVersionDoc flags env codec remote e k s).state.apiVersions = s.apiVersions := by
  cases h : env.readFile (baseDir ++ "/" ++ e ++ "/" ++ k ++ ".json") with
  | none => simp [importVersionDoc, h, state_emit]
  | some byteValue =>
    simp only [importVersionDoc, h, state_andThen, finished_emit, state_emit, if_true,
      state_newRequest]
    split
    · refine clientDo_apiVersions remote _ _ _ fun resp s' => ?_
      split
      · simp only [state_andThen, finished_emit, state_emit, if_true]
        split
        · simp only [state_newRequest, state_andThen, finished_emit, state_emit, if_true]
          split
          · refine clientDo_apiVersions remote _ _ _ fun resp2 s2 => ?_
            split <;> rfl
          · rfl
        · rfl
      · rfl
    · rfl

/-- When the request of the API document cannot be built, the block sends
nothing and ends in a panic. -/
theorem importApi_unbuilt {σ : Type} (flags : ApigeeFlags) (env : Env) (remote : Remote σ)
    (e : String) (s : ImportState σ)
    (hU : ¬ ∀ req ∈ plannedApi flags env e, built req = true) :
    httpOf (importApi flags env remote e s).trace = [] ∧
      (importApi flags env remote e s).finished = false := by
  cases h : env.readFile (baseDir ++ "/" ++ e ++ "/" ++ e ++ ".json") with
  | none => exact absurd (by simp [plannedApi, h]) hU
  | some byteValue =>
    have hp : ¬ parses (Call.createApi flags.Project flags.Region e).url = true := by
      intro hp
      exact hU (by simp [plannedApi, h, built, patchOf, hp])
    simp [importApi, h, trace_andThen_if, trace_newRequest, finished_andThen,
      finished_newRequest, finished_emit, trace_emit, state_emit, hp, httpOf_cons_openFile,
      httpOf_nil]

theorem importSpec_unbuilt {σ : Type} (flags : ApigeeFlags) (env : Env) (remote : Remote σ)
    (e k d : String) (s : ImportState σ)
    (hU : ¬ ∀ req ∈ plannedSpec flags env e k d, built req = true) :
    httpOf (importSpec flags env remote e k d s).trace = [] ∧
      (importSpec flags env remote e k d s).finished = false := by
  cases h : env.readFile (baseDir ++ "/" ++ e ++ "/" ++ d ++ "-oas.json") with
  | none => exact absurd (by simp [plannedSpec, h]) hU
  | some byteValue =>
    have hp : ¬ parses (Call.createSpec flags.Project flags.Region e k d).url = true := by
      intro hp
      exact hU (by simp [plannedSpec, h, built, patchOf, hp])
    simp [importSpec, h, trace_andThen_if, trace_newRequest, finished_andThen,
      finished_newRequest, finished_emit, trace_emit, state_emit, hp, httpOf_cons_openFile,
      httpOf_nil]

theorem importFile_unbuilt {σ : Type} (flags : ApigeeFlags) (env : Env) (remote : Remote σ)
    (e f : String) (s : ImportState σ)
    (hU : ¬ ∀ req ∈ plannedFile flags env e f, built req = true) :
    httpOf (importFile flags env remote e f s).trace = [] ∧
      (importFile flags env remote e f s).finished = false := by
  by_cases hf : isDeploymentFile f = true
  · cases h : env.readFile (baseDir ++ "/" ++ e ++ "/" ++ f) with
    | none => exact absurd (by simp [plannedFile, hf, h]) hU
    | some byteValue =>
      have hp : ¬ parses (Call.createDeployment flags.Project flags.Region
          (ReplaceAll f ".json" "")).url = true := by
        intro hp
        exact hU (by simp [plannedFile, hf, h, built, patchOf, hp])
      simp [importFile, hf, h, trace_andThen_if, trace_newRequest, finished_andThen,
        finished_newRequest, finished_emit, trace_emit, state_emit, hp, httpOf_cons_openFile,
        httpOf_nil, httpOf_append]
  · exact absurd (by simp [plannedFile, hf]) hU

theorem importApi_follows {σ : Type} (flags : ApigeeFlags) (env : Env) (remote : Remote σ)
    (hR : Responsive remote) (c : Catalog) (e : String) :
    BlockFollows c (importApi flags env remote e) (importApi flags env catalogRemote e) := by
  intro s1 s2 hs _
  by_cases hU : ∀ req ∈ plannedApi flags env e, built req = true
  · refine follows_of_eq c _ _ ?_ fun _ => ⟨importApi_finished flags env remote hR e s1 hU, ?_⟩
    · rw [importApi_creates flags env remote hR e s1 hU,
        importApi_creates flags env catalogRemote catalogRemote_responsive e s2 hU]
    · rw [importApi_apiVersions, importApi_apiVersions, hs]
  · exact follows_of_stopped c _ _ (importApi_unbuilt flags env catalogRemote e s2 hU).1
      (importApi_unbuilt flags env catalogRemote e s2 hU).2

theorem importSpec_follows {σ : Type} (flags : ApigeeFlags) (env : Env) (remote : Remote σ)
    (hR : Responsive remote) (c : Catalog) (e k d : String) :
    BlockFollows c (importSpec flags env remote e k d)
      (importSpec flags env catalogRemote e k d) := by
  intro s1 s2 hs _
  by_cases hU : ∀ req ∈ plannedSpec flags env e k d, built req = true
  · refine follows_of_eq c _ _ ?_
      fun _ => ⟨importSpec_finished flags env remote hR e k d s1 hU, ?_⟩
    · rw [importSpec_creates flags env remote hR e k d s1 hU,
        importSpec_creates flags env catalogRemote catalogRemote_responsive e k d s2 hU]
    · rw [importSpec_apiVersions, importSpec_apiVersions, hs]
  · exact follows_of_stopped c _ _ (importSpec_unbuilt flags env catalogRemote e k d s2 hU).1
      (importSpec_unbuilt flags env catalogRemote e k d s2 hU).2

theorem importFile_follows {σ : Type} (flags : ApigeeFlags) (env : Env) (remote : Remote σ)
    (hR : Responsive remote) (c : Catalog) (e f : String) :
    BlockFollows c (importFile flags env remote e f) (importFile flags env catalogRemote e f) := by
  intro s1 s2 hs _
  by_cases hU : ∀ req ∈ plannedFile flags env e f, built req = true
  · refine follows_of_eq c _ _ ?_
      fun h2 => ⟨importFile_finished flags env remote hR e f s1 hU, ?_⟩
    · rw [importFile_creates flags env remote hR e f s1 hU,
        importFile_creates flags env catalogRemote catalogRemote_responsive e f s2 hU]
    · rw [importFile_state_apiVersions, importFile_state_apiVersions,
        if_pos (importFile_finished flags env remote hR e f s1 hU), if_pos h2, hs]
  · exact follows_of_stopped c _ _ (importFile_unbuilt flags env catalogRemote e f s2 hU).1
      (importFile_unbuilt flags env catalogRemote e f s2 hU).2

/-- When the create of a version cannot be built, the block sends nothing and
ends in a panic. -/
theorem importVersionDoc_unbuilt {σ : Type} (flags : ApigeeFlags) (env : Env) (codec : Codec)
    (remote : Remote σ) (e k : String) (s : ImportState σ) (byteValue : List Byte)
    (h : env.readFile (baseDir ++ "/" ++ e ++ "/" ++ k ++ ".json") = some byteValue)
    (hc : ¬ parses (Call.createVersion flags.Project flags.Region e k).url = true) :
    httpOf (importVersionDoc flags env codec remote e k s).trace = [] ∧
      (importVersionDoc flags env codec remote e k s).finished = false := by
  simp [importVersionDoc, h, trace_andThen_if, trace_newRequest, finished_andThen,
    finished_newRequest, finished_emit, trace_emit, state_emit, hc, httpOf_cons_openFile,
    httpOf_nil]

/-- When the create of a version can be built and the remote side answers, the
create is the only create of the block. -/
theorem importVersionDoc_creates_sent {σ : Type} (flags : ApigeeFlags) (env : Env)
    (codec : Codec) (remote : Remote σ) (hR : Responsive remote) (e k : String)
    (s : ImportState σ) (byteValue : List Byte)
    (h : env.readFile (baseDir ++ "/" ++ e ++ "/" ++ k ++ ".json") = some byteValue)
    (hc : parses (Call.createVersion flags.Project flags.Region e k).url = true) :
    createsOf (importVersionDoc flags env codec remote e k s).trace =
      [⟨.createVersion flags.Project flags.Region e k, flags.Token,
        .version (codec.unmarshalVersion byteValue)⟩] := by
  by_cases hp : parses (Call.patchVersion flags.Project flags.Region e k).url = true
  · have hU : ∀ req ∈ plannedVersionDoc flags env codec e k, built req = true := by
      intro req hreq
      simp only [plannedVersionDoc, h, List.mem_singleton] at hreq
      subst hreq
      simp only [built, patchOf, hc, hp, Bool.and_self]
    rw [importVersionDoc_creates flags env codec remote hR e k s hU]
    simp only [plannedVersionDoc, h]
  · simp only [importVersionDoc, h, trace_andThen_if, trace_newRequest, hc, hp,
      trace_clientDo, trace_emit, state_emit, finished_emit, if_true, createsOf_append,
      createsOf_cons_http, createsOf_cons_println, createsOf_cons_openFile, createsOf_nil,
      List.nil_append]
    obtain ⟨resp, hresp⟩ := hR s.remote
      ⟨.createVersion flags.Project flags.Region e k, flags.Token,
        .version (codec.unmarshalVersion byteValue)⟩
    rw [hresp]
    by_cases h200 : resp.StatusCode = 200
    · simp only [isPatch, h200, ne_eq, not_true_eq_false, if_false, trace_emit, createsOf_nil,
        Bool.false_eq_true]
    · by_cases h409 : resp.StatusCode = 409
      · simp only [isPatch, h200, ne_eq, not_false_eq_true, if_true, if_pos h409,
          trace_andThen_if, trace_newRequest, hp, trace_emit, state_emit,
          finished_emit, createsOf_append, createsOf_cons_println,
          createsOf_nil, List.nil_append, Bool.false_eq_true, if_false, List.append_nil]
      · simp only [isPatch, h200, ne_eq, not_false_eq_true, if_true, if_neg h409,
          trace_andThen_if, trace_emit, state_emit,
          finished_emit, createsOf_append, createsOf_cons_println,
          createsOf_nil, List.nil_append, Bool.false_eq_true, if_false, List.append_nil]

/-- Against the catalog, when the version exists and its patch cannot be
built, the block ends in a panic. -/
theorem importVersionDoc_catalog_stops (flags : ApigeeFlags) (env : Env) (codec : Codec)
    (e k : String) (s : ImportState Catalog) (byteValue : List Byte)
    (h : env.readFile (baseDir ++ "/" ++ e ++ "/" ++ k ++ ".json") = some byteValue)
    (hex : (catalogGet s.remote (.version flags.Project flags.Region e k)).isSome = true)
    (hp : ¬ parses (Call.patchVersion flags.Project flags.Region e k).url = true) :
    (importVersionDoc flags env codec catalogRemote e k s).finished = false := by
  obtain ⟨stored, hget⟩ := Option.isSome_iff_exists.1 hex
  have hsend : catalogRemote.send s.remote
      ⟨.createVersion flags.Project flags.Region e k, flags.Token,
        .version (codec.unmarshalVersion byteValue)⟩ =
      (s.remote, .response ⟨409, "409 Conflict", ""⟩) := by
    simp only [catalogRemote, catalogSend, createdBy, hget]
  by_cases hc : parses (Call.createVersion flags.Project flags.Region e k).url = true
  · simp only [importVersionDoc, h, finished_andThen, finished_newRequest, finished_emit,
      finished_clientDo, state_emit, hsend, hc, hp, Bool.true_and, ne_eq,
      show ¬ (409 : Nat) = 200 from by decide, not_false_eq_true, if_true,
      Bool.false_and, Bool.and_false]
  · simp only [importVersionDoc, h, finished_andThen, finished_newRequest, finished_emit,
      hc, Bool.true_and, Bool.false_and, Bool.and_false]

theorem importVersionDoc_follows {σ : Type} (flags : ApigeeFlags) (env : Env) (codec : Codec)
    (remote : Remote σ) (hR : Responsive remote) (c : Catalog) (e k : String) :
    BlockFollows c (importVersionDoc flags env codec remote e k)
      (importVersionDoc flags env codec catalogRemote e k) := by
  intro s1 s2 hs hcov
  cases h : env.readFile (baseDir ++ "/" ++ e ++ "/" ++ k ++ ".json") with
  | none =>
    refine follows_of_eq c _ _ ?_ fun _ => ⟨?_, ?_⟩
    · simp [importVersionDoc, h, trace_emit]
    · simp [importVersionDoc, h, finished_emit]
    · rw [importVersionDoc_apiVersions, importVersionDoc_apiVersions, hs]
  | some byteValue =>
    by_cases hc : parses (Call.createVersion flags.Project flags.Region e k).url = true
    · intro H
      have h1 := importVersionDoc_creates_sent flags env codec remote hR e k s1 byteValue h hc
      have h2 := importVersionDoc_creates_sent flags env codec catalogRemote
        catalogRemote_responsive e k s2 byteValue h hc
      refine ⟨fun req hreq => by rw [h1]; rw [h2] at hreq; exact hreq, fun hfin => ⟨?_, ?_⟩⟩
      · have hex : (catalogGet s2.remote
            (.version flags.Project flags.Region e k)).isSome = true :=
          hcov _ (H ⟨.createVersion flags.Project flags.Region e k, flags.Token,
            .version (codec.unmarshalVersion byteValue)⟩
            (by rw [h1]; exact List.mem_cons_self _ _) _ rfl)
        have hp : parses (Call.patchVersion flags.Project flags.Region e k).url = true := by
          by_contra hp
          rw [importVersionDoc_catalog_stops flags env codec e k s2 byteValue h hex hp] at hfin
          exact absurd hfin (by simp)
        refine importVersionDoc_finished flags env codec remote hR e k s1 fun req hreq => ?_
        simp only [plannedVersionDoc, h, List.mem_singleton] at hreq
        subst hreq
        simp [built, patchOf, hc, hp]
      · rw [importVersionDoc_apiVersions, importVersionDoc_apiVersions, hs]
    · exact follows_of_stopped c _ _
        (importVersionDoc_unbuilt flags env codec catalogRemote e k s2 byteValue h hc).1
        (importVersionDoc_unbuilt flags env codec catalogRemote e k s2 byteValue h hc).2

theorem importVersion_faithful {σ : Type} (flags : ApigeeFlags) (env : Env) (codec : Codec)
    (remote : Remote σ) (e : String) (kv : String × List String) (s : ImportState σ) :
    Faithful remote s (importVersion flags env codec remote e kv s) :=
  faithful_andThen remote s _ _ (importVersionDoc_faithful flags env codec remote e kv.1 s)
    (faithful_forEach remote _ _ fun d s2 => importSpec_faithful flags env remote e kv.1 d s2)

theorem importVersion_follows {σ : Type} (flags : ApigeeFlags) (env : Env) (codec : Codec)
    (remote : Remote σ) (hR : Responsive remote) (c : Catalog) (e : String)
    (kv : String × List String) :
    BlockFollows c (importVersion flags env codec remote e kv)
      (importVersion flags env codec catalogRemote e kv) := by
  intro s1 s2 hs hcov
  exact follows_andThen c _ _ _ _
    (importVersionDoc_follows flags env codec remote hR c e kv.1 s1 s2 hs hcov)
    fun hav => follows_forEach c _ _ kv.2
      (fun d _ => importSpec_follows flags env remote hR c e kv.1 d)
      (fun d s => importSpec_faithful flags env catalogRemote e kv.1 d s) _ _ hav
      (covers_of_faithful c s2 _
        (importVersionDoc_faithful flags env codec catalogRemote e kv.1 s2) hcov)

theorem importEntry_follows {σ : Type} (flags : ApigeeFlags) (env : Env) (codec : Codec)
    (remote : Remote σ) (hR : Responsive remote) (c : Catalog) (e : String) :
    BlockFollows c (importEntry flags env codec remote e)
      (importEntry flags env codec catalogRemote e) := by
  intro s1 s2 hs hcov
  unfold importEntry
  by_cases hsel : flags.ApiName = "" ∨ flags.ApiName = e
  · rw [if_pos hsel, if_pos hsel]
    refine follows_andThen c _ _ _ _ (follows_of_eq c _ _ rfl fun _ => ⟨rfl, hs⟩) fun _ => ?_
    refine follows_andThen c _ _ _ _ (importApi_follows flags env remote hR c e s1 s2 hs hcov)
      fun _ => ?_
    have hcovA : Covers (importApi flags env catalogRemote e s2).state.remote c :=
      covers_of_faithful c s2 _ (importApi_faithful flags env catalogRemote e s2) hcov
    refine follows_andThen c _ _ _ _ (follows_of_eq c _ _ rfl fun _ => ⟨rfl, rfl⟩) fun _ => ?_
    refine follows_andThen c _ _ _ _
      (follows_forEach c _ _ _ (fun f _ => importFile_follows flags env remote hR c e f)
        (fun f s => importFile_faithful flags env catalogRemote e f s) _ _ rfl hcovA)
      fun hav => ?_
    rw [hav]
    exact follows_forEach c _ _ _
      (fun kv _ => importVersion_follows flags env codec remote hR c e kv)
      (fun kv s => importVersion_faithful flags env codec catalogRemote e kv s) _ _ hav
      (covers_of_faithful c _ _
        (faithful_forEach catalogRemote _ _
          (fun f s => importFile_faithful flags env catalogRemote e f s) _) hcovA)
  · rw [if_neg hsel, if_neg hsel]
    exact follows_of_eq c _ _ rfl fun _ => ⟨rfl, hs⟩

/-! ## Importing twice -/

theorem createsOf_apiHubImport {σ : Type} (flags : ApigeeFlags) (env : Env) (codec : Codec)
    (remote : Remote σ) (remote0 : σ) (hp : flags.Project ≠ "") (hr : flags.Region ≠ "") :
    createsOf (apiHubImport flags env codec remote remote0).trace =
      createsOf (forEach (importEntry (resolveToken flags env).1 env codec remote)
        ((env.readDir baseDir).getD []) { remote := remote0, apiVersions := [] }).trace := by
  unfold createsOf
  rw [httpOf_apiHubImport flags env codec remote remote0 hp hr]

theorem createsOf_apiHubImport_nil {σ : Type} (flags : ApigeeFlags) (env : Env) (codec : Codec)
    (remote : Remote σ) (remote0 : σ) (h : flags.Project = "" ∨ flags.Region = "") :
    httpOf (apiHubImport flags env codec remote remote0).trace = [] := by
  by_cases hp : flags.Project = ""
  · simp [apiHubImport, hp, httpOf_cons_println, httpOf_nil]
  · have hr : flags.Region = "" := h.resolve_left hp
    simp [apiHubImport, hp, hr, httpOf_cons_println, httpOf_nil]

/-- Every request of an import carries the body the store gives and is about
the resource that a create of the same run creates. -/
theorem apiHubImport_grounded {σ : Type} (flags : ApigeeFlags) (env : Env) (codec : Codec)
    (remote : Remote σ) (remote0 : σ) :
    ∀ req reply, (req, reply) ∈ httpOf (apiHubImport flags env codec remote remote0).trace →
      FromStore env codec req ∧
        ∃ y ∈ createsOf (apiHubImport flags env codec remote remote0).trace,
          ∃ id, createdBy y.call = some id ∧ targetOf req.call = some id := by
  by_cases h : flags.Project = "" ∨ flags.Region = ""
  · intro req reply hm
    rw [createsOf_apiHubImport_nil flags env codec remote remote0 h] at hm
    exact absurd hm (List.not_mem_nil _)
  · rw [not_or] at h
    rw [createsOf_apiHubImport flags env codec remote remote0 h.1 h.2,
      httpOf_apiHubImport flags env codec remote remote0 h.1 h.2]
    exact forEach_trace_prop _ (grounded_nil env codec) (grounded_append env codec) _ _
      (fun e _ s' => importEntry_grounded _ env codec remote e s') _

/-- The creates of a second import against the catalog the first one left are
creates of the first. -/
theorem apiHubImport_follows (flags : ApigeeFlags) (env : Env) (codec : Codec) :
    ∀ req ∈ createsOf (apiHubImport flags env codec catalogRemote
        (apiHubImport flags env codec catalogRemote []).remote).trace,
      req ∈ createsOf (apiHubImport flags env codec catalogRemote []).trace := by
  by_cases h : flags.Project = "" ∨ flags.Region = ""
  · intro req hreq
    unfold createsOf at hreq
    rw [createsOf_apiHubImport_nil flags env codec catalogRemote _ h] at hreq
    simp at hreq
  · rw [not_or] at h
    have hexists : ∀ req ∈ createsOf (apiHubImport flags env codec catalogRemote []).trace,
        ∀ id, createdBy req.call = some id →
          (catalogGet (apiHubImport flags env codec catalogRemote []).remote id).isSome =
            true := by
      intro r hr id hid
      rw [(apiHubImport_faithful flags env codec catalogRemote []).1]
      refine remoteAfter_creates _ id r ?_ hid []
      unfold createsOf at hr
      exact (List.mem_filter.1 hr).1
    rw [createsOf_apiHubImport flags env codec catalogRemote [] h.1 h.2] at hexists ⊢
    rw [createsOf_apiHubImport flags env codec catalogRemote _ h.1 h.2]
    exact (follows_forEach (apiHubImport flags env codec catalogRemote []).remote
      (importEntry (resolveToken flags env).1 env codec catalogRemote)
      (importEntry (resolveToken flags env).1 env codec catalogRemote)
      ((env.readDir baseDir).getD [])
      (fun e _ => importEntry_follows _ env codec catalogRemote catalogRemote_responsive _ e)
      (fun e s => importEntry_faithful _ env codec catalogRemote e s)
      { remote := [], apiVersions := [] }
      { remote := (apiHubImport flags env codec catalogRemote []).remote, apiVersions := [] }
      rfl (covers_refl _) hexists).1

/-- C20: over the catalog model (a create of an existing id answers 409 and
changes nothing, a create of a new id stores the body, a patch replaces only
the deployments list of the stored version), for every local store: a
second import started from the catalog the first import left, itself started
from the empty catalog, leaves the same catalog; every create it sends is a create of
the first import and is answered with 409; and every patch it sends is the
patch of a version whose stored body is the body the patch carries.  When the
requests of the store can all be built, both runs return nil and send the same
creates. -/
theorem import_twice_same_catalog (flags : ApigeeFlags) (env : Env) (codec : Codec) :
    (apiHubImport flags env codec catalogRemote
        (apiHubImport flags env codec catalogRemote []).remote).remote =
        (apiHubImport flags env codec catalogRemote []).remote ∧
      (∀ req ∈ createsOf (apiHubImport flags env codec catalogRemote
          (apiHubImport flags env codec catalogRemote []).remote).trace,
        req ∈ createsOf (apiHubImport flags env codec catalogRemote []).trace) ∧
      (∀ req reply, (req, reply) ∈ httpOf (apiHubImport flags env codec catalogRemote
          (apiHubImport flags env codec catalogRemote []).remote).trace →
        isPatch req = false → hasStatus reply 409 = true) ∧
      (∀ req reply, (req, reply) ∈ httpOf (apiHubImport flags env codec catalogRemote
          (apiHubImport flags env codec catalogRemote []).remote).trace →
        isPatch req = true → ∃ project region api versionId,
          req.call = .patchVersion project region api versionId ∧
          catalogGet (apiHubImport flags env codec catalogRemote []).remote
            (.version project region api versionId) = some req.body) ∧
      (Buildable (resolveToken flags env).1 env codec →
        (apiHubImport flags env codec catalogRemote []).exit = .returnedNil ∧
        (apiHubImport flags env codec catalogRemote
          (apiHubImport flags env codec catalogRemote []).remote).exit = .returnedNil ∧
        createsOf (apiHubImport flags env codec catalogRemote
          (apiHubImport flags env codec catalogRemote []).remote).trace =
          createsOf (apiHubImport flags env codec catalogRemote []).trace) := by
  have hR := catalogRemote_responsive
  obtain ⟨hremote1, _⟩ := apiHubImport_faithful flags env codec catalogRemote []
  obtain ⟨hremote2, hrec2⟩ := apiHubImport_faithful flags env codec catalogRemote
    (apiHubImport flags env codec catalogRemote []).remote
  have hsub := apiHubImport_follows flags env codec
  have hcalls1 := apiHubImport_grounded flags env codec catalogRemote []
  have hcalls2 := apiHubImport_grounded flags env codec catalogRemote
    (apiHubImport flags env codec catalogRemote []).remote
  have hstored : StoredFromStore env codec
      (apiHubImport flags env codec catalogRemote []).remote := by
    rw [hremote1]
    refine remoteAfter_fromStore env codec _ (fun x hx => (hcalls1 x.1 x.2 hx).1) [] ?_
    intro project region e k body h
    simp [catalogGet] at h
  have hexists : ∀ r ∈ createsOf (apiHubImport flags env codec catalogRemote []).trace,
      ∀ id, createdBy r.call = some id →
        (catalogGet (apiHubImport flags env codec catalogRemote []).remote id).isSome = true := by
    intro r hr id hid
    rw [hremote1]
    refine remoteAfter_creates _ id r ?_ hid []
    unfold createsOf at hr
    exact (List.mem_filter.1 hr).1
  obtain ⟨hsame, hreplies⟩ := replay_existing env codec _ hstored _ hrec2 (fun x hx => by
    obtain ⟨hfs, r, hr, id, hid, htarget⟩ := hcalls2 x.1 x.2 hx
    exact ⟨hfs, id, htarget, hexists r (hsub r hr) id hid⟩)
  refine ⟨hremote2.trans hsame, hsub, fun req reply hx hp => (hreplies _ hx).1 hp,
    fun req reply hx hp => ?_, fun hU => ⟨apiHubImport_returns_nil flags env codec
      catalogRemote [] hR hU, apiHubImport_returns_nil flags env codec catalogRemote _ hR hU,
      (apiHubImport_creates flags env codec catalogRemote _ hR hU).trans
        (apiHubImport_creates flags env codec catalogRemote [] hR hU).symm⟩⟩
  obtain ⟨id, hid, hget⟩ := (hreplies _ hx).2 hp
  have hp' : isPatch req = true := hp
  unfold isPatch at hp'
  cases hc : req.call with
  | patchVersion project region api versionId =>
    refine ⟨project, region, api, versionId, rfl, ?_⟩
    have hid' : targetOf req.call = some id := hid
    rw [hc] at hid'
    simp only [targetOf, Option.some.injEq] at hid'
    rw [hid']
    exact hget
  | _ => simp [hc] at hp'

/-- Witness of C20 on the store of the API `orders`, whose requests can all be
built: the first import fills the empty catalog with five resources, the
second one sends the same five creates and one patch and leaves the catalog as
it is.  On the store `percentEnv` the second import stops after the create of
the version `x%zz-v1`, and the catalog stays as the first import left it. -/
theorem import_twice_same_catalog_witness :
    (apiHubImport exFlags hubEnv exCodec catalogRemote []).remote.map Prod.fst =
        [.api "p" "r" "orders", .deployment "p" "r" "orders-v1-aws",
          .deployment "p" "r" "orders-v1-azure", .version "p" "r" "orders" "orders-v1",
          .spec "p" "r" "orders" "orders-v1" "orders-v1-aws"] ∧
      (httpOf (apiHubImport exFlags hubEnv exCodec catalogRemote
        (apiHubImport exFlags hubEnv exCodec catalogRemote []).remote).trace).map
          (fun x => (x.1.call.method, hasStatus x.2 409)) =
        [("POST", true), ("POST", true), ("POST", true), ("POST", true), ("PATCH", false),
          ("POST", true)] ∧
      (apiHubImport exFlags hubEnv exCodec catalogRemote
        (apiHubImport exFlags hubEnv exCodec catalogRemote []).remote).remote =
        (apiHubImport exFlags hubEnv exCodec catalogRemote []).remote ∧
      (apiHubImport exFlags hubEnv exCodec catalogRemote
        (apiHubImport exFlags hubEnv exCodec catalogRemote []).remote).exit = .returnedNil ∧
      (apiHubImport exFlags percentEnv exCodec catalogRemote
        (apiHubImport exFlags percentEnv exCodec catalogRemote []).remote).exit = .panicked ∧
      (apiHubImport exFlags percentEnv exCodec catalogRemote
        (apiHubImport exFlags percentEnv exCodec catalogRemote []).remote).remote =
        (apiHubImport exFlags percentEnv exCodec catalogRemote []).remote :=
  ⟨by decide, by decide, (import_twice_same_catalog exFlags hubEnv exCodec).1,
    ((import_twice_same_catalog exFlags hubEnv exCodec).2.2.2.2 (by decide)).2.1,
    by decide, (import_twice_same_catalog exFlags percentEnv exCodec).1⟩

/-! ## Claims C21 to C27 -/

theorem isVersionSuffix_inside (c : Char) (p d : List Char) :
    isVersionSuffix (c :: (p ++ '-' :: 'v' :: d)) = false := by
  by_cases hc : c = '-'
  · subst hc
    cases p with
    | nil => rfl
    | cons c1 p1 =>
      by_cases hv : c1 = 'v'
      · subst hv
        cases p1 with
        | nil => simp [isVersionSuffix, Char.isDigit]
        | cons c2 p2 =>
          have hdash : ('-' : Char).isDigit = false := by decide
          simp [isVersionSuffix, hdash]
      · cases p1 <;> simp [isVersionSuffix, hv]
  · unfold isVersionSuffix
    split
    · rename_i heq
      simp only [List.cons.injEq] at heq
      exact absurd heq.1 hc
    · rfl

theorem stripVersionSuffixFrom_suffix (p d : List Char) (hd : d ≠ [])
    (hdigits : d.all Char.isDigit = true) :
    stripVersionSuffixFrom (p ++ '-' :: 'v' :: d) = p := by
  induction p with
  | nil =>
    cases d with
    | nil => exact absurd rfl hd
    | cons d0 ds => simp [stripVersionSuffixFrom, isVersionSuffix, hdigits]
  | cons c p ih =>
    show stripVersionSuffixFrom (c :: (p ++ '-' :: 'v' :: d)) = c :: p
    unfold stripVersionSuffixFrom
    rw [isVersionSuffix_inside, ih]
    rfl

theorem isVersionSuffix_eq (l : List Char) (h : isVersionSuffix l = true) :
    ∃ d, l = '-' :: 'v' :: d ∧ d ≠ [] ∧ d.all Char.isDigit = true := by
  unfold isVersionSuffix at h
  split at h
  · rename_i d ds
    exact ⟨d :: ds, rfl, by simp, h⟩
  · simp at h

theorem stripVersionSuffixFrom_other (l : List Char)
    (h : ∀ p d, l = p ++ '-' :: 'v' :: d → d ≠ [] → d.all Char.isDigit = true → False) :
    stripVersionSuffixFrom l = l := by
  induction l with
  | nil => rfl
  | cons c cs ih =>
    have hnot : isVersionSuffix (c :: cs) = false := by
      cases hv : isVersionSuffix (c :: cs) with
      | false => rfl
      | true =>
        obtain ⟨d, hl, hd, hdigits⟩ := isVersionSuffix_eq _ hv
        exact (h [] d hl hd hdigits).elim
    simp only [stripVersionSuffixFrom, hnot, Bool.false_eq_true, if_false, List.cons.injEq,
      true_and]
    exact ih fun p d hl hd hdigits => h (c :: p) d (by rw [hl]; rfl) hd hdigits

/-- C23: the replacement of `(-v\d+)$` by the empty string removes exactly one
trailing version-number suffix: a text `p ++ "-v" ++ d` with `d` a non-empty
string of ASCII digits gives `p`, every other text is unchanged; so
`a-v1-v2` gives `a-v1`, and `a-v`, `a-v1x` and `a-v1-b` are unchanged. -/
theorem stripVersionSuffix_spec :
    (∀ p d : String, d.data ≠ [] → d.data.all Char.isDigit = true →
        stripVersionSuffix (p ++ "-v" ++ d) = p) ∧
      (∀ s : String,
        (¬∃ p d : String, s = p ++ "-v" ++ d ∧ d.data ≠ [] ∧ d.data.all Char.isDigit = true) →
        stripVersionSuffix s = s) ∧
      stripVersionSuffix "a-v1-v2" = "a-v1" ∧ stripVersionSuffix "a-v" = "a-v" ∧
      stripVersionSuffix "a-v1x" = "a-v1x" ∧ stripVersionSuffix "a-v1-b" = "a-v1-b" ∧
      stripVersionSuffix "orders-v12" = "orders" := by
  refine ⟨fun p d hd hdigits => ?_, fun s h => ?_, by decide, by decide, by decide, by decide,
    by decide⟩
  · unfold stripVersionSuffix
    have hdata : (p ++ "-v" ++ d).data = p.data ++ '-' :: 'v' :: d.data := by
      simp [String.data_append]
    rw [hdata, stripVersionSuffixFrom_suffix p.data d.data hd hdigits]
  · unfold stripVersionSuffix
    rw [stripVersionSuffixFrom_other s.data]
    intro p d hl hd hdigits
    refine h ⟨⟨p⟩, ⟨d⟩, ?_, hd, hdigits⟩
    apply String.ext
    simp [String.data_append, hl]


/-- The scan keeps `result` when no revision is greater, and otherwise ends at
the first revision of greatest value. -/
theorem latestFrom_spec (revisions : List String) :
    ∀ result,
      (latestFrom result revisions = result ∧
          ∀ x ∈ revisions, Atoi x ≤ Atoi result) ∨
        ∃ pre post, revisions = pre ++ latestFrom result revisions :: post ∧
          Atoi result < Atoi (latestFrom result revisions) ∧
          (∀ x ∈ pre, Atoi x < Atoi (latestFrom result revisions)) ∧
          ∀ x ∈ post, Atoi x ≤ Atoi (latestFrom result revisions) := by
  induction revisions with
  | nil => exact fun result => Or.inl ⟨rfl, fun x hx => absurd hx (List.not_mem_nil x)⟩
  | cons value rest ih =>
    intro result
    by_cases hgt : Atoi value > Atoi result
    · have hstep : latestFrom result (value :: rest) = latestFrom value rest := by
        simp [latestFrom, hgt]
      rw [hstep]
      rcases ih value with ⟨heq, hall⟩ | ⟨pre, post, hl, hlt, hpre, hpost⟩
      · right
        refine ⟨[], rest, by rw [heq]; rfl, by rw [heq]; exact hgt, ?_, ?_⟩
        · exact fun x hx => absurd hx (List.not_mem_nil x)
        · rw [heq]; exact hall
      · right
        refine ⟨value :: pre, post, by rw [List.cons_append, ← hl], lt_trans hgt hlt, ?_, hpost⟩
        intro x hx
        rcases List.mem_cons.1 hx with h | h
        · rw [h]; exact hlt
        · exact hpre x h
    · have hstep : latestFrom result (value :: rest) = latestFrom result rest := by
        simp [latestFrom, hgt]
      rw [hstep]
      rcases ih result with ⟨heq, hall⟩ | ⟨pre, post, hl, hlt, hpre, hpost⟩
      · left
        refine ⟨heq, fun x hx => ?_⟩
        rcases List.mem_cons.1 hx with h | h
        · rw [h]; exact not_lt.1 hgt
        · exact hall x h
      · right
        refine ⟨value :: pre, post, by rw [List.cons_append, ← hl], hlt, ?_, hpost⟩
        intro x hx
        rcases List.mem_cons.1 hx with h | h
        · rw [h]; exact lt_of_le_of_lt (not_lt.1 hgt) hlt
        · exact hpre x h

theorem le_foldl_digits (ds : List Char) :
    ∀ n, n ≤ ds.foldl (fun acc c => 10 * acc + (c.toNat - 48)) n := by
  induction ds with
  | nil => exact fun n => le_refl n
  | cons c rest ih =>
    intro n
    simp only [List.foldl_cons]
    exact le_trans (by omega) (ih _)

/-- On decimal digits whose value fits `uint64` the loop of `ParseUint` ends
without an error, with the value of the digits. -/
theorem parseUintFrom_digits (ds : List Char) :
    ∀ n, ds.all Char.isDigit = true →
      ds.foldl (fun acc c => 10 * acc + (c.toNat - 48)) n ≤ maxUint64 →
      parseUintFrom ds n = .ok (ds.foldl (fun acc c => 10 * acc + (c.toNat - 48)) n) := by
  induction ds with
  | nil => exact fun _ _ _ => rfl
  | cons c rest ih =>
    intro n hd hfit
    simp only [List.all_cons, Bool.and_eq_true] at hd
    simp only [List.foldl_cons] at hfit ⊢
    have hle := le_foldl_digits rest (10 * n + (c.toNat - 48))
    have hmax : maxUint64 = 18446744073709551615 := by decide
    rw [hmax] at hfit
    unfold parseUintFrom
    rw [if_pos hd.1, if_neg (by rw [hmax]; omega), if_neg (by rw [hmax]; omega),
      Nat.mul_comm n 10]
    exact ih _ hd.2 (by rw [hmax]; exact hfit)

theorem atoi_of_numeral (s : String) (h : IsPositiveNumeral s)
    (hfit : (digitsValue s.data : Int) ≤ maxInt) : Atoi s = digitsValue s.data := by
  obtain ⟨hne, hdigits, _⟩ := h
  obtain ⟨c, rest, hs⟩ : ∃ c rest, s.data = c :: rest := List.exists_cons_of_ne_nil hne
  have hc : c.isDigit = true := by
    rw [hs] at hdigits
    simp only [List.all_cons, Bool.and_eq_true] at hdigits
    exact hdigits.1
  have hminus : c ≠ '-' := by
    rintro rfl
    exact absurd hc (by decide)
  have hplus : c ≠ '+' := by
    rintro rfl
    exact absurd hc (by decide)
  have hmaxInt : maxInt = 9223372036854775807 := by decide
  have hmax : maxUint64 = 18446744073709551615 := by decide
  rw [hmaxInt] at hfit
  have hval : digitsValue s.data ≤ 9223372036854775807 := by exact_mod_cast hfit
  have hhm : ¬ s.data.head? = some '-' := by
    rw [hs]
    simpa using hminus
  have hhp : ¬ s.data.head? = some '+' := by
    rw [hs]
    simpa using hplus
  have hbm : (s.data.head? == some '-') = false := by
    rw [beq_eq_false_iff_ne]
    exact hhm
  have hbp : (s.data.head? == some '+') = false := by
    rw [beq_eq_false_iff_ne]
    exact hhp
  unfold Atoi
  split
  · simp only [hbm, hbp, Bool.or_self, Bool.false_eq_true, if_false, hne, hdigits, if_true,
      hhm]
  · have hparse := parseUintFrom_digits s.data 0 hdigits (by
      show digitsValue s.data ≤ maxUint64
      rw [hmax]
      omega)
    have hlt : ¬ digitsValue s.data ≥ 2 ^ 63 := by
      norm_num
      omega
    simp only [ParseInt, ParseUint, hne, if_false, hparse, hbm, hhm, hhp, or_self,
      Bool.false_eq_true, false_and, true_and]
    exact if_neg hlt

/-- Counterexample of C25: two revisions that are decimal numerals of positive
integers, the second greater than the first, both read by `strconv.Atoi` as
the greatest `int`; the scan keeps the first. -/
theorem latest_revision_beyond_int :
    IsPositiveNumeral "9223372036854775807" ∧ IsPositiveNumeral "9223372036854775808" ∧
      digitsValue "9223372036854775807".data < digitsValue "9223372036854775808".data ∧
      Atoi "9223372036854775808" = Atoi "9223372036854775807" ∧
      getApigeeApiLatestVersion (fun _ => ["9223372036854775807", "9223372036854775808"])
        (.response ⟨200, "200 OK", ""⟩) = "9223372036854775807" := by
  refine ⟨⟨by decide, by decide, by decide⟩, ⟨by decide, by decide, by decide⟩, by decide,
    by decide, by decide⟩

/-- C25 (amended): for a non-empty list of revisions that are decimal numerals
of positive integers within the range of `int`, `getApigeeApiLatestVersion`
returns an element of the list of greatest value, the first such one: every
revision before it is smaller, every revision after it is not greater. For an
empty list, and without a response, it returns the empty string. -/
theorem latest_revision_selected (unmarshalRevisions : String → List String) (resp : Response)
    (hne : unmarshalRevisions resp.Body ≠ [])
    (hnum : ∀ s ∈ unmarshalRevisions resp.Body,
      IsPositiveNumeral s ∧ (digitsValue s.data : Int) ≤ maxInt) :
    (∃ pre post,
        unmarshalRevisions resp.Body =
          pre ++ getApigeeApiLatestVersion unmarshalRevisions (.response resp) :: post ∧
        (∀ x ∈ pre, digitsValue x.data <
          digitsValue (getApigeeApiLatestVersion unmarshalRevisions (.response resp)).data) ∧
        ∀ x ∈ post, digitsValue x.data ≤
          digitsValue (getApigeeApiLatestVersion unmarshalRevisions (.response resp)).data) ∧
      getApigeeApiLatestVersion (fun _ => []) (.response resp) = "" ∧
      ∀ err, getApigeeApiLatestVersion unmarshalRevisions (.failed err) = "" := by
  refine ⟨?_, rfl, fun _ => rfl⟩
  show ∃ pre post, unmarshalRevisions resp.Body =
      pre ++ latestFrom "" (unmarshalRevisions resp.Body) :: post ∧
    (∀ x ∈ pre, digitsValue x.data <
      digitsValue (latestFrom "" (unmarshalRevisions resp.Body)).data) ∧
    ∀ x ∈ post, digitsValue x.data ≤
      digitsValue (latestFrom "" (unmarshalRevisions resp.Body)).data
  generalize unmarshalRevisions resp.Body = revisions at hne hnum
  have hval : ∀ s ∈ revisions, Atoi s = digitsValue s.data := fun s hs =>
    atoi_of_numeral s (hnum s hs).1 (hnum s hs).2
  rcases latestFrom_spec revisions "" with ⟨_, hall⟩ | ⟨pre, post, hl, _, hpre, hpost⟩
  · cases revisions with
    | nil => exact absurd rfl hne
    | cons first rest =>
      have h1 := hall first (List.mem_cons_self _ _)
      rw [hval first (List.mem_cons_self _ _)] at h1
      have hpos := (hnum first (List.mem_cons_self _ _)).1.2.2
      have h0 : Atoi "" = 0 := by decide
      rw [h0] at h1
      omega
  · obtain ⟨sel, hsel⟩ : ∃ sel, sel = latestFrom "" revisions := ⟨_, rfl⟩
    rw [← hsel] at hl hpre hpost ⊢
    have hmem : sel ∈ revisions := by rw [hl]; simp
    have hin : ∀ x, x ∈ pre ∨ x ∈ post → x ∈ revisions := by
      intro x hx
      rw [hl]
      rcases hx with h | h <;> simp [h]
    refine ⟨pre, post, hl, fun x hx => ?_, fun x hx => ?_⟩
    · have := hpre x hx
      rw [hval x (hin x (Or.inl hx)), hval _ hmem] at this
      exact_mod_cast this
    · have := hpost x hx
      rw [hval x (hin x (Or.inr hx)), hval _ hmem] at this
      exact_mod_cast this

/-- Witness of C25: of the revisions 1, 3, 2, 3 the first 3 is returned. -/
theorem latest_revision_selected_witness :
    getApigeeApiLatestVersion (fun _ => ["1", "3", "2", "3"]) (.response ⟨200, "200 OK", ""⟩) =
        "3" ∧
      ∃ pre post, ["1", "3", "2", "3"] =
        pre ++ getApigeeApiLatestVersion (fun _ => ["1", "3", "2", "3"])
          (.response ⟨200, "200 OK", ""⟩) :: post ∧
        (∀ x ∈ pre, digitsValue x.data <
          digitsValue (getApigeeApiLatestVersion (fun _ => ["1", "3", "2", "3"])
            (.response ⟨200, "200 OK", ""⟩)).data) ∧
        ∀ x ∈ post, digitsValue x.data ≤
          digitsValue (getApigeeApiLatestVersion (fun _ => ["1", "3", "2", "3"])
            (.response ⟨200, "200 OK", ""⟩)).data :=
  ⟨by decide,
    (latest_revision_selected (fun _ => ["1", "3", "2", "3"]) ⟨200, "200 OK", ""⟩ (by simp)
      (by
        intro s hs
        simp only [List.mem_cons, List.mem_singleton, List.not_mem_nil, or_false] at hs
        rcases hs with rfl | rfl | rfl | rfl <;>
          exact ⟨⟨by decide, by decide, by decide⟩, by decide⟩)).1⟩


/-- The body of the loop over the deployments in `apiHubClean` does not look at
the `--api` option: it is the same block whatever the option holds. -/
theorem cleanDeployment_ignores_filter {σ : Type} (flags : ApigeeFlags) (name : String)
    (remote : Remote σ) (deployment : HubApiDeployment) (s : σ) :
    cleanDeployment { flags with ApiName := name } remote deployment s =
      cleanDeployment flags remote deployment s :=
  rfl

/-- C22 (failing input): with `--api orders`, a catalog that lists the APIs
`orders` and `payments` and one deployment of each, the clean deletes the API
`orders` only, but both deployments: the deployment `payments-v1-aws`, whose
derived API key is `payments`, is deleted as well. -/
theorem clean_deletes_deployments_of_other_apis :
    callsOf (apiHubClean { exFlags with ApiName := "orders" } hubEnv cleanCodec
        (answering 200) ()).trace =
      [.listApis "p" "r", .deleteApi "projects/p/locations/r/apis/orders",
        .listDeployments "p" "r",
        .deleteDeployment "projects/p/locations/r/deployments/orders-v1-aws",
        .deleteDeployment "projects/p/locations/r/deployments/payments-v1-aws"] ∧
      (exportRekey "projects/p/locations/r/deployments/payments-v1-aws").apiName = "payments" ∧
      (Call.deleteDeployment "projects/p/locations/r/deployments/payments-v1-aws").url =
        "https://apihub.googleapis.com/v1/projects/p/locations/r/deployments/payments-v1-aws" := by
  decide


/-- C21 (counterexample): in the directory `orders` the deployment file
`orders-aws.json` has the version key `orders`, which is the API key; the
version document is written to the path of the API document, after it, so the
paths written are not pairwise distinct and the API document is overwritten. -/
theorem version_document_overwrites_api_document :
    apiVersionNameOf "orders-aws.json" = "orders" ∧
      (match onrampApi exFlags unversionedEnv "orders" ordersRoot with
        | .ok t => (writesOf t).map Prod.fst
        | .error _ => []) =
        ["src/main/apihub/apiproxies/orders/orders.json",
          "src/main/apihub/apiproxies/orders/orders-aws.json",
          "src/main/apihub/apiproxies/orders/orders.json"] ∧
      (match onrampApi exFlags unversionedEnv "orders" ordersRoot with
        | .ok t => ((apisWritten t).map Prod.fst, (versionsWritten t).map Prod.fst)
        | .error _ => ([], [])) =
        (["src/main/apihub/apiproxies/orders/orders.json"],
          ["src/main/apihub/apiproxies/orders/orders.json"]) := by
  decide

theorem documentPath_injective (apiName : String) :
    Function.Injective fun n : String => baseDir ++ "/" ++ apiName ++ "/" ++ n ++ ".json" := by
  intro a b h
  exact string_append_left_cancel _ _ _ (string_append_right_cancel _ _ _ h)

/-- C21 (amended): a complete pass over one API directory writes its documents
to the paths `<name>.json` of the document names (the API key, the names of
the deployment records, those names followed by `-oas` for the records with a
spec, the version keys), in that order; so the paths written are pairwise
distinct exactly when the document names are. -/
theorem onramp_document_paths (flags : ApigeeFlags) (env : Env) (apiName : String)
    (generalApi : GeneralApi) (h : AllOpen env apiName (fileEntriesOf env apiName)) :
    ∃ t, onrampApi flags env apiName generalApi = .ok t ∧
      (writesOf t).map Prod.fst =
        (documentNames flags env apiName).map
          (fun n => baseDir ++ "/" ++ apiName ++ "/" ++ n ++ ".json") ∧
      (((writesOf t).map Prod.fst).Nodup ↔ (documentNames flags env apiName).Nodup) := by
  obtain ⟨t, ht, hw⟩ := onrampApi_ok flags env apiName generalApi h
  have hpaths : (writesOf t).map Prod.fst =
      (documentNames flags env apiName).map
        (fun n => baseDir ++ "/" ++ apiName ++ "/" ++ n ++ ".json") := by
    rw [hw]
    unfold documentNames
    simp only [List.map_cons, List.map_append, List.map_flatMap, List.map_map]
    congr 1
    congr 1
    · congr 1
      funext fr
      unfold fileWrites
      cases env.readFile
          (generalBaseDir ++ "/" ++ apiName ++ "/" ++ fr.2.Name ++ "-oas.json") with
      | none => rfl
      | some b =>
        simp only [List.map_cons, List.map_nil, List.cons.injEq, true_and, and_true]
        simp only [String.append_assoc]
        rfl
  refine ⟨t, ht, hpaths, ?_⟩
  rw [hpaths]
  exact List.nodup_map_iff (documentPath_injective apiName)

/-- Witness of C21: the documents of the API `orders` (one version, two
deployments, one spec) have pairwise distinct names, and the five paths
written are pairwise distinct. -/
theorem onramp_document_paths_witness :
    AllOpen ordersEnv "orders" (fileEntriesOf ordersEnv "orders") ∧
      documentNames exFlags ordersEnv "orders" =
        ["orders", "orders-v1-aws", "orders-v1-aws-oas", "orders-v1-azure", "orders-v1"] ∧
      ∃ t, onrampApi exFlags ordersEnv "orders" ordersRoot = .ok t ∧
        ((writesOf t).map Prod.fst).Nodup := by
  refine ⟨by decide, by decide, ?_⟩
  obtain ⟨t, ht, _, hiff⟩ :=
    onramp_document_paths exFlags ordersEnv "orders" ordersRoot (by decide)
  exact ⟨t, ht, hiff.2 (by decide)⟩


/-! ## Independence of the order the map is visited in -/

theorem storeFrom_append (path : String) (found : Option Doc) (a b : List (String × Doc)) :
    storeFrom path found (a ++ b) = storeFrom path (storeFrom path found a) b := by
  simp [storeFrom, List.foldl_append]

theorem storeFrom_of_not_mem (path : String) (writes : List (String × Doc)) :
    ∀ found, path ∉ writes.map Prod.fst → storeFrom path found writes = found := by
  induction writes with
  | nil => intro found _; rfl
  | cons pd rest ih =>
    intro found h
    simp only [List.map_cons, List.mem_cons, not_or] at h
    have hne : ¬pd.1 = path := fun heq => h.1 heq.symm
    show storeFrom path (if pd.1 = path then some pd.2 else found) rest = found
    rw [if_neg hne]
    exact ih found h.2

theorem storeFrom_of_mem (path : String) (doc : Doc) (writes : List (String × Doc)) :
    ∀ found, (writes.map Prod.fst).Nodup → (path, doc) ∈ writes →
      storeFrom path found writes = some doc := by
  induction writes with
  | nil => intro found _ h; exact absurd h (List.not_mem_nil _)
  | cons pd rest ih =>
    intro found hnd h
    rw [List.map_cons, List.nodup_cons] at hnd
    show storeFrom path (if pd.1 = path then some pd.2 else found) rest = some doc
    rcases List.mem_cons.1 h with heq | hmem
    · subst heq
      rw [if_pos rfl]
      exact storeFrom_of_not_mem _ _ _ hnd.1
    · exact ih _ hnd.2 hmem

/-- Writes to pairwise distinct paths leave the same store in any order. -/
theorem storeFrom_perm (path : String) (found : Option Doc) (a b : List (String × Doc))
    (hperm : a.Perm b) (hnd : (a.map Prod.fst).Nodup) :
    storeFrom path found a = storeFrom path found b := by
  have hndb : (b.map Prod.fst).Nodup := (hperm.map Prod.fst).nodup_iff.1 hnd
  by_cases hmem : path ∈ a.map Prod.fst
  · obtain ⟨pd, hpd, hpath⟩ := List.mem_map.1 hmem
    have hpd' : (path, pd.2) ∈ a := by rw [← hpath]; exact hpd
    rw [storeFrom_of_mem path pd.2 a found hnd hpd',
      storeFrom_of_mem path pd.2 b found hndb (hperm.mem_iff.1 hpd')]
  · have hmemb : path ∉ b.map Prod.fst := fun h => hmem ((hperm.map Prod.fst).mem_iff.2 h)
    rw [storeFrom_of_not_mem path a found hmem, storeFrom_of_not_mem path b found hmemb]

theorem sameWrites_refl (t : List Effect) : SameWrites t t :=
  ⟨List.Perm.refl _, fun _ _ => rfl⟩

theorem sameWrites_append (a1 a2 b1 b2 : List Effect) (ha : SameWrites a1 a2)
    (hb : SameWrites b1 b2) : SameWrites (a1 ++ b1) (a2 ++ b2) := by
  refine ⟨?_, fun path found => ?_⟩
  · rw [writesOf_append, writesOf_append]
    exact ha.1.append hb.1
  · rw [writesOf_append, writesOf_append, storeFrom_append, storeFrom_append, ha.2, hb.2]

theorem sameOutcome_refl (r : Except (List Effect) (List Effect)) : SameOutcome r r :=
  ⟨rfl, sameWrites_refl _⟩

theorem onrampFile_withOrder (flags : ApigeeFlags) (env : Env) (order : MapOrder)
    (apiName : String) (generalApi : GeneralApi) (f : String)
    (m : GoMap (List HubApiDeployment)) :
    onrampFile flags (withOrder env order) apiName generalApi f m =
      onrampFile flags env apiName generalApi f m :=
  rfl

theorem groupingPass_withOrder (flags : ApigeeFlags) (env : Env) (order : MapOrder)
    (apiName : String) (generalApi : GeneralApi) (l : List String)
    (m : GoMap (List HubApiDeployment)) :
    groupingPass flags (withOrder env order) apiName generalApi l m =
      groupingPass flags env apiName generalApi l m := by
  induction l generalizing m with
  | nil => rfl
  | cons f rest ih =>
    simp only [groupingPass, onrampFile_withOrder]
    cases onrampFile flags env apiName generalApi f m with
    | error t => rfl
    | ok p => simp only [ih]

theorem onrampFile_nodup_keys (flags : ApigeeFlags) (env : Env) (apiName : String)
    (generalApi : GeneralApi) (f : String) (m : GoMap (List HubApiDeployment))
    (t0 : List Effect) (m0 : GoMap (List HubApiDeployment)) (hm : (m.map Prod.fst).Nodup)
    (hf : onrampFile flags env apiName generalApi f m = .ok (t0, m0)) :
    (m0.map Prod.fst).Nodup := by
  by_cases hd : isDeploymentFile f = true
  · cases ho : env.openRecord (generalBaseDir ++ "/" ++ apiName ++ "/" ++ f) with
    | none => simp [onrampFile, hd, ho] at hf
    | some r =>
      by_cases hn : r.Name = ""
      · simp only [onrampFile, hd, ho, hn, if_true, ne_eq, not_true_eq_false, if_false,
          Except.ok.injEq, Prod.mk.injEq] at hf
        rw [← hf.2]
        exact hm
      · cases hs : env.readFile
            (generalBaseDir ++ "/" ++ apiName ++ "/" ++ r.Name ++ "-oas.json") with
        | none =>
          simp only [onrampFile, hd, ho, hn, hs, if_true, ne_eq, not_false_eq_true,
            Except.ok.injEq, Prod.mk.injEq] at hf
          rw [← hf.2]
          exact nodup_keys_recordDeployment _ _ _ hm
        | some b =>
          simp only [onrampFile, hd, ho, hn, hs, if_true, ne_eq, not_false_eq_true,
            Except.ok.injEq, Prod.mk.injEq] at hf
          rw [← hf.2]
          exact nodup_keys_recordDeployment _ _ _ hm
  · simp only [onrampFile, hd, Bool.false_eq_true, if_false, Except.ok.injEq,
      Prod.mk.injEq] at hf
    rw [← hf.2]
    exact hm

/-- The keys of the map stay distinct through the grouping pass. -/
theorem groupingPass_nodup_keys (flags : ApigeeFlags) (env : Env) (apiName : String)
    (generalApi : GeneralApi) (l : List String) :
    ∀ (m : GoMap (List HubApiDeployment)) t m1, (m.map Prod.fst).Nodup →
      groupingPass flags env apiName generalApi l m = .ok (t, m1) →
      (m1.map Prod.fst).Nodup := by
  induction l with
  | nil =>
    intro m t m1 hm h
    simp only [groupingPass, Except.ok.injEq, Prod.mk.injEq] at h
    rw [← h.2]
    exact hm
  | cons f rest ih =>
    intro m t m1 hm h
    simp only [groupingPass] at h
    cases hf : onrampFile flags env apiName generalApi f m with
    | error t0 => simp [hf] at h
    | ok p =>
      obtain ⟨t0, m0⟩ := p
      simp only [hf] at h
      have hm0 := onrampFile_nodup_keys flags env apiName generalApi f m t0 m0 hm hf
      cases hr : groupingPass flags env apiName generalApi rest m0 with
      | error t1 => simp [hr] at h
      | ok q =>
        obtain ⟨t1, m2⟩ := q
        simp only [hr, Except.ok.injEq, Prod.mk.injEq] at h
        rw [← h.2]
        exact ih m0 t1 m2 hm0 hr

theorem versionPass_sameWrites (flags : ApigeeFlags) (apiName : String)
    (generalApi : GeneralApi) (o1 o2 : MapOrder) (m : GoMap (List HubApiDeployment))
    (hm : (m.map Prod.fst).Nodup) :
    SameWrites (versionPass flags apiName generalApi (o1.iter m))
      (versionPass flags apiName generalApi (o2.iter m)) := by
  have hperm : ((o1.iter m).map (versionWrite flags apiName generalApi)).Perm
      ((o2.iter m).map (versionWrite flags apiName generalApi)) :=
    ((o1.perm m).trans (o2.perm m).symm).map _
  have hnd : (((o1.iter m).map (versionWrite flags apiName generalApi)).map Prod.fst).Nodup := by
    have hkeys : ((o1.iter m).map Prod.fst).Nodup := ((o1.perm m).map Prod.fst).nodup_iff.2 hm
    have heq : ((o1.iter m).map (versionWrite flags apiName generalApi)).map Prod.fst =
        ((o1.iter m).map Prod.fst).map
          (fun n => baseDir ++ "/" ++ apiName ++ "/" ++ n ++ ".json") := by
      simp only [List.map_map]
      rfl
    rw [heq]
    exact (List.nodup_map_iff (documentPath_injective apiName)).2 hkeys
  refine ⟨?_, fun path found => ?_⟩
  · rw [writesOf_versionPass, writesOf_versionPass]
    exact hperm
  · rw [writesOf_versionPass, writesOf_versionPass]
    exact storeFrom_perm path found _ _ hperm hnd


theorem onrampApi_withOrder (flags : ApigeeFlags) (env : Env) (o1 o2 : MapOrder)
    (apiName : String) (generalApi : GeneralApi) :
    SameOutcome (onrampApi flags (withOrder env o1) apiName generalApi)
      (onrampApi flags (withOrder env o2) apiName generalApi) := by
  unfold onrampApi
  simp only [groupingPass_withOrder]
  show SameOutcome
    (match groupingPass flags env apiName generalApi
        ((env.readDir (generalBaseDir ++ "/" ++ apiName)).getD []) [] with
      | .error t => .error (_ ++ t)
      | .ok (t, apiVersions) => .ok (_ ++ t ++ versionPass flags apiName generalApi
          (o1.iter apiVersions)))
    (match groupingPass flags env apiName generalApi
        ((env.readDir (generalBaseDir ++ "/" ++ apiName)).getD []) [] with
      | .error t => .error (_ ++ t)
      | .ok (t, apiVersions) => .ok (_ ++ t ++ versionPass flags apiName generalApi
          (o2.iter apiVersions)))
  cases hg : groupingPass flags env apiName generalApi
      ((env.readDir (generalBaseDir ++ "/" ++ apiName)).getD []) [] with
  | error t => exact sameOutcome_refl _
  | ok p =>
    obtain ⟨t, m⟩ := p
    have hm := groupingPass_nodup_keys flags env apiName generalApi _ [] t m List.nodup_nil hg
    exact ⟨rfl, sameWrites_append _ _ _ _ (sameWrites_refl _)
      (versionPass_sameWrites flags apiName generalApi o1 o2 m hm)⟩

theorem onrampEntry_withOrder (flags : ApigeeFlags) (env : Env) (o1 o2 : MapOrder)
    (e : String) :
    SameOutcome (onrampEntry flags (withOrder env o1) e)
      (onrampEntry flags (withOrder env o2) e) := by
  unfold onrampEntry
  split
  · show SameOutcome
      (match env.openRecord (generalBaseDir ++ "/" ++ e ++ "/" ++ e ++ ".json") with
        | none => _
        | some generalApi =>
          if generalApi.Name ≠ "" then
            match onrampApi flags (withOrder env o1) e generalApi with
            | .error t => .error (_ ++ t)
            | .ok t => .ok (_ ++ t)
          else _)
      (match env.openRecord (generalBaseDir ++ "/" ++ e ++ "/" ++ e ++ ".json") with
        | none => _
        | some generalApi =>
          if generalApi.Name ≠ "" then
            match onrampApi flags (withOrder env o2) e generalApi with
            | .error t => .error (_ ++ t)
            | .ok t => .ok (_ ++ t)
          else _)
    cases env.openRecord (generalBaseDir ++ "/" ++ e ++ "/" ++ e ++ ".json") with
    | none => exact sameOutcome_refl _
    | some generalApi =>
      by_cases hn : generalApi.Name = ""
      · simp only [hn, ne_eq, not_true_eq_false, if_false]
        exact sameOutcome_refl _
      · simp only [hn, ne_eq, not_false_eq_true, if_true]
        have h := onrampApi_withOrder flags env o1 o2 e generalApi
        cases h1 : onrampApi flags (withOrder env o1) e generalApi with
        | error t1 =>
          cases h2 : onrampApi flags (withOrder env o2) e generalApi with
          | error t2 =>
            rw [h1, h2] at h
            exact ⟨rfl, sameWrites_append _ _ _ _ (sameWrites_refl _) h.2⟩
          | ok t2 =>
            rw [h1, h2] at h
            exact absurd h.1 (by simp [completed])
        | ok t1 =>
          cases h2 : onrampApi flags (withOrder env o2) e generalApi with
          | error t2 =>
            rw [h1, h2] at h
            exact absurd h.1 (by simp [completed])
          | ok t2 =>
            rw [h1, h2] at h
            exact ⟨rfl, sameWrites_append _ _ _ _ (sameWrites_refl _) h.2⟩
  · exact sameOutcome_refl _

theorem onrampEntries_withOrder (flags : ApigeeFlags) (env : Env) (o1 o2 : MapOrder)
    (entries : List String) :
    SameOutcome (onrampEntries flags (withOrder env o1) entries)
      (onrampEntries flags (withOrder env o2) entries) := by
  induction entries with
  | nil => exact sameOutcome_refl _
  | cons e rest ih =>
    simp only [onrampEntries]
    have h := onrampEntry_withOrder flags env o1 o2 e
    cases h1 : onrampEntry flags (withOrder env o1) e with
    | error t1 =>
      cases h2 : onrampEntry flags (withOrder env o2) e with
      | error t2 =>
        rw [h1, h2] at h
        exact h
      | ok t2 =>
        rw [h1, h2] at h
        exact absurd h.1 (by simp [completed])
    | ok t1 =>
      cases h2 : onrampEntry flags (withOrder env o2) e with
      | error t2 =>
        rw [h1, h2] at h
        exact absurd h.1 (by simp [completed])
      | ok t2 =>
        rw [h1, h2] at h
        cases h3 : onrampEntries flags (withOrder env o1) rest with
        | error t3 =>
          cases h4 : onrampEntries flags (withOrder env o2) rest with
          | error t4 =>
            rw [h3, h4] at ih
            exact ⟨rfl, sameWrites_append _ _ _ _ h.2 ih.2⟩
          | ok t4 =>
            rw [h3, h4] at ih
            exact absurd ih.1 (by simp [completed])
        | ok t3 =>
          cases h4 : onrampEntries flags (withOrder env o2) rest with
          | error t4 =>
            rw [h3, h4] at ih
            exact absurd ih.1 (by simp [completed])
          | ok t4 =>
            rw [h3, h4] at ih
            exact ⟨rfl, sameWrites_append _ _ _ _ h.2 ih.2⟩

theorem apiHubOnramp_withOrder (flags : ApigeeFlags) (env : Env) (order : MapOrder) :
    apiHubOnramp flags (withOrder env order) =
      if flags.Project = "" then
        ⟨flags, [.println "No project given. Please specify a --project YOUR_PROJECT_ID flag."],
          .returnedNil⟩
      else if flags.Region = "" then
        ⟨flags, [.println "No region given. Please specify a --region YOUR_REGION flag."],
          .returnedNil⟩
      else
        match env.readDir generalBaseDir with
        | none =>
          ⟨(resolveToken flags env).1,
            (resolveToken flags env).2 ++ [.readDir generalBaseDir, .logFatal], .fatal⟩
        | some entries =>
          match onrampEntries (resolveToken flags env).1 (withOrder env order) entries with
          | .error t =>
            ⟨(resolveToken flags env).1,
              (resolveToken flags env).2 ++ [.readDir generalBaseDir] ++ t, .fatal⟩
          | .ok t =>
            ⟨(resolveToken flags env).1,
              (resolveToken flags env).2 ++ [.readDir generalBaseDir] ++ t, .returnedNil⟩ :=
  rfl

/-- C27: for a fixed general store and fixed flags, two runs of `apiHubOnramp`
that visit the version map in different orders end the same way, leave the
same flags, write the same documents (path and content, each as many times),
and leave the same document at every path of the store. -/
theorem onramp_independent_of_map_order (flags : ApigeeFlags) (env : Env) (o1 o2 : MapOrder) :
    (apiHubOnramp flags (withOrder env o1)).exit = (apiHubOnramp flags (withOrder env o2)).exit ∧
      (apiHubOnramp flags (withOrder env o1)).flags =
        (apiHubOnramp flags (withOrder env o2)).flags ∧
      (writesOf (apiHubOnramp flags (withOrder env o1)).trace).Perm
        (writesOf (apiHubOnramp flags (withOrder env o2)).trace) ∧
      ∀ path, storeAfter (writesOf (apiHubOnramp flags (withOrder env o1)).trace) path =
        storeAfter (writesOf (apiHubOnramp flags (withOrder env o2)).trace) path := by
  suffices h : (apiHubOnramp flags (withOrder env o1)).exit =
        (apiHubOnramp flags (withOrder env o2)).exit ∧
      (apiHubOnramp flags (withOrder env o1)).flags =
        (apiHubOnramp flags (withOrder env o2)).flags ∧
      SameWrites (apiHubOnramp flags (withOrder env o1)).trace
        (apiHubOnramp flags (withOrder env o2)).trace from
    ⟨h.1, h.2.1, h.2.2.1, fun path => h.2.2.2 path none⟩
  rw [apiHubOnramp_withOrder, apiHubOnramp_withOrder]
  by_cases hp : flags.Project = ""
  · rw [if_pos hp, if_pos hp]
    exact ⟨rfl, rfl, sameWrites_refl _⟩
  · rw [if_neg hp, if_neg hp]
    by_cases hr : flags.Region = ""
    · rw [if_pos hr, if_pos hr]
      exact ⟨rfl, rfl, sameWrites_refl _⟩
    · rw [if_neg hr, if_neg hr]
      cases env.readDir generalBaseDir with
      | none => exact ⟨rfl, rfl, sameWrites_refl _⟩
      | some entries =>
        dsimp only
        have h := onrampEntries_withOrder (resolveToken flags env).1 env o1 o2 entries
        cases h1 : onrampEntries (resolveToken flags env).1 (withOrder env o1) entries with
        | error t1 =>
          cases h2 : onrampEntries (resolveToken flags env).1 (withOrder env o2) entries with
          | error t2 =>
            rw [h1, h2] at h
            exact ⟨rfl, rfl, sameWrites_append _ _ _ _ (sameWrites_refl _) h.2⟩
          | ok t2 =>
            rw [h1, h2] at h
            exact absurd h.1 (by simp [completed])
        | ok t1 =>
          cases h2 : onrampEntries (resolveToken flags env).1 (withOrder env o2) entries with
          | error t2 =>
            rw [h1, h2] at h
            exact absurd h.1 (by simp [completed])
          | ok t2 =>
            rw [h1, h2] at h
            exact ⟨rfl, rfl, sameWrites_append _ _ _ _ (sameWrites_refl _) h.2⟩


/-! ## The grouping of an import -/

theorem mapGet_recordName (m : GoMap (List String)) (k k' d : String) :
    mapGet (recordName m k d) k' =
      if k = k' then some ((mapGet m k).getD [] ++ [d]) else mapGet m k' := by
  unfold recordName
  cases hg : mapGet m k with
  | none => simp [mapGet_mapSet]
  | some v => simp [mapGet_mapSet]

theorem importGroup_cons (k f : String) (files : List String) :
    importGroup k (f :: files) =
      if isDeploymentFile f = true ∧ apiVersionNameOf f = k then
        ReplaceAll f ".json" "" :: importGroup k files
      else importGroup k files := by
  unfold importGroup
  by_cases hf : isDeploymentFile f = true
  · by_cases hk : apiVersionNameOf f = k <;> simp [List.filter_cons, hf, hk]
  · simp [List.filter_cons, hf]

theorem mapGet_foldl_recordFile (files : List String) :
    ∀ (m : GoMap (List String)) (k : String),
      mapGet (files.foldl recordFile m) k =
        if importGroup k files = [] then mapGet m k
        else some ((mapGet m k).getD [] ++ importGroup k files) := by
  induction files with
  | nil => intro m k; simp [importGroup]
  | cons f rest ih =>
    intro m k
    rw [List.foldl_cons, ih, importGroup_cons]
    unfold recordFile
    by_cases hf : isDeploymentFile f = true
    · simp only [hf, if_true, true_and, mapGet_recordName]
      by_cases hk : apiVersionNameOf f = k
      · by_cases hg : importGroup k rest = [] <;> simp [hk, hg]
      · simp [hk]
    · simp [hf]

theorem mapGet_importMap (files : List String) (k : String) :
    (mapGet (importMap files) k).getD [] = importGroup k files := by
  unfold importMap
  rw [mapGet_foldl_recordFile]
  by_cases hg : importGroup k files = [] <;> simp [hg, mapGet]

theorem mem_keys_importMap (files : List String) (k : String) :
    k ∈ (importMap files).map Prod.fst ↔ importGroup k files ≠ [] := by
  rw [← not_iff_not, ← mapGet_eq_none_iff]
  unfold importMap
  rw [mapGet_foldl_recordFile]
  by_cases hg : importGroup k files = [] <;> simp [hg, mapGet]

theorem mem_importGroup (files : List String) (k d : String) :
    d ∈ importGroup k files ↔
      ∃ f ∈ files, isDeploymentFile f = true ∧ apiVersionNameOf f = k ∧
        ReplaceAll f ".json" "" = d := by
  unfold importGroup
  simp only [List.mem_map, List.mem_filter, decide_eq_true_eq]
  constructor
  · rintro ⟨f, ⟨⟨hf, hd⟩, hk⟩, hid⟩
    exact ⟨f, hf, hd, hk, hid⟩
  · rintro ⟨f, hf, hd, hk, hid⟩
    exact ⟨f, ⟨⟨hf, hd⟩, hk⟩, hid⟩

theorem mapGet_apiVersionsOf (flags : ApigeeFlags) (env : Env) (apiName k : String) :
    (mapGet (apiVersionsOf flags env apiName) k).getD [] =
      ((deploymentRecords env apiName (fileEntriesOf env apiName)).filter
        fun fr => apiVersionNameOf fr.1 = k).map fun fr => hubApiDeployment flags fr.2 := by
  unfold apiVersionsOf
  rw [mapGet_groupDeployments]
  have hg : groupOf k (keyedDeployments flags env apiName (fileEntriesOf env apiName)) =
      ((deploymentRecords env apiName (fileEntriesOf env apiName)).filter
        fun fr => apiVersionNameOf fr.1 = k).map fun fr => hubApiDeployment flags fr.2 := by
    unfold keyedDeployments
    exact groupOf_map k (fun fr : String × GeneralApi => apiVersionNameOf fr.1)
      (fun fr => hubApiDeployment flags fr.2) _
  rw [hg]
  split
  · rename_i hnil
    simp [mapGet, hnil]
  · simp [mapGet]

theorem mem_keys_apiVersionsOf (flags : ApigeeFlags) (env : Env) (apiName k : String) :
    k ∈ (apiVersionsOf flags env apiName).map Prod.fst ↔
      ∃ fr ∈ deploymentRecords env apiName (fileEntriesOf env apiName),
        apiVersionNameOf fr.1 = k := by
  rw [← not_iff_not, ← mapGet_eq_none_iff]
  unfold apiVersionsOf
  rw [mapGet_groupDeployments]
  have hg : groupOf k (keyedDeployments flags env apiName (fileEntriesOf env apiName)) =
      ((deploymentRecords env apiName (fileEntriesOf env apiName)).filter
        fun fr => apiVersionNameOf fr.1 = k).map fun fr => hubApiDeployment flags fr.2 := by
    unfold keyedDeployments
    exact groupOf_map k (fun fr : String × GeneralApi => apiVersionNameOf fr.1)
      (fun fr => hubApiDeployment flags fr.2) _
  rw [hg]
  by_cases hnil : (deploymentRecords env apiName (fileEntriesOf env apiName)).filter
      (fun fr => apiVersionNameOf fr.1 = k) = []
  · simp only [hnil, List.map_nil, if_true, mapGet, true_iff]
    rintro ⟨fr, hfr, hk⟩
    have : fr ∈ (deploymentRecords env apiName (fileEntriesOf env apiName)).filter
        (fun fr => apiVersionNameOf fr.1 = k) := List.mem_filter.2 ⟨hfr, by simpa using hk⟩
    rw [hnil] at this
    exact List.not_mem_nil _ this
  · have hne : List.map (fun fr : String × GeneralApi => hubApiDeployment flags fr.2)
        ((deploymentRecords env apiName (fileEntriesOf env apiName)).filter
          (fun fr => apiVersionNameOf fr.1 = k)) ≠ [] := by
      simpa using hnil
    simp only [hne, if_false, mapGet, List.nil_append, Option.getD_none, false_iff,
      not_not, reduceCtorEq]
    obtain ⟨fr, hfr⟩ := List.exists_mem_of_ne_nil _ hnil
    obtain ⟨h1, h2⟩ := List.mem_filter.1 hfr
    exact ⟨fr, h1, by simpa using h2⟩

theorem isDeploymentFile_of_record (env : Env) (apiName : String) (files : List String)
    (fr : String × GeneralApi) (h : fr ∈ deploymentRecords env apiName files) :
    isDeploymentFile fr.1 = true := by
  unfold deploymentRecords at h
  obtain ⟨f, _, hf⟩ := List.mem_filterMap.1 h
  split at hf
  · rename_i hd
    split at hf
    · split at hf
      · simp only [Option.some.injEq] at hf
        rw [← hf]
        exact hd
      · simp at hf
    · simp at hf
  · simp at hf

theorem spec_file_not_deployment (n : String) :
    isDeploymentFile (n ++ "-oas" ++ ".json") = false := by
  have hsuf : "-oas.json".data <:+ (n ++ "-oas" ++ ".json").data := by
    refine ⟨n.data, ?_⟩
    simp [String.data_append]
  unfold isDeploymentFile HasSuffix
  rw [Bool.or_eq_false_iff]
  constructor
  · apply Bool.eq_false_iff.2
    intro h
    have h1 : "-aws.json".data <:+ (n ++ "-oas" ++ ".json").data := List.isSuffixOf_iff_suffix.1 h
    have h2 := List.suffix_of_suffix_length_le h1 hsuf (by decide)
    exact absurd h2 (by decide)
  · apply Bool.eq_false_iff.2
    intro h
    have h1 : "-azure.json".data <:+ (n ++ "-oas" ++ ".json").data :=
      List.isSuffixOf_iff_suffix.1 h
    have h2 := List.suffix_of_suffix_length_le hsuf h1 (by decide)
    exact absurd h2 (by decide)


/-- The file names a complete pass over one API directory writes there are the
document names followed by `.json`. -/
theorem onrampApi_written_names (flags : ApigeeFlags) (env : Env) (apiName : String)
    (generalApi : GeneralApi) (t : List Effect)
    (hw : writesOf t =
      (baseDir ++ "/" ++ apiName ++ "/" ++ apiName ++ ".json",
          Doc.api (hubApi flags apiName generalApi)) ::
        ((deploymentRecords env apiName (fileEntriesOf env apiName)).flatMap
            (fileWrites flags env apiName generalApi) ++
          (env.order.iter (apiVersionsOf flags env apiName)).map
            (versionWrite flags apiName generalApi)))
    (n : String) :
    (∃ doc, (baseDir ++ "/" ++ apiName ++ "/" ++ n, doc) ∈ writesOf t) ↔
      ∃ name ∈ documentNames flags env apiName, n = name ++ ".json" := by
  have hpaths : (writesOf t).map Prod.fst =
      (documentNames flags env apiName).map
        (fun name => baseDir ++ "/" ++ apiName ++ "/" ++ name ++ ".json") := by
    rw [hw]
    unfold documentNames
    simp only [List.map_cons, List.map_append, List.map_flatMap, List.map_map]
    congr 1
    congr 1
    congr 1
    funext fr
    unfold fileWrites
    cases env.readFile
        (generalBaseDir ++ "/" ++ apiName ++ "/" ++ fr.2.Name ++ "-oas.json") with
    | none => rfl
    | some b =>
      simp only [List.map_cons, List.map_nil, List.cons.injEq, true_and, and_true]
      simp only [String.append_assoc]
      rfl
  have hmem : (∃ doc, (baseDir ++ "/" ++ apiName ++ "/" ++ n, doc) ∈ writesOf t) ↔
      baseDir ++ "/" ++ apiName ++ "/" ++ n ∈ (writesOf t).map Prod.fst := by
    constructor
    · rintro ⟨doc, h⟩
      exact List.mem_map.2 ⟨_, h, rfl⟩
    · intro h
      obtain ⟨pd, hpd, hp⟩ := List.mem_map.1 h
      exact ⟨pd.2, by rw [← hp]; exact hpd⟩
  rw [hmem, hpaths, List.mem_map]
  constructor
  · rintro ⟨name, hname, hp⟩
    refine ⟨name, hname, ?_⟩
    rw [String.append_assoc (baseDir ++ "/" ++ apiName ++ "/")] at hp
    exact (string_append_left_cancel _ _ _ hp).symm
  · rintro ⟨name, hname, rfl⟩
    exact ⟨name, hname, by rw [String.append_assoc (baseDir ++ "/" ++ apiName ++ "/")]⟩

/-- C24 (counterexample): the deployment file `orders-v1-aws.json` holds a
record named `orders-prod`. The onramp files the deployment under the version
key `orders-v1` and writes `orders-prod.json` and `orders-v1.json`; from these
file names the import derives no version key at all, so the version document
is never sent. -/
theorem import_misses_renamed_deployment :
    (match onrampApi exFlags renamedEnv "orders" ordersRoot with
      | .ok t => (writesOf t).map Prod.fst
      | .error _ => []) =
      ["src/main/apihub/apiproxies/orders/orders.json",
        "src/main/apihub/apiproxies/orders/orders-prod.json",
        "src/main/apihub/apiproxies/orders/orders-v1.json"] ∧
      (match onrampApi exFlags renamedEnv "orders" ordersRoot with
        | .ok t => (versionsWritten t).map fun pd => pd.2.Deployments
        | .error _ => []) = [["projects/p/locations/r/deployments/orders-prod"]] ∧
      (apiVersionsOf exFlags renamedEnv "orders").map Prod.fst = ["orders-v1"] ∧
      importMap ["orders-prod.json", "orders-v1.json", "orders.json"] = [] := by
  decide

/-- C24 (amended): when every deployment record is named after its file and
neither the API document nor a version document has the name of a deployment
file, then for every listing of the files a complete onramp pass wrote for
the API directory: the import derives the version keys of the onramp's
grouping; under every key it files the ids of the deployments the onramp
filed there; and for every key it derives, the onramp wrote the version
document the import opens, whose deployments list names exactly those ids. -/
theorem import_grouping_of_onramp_output (flags : ApigeeFlags) (env : Env) (apiName : String)
    (generalApi : GeneralApi)
    (hopen : AllOpen env apiName (fileEntriesOf env apiName))
    (hnames : ∀ fr ∈ deploymentRecords env apiName (fileEntriesOf env apiName),
      NamedAfterFile fr)
    (hapi : isDeploymentFile (apiName ++ ".json") = false)
    (hkeys : ∀ k ∈ (apiVersionsOf flags env apiName).map Prod.fst,
      isDeploymentFile (k ++ ".json") = false) :
    ∃ t, onrampApi flags env apiName generalApi = .ok t ∧
      ∀ listing : List String,
        (∀ n, n ∈ listing ↔ ∃ doc, (baseDir ++ "/" ++ apiName ++ "/" ++ n, doc) ∈ writesOf t) →
        (∀ k, k ∈ (importMap listing).map Prod.fst ↔
          k ∈ (apiVersionsOf flags env apiName).map Prod.fst) ∧
        (∀ k d, d ∈ (mapGet (importMap listing) k).getD [] ↔
          deploymentResource flags d ∈
            ((mapGet (apiVersionsOf flags env apiName) k).getD []).map fun dep => dep.Name) ∧
        ∀ k ∈ (importMap listing).map Prod.fst,
          ∃ pd ∈ versionsWritten t,
            pd.1 = baseDir ++ "/" ++ apiName ++ "/" ++ k ++ ".json" ∧
            ∀ name, name ∈ pd.2.Deployments ↔
              ∃ d ∈ (mapGet (importMap listing) k).getD [], name = deploymentResource flags d := by
  obtain ⟨t, ht, hw⟩ := onrampApi_ok flags env apiName generalApi hopen
  obtain ⟨t', ht', -, -, -, hv⟩ := onrampApi_views flags env apiName generalApi hopen
  have htt : t' = t := by
    rw [ht] at ht'
    exact (Except.ok.inj ht').symm
  subst htt
  refine ⟨t', ht, fun listing hl => ?_⟩
  -- the deployment files of the listing are the files of the records
  have hfiles : ∀ f, (f ∈ listing ∧ isDeploymentFile f = true) ↔
      ∃ fr ∈ deploymentRecords env apiName (fileEntriesOf env apiName), fr.1 = f := by
    intro f
    rw [hl, onrampApi_written_names flags env apiName generalApi t' hw]
    constructor
    · rintro ⟨⟨name, hname, rfl⟩, hd⟩
      unfold documentNames at hname
      rcases List.mem_cons.1 hname with h | h
      · rw [h, hapi] at hd
        exact absurd hd (by simp)
      · rcases List.mem_append.1 h with h | h
        · obtain ⟨fr, hfr, hin⟩ := List.mem_flatMap.1 h
          rcases List.mem_cons.1 hin with h1 | h1
          · exact ⟨fr, hfr, by rw [h1]; exact (hnames fr hfr).1⟩
          · split at h1
            · rw [List.mem_singleton] at h1
              rw [h1, spec_file_not_deployment] at hd
              exact absurd hd (by simp)
            · exact absurd h1 (List.not_mem_nil _)
        · have hk : name ∈ (apiVersionsOf flags env apiName).map Prod.fst :=
            ((env.order.perm _).map Prod.fst).mem_iff.1 h
          rw [hkeys name hk] at hd
          exact absurd hd (by simp)
    · rintro ⟨fr, hfr, rfl⟩
      refine ⟨⟨fr.2.Name, ?_, (hnames fr hfr).1⟩, isDeploymentFile_of_record _ _ _ _ hfr⟩
      unfold documentNames
      refine List.mem_cons_of_mem _ (List.mem_append_left _ (List.mem_flatMap.2 ⟨fr, hfr, ?_⟩))
      exact List.mem_cons_self _ _
  -- the ids under a key
  have hgroup : ∀ k d, d ∈ (mapGet (importMap listing) k).getD [] ↔
      ∃ fr ∈ deploymentRecords env apiName (fileEntriesOf env apiName),
        apiVersionNameOf fr.1 = k ∧ fr.2.Name = d := by
    intro k d
    rw [mapGet_importMap, mem_importGroup]
    constructor
    · rintro ⟨f, hf, hd, hk, hid⟩
      obtain ⟨fr, hfr, rfl⟩ := (hfiles f).1 ⟨hf, hd⟩
      exact ⟨fr, hfr, hk, by rw [← (hnames fr hfr).2]; exact hid⟩
    · rintro ⟨fr, hfr, hk, hid⟩
      obtain ⟨hf, hd⟩ := (hfiles fr.1).2 ⟨fr, hfr, rfl⟩
      exact ⟨fr.1, hf, hd, hk, by rw [(hnames fr hfr).2]; exact hid⟩
  have hnamesOf : ∀ k name,
      name ∈ ((mapGet (apiVersionsOf flags env apiName) k).getD []).map (fun dep => dep.Name) ↔
        ∃ fr ∈ deploymentRecords env apiName (fileEntriesOf env apiName),
          apiVersionNameOf fr.1 = k ∧ name = deploymentResource flags fr.2.Name := by
    intro k name
    rw [mapGet_apiVersionsOf, List.map_map, List.mem_map]
    constructor
    · rintro ⟨fr, hfr, rfl⟩
      obtain ⟨h1, h2⟩ := List.mem_filter.1 hfr
      exact ⟨fr, h1, by simpa using h2, rfl⟩
    · rintro ⟨fr, hfr, hk, rfl⟩
      exact ⟨fr, List.mem_filter.2 ⟨hfr, by simpa using hk⟩, rfl⟩
  have hkeysIff : ∀ k, k ∈ (importMap listing).map Prod.fst ↔
      k ∈ (apiVersionsOf flags env apiName).map Prod.fst := by
    intro k
    rw [mem_keys_importMap, mem_keys_apiVersionsOf]
    constructor
    · intro hne
      obtain ⟨d, hd⟩ := List.exists_mem_of_ne_nil _ hne
      rw [← mapGet_importMap] at hd
      obtain ⟨fr, hfr, hk, -⟩ := (hgroup k d).1 hd
      exact ⟨fr, hfr, hk⟩
    · rintro ⟨fr, hfr, hk⟩
      have hd := (hgroup k fr.2.Name).2 ⟨fr, hfr, hk, rfl⟩
      rw [mapGet_importMap] at hd
      exact List.ne_nil_of_mem hd
  refine ⟨hkeysIff, fun k d => ?_, fun k hk => ?_⟩
  · rw [hgroup, hnamesOf]
    constructor
    · rintro ⟨fr, hfr, hk, rfl⟩
      exact ⟨fr, hfr, hk, rfl⟩
    · rintro ⟨fr, hfr, hk, hname⟩
      exact ⟨fr, hfr, hk, (string_append_left_cancel _ _ _ hname).symm⟩
  · have hk' := (hkeysIff k).1 hk
    obtain ⟨v, hv'⟩ : ∃ v, (k, v) ∈ apiVersionsOf flags env apiName := by
      obtain ⟨kv, hkv, rfl⟩ := List.mem_map.1 hk'
      exact ⟨kv.2, hkv⟩
    have hget : mapGet (apiVersionsOf flags env apiName) k = some v :=
      (mem_iff_mapGet _ (nodup_keys_groupDeployments _ [] List.nodup_nil) k v).1 hv'
    refine ⟨(baseDir ++ "/" ++ apiName ++ "/" ++ k ++ ".json",
      hubApiVersion flags apiName generalApi k v), ?_, rfl, fun name => ?_⟩
    · rw [hv]
      exact List.mem_map.2 ⟨(k, v), (env.order.perm _).mem_iff.2 hv', rfl⟩
    · have hdeps : (hubApiVersion flags apiName generalApi k v).Deployments =
          ((mapGet (apiVersionsOf flags env apiName) k).getD []).map fun dep => dep.Name := by
        rw [hget]
        rfl
      show name ∈ (hubApiVersion flags apiName generalApi k v).Deployments ↔ _
      rw [hdeps, hnamesOf]
      constructor
      · rintro ⟨fr, hfr, hkk, rfl⟩
        exact ⟨fr.2.Name, (hgroup k fr.2.Name).2 ⟨fr, hfr, hkk, rfl⟩, rfl⟩
      · rintro ⟨d, hd, rfl⟩
        obtain ⟨fr, hfr, hkk, rfl⟩ := (hgroup k d).1 hd
        exact ⟨fr, hfr, hkk, rfl⟩

/-- Witness of C24: for the API `orders` the import of the five files the
onramp wrote derives the one version key `orders-v1` with both deployments. -/
theorem import_grouping_of_onramp_output_witness :
    AllOpen ordersEnv "orders" (fileEntriesOf ordersEnv "orders") ∧
      importMap ["orders-v1-aws-oas.json", "orders-v1-aws.json", "orders-v1-azure.json",
        "orders-v1.json", "orders.json"] =
        [("orders-v1", ["orders-v1-aws", "orders-v1-azure"])] ∧
      ∃ t, onrampApi exFlags ordersEnv "orders" ordersRoot = .ok t ∧
        ∀ listing : List String,
          (∀ n, n ∈ listing ↔
            ∃ doc, (baseDir ++ "/" ++ "orders" ++ "/" ++ n, doc) ∈ writesOf t) →
          ∀ k, k ∈ (importMap listing).map Prod.fst ↔
            k ∈ (apiVersionsOf exFlags ordersEnv "orders").map Prod.fst := by
  refine ⟨by decide, by decide, ?_⟩
  obtain ⟨t, ht, h⟩ := import_grouping_of_onramp_output exFlags ordersEnv "orders" ordersRoot
    (by decide) (by decide) (by decide) (by decide)
  exact ⟨t, ht, fun listing hl => (h listing hl).1⟩


/-! ## Lemmas on path elements -/

theorem splitOnChar_ne_nil (sep : Char) (l : List Char) : splitOnChar sep l ≠ [] := by
  induction l with
  | nil => simp [splitOnChar]
  | cons c cs ih =>
    unfold splitOnChar
    split
    · simp
    · split <;> simp

theorem splitOnChar_no_sep (sep : Char) (l : List Char) :
    ∀ c ∈ splitOnChar sep l, sep ∉ c := by
  induction l with
  | nil =>
    intro c hc
    simp only [splitOnChar, List.mem_singleton] at hc
    rw [hc]
    exact List.not_mem_nil _
  | cons a as ih =>
    intro c hc
    unfold splitOnChar at hc
    split at hc
    · rcases List.mem_cons.1 hc with h | h
      · rw [h]; exact List.not_mem_nil _
      · exact ih c h
    · rename_i hne
      split at hc
      · rename_i heq
        exact absurd heq (splitOnChar_ne_nil sep as)
      · rename_i seg segs heq
        rcases List.mem_cons.1 hc with h | h
        · rw [h]
          intro hmem
          rcases List.mem_cons.1 hmem with h1 | h1
          · exact hne h1.symm
          · exact ih seg (by rw [heq]; exact List.mem_cons_self _ _) h1
        · exact ih c (by rw [heq]; exact List.mem_cons_of_mem _ h)

theorem splitOnChar_of_no_sep (sep : Char) (l : List Char) (h : sep ∉ l) :
    splitOnChar sep l = [l] := by
  induction l with
  | nil => rfl
  | cons a as ih =>
    have ha : ¬a = sep := fun heq => h (heq ▸ List.mem_cons_self _ _)
    have has : sep ∉ as := fun hm => h (List.mem_cons_of_mem _ hm)
    rw [splitOnChar, if_neg ha, ih has]

theorem splitOnChar_append_sep (sep : Char) (a b : List Char) (h : sep ∉ a) :
    splitOnChar sep (a ++ sep :: b) = a :: splitOnChar sep b := by
  induction a with
  | nil => simp [splitOnChar]
  | cons c cs ih =>
    have hc : ¬c = sep := fun heq => h (heq ▸ List.mem_cons_self _ _)
    have hcs : sep ∉ cs := fun hm => h (List.mem_cons_of_mem _ hm)
    show splitOnChar sep (c :: (cs ++ sep :: b)) = _
    rw [splitOnChar, if_neg hc, ih hcs]

theorem joinElements_cons_cons (c d : List Char) (rest : List (List Char)) :
    joinElements (c :: d :: rest) = c ++ '/' :: joinElements (d :: rest) := rfl

theorem joinElements_append (a b : List (List Char)) (ha : a ≠ []) (hb : b ≠ []) :
    joinElements (a ++ b) = joinElements a ++ '/' :: joinElements b := by
  induction a with
  | nil => exact absurd rfl ha
  | cons c rest ih =>
    cases rest with
    | nil =>
      cases b with
      | nil => exact absurd rfl hb
      | cons d ds => rfl
    | cons d ds =>
      show joinElements (c :: (d :: (ds ++ b))) = _
      rw [joinElements_cons_cons, joinElements_cons_cons]
      have := ih (by simp)
      rw [List.cons_append] at this
      rw [this, List.append_assoc]
      rfl

theorem splitOnChar_joinElements (comps : List (List Char)) (hne : comps ≠ [])
    (h : ∀ c ∈ comps, '/' ∉ c) : splitOnChar '/' (joinElements comps) = comps := by
  induction comps with
  | nil => exact absurd rfl hne
  | cons c rest ih =>
    cases rest with
    | nil => exact splitOnChar_of_no_sep '/' c (h c (List.mem_cons_self _ _))
    | cons d ds =>
      rw [joinElements_cons_cons, splitOnChar_append_sep '/' c _ (h c (List.mem_cons_self _ _)),
        ih (by simp) (fun x hx => h x (List.mem_cons_of_mem _ hx))]

theorem dropPrefix_append (a b : List Char) : dropPrefix? a (a ++ b) = some b := by
  induction a with
  | nil => cases b <;> rfl
  | cons c cs ih => simp [dropPrefix?, ih]

/-- Two texts without `/`, each followed by a `/`, of which one starts the
other, are the same text. -/
theorem eq_of_sep_start (x y t u : List Char) (hx : '/' ∉ x) (hy : '/' ∉ y)
    (h : x ++ '/' :: t = y ++ '/' :: u) : x = y ∧ t = u := by
  induction x generalizing y with
  | nil =>
    cases y with
    | nil => simpa using h
    | cons b bs =>
      simp only [List.nil_append, List.cons_append, List.cons.injEq] at h
      exact absurd (h.1 ▸ List.mem_cons_self _ _) hy
  | cons a as ih =>
    cases y with
    | nil =>
      simp only [List.nil_append, List.cons_append, List.cons.injEq] at h
      exact absurd (h.1 ▸ List.mem_cons_self _ _) hx
    | cons b bs =>
      simp only [List.cons_append, List.cons.injEq] at h
      obtain ⟨h1, h2⟩ := ih bs (fun hm => hx (List.mem_cons_of_mem _ hm))
        (fun hm => hy (List.mem_cons_of_mem _ hm)) h.2
      exact ⟨by rw [h.1, h1], h2⟩

/-- When the elements of `s2`, joined and followed by `/`, start the joined
elements of `s1`, then `s1` is `s2` followed by further elements. -/
theorem elements_of_start (s2 : List (List Char)) :
    ∀ s1 : List (List Char), s2 ≠ [] → (∀ c ∈ s2, '/' ∉ c) → (∀ c ∈ s1, '/' ∉ c) →
      (joinElements s2 ++ ['/']) <+: joinElements s1 →
      ∃ rest, rest ≠ [] ∧ s1 = s2 ++ rest := by
  induction s2 with
  | nil => intro s1 h; exact absurd rfl h
  | cons x xs ih =>
    intro s1 _ h2 h1 hpre
    obtain ⟨t, ht⟩ := hpre
    have hx := h2 x (List.mem_cons_self _ _)
    cases s1 with
    | nil =>
      cases xs <;> simp [joinElements] at ht
    | cons y ys =>
      have hy := h1 y (List.mem_cons_self _ _)
      cases ys with
      | nil =>
        exfalso
        have hmem : '/' ∈ joinElements [y] := by
          rw [← ht]
          cases xs with
          | nil => simp [joinElements]
          | cons x' xs' => simp [joinElements]
        exact hy hmem
      | cons y' ys' =>
        rw [joinElements_cons_cons] at ht
        cases xs with
        | nil =>
          have heq : x ++ '/' :: t = y ++ '/' :: joinElements (y' :: ys') := by
            simpa [joinElements] using ht
          obtain ⟨hxy, -⟩ := eq_of_sep_start x y _ _ hx hy heq
          exact ⟨y' :: ys', by simp, by rw [hxy]; rfl⟩
        | cons x' xs' =>
          rw [joinElements_cons_cons] at ht
          have heq : x ++ '/' :: (joinElements (x' :: xs') ++ ['/'] ++ t) =
              y ++ '/' :: joinElements (y' :: ys') := by
            simpa using ht
          obtain ⟨hxy, hrest⟩ := eq_of_sep_start x y _ _ hx hy heq
          obtain ⟨rest, hne, hs⟩ := ih (y' :: ys') (by simp)
            (fun c hc => h2 c (List.mem_cons_of_mem _ hc))
            (fun c hc => h1 c (List.mem_cons_of_mem _ hc)) ⟨t, hrest⟩
          exact ⟨rest, hne, by rw [hxy, hs]; rfl⟩


theorem properName_iff (c : List Char) :
    properName c = true ↔ c ≠ [] ∧ c ≠ ['.'] ∧ c ≠ ['.', '.'] := by
  simp [properName, and_assoc]

theorem cleanStep_cleanForm (rooted : Bool) (s : List (List Char)) (c : List Char)
    (hc : '/' ∉ c) (hs : CleanForm rooted s) : CleanForm rooted (cleanStep rooted s c) := by
  obtain ⟨n, names, rfl, hnames, hroot⟩ := hs
  unfold cleanStep
  by_cases h1 : c = [] ∨ c = ['.']
  · rw [if_pos h1]
    exact ⟨n, names, rfl, hnames, hroot⟩
  · rw [if_neg h1]
    by_cases h2 : c = ['.', '.']
    · rw [if_pos h2]
      rcases List.eq_nil_or_concat names with hnil | ⟨init, l, hl⟩
      · subst hnil
        rw [List.append_nil]
        cases n with
        | zero =>
          simp only [List.replicate_zero, List.getLast?_nil]
          cases rooted with
          | true => exact ⟨0, [], rfl, by simp, fun _ => rfl⟩
          | false =>
            refine ⟨1, [], ?_, by simp, by simp⟩
            rw [h2]
            rfl
        | succ m =>
          have hlast : (List.replicate (m + 1) ['.', '.']).getLast? = some ['.', '.'] := by
            rw [List.replicate_succ', List.getLast?_append]
            rfl
          rw [hlast]
          simp only [if_true]
          cases rooted with
          | true => exact absurd (hroot rfl) (by simp)
          | false =>
            refine ⟨m + 2, [], ?_, by simp, by simp⟩
            rw [h2, List.append_nil, List.replicate_succ' (m + 1)]
            simp
      · rw [List.concat_eq_append] at hl
        subst hl
        have hlast : (List.replicate n ['.', '.'] ++ (init ++ [l])).getLast? = some l := by
          rw [← List.append_assoc, List.getLast?_append]
          rfl
        have hl : properName l = true ∧ '/' ∉ l := hnames l (by simp)
        have hne : ¬l = ['.', '.'] := ((properName_iff l).1 hl.1).2.2
        rw [hlast]
        simp only [hne, if_false]
        refine ⟨n, init, ?_, fun x hx => hnames x (by simp [hx]), hroot⟩
        rw [← List.append_assoc, List.dropLast_concat]
    · rw [if_neg h2]
      refine ⟨n, names ++ [c], by rw [List.append_assoc], ?_, hroot⟩
      intro x hx
      rcases List.mem_append.1 hx with h | h
      · exact hnames x h
      · rw [List.mem_singleton] at h
        subst h
        refine ⟨(properName_iff x).2 ⟨fun h => h1 (Or.inl h), fun h => h1 (Or.inr h), h2⟩, hc⟩

theorem foldl_cleanStep_cleanForm (rooted : Bool) (comps : List (List Char))
    (hcomps : ∀ c ∈ comps, '/' ∉ c) :
    ∀ s, CleanForm rooted s → CleanForm rooted (comps.foldl (cleanStep rooted) s) := by
  induction comps with
  | nil => exact fun s hs => hs
  | cons c rest ih =>
    intro s hs
    exact ih (fun x hx => hcomps x (List.mem_cons_of_mem _ hx)) _
      (cleanStep_cleanForm rooted s c (hcomps c (List.mem_cons_self _ _)) hs)

/-- The elements `filepath.Clean` keeps are `..` elements followed by names. -/
theorem cleanElements_cleanForm (path : List Char) :
    CleanForm (path.head? = some '/') (cleanElements path) :=
  foldl_cleanStep_cleanForm _ _ (splitOnChar_no_sep '/' path) []
    ⟨0, [], rfl, by simp, fun _ => rfl⟩


theorem cleanForm_mem (rooted : Bool) (s : List (List Char)) (hs : CleanForm rooted s)
    (c : List Char) (hc : c ∈ s) : '/' ∉ c ∧ c ≠ [] ∧ c ≠ ['.'] := by
  obtain ⟨n, names, rfl, hnames, -⟩ := hs
  rcases List.mem_append.1 hc with h | h
  · rw [List.eq_of_mem_replicate h]
    exact ⟨by decide, by decide, by decide⟩
  · obtain ⟨hp, hsep⟩ := hnames c h
    exact ⟨hsep, ((properName_iff c).1 hp).1, ((properName_iff c).1 hp).2.1⟩

/-- The joined elements of a cleaned path do not start with `/`. -/
theorem joinElements_head (rooted : Bool) (s : List (List Char)) (hs : CleanForm rooted s)
    (hne : s ≠ []) : ∃ a t, joinElements s = a :: t ∧ a ≠ '/' := by
  cases s with
  | nil => exact absurd rfl hne
  | cons c rest =>
    obtain ⟨hsep, hc, -⟩ := cleanForm_mem rooted _ hs c (List.mem_cons_self _ _)
    cases c with
    | nil => exact absurd rfl hc
    | cons a as =>
      have ha : a ≠ '/' := fun h => hsep (h ▸ List.mem_cons_self _ _)
      cases rest with
      | nil => exact ⟨a, as, rfl, ha⟩
      | cons d ds => exact ⟨a, as ++ '/' :: joinElements (d :: ds), rfl, ha⟩

theorem renderPath_append (rooted : Bool) (s rest : List (List Char)) (hs : s ≠ [])
    (hrest : rest ≠ []) :
    renderPath rooted (s ++ rest) = renderPath rooted s ++ '/' :: joinElements rest := by
  unfold renderPath
  cases rooted with
  | true =>
    simp only [if_true]
    rw [joinElements_append s rest hs hrest]
    rfl
  | false =>
    have h1 : s ++ rest ≠ [] := by simp [hs]
    simp only [Bool.false_eq_true, if_false, h1, hs]
    exact joinElements_append s rest hs hrest

/-- The text of a cleaned path that starts with the text of a cleaned target
followed by `/`, the target not ending in `..`, has the elements of the target
followed by one or more names. -/
theorem elements_inside (r1 r2 : Bool) (s1 s2 : List (List Char)) (hs1 : CleanForm r1 s1)
    (hs2 : CleanForm r2 s2)
    (hlast : s2 = [] ∨ ∃ init l, s2 = init ++ [l] ∧ properName l = true)
    (hpre : (renderPath r2 s2 ++ ['/']) <+: renderPath r1 s1) :
    ∃ rest, rest ≠ [] ∧ s2 ≠ [] ∧ r1 = r2 ∧ s1 = s2 ++ rest ∧
      ∀ c ∈ rest, properName c = true ∧ '/' ∉ c := by
  have hsep1 : ∀ c ∈ s1, '/' ∉ c := fun c hc => (cleanForm_mem r1 s1 hs1 c hc).1
  have hsep2 : ∀ c ∈ s2, '/' ∉ c := fun c hc => (cleanForm_mem r2 s2 hs2 c hc).1
  -- the elements of the target start those of the path
  have hsplit : ∃ rest, rest ≠ [] ∧ s2 ≠ [] ∧ r1 = r2 ∧ s1 = s2 ++ rest := by
    obtain ⟨t, ht⟩ := hpre
    cases r2 with
    | true =>
      cases r1 with
      | false =>
        exfalso
        by_cases h1 : s1 = []
        · simp [renderPath, h1] at ht
        · obtain ⟨a, u, hj, ha⟩ := joinElements_head false s1 hs1 h1
          simp only [renderPath, if_true, Bool.false_eq_true, if_false, h1, hj,
            List.cons_append, List.cons.injEq] at ht
          exact ha ht.1.symm
      | true =>
        simp only [renderPath, if_true, List.cons_append, List.cons.injEq, true_and] at ht
        by_cases h2 : s2 = []
        · exfalso
          subst h2
          by_cases h1 : s1 = []
          · simp [h1, joinElements] at ht
          · obtain ⟨a, u, hj, ha⟩ := joinElements_head true s1 hs1 h1
            simp only [joinElements, List.nil_append, List.cons_append, hj,
              List.cons.injEq] at ht
            exact ha ht.1.symm
        · obtain ⟨rest, hne, hs⟩ := elements_of_start s2 s1 h2 hsep2 hsep1 ⟨t, ht⟩
          exact ⟨rest, hne, h2, rfl, hs⟩
    | false =>
      by_cases h2 : s2 = []
      · exfalso
        subst h2
        cases r1 with
        | true => simp [renderPath] at ht
        | false =>
          by_cases h1 : s1 = []
          · simp [renderPath, h1] at ht
          · simp only [renderPath, Bool.false_eq_true, if_false, h1, if_true,
              List.cons_append, List.nil_append] at ht
            cases s1 with
            | nil => exact h1 rfl
            | cons c cs =>
              obtain ⟨hc1, -, hc3⟩ := cleanForm_mem false _ hs1 c (List.mem_cons_self _ _)
              cases cs with
              | nil =>
                simp only [joinElements] at ht
                exact hc1 (by rw [← ht]; simp)
              | cons d ds =>
                rw [joinElements_cons_cons] at ht
                have heq : ['.'] ++ '/' :: t = c ++ '/' :: joinElements (d :: ds) := by
                  simpa using ht
                exact hc3 (eq_of_sep_start ['.'] c _ _ (by decide) hc1 heq).1.symm
      · obtain ⟨a2, u2, hj2, ha2⟩ := joinElements_head false s2 hs2 h2
        cases r1 with
        | true =>
          exfalso
          simp only [renderPath, Bool.false_eq_true, if_false, h2, hj2, if_true,
            List.cons_append, List.cons.injEq] at ht
          exact ha2 ht.1
        | false =>
          by_cases h1 : s1 = []
          · exfalso
            simp [renderPath, h1, h2, hj2] at ht
          · simp only [renderPath, Bool.false_eq_true, if_false, h1, h2] at ht
            obtain ⟨rest, hne, hs⟩ := elements_of_start s2 s1 h2 hsep2 hsep1 ⟨t, ht⟩
            exact ⟨rest, hne, h2, rfl, hs⟩
  obtain ⟨rest, hne, h2, hr, hs⟩ := hsplit
  refine ⟨rest, hne, h2, hr, hs, ?_⟩
  rcases hlast with h | ⟨init, l, hl, hproper⟩
  · exact absurd h h2
  · obtain ⟨n, names, hform, hnames, -⟩ := hs1
    rw [hs, hl] at hform
    rcases List.append_eq_append_iff.1 hform with ⟨a, ha, hb⟩ | ⟨b, ha, hb⟩
    · exfalso
      have hmem : l ∈ List.replicate n ['.', '.'] := by
        rw [ha]
        simp
      rw [List.eq_of_mem_replicate hmem] at hproper
      exact absurd hproper (by decide)
    · intro c hc
      exact hnames c (by rw [hb]; exact List.mem_append_right _ hc)


theorem cleanStep_name (rooted : Bool) (s : List (List Char)) (c : List Char)
    (hc : properName c = true) : cleanStep rooted s c = s ++ [c] := by
  obtain ⟨h1, h2, h3⟩ := (properName_iff c).1 hc
  simp [cleanStep, h1, h2, h3]

theorem cleanStep_empty (rooted : Bool) (s : List (List Char)) : cleanStep rooted s [] = s := by
  simp [cleanStep]

theorem foldl_cleanStep_names (rooted : Bool) (names : List (List Char))
    (h : ∀ c ∈ names, properName c = true) :
    ∀ s, names.foldl (cleanStep rooted) s = s ++ names := by
  induction names with
  | nil => intro s; simp
  | cons c rest ih =>
    intro s
    rw [List.foldl_cons, cleanStep_name rooted s c (h c (List.mem_cons_self _ _)),
      ih (fun x hx => h x (List.mem_cons_of_mem _ hx)), List.append_assoc]
    rfl

theorem foldl_cleanStep_dots (b : Nat) :
    ∀ a, (List.replicate b ['.', '.']).foldl (cleanStep false) (List.replicate a ['.', '.']) =
      List.replicate (a + b) ['.', '.'] := by
  induction b with
  | zero => intro a; rfl
  | succ m ih =>
    intro a
    have hstep : cleanStep false (List.replicate a ['.', '.']) ['.', '.'] =
        List.replicate (a + 1) ['.', '.'] := by
      cases a with
      | zero => rfl
      | succ k =>
        have hlast : (List.replicate (k + 1) ['.', '.']).getLast? = some ['.', '.'] := by
          rw [List.replicate_succ', List.getLast?_append]
          rfl
        have hne : ¬(['.', '.'] : List Char) = [] ∧ ¬(['.', '.'] : List Char) = ['.'] := by
          decide
        simp only [cleanStep, hne.1, hne.2, or_self, if_false, if_true, hlast,
          Bool.false_eq_true]
        rw [← List.replicate_succ' (k + 1)]
    rw [List.replicate_succ, List.foldl_cons, hstep, ih (a + 1)]
    congr 1
    omega

/-- Cleaning elements that are already clean keeps them. -/
theorem foldl_cleanStep_id (rooted : Bool) (s : List (List Char)) (hs : CleanForm rooted s) :
    s.foldl (cleanStep rooted) [] = s := by
  obtain ⟨n, names, rfl, hnames, hroot⟩ := hs
  rw [List.foldl_append]
  have hdots : (List.replicate n ['.', '.']).foldl (cleanStep rooted) [] =
      List.replicate n ['.', '.'] := by
    cases rooted with
    | true =>
      rw [hroot rfl]
      rfl
    | false =>
      have := foldl_cleanStep_dots n 0
      simpa using this
  rw [hdots, foldl_cleanStep_names rooted names (fun c hc => (hnames c hc).1)]

theorem dirPart_append (x l : List Char) (h : '/' ∉ l) :
    dirPart (x ++ '/' :: l) = x ++ ['/'] := by
  unfold dirPart
  rw [List.reverse_append, List.reverse_cons, List.append_assoc]
  have hdrop : ∀ (a b : List Char), (∀ c ∈ a, c ≠ '/') →
      (a ++ '/' :: b).dropWhile (fun c => decide (c ≠ '/')) = '/' :: b := by
    intro a b ha
    induction a with
    | nil => simp [List.dropWhile]
    | cons c cs ih =>
      have hc := ha c (List.mem_cons_self _ _)
      simp only [List.cons_append, List.dropWhile, hc, ne_eq, not_false_eq_true, decide_True]
      exact ih fun d hd => ha d (List.mem_cons_of_mem _ hd)
  have hrev : ∀ c ∈ l.reverse, c ≠ '/' := fun c hc heq =>
    h (heq ▸ List.mem_reverse.1 hc)
  have := hdrop l.reverse x.reverse hrev
  simp only [List.singleton_append] at this ⊢
  rw [this]
  simp

theorem dirPart_of_no_sep (l : List Char) (h : '/' ∉ l) : dirPart l = [] := by
  unfold dirPart
  have hall : ∀ (a : List Char), (∀ c ∈ a, c ≠ '/') →
      a.dropWhile (fun c => decide (c ≠ '/')) = [] := by
    intro a ha
    induction a with
    | nil => rfl
    | cons c cs ih =>
      have hc := ha c (List.mem_cons_self _ _)
      simp only [List.dropWhile, hc, ne_eq, not_false_eq_true, decide_True]
      exact ih fun d hd => ha d (List.mem_cons_of_mem _ hd)
  rw [hall l.reverse fun c hc heq => h (heq ▸ List.mem_reverse.1 hc)]
  rfl

theorem splitOnChar_joinElements_sep (comps : List (List Char)) (b : List Char)
    (hne : comps ≠ []) (h : ∀ c ∈ comps, '/' ∉ c) :
    splitOnChar '/' (joinElements comps ++ '/' :: b) = comps ++ splitOnChar '/' b := by
  induction comps with
  | nil => exact absurd rfl hne
  | cons c rest ih =>
    cases rest with
    | nil => exact splitOnChar_append_sep '/' c b (h c (List.mem_cons_self _ _))
    | cons d ds =>
      rw [joinElements_cons_cons, List.append_assoc, List.cons_append,
        splitOnChar_append_sep '/' c _ (h c (List.mem_cons_self _ _)),
        ih (by simp) (fun x hx => h x (List.mem_cons_of_mem _ hx))]
      rfl

/-- The directory of a cleaned path is the cleaned path without its last
element. -/
theorem dir_renderPath (rooted : Bool) (init : List (List Char)) (l : List Char)
    (hs : CleanForm rooted (init ++ [l])) :
    Dir ⟨renderPath rooted (init ++ [l])⟩ = ⟨renderPath rooted init⟩ := by
  have hl := (cleanForm_mem rooted _ hs l (by simp)).1
  have hinit : CleanForm rooted init := by
    obtain ⟨n, names, hform, hnames, hroot⟩ := hs
    rcases List.eq_nil_or_concat names with hnil | ⟨ninit, nl, hnl⟩
    · subst hnil
      rw [List.append_nil] at hform
      cases n with
      | zero => simp at hform
      | succ m =>
        rw [List.replicate_succ'] at hform
        have := List.append_inj_left' hform rfl
        exact ⟨m, [], by rw [this, List.append_nil], by simp, fun hr => by
          have := hroot hr
          omega⟩
    · rw [List.concat_eq_append] at hnl
      subst hnl
      rw [← List.append_assoc] at hform
      have := List.append_inj_left' hform rfl
      exact ⟨n, ninit, this, fun c hc => hnames c (by simp [hc]), hroot⟩
  have hsep : ∀ c ∈ init, '/' ∉ c := fun c hc => (cleanForm_mem rooted init hinit c hc).1
  unfold Dir Clean
  congr 1
  by_cases hnil : init = []
  · subst hnil
    cases rooted with
    | true =>
      have hd : dirPart (renderPath true ([] ++ [l])) = ['/'] := by
        show dirPart ('/' :: l) = ['/']
        exact dirPart_append [] l hl
      simp only [hd]
      decide
    | false =>
      have hd : dirPart (renderPath false ([] ++ [l])) = [] := by
        show dirPart l = []
        exact dirPart_of_no_sep l hl
      simp only [hd]
      decide
  · have hne : [l] ≠ ([] : List (List Char)) := by simp
    cases rooted with
    | true =>
      have hd : dirPart (renderPath true (init ++ [l])) = '/' :: joinElements init ++ ['/'] := by
        rw [renderPath_append true init [l] hnil hne]
        exact dirPart_append _ l hl
      simp only [hd]
      have hsplit : splitOnChar '/' ('/' :: (joinElements init ++ ['/'])) =
          [] :: (init ++ [[]]) := by
        have := splitOnChar_append_sep '/' [] (joinElements init ++ ['/']) (by simp)
        rw [List.nil_append] at this
        rw [this, splitOnChar_joinElements_sep init [] hnil hsep]
        rfl
      simp only [cleanElements, List.cons_append, hsplit, List.head?_cons, List.foldl_cons,
        List.foldl_append, List.foldl_nil, decide_True, cleanStep_empty]
      rw [foldl_cleanStep_id true init hinit]
    | false =>
      have hd : dirPart (renderPath false (init ++ [l])) = joinElements init ++ ['/'] := by
        rw [renderPath_append false init [l] hnil hne]
        simp only [renderPath, hnil, Bool.false_eq_true, if_false]
        exact dirPart_append _ l hl
      simp only [hd]
      obtain ⟨a, u, hj, ha⟩ := joinElements_head false init hinit hnil
      have hhead : ((joinElements init ++ ['/']).head? = some '/') = False := by
        rw [hj]
        simp [ha]
      have hsplit : splitOnChar '/' (joinElements init ++ ['/']) = init ++ [[]] :=
        splitOnChar_joinElements_sep init [] hnil hsep
      simp only [cleanElements, hsplit, hhead, List.foldl_append, List.foldl_cons,
        List.foldl_nil, decide_False, cleanStep_empty]
      rw [foldl_cleanStep_id false init hinit]


theorem liesBelow_of_elements (rooted : Bool) (s rest : List (List Char)) (hs : s ≠ [])
    (hrest : rest ≠ []) (h : ∀ c ∈ rest, properName c = true ∧ '/' ∉ c) :
    liesBelow ⟨renderPath rooted s⟩ ⟨renderPath rooted (s ++ rest)⟩ = true := by
  unfold liesBelow
  have hdata : renderPath rooted (s ++ rest) =
      (renderPath rooted s ++ ['/']) ++ joinElements rest := by
    rw [renderPath_append rooted s rest hs hrest]
    simp
  simp only [hdata, dropPrefix_append,
    splitOnChar_joinElements rest hrest (fun c hc => (h c hc).2), List.all_eq_true]
  exact fun c hc => (h c hc).1

/-- A cleaned path that neither is `..` nor ends in `/..` has no elements or
ends in a name. -/
theorem last_element_of_target (path : List Char)
    (h : endsInDotDot ⟨renderPath (path.head? = some '/') (cleanElements path)⟩ = false) :
    cleanElements path = [] ∨
      ∃ init l, cleanElements path = init ++ [l] ∧ properName l = true := by
  obtain ⟨n, names, hform, hnames, hroot⟩ := cleanElements_cleanForm path
  rcases List.eq_nil_or_concat names with hnil | ⟨init, l, hl⟩
  · subst hnil
    rw [List.append_nil] at hform
    cases n with
    | zero => exact Or.inl hform
    | succ m =>
      exfalso
      have hr : decide (path.head? = some '/') = false := by
        cases hd : decide (path.head? = some '/') with
        | false => rfl
        | true => exact absurd (hroot hd) (by simp)
      rw [hform, hr] at h
      cases m with
      | zero => exact absurd h (by decide)
      | succ k =>
        have hjoin : renderPath false (List.replicate (k + 1 + 1) ['.', '.']) =
            joinElements (List.replicate (k + 1) ['.', '.']) ++ '/' :: ['.', '.'] := by
          rw [List.replicate_succ' (k + 1)]
          have hne : List.replicate (k + 1) ['.', '.'] ++ [['.', '.']] ≠ [] := by simp
          simp only [renderPath, Bool.false_eq_true, if_false, hne]
          exact joinElements_append _ _ (by simp [List.replicate_succ]) (by simp)
        have hsuffix : HasSuffix ⟨renderPath false (List.replicate (k + 1 + 1) ['.', '.'])⟩
            "/.." = true := by
          unfold HasSuffix
          rw [List.isSuffixOf_iff_suffix, hjoin]
          exact ⟨joinElements (List.replicate (k + 1) ['.', '.']), rfl⟩
        simp [endsInDotDot, hsuffix] at h
  · rw [List.concat_eq_append] at hl
    subst hl
    exact Or.inr ⟨List.replicate n ['.', '.'] ++ init, l, by rw [hform, List.append_assoc],
      (hnames l (by simp)).1⟩

/-- An entry that passes the test of line 510, for a target that does not end
in `..`, is filed strictly below the target, and its directory is the target
or lies strictly below it. -/
theorem entry_below_target (zipBaseBath fileName : String) (hne : zipBaseBath ≠ "")
    (htarget : endsInDotDot (Clean zipBaseBath) = false)
    (hinside : insideTarget zipBaseBath (Join zipBaseBath fileName) = true) :
    liesBelow (Clean zipBaseBath) (Join zipBaseBath fileName) = true ∧
      (liesBelow (Clean zipBaseBath) (Dir (Join zipBaseBath fileName)) = true ∨
        Dir (Join zipBaseBath fileName) = Clean zipBaseBath) := by
  have hjoin : Join zipBaseBath fileName = Clean (zipBaseBath ++ "/" ++ fileName) := by
    simp [Join, hne]
  rw [hjoin] at hinside ⊢
  have hpre : (renderPath (zipBaseBath.data.head? = some '/') (cleanElements zipBaseBath.data)
        ++ ['/']) <+:
      renderPath ((zipBaseBath ++ "/" ++ fileName).data.head? = some '/')
        (cleanElements (zipBaseBath ++ "/" ++ fileName).data) := by
    unfold insideTarget HasPrefix at hinside
    rw [List.isPrefixOf_iff_prefix] at hinside
    simpa [Clean, String.data_append] using hinside
  obtain ⟨rest, hrest, hs2, hr, hs1, hproper⟩ := elements_inside _ _ _ _
    (cleanElements_cleanForm (zipBaseBath ++ "/" ++ fileName).data)
    (cleanElements_cleanForm zipBaseBath.data)
    (last_element_of_target zipBaseBath.data htarget) hpre
  have hform := cleanElements_cleanForm (zipBaseBath ++ "/" ++ fileName).data
  have hpath : Clean (zipBaseBath ++ "/" ++ fileName) =
      ⟨renderPath (zipBaseBath.data.head? = some '/')
        (cleanElements zipBaseBath.data ++ rest)⟩ := by
    unfold Clean
    rw [hr, hs1]
  rw [hr, hs1] at hform
  refine ⟨?_, ?_⟩
  · rw [hpath]
    exact liesBelow_of_elements _ _ rest hs2 hrest hproper
  · rw [hpath]
    rcases List.eq_nil_or_concat rest with hnil | ⟨rinit, l, hl⟩
    · exact absurd hnil hrest
    · rw [List.concat_eq_append] at hl
      subst hl
      rw [← List.append_assoc] at hform ⊢
      rw [dir_renderPath _ _ l hform]
      by_cases hri : rinit = []
      · subst hri
        right
        rw [List.append_nil]
        rfl
      · left
        exact liesBelow_of_elements _ _ rinit hs2 hri
          (fun c hc => hproper c (by simp [hc]))


/-- Every entry the loop files passed the test of line 510: every path it
creates a file at lies strictly below the target, and every directory it asks
for lies strictly below the target or is the target. -/
theorem unzipEntries_below_target (env : ZipEnv) (zipBaseBath : String) (hne : zipBaseBath ≠ "")
    (htarget : endsInDotDot (Clean zipBaseBath) = false) (files : List ZipEntry) :
    ∀ e ∈ (unzipEntries env zipBaseBath files).1,
      (∀ path, e = .openFile path → liesBelow (Clean zipBaseBath) path = true) ∧
      (∀ path content, e = .copy path content → liesBelow (Clean zipBaseBath) path = true) ∧
      (∀ path, e = .mkdirAll path →
        liesBelow (Clean zipBaseBath) path = true ∨ path = Clean zipBaseBath) ∧
      (∀ path, e ≠ .mkdir path) := by
  induction files with
  | nil => intro e he; exact absurd he (List.not_mem_nil _)
  | cons f rest ih =>
    intro e he
    unfold unzipEntries at he
    by_cases hin : insideTarget zipBaseBath (Join zipBaseBath f.Name) = false
    · simp only [hin, if_true, List.mem_singleton] at he
      subst he
      exact ⟨fun _ h => by simp at h, fun _ _ h => by simp at h, fun _ h => by simp at h,
        fun _ h => by simp at h⟩
    · have hin' : insideTarget zipBaseBath (Join zipBaseBath f.Name) = true := by
        simpa using hin
      obtain ⟨hfile, hdir⟩ := entry_below_target zipBaseBath f.Name hne htarget hin'
      have hmk : ∀ e : ZipEffect, e = .mkdirAll (Dir (Join zipBaseBath f.Name)) →
          (∀ path, e = .openFile path → liesBelow (Clean zipBaseBath) path = true) ∧
          (∀ path content, e = .copy path content →
            liesBelow (Clean zipBaseBath) path = true) ∧
          (∀ path, e = .mkdirAll path →
            liesBelow (Clean zipBaseBath) path = true ∨ path = Clean zipBaseBath) ∧
          (∀ path, e ≠ .mkdir path) := by
        rintro e rfl
        refine ⟨fun _ h => by simp at h, fun _ _ h => by simp at h, fun path h => ?_,
          fun _ h => by simp at h⟩
        simp only [ZipEffect.mkdirAll.injEq] at h
        rw [← h]
        exact hdir
      have hop : ∀ e : ZipEffect, e = .openFile (Join zipBaseBath f.Name) →
          (∀ path, e = .openFile path → liesBelow (Clean zipBaseBath) path = true) ∧
          (∀ path content, e = .copy path content →
            liesBelow (Clean zipBaseBath) path = true) ∧
          (∀ path, e = .mkdirAll path →
            liesBelow (Clean zipBaseBath) path = true ∨ path = Clean zipBaseBath) ∧
          (∀ path, e ≠ .mkdir path) := by
        rintro e rfl
        refine ⟨fun path h => ?_, fun _ _ h => by simp at h, fun _ h => by simp at h,
          fun _ h => by simp at h⟩
        simp only [ZipEffect.openFile.injEq] at h
        rw [← h]
        exact hfile
      simp only [hin', Bool.true_eq_false, if_false] at he
      by_cases hd : f.IsDir = true
      · simp only [hd, if_true, List.mem_cons] at he
        rcases he with rfl | he
        · refine ⟨fun _ h => by simp at h, fun _ _ h => by simp at h, fun path h => ?_,
            fun _ h => by simp at h⟩
          simp only [ZipEffect.mkdirAll.injEq] at h
          rw [← h]
          exact Or.inl hfile
        · exact ih e he
      · simp only [hd, Bool.false_eq_true, if_false] at he
        by_cases h1 : env.mkdirAllFails (Dir (Join zipBaseBath f.Name)) = true
        · simp only [h1, if_true, List.mem_singleton] at he
          exact hmk e he
        · simp only [h1, Bool.false_eq_true, if_false] at he
          by_cases h2 : env.openFileFails (Join zipBaseBath f.Name) = true
          · simp only [h2, if_true, List.mem_cons, List.mem_singleton, List.not_mem_nil,
              or_false] at he
            rcases he with he | he
            · exact hmk e he
            · exact hop e he
          · simp only [h2, Bool.false_eq_true, if_false] at he
            by_cases h3 : env.readFails f = true
            · simp only [h3, if_true, List.mem_cons, List.mem_singleton, List.not_mem_nil,
                or_false] at he
              rcases he with he | he
              · exact hmk e he
              · exact hop e he
            · simp only [h3, Bool.false_eq_true, if_false, List.mem_cons] at he
              rcases he with he | he | he | he
              · exact hmk e he
              · exact hop e he
              · subst he
                refine ⟨fun _ h => by simp at h, fun path content h => ?_,
                  fun _ h => by simp at h, fun _ h => by simp at h⟩
                simp only [ZipEffect.copy.injEq] at h
                rw [← h.1]
                exact hfile
              · exact ih e he

/-- An entry that fails the test of line 510 ends the loop: only the line
`invalid file path` is printed for it, and no later entry is looked at. -/
theorem unzipEntries_stops (env : ZipEnv) (zipBaseBath : String) (bad : ZipEntry)
    (post : List ZipEntry)
    (hbad : insideTarget zipBaseBath (Join zipBaseBath bad.Name) = false) :
    unzipEntries env zipBaseBath (bad :: post) = ([.println "invalid file path"], .returned) ∧
      ∀ pre, unzipEntries env zipBaseBath (pre ++ bad :: post) =
        unzipEntries env zipBaseBath (pre ++ [bad]) := by
  have hone : ∀ post', unzipEntries env zipBaseBath (bad :: post') =
      ([.println "invalid file path"], .returned) := by
    intro post'
    simp [unzipEntries, hbad]
  refine ⟨hone post, fun pre => ?_⟩
  induction pre with
  | nil => rw [List.nil_append, List.nil_append, hone, hone]
  | cons f rest ih =>
    show unzipEntries env zipBaseBath (f :: (rest ++ bad :: post)) =
      unzipEntries env zipBaseBath (f :: (rest ++ [bad]))
    unfold unzipEntries
    simp only [ih]


/-- C26 (counterexample): with the target directory `./..`, whose cleaned path
is `..`, the entry `../x` passes the test of line 510 (its joined path
`../../x` starts with `../`) and is written to `../../x`, which is not below
the target but next to it, in the parent directory of the target. -/
theorem unzip_escapes_dotdot_target :
    Clean "./.." = ".." ∧ Join "./.." "../x" = "../../x" ∧
      insideTarget "./.." (Join "./.." "../x") = true ∧
      unzipApigeeBundle (zipOf [⟨"../x", false, [1]⟩]) "." ".." =
        ([.mkdir "./..", .openReader "./...zip", .mkdirAll "../..", .openFile "../../x",
          .copy "../../x" [1]], .returned) ∧
      liesBelow ".." "../../x" = false ∧ Dir "../../x" = Join ".." ".." := by
  decide

/-- C26 (amended): when the cleaned target path `basePath/name` neither is
`..` nor ends in `/..`, then for every archive and whatever calls fail: every
path a file is created at or copied to lies strictly below the cleaned target
(the target, a separator, and one or more names, none of them `.` or `..`);
every directory asked for lies strictly below the target or is the target;
and an entry whose joined path does not start with the cleaned target and a
separator only has the line `invalid file path` printed and ends the loop,
so that no later entry is looked at. -/
theorem unzip_stays_below_target (env : ZipEnv) (basePath name : String)
    (htarget : endsInDotDot (Clean (basePath ++ "/" ++ name)) = false) :
    (∀ path, .openFile path ∈ (unzipApigeeBundle env basePath name).1 →
        liesBelow (Clean (basePath ++ "/" ++ name)) path = true) ∧
      (∀ path content, .copy path content ∈ (unzipApigeeBundle env basePath name).1 →
        liesBelow (Clean (basePath ++ "/" ++ name)) path = true) ∧
      (∀ path, .mkdirAll path ∈ (unzipApigeeBundle env basePath name).1 →
        liesBelow (Clean (basePath ++ "/" ++ name)) path = true ∨
          path = Clean (basePath ++ "/" ++ name)) ∧
      ∀ (bad : ZipEntry) (post : List ZipEntry),
        insideTarget (basePath ++ "/" ++ name) (Join (basePath ++ "/" ++ name) bad.Name) = false →
        unzipEntries env (basePath ++ "/" ++ name) (bad :: post) =
            ([.println "invalid file path"], .returned) ∧
          ∀ pre, unzipEntries env (basePath ++ "/" ++ name) (pre ++ bad :: post) =
            unzipEntries env (basePath ++ "/" ++ name) (pre ++ [bad]) := by
  have hne : basePath ++ "/" ++ name ≠ "" := by
    intro h
    have := congrArg String.data h
    simp [String.data_append] at this
  have hall : ∀ e ∈ (unzipApigeeBundle env basePath name).1,
      (∀ path, e = .openFile path →
        liesBelow (Clean (basePath ++ "/" ++ name)) path = true) ∧
      (∀ path content, e = .copy path content →
        liesBelow (Clean (basePath ++ "/" ++ name)) path = true) ∧
      (∀ path, e = .mkdirAll path →
        liesBelow (Clean (basePath ++ "/" ++ name)) path = true ∨
          path = Clean (basePath ++ "/" ++ name)) := by
    intro e he
    unfold unzipApigeeBundle at he
    cases hopen : env.openReader (basePath ++ "/" ++ name ++ ".zip") with
    | none =>
      simp only [hopen, List.mem_cons, List.mem_singleton, List.not_mem_nil, or_false] at he
      rcases he with rfl | rfl <;>
        exact ⟨fun _ h => by simp at h, fun _ _ h => by simp at h, fun _ h => by simp at h⟩
    | some files =>
      simp only [hopen, List.mem_cons] at he
      rcases he with rfl | rfl | he
      · exact ⟨fun _ h => by simp at h, fun _ _ h => by simp at h, fun _ h => by simp at h⟩
      · exact ⟨fun _ h => by simp at h, fun _ _ h => by simp at h, fun _ h => by simp at h⟩
      · obtain ⟨h1, h2, h3, -⟩ :=
          unzipEntries_below_target env (basePath ++ "/" ++ name) hne htarget files e he
        exact ⟨h1, h2, h3⟩
  exact ⟨fun path h => (hall _ h).1 path rfl, fun path content h => (hall _ h).2.1 path content rfl,
    fun path h => (hall _ h).2.2 path rfl,
    fun bad post hbad => unzipEntries_stops env (basePath ++ "/" ++ name) bad post hbad⟩

/-- Witness of C26: the bundle of the API `orders` with a directory, a file in
it, an entry that climbs out of the target and a later entry: the first two
are filed below `src/main/apigee/apiproxies/orders`, the third ends the
extraction, the fourth is not written. -/
theorem unzip_stays_below_target_witness :
    endsInDotDot (Clean ("src/main/apigee/apiproxies" ++ "/" ++ "orders")) = false ∧
      (unzipApigeeBundle
        (zipOf [⟨"apiproxy/", true, []⟩, ⟨"apiproxy/orders.xml", false, [1]⟩,
          ⟨"../../evil", false, [2]⟩, ⟨"later", false, [3]⟩])
        "src/main/apigee/apiproxies" "orders").1 =
        [.mkdir "src/main/apigee/apiproxies/orders",
          .openReader "src/main/apigee/apiproxies/orders.zip",
          .mkdirAll "src/main/apigee/apiproxies/orders/apiproxy",
          .mkdirAll "src/main/apigee/apiproxies/orders/apiproxy",
          .openFile "src/main/apigee/apiproxies/orders/apiproxy/orders.xml",
          .copy "src/main/apigee/apiproxies/orders/apiproxy/orders.xml" [1],
          .println "invalid file path"] ∧
      ∀ path, .openFile path ∈ (unzipApigeeBundle
          (zipOf [⟨"apiproxy/", true, []⟩, ⟨"apiproxy/orders.xml", false, [1]⟩,
            ⟨"../../evil", false, [2]⟩, ⟨"later", false, [3]⟩])
          "src/main/apigee/apiproxies" "orders").1 →
        liesBelow (Clean ("src/main/apigee/apiproxies" ++ "/" ++ "orders")) path = true :=
  ⟨by decide, by decide,
    (unzip_stays_below_target
      (zipOf [⟨"apiproxy/", true, []⟩, ⟨"apiproxy/orders.xml", false, [1]⟩,
        ⟨"../../evil", false, [2]⟩, ⟨"later", false, [3]⟩])
      "src/main/apigee/apiproxies" "orders" (by decide)).1⟩

end ApiHub
